import Mathlib

/-!
# Albert: a shallow embedding of the expression engine

The development follows the C++ sources file by file:

* `cpu.hh`      : `CPUMatrix`, the kernels of `CPUContext`
* `context.hh`  : the buffer pool of `Context`
* `matrix.hh`   : the overloaded operators of `Matrix`
* `function.hh` : the expression nodes, `forward`, `backward`, `refresh`
* `library.hh`  : `Definition`, `Dictionary`, `Runtime`, `Timeline`
* `compiler.hh` : `Compiler`
* `network.hh`  : `Network`
* `unittest/main.cc` : the numerical derivative `dfdx`

Conventions.  The scalar type `T` of the templates is a commutative ring `α`
(exact arithmetic); the element-wise exponential of the scalar type is a
parameter `ex`.  Objects that the C++ code reaches through pointers live in
a list (an arena) and a pointer is an index into it.  A C++ exception, and a
call of the context's error handler (which raises by default and in the unit
tests), is `Except.error` carrying the message.  A side of a matrix is a
natural number (the `std::size_t` of the backend); a buffer that a node builds
from `Matrix::rows()` and `Matrix::cols()` gets the `int` values of the sides.
-/

namespace Albert

deriving instance DecidableEq for Except

/-! ## Containers -/

/-- `std::unordered_map::find`, on a map kept as a list of entries with
distinct keys. -/
def Map.find {κ ν : Type} [DecidableEq κ] : List (κ × ν) → κ → Option ν
  | [], _ => none
  | (k', v) :: m, k => if k' = k then some v else Map.find m k

/-- `map[k] = v`: replaces the value of an existing key, adds a new entry
otherwise. -/
def Map.assign {κ ν : Type} [DecidableEq κ] : List (κ × ν) → κ → ν → List (κ × ν)
  | [], k, v => [(k, v)]
  | (k', v') :: m, k, v => if k' = k then (k, v) :: m else (k', v') :: Map.assign m k v

/-! ## cpu.hh -/

/-- A dense row-major matrix, as `Eigen::Matrix<T, Dynamic, Dynamic, RowMajor>`:
the buffer always holds `rows * cols` scalars. -/
structure CPUMatrix (α : Type) where
  rows : Nat
  cols : Nat
  data : List α
  size_eq : data.length = rows * cols
deriving DecidableEq

namespace CPUMatrix

variable {α : Type}

/-- The matrix with `r` rows and `c` columns whose entry `(i, j)` is `f i j`. -/
def ofFn (r c : Nat) (f : Nat → Nat → α) : CPUMatrix α :=
  ⟨r, c, (List.range (r * c)).map (fun k => f (k / c) (k % c)), by simp⟩

/-- Entry `(i, j)` of the row-major buffer. -/
def coeff [Zero α] (a : CPUMatrix α) (i j : Nat) : α :=
  a.data.getD (i * a.cols + j) 0

/-- A matrix given by its shape and its row-major buffer; the buffer is cut or
padded with zeros to `r * c` scalars. -/
def ofList [Zero α] (r c : Nat) (l : List α) : CPUMatrix α :=
  ⟨r, c, (List.range (r * c)).map (fun k => l.getD k 0), by simp⟩

end CPUMatrix

namespace CPUContext

variable {α : Type}

/-- `CPUContext::create(rows, cols)`: a new buffer of that shape.  Its content
is not initialised in the source; every caller overwrites it before reading. -/
def create [Zero α] (rows cols : Nat) : CPUMatrix α :=
  ⟨rows, cols, List.replicate (rows * cols) 0, by simp⟩

/-- `CPUContext::set(r, v)`: `r.setConstant(v)`. -/
def set (r : CPUMatrix α) (v : α) : CPUMatrix α :=
  ⟨r.rows, r.cols, List.replicate (r.rows * r.cols) v, by simp⟩

/-- `CPUContext::set(r, s)`: copies `rows * cols` scalars from the vector `s`.
A vector that is too short is read past its end by `memcpy`: reported as an
error here. -/
def setBuffer (r : CPUMatrix α) (s : List α) : Except String (CPUMatrix α) :=
  if h : r.rows * r.cols ≤ s.length then
    .ok ⟨r.rows, r.cols, s.take (r.rows * r.cols), by simp [h]⟩
  else .error "buffer too short"

/-- `CPUContext::get(s, r)`: the row-major buffer as a vector. -/
def get (s : CPUMatrix α) : List α := s.data

/-- `CPUContext::add`. -/
def add [Add α] (a b : CPUMatrix α) : Except String (CPUMatrix α) :=
  if h : a.rows = b.rows ∧ a.cols = b.cols then
    .ok ⟨a.rows, a.cols, List.zipWith (· + ·) a.data b.data, by
      simp [a.size_eq, b.size_eq, h.1, h.2]⟩
  else .error "dimension mismatch in matrix addition"

/-- `CPUContext::sub`. -/
def sub [Sub α] (a b : CPUMatrix α) : Except String (CPUMatrix α) :=
  if h : a.rows = b.rows ∧ a.cols = b.cols then
    .ok ⟨a.rows, a.cols, List.zipWith (· - ·) a.data b.data, by
      simp [a.size_eq, b.size_eq, h.1, h.2]⟩
  else .error "dimension mismatch in matrix subtracion"

/-- `CPUContext::prod`: the matrix product. -/
def prod [Zero α] [Add α] [Mul α] (a b : CPUMatrix α) : Except String (CPUMatrix α) :=
  if a.cols = b.rows then
    .ok (CPUMatrix.ofFn a.rows b.cols (fun i j =>
      ((List.range a.cols).map (fun l => a.coeff i l * b.coeff l j)).foldr (· + ·) 0))
  else .error "dimension mismatch in matrix-product multiplication"

/-- `CPUContext::mul(a, s, r)`: scaling by a scalar. -/
def mul [Mul α] (a : CPUMatrix α) (s : α) : CPUMatrix α :=
  ⟨a.rows, a.cols, a.data.map (· * s), by simp [a.size_eq]⟩

/-- `CPUContext::mul(a, b, r)`: the element-wise product. -/
def mulElem [Mul α] (a b : CPUMatrix α) : Except String (CPUMatrix α) :=
  if h : a.cols = b.cols ∧ a.rows = b.rows then
    .ok ⟨a.rows, a.cols, List.zipWith (· * ·) a.data b.data, by
      simp [a.size_eq, b.size_eq, h.1, h.2]⟩
  else .error "dimension mismatch in matrix-element multiplication"

/-- `CPUContext::exponent`, for the exponential `ex` of the scalar type. -/
def exponent (ex : α → α) (a : CPUMatrix α) : CPUMatrix α :=
  ⟨a.rows, a.cols, a.data.map ex, by simp [a.size_eq]⟩

/-- `CPUContext::transpose`. -/
def transpose [Zero α] (a : CPUMatrix α) : CPUMatrix α :=
  CPUMatrix.ofFn a.cols a.rows (fun i j => a.coeff j i)

/-- `CPUContext::summation`. -/
def summation [Zero α] [Add α] (a : CPUMatrix α) : α :=
  a.data.foldr (· + ·) 0

end CPUContext

/-! ## context.hh -/

/-- The member `matrix_cache` of `class Context`: for each size hash the queue
of the released buffers, earliest first.  A buffer is the matrix object that
was released. -/
structure Context (α : Type) where
  matrix_cache : List (Nat × List (CPUMatrix α)) := []
deriving DecidableEq

namespace Context

variable {α : Type}

/-- `Context::pair_hash`: `(rows << 32) + cols` on the 64-bit `std::size_t`. -/
def pair_hash (rows cols : Nat) : Nat :=
  ((rows * 4294967296) % 18446744073709551616 + cols) % 18446744073709551616

/-- `Context::get_matrix(rows, cols)`: the front of the queue stored under the
size hash when there is one, a new buffer of `create(rows, cols)` otherwise.
Returns the buffer and the pool after the call. -/
def get_matrix [Zero α] (ctx : Context α) (rows cols : Nat) : CPUMatrix α × Context α :=
  match Map.find ctx.matrix_cache (pair_hash rows cols) with
  | some (top :: rest) =>
    (top, { matrix_cache := Map.assign ctx.matrix_cache (pair_hash rows cols) rest })
  | _ => (CPUContext.create rows cols, ctx)

/-- `Context::put_matrix(matrix)`. -/
def put_matrix (ctx : Context α) (matrix : CPUMatrix α) : Context α :=
  let h := pair_hash matrix.rows matrix.cols
  match Map.find ctx.matrix_cache h with
  | some queue => { matrix_cache := Map.assign ctx.matrix_cache h (queue ++ [matrix]) }
  | none => { matrix_cache := Map.assign ctx.matrix_cache h [matrix] }

/-- `Context::get_matrix_count()`. -/
def get_matrix_count (ctx : Context α) : Nat :=
  (ctx.matrix_cache.map (fun e => e.2.length)).sum

/-- `Context::get_matrix_count(rows, cols)`. -/
def get_matrix_count_of (ctx : Context α) (rows cols : Nat) : Nat :=
  match Map.find ctx.matrix_cache (pair_hash rows cols) with
  | none => 0
  | some queue => queue.length

/-- `put_matrix` of each buffer of a list, in order. -/
def put_all (ctx : Context α) : List (CPUMatrix α) → Context α
  | [] => ctx
  | m :: ms => put_all (ctx.put_matrix m) ms

end Context

/-! ## matrix.hh -/

namespace Matrix

variable {α : Type}

/-- `Matrix::operator+`. -/
def add [Add α] (a m : CPUMatrix α) : Except String (CPUMatrix α) :=
  CPUContext.add a m

/-- `Matrix::operator-`. -/
def sub [Sub α] (a m : CPUMatrix α) : Except String (CPUMatrix α) :=
  CPUContext.sub a m

/-- `Matrix::S`. -/
def S [Zero α] [Add α] (a : CPUMatrix α) : α :=
  CPUContext.summation a

/-- `Matrix::operator*(const Matrix&)`. -/
def mul [Zero α] [Add α] [Mul α] (a m : CPUMatrix α) : Except String (CPUMatrix α) :=
  if a.rows = 1 ∧ a.cols = 1 then .ok (CPUContext.mul m (S a))
  else if m.rows = 1 ∧ m.cols = 1 then .ok (CPUContext.mul a (S m))
  else CPUContext.prod a m

/-- `Matrix::operator*(B)`. -/
def smul [Mul α] (a : CPUMatrix α) (s : α) : CPUMatrix α :=
  CPUContext.mul a s

/-- `Matrix::operator&`. -/
def and [Zero α] [Add α] [Mul α] (a m : CPUMatrix α) : Except String (CPUMatrix α) :=
  if a.rows = 1 ∧ a.cols = 1 then .ok (CPUContext.mul m (S a))
  else if m.rows = 1 ∧ m.cols = 1 then .ok (CPUContext.mul a (S m))
  else CPUContext.mulElem a m

/-- `Matrix::E`. -/
def E (ex : α → α) (a : CPUMatrix α) : CPUMatrix α :=
  CPUContext.exponent ex a

/-- `Matrix::T`. -/
def T [Zero α] (a : CPUMatrix α) : CPUMatrix α :=
  CPUContext.transpose a

/-- `Matrix(ctx, rows, cols)` followed by `set(v)`. -/
def full [Zero α] (rows cols : Nat) (v : α) : CPUMatrix α :=
  CPUContext.set (CPUContext.create rows cols) v

/-- The conversion of a `std::size_t` value to `int`: the value modulo 2^32,
read in two's complement. -/
def toInt (n : Nat) : Int :=
  if n % 4294967296 < 2147483648 then ((n % 4294967296 : Nat) : Int)
  else ((n % 4294967296 : Nat) : Int) - 4294967296

/-- `Matrix::rows()`: the row count of the buffer, returned as `int`. -/
def rows (a : CPUMatrix α) : Int :=
  toInt a.rows

/-- `Matrix::cols()`: the column count of the buffer, returned as `int`. -/
def cols (a : CPUMatrix α) : Int :=
  toInt a.cols

/-- `Matrix(ctx, rows, cols)` followed by `set(v)`, for sides that are `int`
values, as in `Matrix(d.context(), d.rows(), d.cols())`.  The constructor takes
`std::size_t` sides; a negative `int` converts to a value above the range of
the index type of the buffer, for which the source defines no behaviour: an
error here. -/
def sized [Zero α] (rows cols : Int) (v : α) : Except String (CPUMatrix α) :=
  if rows < 0 ∨ cols < 0 then .error "negative matrix size"
  else .ok (full rows.toNat cols.toNat v)

end Matrix

/-! ## function.hh -/

/-- The classes derived from `Function`, with the members each one adds.  A
pointer to a node is its index in the heap. -/
inductive Kind (α : Type) where
  | variable (derivative : Option (CPUMatrix α))
  | constant (derivative : Option (CPUMatrix α))
  | exponent (function : Nat)
  | transpose (function : Nat)
  | summation (function : Nat)
  | addition (lfunction rfunction : Nat)
  | subtraction (lfunction rfunction : Nat)
  | product (lfunction rfunction : Nat)
  | element (lfunction rfunction : Nat)
  | zeroFeed (delegate : Nat)
  | runtime (expressions vars consts : List Nat) (main : Option Nat)
deriving DecidableEq

/-- A node: the members `_cache` and `_value` of the base class `Function`,
and the derived class. -/
structure Function (α : Type) where
  cache : Bool
  value : Option (CPUMatrix α)
  kind : Kind α
deriving DecidableEq

/-- All nodes that exist, by address. -/
abbrev Heap (α : Type) := List (Function α)

namespace Function

variable {α : Type}

/-- `new Variable(value)`. -/
def newVariable (value : Option (CPUMatrix α)) : Function α :=
  ⟨false, value, .variable none⟩

/-- `new Constant(value)`. -/
def newConstant (value : Option (CPUMatrix α)) : Function α :=
  ⟨false, value, .constant none⟩

/-- The constructor of an operator node, of `ZeroFeed` and of `Runtime`. -/
def newNode (k : Kind α) : Function α :=
  ⟨false, none, k⟩

/-- `Variable::derivative()`. -/
def derivative (h : Heap α) (p : Nat) : Except String (CPUMatrix α) :=
  match h[p]? with
  | some ⟨_, _, .variable (some g)⟩ => .ok g
  | some ⟨_, _, .constant (some g)⟩ => .ok g
  | some ⟨_, _, .variable none⟩ => .error "Derivative is not set."
  | some ⟨_, _, .constant none⟩ => .error "Derivative is not set."
  | _ => .error "not a Variable"

/-- `Variable::set(value)`: replaces the matrix the Variable holds. -/
def setValue (h : Heap α) (p : Nat) (value : Option (CPUMatrix α)) : Heap α :=
  match h[p]? with
  | some node => h.set p { node with value := value }
  | none => h

end Function

section forward_backward

variable {α : Type} [CommRing α]

/-- `forward()` of the node at address `p`.  `fuel` bounds the depth of the
calls; operands are evaluated left to right.
* `Variable`, `Constant`: `value()`, an error when no matrix is set.
* `UnaryOperator`, `BinaryOperator`: `compute()` when `_value` is null or
  `_cache` is false, then `_cache = true`.
* `ZeroFeed`: a zero matrix of `m.rows()` rows and `m.cols()` columns for the
  value `m` of the delegate, allocated once.
* `Runtime`: `_main->forward()`. -/
def forward (ex : α → α) : Nat → Heap α → Nat → Except String (CPUMatrix α × Heap α)
  | 0, _, _ => .error "out of fuel"
  | fuel + 1, h, p =>
    match h[p]? with
    | none => .error "invalid pointer"
    | some node =>
      let store := fun (r : CPUMatrix α × Heap α) =>
        (r.1, r.2.set p { node with cache := true, value := some r.1 })
      let cached : Option (CPUMatrix α) :=
        match node.value with
        | some v => if node.cache then some v else none
        | none => none
      match node.kind with
      | .variable _ | .constant _ =>
        match node.value with
        | some v => .ok (v, h)
        | none => .error "Variable is not set."
      | .exponent f =>
        match cached with
        | some v => .ok (v, h)
        | none => do
          let (a, h1) ← forward ex fuel h f
          pure (store (Matrix.E ex a, h1))
      | .transpose f =>
        match cached with
        | some v => .ok (v, h)
        | none => do
          let (a, h1) ← forward ex fuel h f
          pure (store (Matrix.T a, h1))
      | .summation f =>
        match cached with
        | some v => .ok (v, h)
        | none => do
          let (a, h1) ← forward ex fuel h f
          pure (store (Matrix.full 1 1 (Matrix.S a), h1))
      | .addition l r =>
        match cached with
        | some v => .ok (v, h)
        | none => do
          let (a, h1) ← forward ex fuel h l
          let (b, h2) ← forward ex fuel h1 r
          let c ← Matrix.add a b
          pure (store (c, h2))
      | .subtraction l r =>
        match cached with
        | some v => .ok (v, h)
        | none => do
          let (a, h1) ← forward ex fuel h l
          let (b, h2) ← forward ex fuel h1 r
          let c ← Matrix.sub a b
          pure (store (c, h2))
      | .product l r =>
        match cached with
        | some v => .ok (v, h)
        | none => do
          let (a, h1) ← forward ex fuel h l
          let (b, h2) ← forward ex fuel h1 r
          let c ← Matrix.mul a b
          pure (store (c, h2))
      | .element l r =>
        match cached with
        | some v => .ok (v, h)
        | none => do
          let (a, h1) ← forward ex fuel h l
          let (b, h2) ← forward ex fuel h1 r
          let c ← Matrix.and a b
          pure (store (c, h2))
      | .zeroFeed delegate =>
        match node.value with
        | some v => .ok (v, h)
        | none => do
          let (m, h1) ← forward ex fuel h delegate
          let z ← Matrix.sized (Matrix.rows m) (Matrix.cols m) 0
          pure (z, h1.set p { node with value := some z })
      | .runtime _ _ _ main =>
        match main with
        | some m => forward ex fuel h m
        | none => .error "null main"

/-- `backward(d)` of the node at address `p`; `fuel` bounds the depth of the
calls.  The first gradient buffer of a `Variable` or `Constant` and the seed
that `Summation` passes on are built with the `int` sides that `rows()` and
`cols()` return. -/
def backward (ex : α → α) : Nat → Heap α → Nat → CPUMatrix α → Except String (Heap α)
  | 0, _, _, _ => .error "out of fuel"
  | fuel + 1, h, p, d =>
    match h[p]? with
    | none => .error "invalid pointer"
    | some node =>
      match node.kind with
      | .variable derivative => do
        let g0 ←
          match derivative with
          | some g => pure g
          | none => Matrix.sized (Matrix.rows d) (Matrix.cols d) 0
        let g ← Matrix.add g0 d
        pure (h.set p { node with kind := .variable (some g) })
      | .constant derivative => do
        let g0 ←
          match derivative with
          | some g => pure g
          | none => Matrix.sized (Matrix.rows d) (Matrix.cols d) 0
        pure (h.set p { node with kind := .constant (some g0) })
      | .exponent f =>
        match node.value with
        | none => .error "null value"
        | some v => do
          let m ← Matrix.and d v
          backward ex fuel h f m
      | .transpose f => backward ex fuel h f (Matrix.T d)
      | .summation f => do
        let (v, h1) ← forward ex fuel h f
        let m ← Matrix.sized (Matrix.rows v) (Matrix.cols v) (Matrix.S d)
        backward ex fuel h1 f m
      | .addition l r => do
        let h1 ← backward ex fuel h l d
        backward ex fuel h1 r d
      | .subtraction l r => do
        let h1 ← backward ex fuel h l d
        backward ex fuel h1 r (Matrix.smul d (-1))
      | .product l r => do
        let (rv, h1) ← forward ex fuel h r
        let m1 ← Matrix.mul rv d
        let h2 ← backward ex fuel h1 l (Matrix.T m1)
        let (lv, h3) ← forward ex fuel h2 l
        let m2 ← Matrix.mul d lv
        backward ex fuel h3 r (Matrix.T m2)
      | .element l r => do
        let (rv, h1) ← forward ex fuel h r
        let m1 ← Matrix.and rv d
        let h2 ← backward ex fuel h1 l m1
        let (lv, h3) ← forward ex fuel h2 l
        let m2 ← Matrix.and d lv
        backward ex fuel h3 r m2
      | .zeroFeed _ => .ok h
      | .runtime _ _ _ main =>
        match main with
        | some m => backward ex fuel h m d
        | none => .error "null main"

end forward_backward

section refresh

variable {α : Type}

mutual
/-- `refresh(deep)` of the node at address `p`: `_cache = false`, and with
`deep` the same on the inputs (for a `Runtime`: on all its expressions). -/
def refresh : Nat → Heap α → Nat → Bool → Except String (Heap α)
  | 0, _, _, _ => .error "out of fuel"
  | fuel + 1, h, p, deep =>
    match h[p]? with
    | none => .error "invalid pointer"
    | some node =>
      let h0 := h.set p { node with cache := false }
      if deep then
        match node.kind with
        | .exponent f | .transpose f | .summation f => refresh fuel h0 f deep
        | .addition l r | .subtraction l r | .product l r | .element l r => do
          let h1 ← refresh fuel h0 l deep
          refresh fuel h1 r deep
        | .runtime expressions _ _ _ => refreshAll fuel h0 expressions deep
        | _ => .ok h0
      else .ok h0
/-- The loop `for (auto f: _expressions) f->refresh(deep)`. -/
def refreshAll : Nat → Heap α → List Nat → Bool → Except String (Heap α)
  | 0, _, _, _ => .error "out of fuel"
  | _ + 1, h, [], _ => .ok h
  | fuel + 1, h, f :: fs, deep => do
    let h1 ← refresh fuel h f deep
    refreshAll fuel h1 fs deep
end

end refresh

/-! ## library.hh: `Definition` and `Dictionary` -/

/-- `enum OperatorType`. -/
inductive OperatorType where
  | FUNCTION | VARIABLE | CONSTANT | ADDITION | SUBTRACTION | PRODUCT | ELEMENT
  | TRANSPOSE | EXPONENT
deriving DecidableEq

/-- The persisted value of an `OperatorType`. -/
def OperatorType.toInt : OperatorType → Int
  | .FUNCTION => 0 | .VARIABLE => 1 | .CONSTANT => 2 | .ADDITION => 3 | .SUBTRACTION => 4
  | .PRODUCT => 5 | .ELEMENT => 6 | .TRANSPOSE => 7 | .EXPONENT => 8

/-- The cast `(OperatorType)n`, for the values the enum names. -/
def OperatorType.ofInt : Int → Option OperatorType
  | 0 => some .FUNCTION | 1 => some .VARIABLE | 2 => some .CONSTANT | 3 => some .ADDITION
  | 4 => some .SUBTRACTION | 5 => some .PRODUCT | 6 => some .ELEMENT | 7 => some .TRANSPOSE
  | 8 => some .EXPONENT | _ => none

/-- The members of `class Definition`; `vars` and `consts` are `_variables` and
`_constants`.  `import_defs` holds pointers: indices into the list of all
Definitions that exist.  The default value is the object that
`new Definition()` value-initialises: empty containers and `_recurrent` false. -/
structure Definition where
  definition : List Int := []
  names : List String := []
  index : List (String × Int) := []
  import_defs : List Nat := []
  import_index : List (String × Int) := []
  vars : List Int := []
  consts : List Int := []
  name : String := ""
  recurrent : Bool := false
deriving DecidableEq

/-- The out-parameters of `Definition::get_record`. -/
structure Record where
  offset : Nat
  type : Int
  variant : Int
  id : Int
  input : List Int
  times : List Int
deriving DecidableEq

namespace Definition

/-- `Definition::get_name()`. -/
def get_name (d : Definition) : String := d.name

/-- `Definition::set_name`. -/
def set_name (d : Definition) (name : String) : Definition := { d with name := name }

/-- `Definition::get_name(id)`; an index out of range is an error. -/
def get_name_of (d : Definition) (id : Int) : Except String String :=
  if id < 0 then .error "index out of range"
  else match d.names[id.toNat]? with
    | some n => .ok n
    | none => .error "index out of range"

/-- `Definition::id(name)`: the slot of the import of that name, or -1. -/
def id (d : Definition) (name : String) : Int :=
  match Map.find d.import_index name with
  | some i => i
  | none => -1

/-- `Definition::get_record`: reads the record at `r.offset`, appending its
arguments and times to `r.input` and `r.times`.  Returns the size of the
record, or -1 at the end of the tape (then `r` is unchanged).  A read past the
end of the tape is an error. -/
def get_record (d : Definition) (r : Record) : Except String (Int × Record) :=
  if r.offset ≥ d.definition.length then .ok (-1, r)
  else
    match d.definition[r.offset]?, d.definition[r.offset + 1]?, d.definition[r.offset + 2]?,
        d.definition[r.offset + 3]? with
    | some type, some variant, some id, some arg_num =>
      let n := arg_num.toNat
      let input := (d.definition.drop (r.offset + 4)).take n
      let times := (d.definition.drop (r.offset + 4 + n)).take n
      if input.length = n ∧ times.length = n then
        .ok (arg_num + arg_num + 4,
          { offset := r.offset + 4 + n + n, type := type, variant := variant, id := id,
            input := r.input ++ input, times := r.times ++ times })
      else .error "read past the end of the tape"
    | _, _, _, _ => .error "read past the end of the tape"

/-- `Definition::get_import`. -/
def get_import (d : Definition) (id : Int) : Except String Nat :=
  if id < 0 then .error "Import definition out of range. Negative index.."
  else match d.import_defs[id.toNat]? with
    | some p => .ok p
    | none => .error s!"Import definition out of range. Index {id} >= size {d.import_defs.length}."

/-- `Definition::add_import`. -/
def add_import (d : Definition) (name : String) (imp : Nat) : Except String Definition :=
  match Map.find d.import_index name with
  | some _ => .error s!"Function '{name}' imported multiple times."
  | none =>
    .ok { d with
      import_index := Map.assign d.import_index name (d.import_index.length : Int)
      import_defs := d.import_defs ++ [imp] }

/-- The loop of `add_record` that converts argument names to ids. -/
def resolve_args (d : Definition) (name : String) : List String → Except String (List Int)
  | [] => .ok []
  | symbol :: rest =>
    match Map.find d.index symbol with
    | some i => do
      let args ← resolve_args d name rest
      pure (i :: args)
    | none =>
      .error s!"Undefined symbol '{symbol}' referenced as argument in expression '{name}'."

/-- `Definition::add_record`. -/
def add_record (d : Definition) (type : OperatorType) (variant : Int) (name : String)
    (input : List String) (times : List Int) : Except String Definition :=
  if input.length ≠ times.length then
    .error s!"Mismatched input and time arguments in expression '{name}'."
  else do
    let args ← resolve_args d name input
    let id : Int := (d.index.length : Int)
    pure { d with
      definition := d.definition ++ [type.toInt, variant, id, (args.length : Int)] ++ args ++ times
      recurrent := d.recurrent || times.any (fun t => decide (t < 0))
      index := Map.assign d.index name id
      names := d.names ++ [name] }

/-- `recurrent()` of the Definition behind the pointer `p`, where `defs` is the
list of all Definitions. -/
def recurrent_at (defs : List Definition) (p : Nat) : Bool :=
  match defs[p]? with
  | some d => d.recurrent
  | none => false

/-- `Definition::add_expression`; `defs` is the list of all Definitions, into
which the pointers `_import_defs` point. -/
def add_expression (defs : List Definition) (d : Definition) (name function : String)
    (input : List String) (times : List Int) : Except String Definition :=
  match Map.find d.import_index function with
  | some slot => do
    let d1 ← add_record d .FUNCTION slot name input times
    match d1.import_defs[slot.toNat]? with
    | some p => pure (if recurrent_at defs p then { d1 with recurrent := true } else d1)
    | none => .error "invalid import slot"
  | none =>
    if function = "+" then add_record d .ADDITION (-1) name input times
    else if function = "-" then add_record d .SUBTRACTION (-1) name input times
    else if function = "*" then add_record d .PRODUCT (-1) name input times
    else if function = "**" then add_record d .ELEMENT (-1) name input times
    else if function = "T" then add_record d .TRANSPOSE (-1) name input times
    else if function = "E" then add_record d .EXPONENT (-1) name input times
    else .error s!"Undefined function '{function}' in expression '{name}'."

/-- `Definition::add_variable`. -/
def add_variable (d : Definition) (name : String) : Except String Definition :=
  add_record { d with vars := d.vars ++ [(d.index.length : Int)] }
    .VARIABLE (-1) name [] []

/-- `Definition::add_constant`. -/
def add_constant (d : Definition) (name : String) : Except String Definition :=
  add_record { d with consts := d.consts ++ [(d.index.length : Int)] }
    .CONSTANT (-1) name [] []

end Definition

namespace Definition

/-- The loop `while (def.get_record(offset, ...) > 0)` that `add_runtime` and
`get_variables` run, with cleared `input` and `times` for every record: the
records read from `offset` on, for at most `steps` records. -/
def records_loop (d : Definition) : Nat → Nat → Except String (List Record)
  | 0, _ => .error "out of fuel"
  | steps + 1, offset => do
    let (n, r) ← d.get_record ⟨offset, 0, 0, 0, [], []⟩
    if n > 0 then do
      let rs ← records_loop d steps r.offset
      pure (r :: rs)
    else pure []

/-- All records of the tape, read from offset 0. -/
def records (d : Definition) : Except String (List Record) :=
  d.records_loop (d.definition.length + 1) 0

end Definition

/-- The integers `TYPE, VARIANT, ID, ARG_NUM, args, times` that `add_record`
appends for a record. -/
def Record.encode (r : Record) : List Int :=
  [r.type, r.variant, r.id, (r.input.length : Int)] ++ r.input ++ r.times

/-- The tape holds, from `offset` to its end, the encodings of the records
`rs` one after the other, and `r.offset` is the offset at which each ends. -/
def Reads (tape : List Int) : Nat → List Record → Prop
  | offset, [] => offset = tape.length
  | offset, r :: rs =>
    r.input.length = r.times.length ∧
    r.offset = offset + 4 + r.input.length + r.input.length ∧
    r.encode <+: tape.drop offset ∧
    Reads tape r.offset rs

/-- The Definitions that the public interface of `Definition` can build from
`new Definition()`, when the imports it is given are pointers into `defs`. -/
inductive Built (defs : List Definition) : Definition → Prop where
  | empty : Built defs {}
  | set_name (d : Definition) (name : String) : Built defs d → Built defs (d.set_name name)
  | add_variable (d d1 : Definition) (name : String) :
      Built defs d → d.add_variable name = .ok d1 → Built defs d1
  | add_constant (d d1 : Definition) (name : String) :
      Built defs d → d.add_constant name = .ok d1 → Built defs d1
  | add_import (d d1 : Definition) (name : String) (p : Nat) :
      Built defs d → p < defs.length → d.add_import name p = .ok d1 → Built defs d1
  | add_expression (d d1 : Definition) (name function : String) (input : List String)
      (times : List Int) :
      Built defs d → d.add_expression defs name function input times = .ok d1 → Built defs d1

/-- The record carries a negative time offset. -/
def Record.has_negative_time (r : Record) : Prop := ∃ t ∈ r.times, t < 0

/-- The record is a FUNCTION record of `d` whose import slot holds a
Definition that is recurrent. -/
def Definition.calls_recurrent (defs : List Definition) (d : Definition) (r : Record) : Prop :=
  r.type = OperatorType.FUNCTION.toInt ∧
    ∃ q, d.get_import r.variant = .ok q ∧ Definition.recurrent_at defs q = true

/-- The facts that hold of every Definition built through the public
interface, for the list `rs` of the records on its tape. -/
structure WellBuilt (defs : List Definition) (d : Definition) (rs : List Record) : Prop where
  reads : Reads d.definition 0 rs
  import_sizes : d.import_index.length = d.import_defs.length
  slots : ∀ k v, Map.find d.import_index k = some v → 0 ≤ v ∧ v.toNat < d.import_defs.length
  variants : ∀ r ∈ rs, r.type = OperatorType.FUNCTION.toInt →
    0 ≤ r.variant ∧ r.variant.toNat < d.import_defs.length
  valid : ∀ q ∈ d.import_defs, q < defs.length
  recurrent_iff : d.recurrent = true ↔
    (∃ r ∈ rs, r.has_negative_time) ∨ (∃ r ∈ rs, d.calls_recurrent defs r)

/-- A property of Definitions (relative to the list of all Definitions) that
declaring a variable, a constant or an import and adding an expression with
time offsets that do not point into the future preserve, and that stays true
when more Definitions come to exist. -/
structure Preserved (Q : List Definition → Definition → Prop) : Prop where
  add_variable : ∀ defs d d1 name, Q defs d → d.add_variable name = .ok d1 → Q defs d1
  add_constant : ∀ defs d d1 name, Q defs d → d.add_constant name = .ok d1 → Q defs d1
  add_import : ∀ defs d d1 name p, Q defs d → p < defs.length →
    d.add_import name p = .ok d1 → Q defs d1
  add_expression : ∀ defs d d1 name function input times, Q defs d →
    (∀ t ∈ times, t ≤ 0) →
    d.add_expression defs name function input times = .ok d1 → Q defs d1
  mono : ∀ defs defs1 d, defs <+: defs1 → Q defs d → Q defs1 d

/-- The state of a `Dictionary` together with the Definitions it points to:
`defs` is the list of all Definitions that exist (a pointer is an index into
it), `index` is `Dictionary::_index`. -/
structure Dictionary where
  defs : List Definition := []
  index : List (Int × Nat) := []
deriving DecidableEq

namespace Dictionary

/-- `Dictionary::id`: `hash` is `std::hash<std::string>` converted to `int`. -/
def id (hash : String → Int) (user library function : String) : Int :=
  hash (user ++ ":" ++ library ++ ":" ++ function)

/-- `Dictionary::put`. -/
def put (dict : Dictionary) (id : Int) (definition : Nat) : Dictionary :=
  { dict with index := Map.assign dict.index id definition }

/-- `Dictionary::get`: the pointer stored under `id`, or null. -/
def get (dict : Dictionary) (id : Int) : Option Nat :=
  Map.find dict.index id

/-- The Definition behind a pointer. -/
def deref (dict : Dictionary) (p : Nat) : Option Definition := dict.defs[p]?

end Dictionary

/-! ## compiler.hh -/

/-- A parsed JSON value, as a `rapidjson::Value`.  Object members keep their
order and may repeat a key.  Strings are the C strings `GetString()` yields;
numbers are the integers `GetInt()` yields. -/
inductive Json where
  | null
  | bool (b : Bool)
  | object (members : List (String × Json))
  | array (elements : List Json)
  | string (s : String)
  | number (n : Int)

namespace Json

/-- `Value::GetType()` as an index into `Compiler::_types`. -/
def getType : Json → Nat
  | .null => 0 | .bool false => 1 | .bool true => 2 | .object _ => 3 | .array _ => 4
  | .string _ => 5 | .number _ => 6

/-- The names `Compiler::_types`. -/
def typeName (t : Nat) : String :=
  ["Null", "False", "True", "Object", "Array", "String", "Number"].getD t ""

end Json

/-- `struct Resolver`: `resolve(user, library, function)`.  The JSON text it
returns is represented by the document that `read_json` parses it to; a
failure of the resolver, or a text that does not parse, is an error. -/
abbrev Resolver := String → String → String → Except String Json

/-- What a compilation works on: the Dictionary (with all Definitions) and
the log of the calls of `Resolver::resolve` made so far. -/
structure CompileState where
  dict : Dictionary := {}
  calls : List (String × String × String) := []
deriving DecidableEq

/-- The members `_user`, `_library`, `_function` of `class Compiler`. -/
structure Compiler where
  user : String
  library : String
  function : String
deriving DecidableEq

namespace Compiler

/-- `Compiler::str(path)`. -/
def str (c : Compiler) (path : List String) : String :=
  path.foldl (fun p k => p ++ "/" ++ k) ("/" ++ c.user ++ "/" ++ c.library ++ "/" ++ c.function)

/-- `Compiler::assert_type`. -/
def assert_type (c : Compiler) (node : Json) (type : Nat) (path : List String) :
    Except String Unit :=
  if node.getType ≠ type then
    .error ("Unexpected JSON type '" ++ Json.typeName node.getType ++ "' at '" ++ c.str path
      ++ "'. Expected '" ++ Json.typeName type ++ "' type.")
  else .ok ()

/-- `Compiler::assert_value`. -/
def assert_value (c : Compiler) (value key : String) (path : List String) :
    Except String Unit :=
  if value.length = 0 then
    .error ("Undefined value '" ++ key ++ "' at '" ++ c.str path ++ "'.")
  else .ok ()

/-- `Compiler::assert_element`. -/
def assert_element (c : Compiler) (present : Bool) (key : String) (path : List String) :
    Except String Unit :=
  if present = false then
    .error ("Missing element '" ++ key ++ "' at '" ++ c.str path ++ "'.")
  else .ok ()

/-- `Compiler::assert_unique`. -/
def assert_unique (c : Compiler) (key : String) (d : Definition) (path : List String) :
    Except String Unit :=
  if d.id key ≥ 0 then
    .error ("Symbol '" ++ key ++ "' at '" ++ c.str path ++ "' multiply defined.")
  else .ok ()

/-- `Compiler::unexpected_element`: always raises. -/
def unexpected_element {β : Type} (c : Compiler) (key : String) (path : List String) :
    Except String β :=
  .error ("Unexpected element '" ++ key ++ "' at '" ++ c.str path ++ "'.")

/-- `snprintf(buf, sizeof(buf), "[%d]", i)`. -/
def indexKey (i : Nat) : String := "[" ++ toString i ++ "]"

/-- `Value::GetString()`, which asserts that the value is a string. -/
def getString : Json → Except String String
  | .string s => .ok s
  | _ => .error "rapidjson assertion: IsString()"

/-- `Value::GetInt()`, which asserts that the value is a 32-bit integer. -/
def getInt : Json → Except String Int
  | .number n =>
    if -2147483648 ≤ n ∧ n ≤ 2147483647 then .ok n else .error "rapidjson assertion: IsInt()"
  | _ => .error "rapidjson assertion: IsInt()"

/-- The loop of `Compiler::compile_argument` over the members of the argument
object; `count` is the number of members seen. -/
def compile_argument_loop (c : Compiler) (path : List String) :
    List (String × Json) → Nat → List String × List Int →
      Except String (List String × List Int)
  | [], _, acc => .ok acc
  | (name, value) :: ms, count, (args, times) =>
    let path1 := path ++ [name]
    if count = 0 then do
      assert_value c name "argument" path1
      assert_type c value 6 path1
      let time ← getInt value
      if time > 0 then
        .error ("Argument '" ++ name ++ "' at '" ++ c.str path1 ++ "' refers to future values.")
      else
        compile_argument_loop c path ms (count + 1) (args ++ [name], times ++ [time])
    else unexpected_element c name path1

/-- `Compiler::compile_argument`. -/
def compile_argument (c : Compiler) (node : Json) (args : List String) (times : List Int)
    (path : List String) : Except String (List String × List Int) := do
  assert_type c node 3 path
  match node with
  | .object members => compile_argument_loop c path members 0 (args, times)
  | _ => .ok (args, times)

/-- The loop of `Compiler::compile_expression` over the elements of the
expression array: `i` is the index, `op` the operator found so far. -/
def compile_expression_loop (c : Compiler) (path : List String) :
    List Json → Nat → Option String → List String × List Int →
      Except String (Option String × List String × List Int)
  | [], _, op, (args, times) => .ok (op, args, times)
  | m :: ms, i, op, (args, times) =>
    let buf := indexKey i
    let path1 := path ++ [buf]
    match op, m with
    | none, .string s => do
      assert_value c s "operator" path1
      compile_expression_loop c path ms (i + 1) (some s) (args, times)
    | some o, .string s => do
      assert_value c s "argument" path1
      compile_expression_loop c path ms (i + 1) (some o) (args ++ [s], times ++ [0])
    | some o, .object members => do
      let r ← compile_argument c (.object members) args times path1
      compile_expression_loop c path ms (i + 1) (some o) r
    | _, _ => unexpected_element c buf path1

/-- `Compiler::compile_expression`; the name of the expression is the last
element of `path`. -/
def compile_expression (c : Compiler) (dict : Dictionary) (node : Json) (d : Definition)
    (path : List String) : Except String Definition := do
  assert_type c node 4 path
  let expression := path.getLast?.getD ""
  match node with
  | .array elements =>
    let (op, args, times) ← compile_expression_loop c path elements 0 none ([], [])
    assert_element c op.isSome "operator" path
    assert_unique c expression d path
    d.add_expression dict.defs expression (op.getD "") args times
  | _ => .ok d

/-- The loop of `Compiler::compile_body`; `ret` tells whether a member
"return" was seen. -/
def compile_body_loop (c : Compiler) (dict : Dictionary) (path : List String) :
    List (String × Json) → Bool → Definition → Except String (Bool × Definition)
  | [], ret, d => .ok (ret, d)
  | (key, value) :: ms, ret, d => do
    let d1 ← compile_expression c dict value d (path ++ [key])
    compile_body_loop c dict path ms (ret || key = "return") d1

/-- `Compiler::compile_body`. -/
def compile_body (c : Compiler) (dict : Dictionary) (node : Json) (d : Definition)
    (path : List String) : Except String Definition := do
  assert_type c node 3 path
  match node with
  | .object members =>
    let (ret, d1) ← compile_body_loop c dict path members false d
    assert_element c ret "return" path
    pure d1
  | _ => .ok d

/-- The loop of `Compiler::compile_variables`. -/
def compile_variables_loop (c : Compiler) (path : List String) :
    List Json → Nat → Definition → Except String Definition
  | [], _, d => .ok d
  | m :: ms, i, d => do
    let path1 := path ++ [indexKey i]
    assert_type c m 5 path1
    let name ← getString m
    if d.id name ≠ -1 then unexpected_element c name path1
    else do
      let d1 ← d.add_variable name
      compile_variables_loop c path ms (i + 1) d1

/-- `Compiler::compile_variables`. -/
def compile_variables (c : Compiler) (node : Json) (d : Definition) (path : List String) :
    Except String Definition := do
  assert_type c node 4 path
  match node with
  | .array elements => compile_variables_loop c path elements 0 d
  | _ => .ok d

/-- The loop of `Compiler::compile_constants`. -/
def compile_constants_loop (c : Compiler) (path : List String) :
    List Json → Nat → Definition → Except String Definition
  | [], _, d => .ok d
  | m :: ms, i, d => do
    let path1 := path ++ [indexKey i]
    assert_type c m 5 path1
    let name ← getString m
    if d.id name ≠ -1 then unexpected_element c name path1
    else do
      let d1 ← d.add_constant name
      compile_constants_loop c path ms (i + 1) d1

/-- `Compiler::compile_constants`. -/
def compile_constants (c : Compiler) (node : Json) (d : Definition) (path : List String) :
    Except String Definition := do
  assert_type c node 4 path
  match node with
  | .array elements => compile_constants_loop c path elements 0 d
  | _ => .ok d

/-- The loop of `Compiler::compile_import` over the members of the import
object, collecting `user` and `library`. -/
def compile_import_loop (c : Compiler) (path : List String) :
    List (String × Json) → Option String × Option String →
      Except String (Option String × Option String)
  | [], acc => .ok acc
  | (key, value) :: ms, (user, library) => do
    let path1 := path ++ [key]
    assert_type c value 5 path1
    let s ← getString value
    if user.isNone ∧ key = "user" then compile_import_loop c path ms (some s, library)
    else if library.isNone ∧ key = "library" then compile_import_loop c path ms (user, some s)
    else unexpected_element c key path1

/-- `Compiler::compile_import`.  `compile` is `Compiler::compile` of the
Compiler that is created for the import; the name of the import is the last
element of `path`. -/
def compile_import (hash : String → Int) (resolver : Resolver)
    (compile : Compiler → Except String Json → CompileState → Except String (Nat × CompileState))
    (c : Compiler) (node : Json) (d : Definition) (st : CompileState) (path : List String) :
    Except String (Definition × CompileState) := do
  assert_type c node 3 path
  let function := path.getLast?.getD ""
  -- skip if imported already
  match st.dict.get (Dictionary.id hash c.user c.library function) with
  | some _ => .ok (d, st)
  | none =>
    match node with
    | .object members =>
      let (user, library) ← compile_import_loop c path members (none, none)
      assert_element c user.isSome "user" path
      assert_element c library.isSome "library" path
      let u := user.getD ""
      let l := library.getD ""
      -- resolve and compile the import
      let st1 := { st with calls := st.calls ++ [(u, l, function)] }
      let (p, st2) ← compile ⟨u, l, function⟩ (resolver u l function) st1
      let d1 ← d.add_import function p
      pure (d1, st2)
    | _ => .ok (d, st)

/-- The loop of `Compiler::compile_imports`. -/
def compile_imports_loop (hash : String → Int) (resolver : Resolver)
    (compile : Compiler → Except String Json → CompileState → Except String (Nat × CompileState))
    (c : Compiler) (path : List String) :
    List (String × Json) → Definition → CompileState → Except String (Definition × CompileState)
  | [], d, st => .ok (d, st)
  | (name, value) :: ms, d, st => do
    let (d1, st1) ← compile_import hash resolver compile c value d st (path ++ [name])
    compile_imports_loop hash resolver compile c path ms d1 st1

/-- `Compiler::compile_imports`. -/
def compile_imports (hash : String → Int) (resolver : Resolver)
    (compile : Compiler → Except String Json → CompileState → Except String (Nat × CompileState))
    (c : Compiler) (node : Json) (d : Definition) (st : CompileState) (path : List String) :
    Except String (Definition × CompileState) := do
  assert_type c node 3 path
  match node with
  | .object members => compile_imports_loop hash resolver compile c path members d st
  | _ => .ok (d, st)

/-- The locals of `Compiler::compile_root`: which of the expected elements
were seen (`body` keeps the element), and the Definition and state so far. -/
structure RootState where
  name : Bool := false
  variables_seen : Bool := false
  constants_seen : Bool := false
  imports_seen : Bool := false
  body : Option Json := none
  d : Definition
  st : CompileState

/-- The loop of `Compiler::compile_root` over the members of the network
object. -/
def compile_root_loop (hash : String → Int) (resolver : Resolver)
    (compile : Compiler → Except String Json → CompileState → Except String (Nat × CompileState))
    (c : Compiler) (path : List String) :
    List (String × Json) → RootState → Except String RootState
  | [], s => .ok s
  | (key, value) :: ms, s =>
    let path1 := path ++ [key]
    if s.name = false ∧ key = "name" then do
      let n ← getString value
      assert_value c n "name" path1
      compile_root_loop hash resolver compile c path ms
        { s with name := true, d := s.d.set_name n }
    else if s.variables_seen = false ∧ key = "variables" then do
      let d1 ← compile_variables c value s.d path1
      compile_root_loop hash resolver compile c path ms
        { s with variables_seen := true, d := d1 }
    else if s.constants_seen = false ∧ key = "constants" then do
      let d1 ← compile_constants c value s.d path1
      compile_root_loop hash resolver compile c path ms
        { s with constants_seen := true, d := d1 }
    else if s.imports_seen = false ∧ key = "imports" then do
      let (d1, st1) ← compile_imports hash resolver compile c value s.d s.st path1
      compile_root_loop hash resolver compile c path ms
        { s with imports_seen := true, d := d1, st := st1 }
    else if s.body.isNone ∧ key = "body" then
      compile_root_loop hash resolver compile c path ms { s with body := some value }
    else unexpected_element c key path1

/-- `Compiler::compile_root`. -/
def compile_root (hash : String → Int) (resolver : Resolver)
    (compile : Compiler → Except String Json → CompileState → Except String (Nat × CompileState))
    (c : Compiler) (node : Json) (d : Definition) (st : CompileState) (path : List String) :
    Except String (Definition × CompileState) := do
  assert_type c node 3 path
  match node with
  | .object members =>
    let s ← compile_root_loop hash resolver compile c path members { d := d, st := st }
    -- validate name, body
    assert_element c s.name "name" path
    assert_element c s.body.isSome "body" path
    -- compile body
    let d1 ← compile_body c s.st.dict (s.body.getD .null) s.d (path ++ ["body"])
    pure (d1, s.st)
  | _ => .ok (d, st)

/-- The loop of `Compiler::compile_definition` over the members of the
document; `function` tells whether the member "network" was seen. -/
def compile_definition_loop (hash : String → Int) (resolver : Resolver)
    (compile : Compiler → Except String Json → CompileState → Except String (Nat × CompileState))
    (c : Compiler) (path : List String) :
    List (String × Json) → Bool → Definition → CompileState →
      Except String (Bool × Definition × CompileState)
  | [], function, d, st => .ok (function, d, st)
  | (key, value) :: ms, function, d, st =>
    let path1 := path ++ [key]
    if function = false ∧ key = "network" then do
      let (d1, st1) ← compile_root hash resolver compile c value d st path1
      compile_definition_loop hash resolver compile c path ms true d1 st1
    else unexpected_element c key path1

/-- `Compiler::compile_definition`. -/
def compile_definition (hash : String → Int) (resolver : Resolver)
    (compile : Compiler → Except String Json → CompileState → Except String (Nat × CompileState))
    (c : Compiler) (doc : Json) (d : Definition) (st : CompileState) (path : List String) :
    Except String (Definition × CompileState) := do
  assert_type c doc 3 path
  match doc with
  | .object members =>
    let (function, d1, st1) ←
      compile_definition_loop hash resolver compile c path members false d st
    assert_element c function "network" path
    pure (d1, st1)
  | _ => .ok (d, st)

/-- `Compiler::compile(json, dict)`: returns the pointer to the new
Definition.  `json` is the result of parsing the text (`read_json` raises when
the text does not parse, or parses to something that is not an object).
`fuel` bounds the nesting of imports. -/
def compile (hash : String → Int) (resolver : Resolver) :
    Nat → Compiler → Except String Json → CompileState → Except String (Nat × CompileState)
  | 0, _, _, _ => .error "out of fuel"
  | fuel + 1, c, json, st => do
    -- parse json definition
    let doc ← json
    match doc with
    | .object _ =>
      -- compile function definition
      let (d, st1) ← compile_definition hash resolver (compile hash resolver fuel) c doc {} st []
      -- add definition to dictionary
      let id := Dictionary.id hash c.user c.library d.get_name
      let p := st1.dict.defs.length
      let dict1 : Dictionary := { st1.dict with defs := st1.dict.defs ++ [d] }
      pure (p, { st1 with dict := dict1.put id p })
    | _ => .error "JSON not an object."

end Compiler

/-- What the functions of the Compiler need of the `compile` they call for an
import: it keeps the Definitions that exist and returns a valid pointer. -/
def GoodCompile
    (compile : Compiler → Except String Json → CompileState → Except String (Nat × CompileState)) :
    Prop :=
  ∀ c json st p st1, compile c json st = .ok (p, st1) →
    st.dict.defs <+: st1.dict.defs ∧ p < st1.dict.defs.length

/-! ## library.hh: `Runtime` and `Timeline` -/

namespace Runtime

variable {α : Type}

/-- `Runtime::expressions()` of the node at address `rt`.  Reading another
kind of node as a Runtime (a `static_cast` the source does not check) is an
error. -/
def expressions (h : Heap α) (rt : Nat) : Except String (List Nat) :=
  match h[rt]? with
  | some ⟨_, _, .runtime expressions _ _ _⟩ => .ok expressions
  | _ => .error "not a Runtime"

/-- `Runtime::variables()`. -/
def variables_of (h : Heap α) (rt : Nat) : Except String (List Nat) :=
  match h[rt]? with
  | some ⟨_, _, .runtime _ vars _ _⟩ => .ok vars
  | _ => .error "not a Runtime"

/-- `Runtime::constants()`. -/
def constants (h : Heap α) (rt : Nat) : Except String (List Nat) :=
  match h[rt]? with
  | some ⟨_, _, .runtime _ _ consts _⟩ => .ok consts
  | _ => .error "not a Runtime"

/-- `Runtime::add_expression`. -/
def add_expression (h : Heap α) (rt f : Nat) : Except String (Heap α) :=
  match h[rt]? with
  | some ⟨c, v, .runtime expressions vars consts _⟩ =>
    .ok (h.set rt ⟨c, v, .runtime (expressions ++ [f]) vars consts (some f)⟩)
  | _ => .error "not a Runtime"

/-- `Runtime::add_variable`. -/
def add_variable (h : Heap α) (rt f : Nat) : Except String (Heap α) :=
  match h[rt]? with
  | some ⟨c, v, .runtime expressions vars consts main⟩ =>
    .ok (h.set rt ⟨c, v, .runtime (expressions ++ [f]) (vars ++ [f]) consts main⟩)
  | _ => .error "not a Runtime"

/-- `Runtime::add_constant`. -/
def add_constant (h : Heap α) (rt f : Nat) : Except String (Heap α) :=
  match h[rt]? with
  | some ⟨c, v, .runtime expressions vars consts main⟩ =>
    .ok (h.set rt ⟨c, v, .runtime (expressions ++ [f]) vars (consts ++ [f]) main⟩)
  | _ => .error "not a Runtime"

end Runtime

/-- The members of `class Timeline`, with the heap of all nodes: `timeline` is
`_timeline` (frames of pointers to Runtimes), `expressions` is the ownership
list `_expressions`. -/
structure Timeline (α : Type) where
  heap : Heap α := []
  timeline : List (List Nat) := []
  expressions : List Nat := []
deriving DecidableEq

namespace Timeline

variable {α : Type}

/-- A vector element `v[i]`; an index out of range (not checked by the
source) is an error. -/
def elem {β : Type} (v : List β) (i : Int) : Except String β :=
  if i < 0 then .error "index out of range"
  else match v[i.toNat]? with
    | some x => .ok x
    | none => .error "index out of range"

/-- `_expressions.push_back(new ...)`: allocates a node that the Timeline
owns; returns its address. -/
def alloc (tl : Timeline α) (node : Function α) : Nat × Timeline α :=
  (tl.heap.length,
    { tl with heap := tl.heap ++ [node], expressions := tl.expressions ++ [tl.heap.length] })

/-- `Timeline::time_size`. -/
def time_size (tl : Timeline α) : Nat := tl.timeline.length

/-- `Timeline::space_size`. -/
def space_size (tl : Timeline α) : Nat :=
  match tl.timeline with
  | frame :: _ => frame.length
  | [] => 0

/-- `Timeline::get_runtime(time, space)`. -/
def get_runtime (tl : Timeline α) (time space : Nat) : Except String Nat := do
  let frame ← elem tl.timeline time
  elem frame space

/-- The loop of `add_runtime` that resolves the inputs of one record. -/
def resolve_input (time rt rt_index : Nat) :
    List Int → List Int → Timeline α → Except String (List Nat × Timeline α)
  | arg :: input, t :: times, tl =>
    if t = 0 then do
      -- current time
      let es ← Runtime.expressions tl.heap rt
      let f ← elem es arg
      let (fs, tl1) ← resolve_input time rt rt_index input times tl
      pure (f :: fs, tl1)
    else if (time : Int) + t ≥ 0 then do
      -- available passed time
      let passed_frame ← elem tl.timeline ((time : Int) + t)
      let passed_rt ← elem passed_frame rt_index
      let es ← Runtime.expressions tl.heap passed_rt
      let f ← elem es arg
      let (fs, tl1) ← resolve_input time rt rt_index input times tl
      pure (f :: fs, tl1)
    else do
      -- unavailable passed time
      let es ← Runtime.expressions tl.heap rt
      let delegate ← elem es arg
      let (z, tl0) := alloc tl (Function.newNode (.zeroFeed delegate))
      let (fs, tl1) ← resolve_input time rt rt_index input times tl0
      pure (z :: fs, tl1)
  | [], _, tl => .ok ([], tl)
  | _ :: _, [], _ => .error "index out of range"

/-- Allocates an operator node and adds it to the Runtime `rt` with
`add_expression`. -/
def add_operator (tl : Timeline α) (rt : Nat) (k : Kind α) : Except String (Timeline α) := do
  let (f, tl1) := alloc tl (Function.newNode k)
  let h ← Runtime.add_expression tl1.heap rt f
  pure { tl1 with heap := h }

/-- The locals of the record loop of `add_runtime`. -/
structure LoopState (α : Type) where
  offset : Nat := 0
  constants_index : Nat := 0
  tl : Timeline α

/-- The loop `while (def.get_record(...) > 0)` of `Timeline::add_runtime`, for
at most `steps` records.  `add_runtime` is the recursive call, which takes the
time, the pointer to the Definition and the inputs. -/
def add_runtime_loop
    (add_runtime : Nat → Nat → List Nat → Timeline α → Except String (Nat × Timeline α))
    (time : Nat) (d : Definition) (constants : List Nat) (rt rt_index : Nat) :
    Nat → LoopState α → Except String (Timeline α)
  | 0, _ => .error "out of fuel"
  | steps + 1, s => do
    let (n, r) ← d.get_record ⟨s.offset, 0, 0, 0, [], []⟩
    if n > 0 then do
      -- resolve input
      let (finput, tl1) ← resolve_input time rt rt_index r.input r.times s.tl
      -- create an instance from the definition record
      let next := fun (tl : Timeline α) (ci : Nat) =>
        add_runtime_loop add_runtime time d constants rt rt_index steps
          { offset := r.offset, constants_index := ci, tl := tl }
      match OperatorType.ofInt r.type with
      | some .FUNCTION => do
        -- recursively create user defined function
        let child_def ← d.get_import r.variant
        let (child_id, tl2) ← add_runtime time child_def finput tl1
        let child_rt ← get_runtime tl2 time child_id
        let h ← Runtime.add_expression tl2.heap rt child_rt
        next { tl2 with heap := h } s.constants_index
      | some .VARIABLE =>
        -- take weight from timeline if available, or create one
        if time > 0 then do
          let rt_zero ← elem tl1.timeline 0
          let rt0 ← elem rt_zero rt_index
          let es ← Runtime.expressions tl1.heap rt0
          let f ← elem es r.id
          let h ← Runtime.add_variable tl1.heap rt f
          next { tl1 with heap := h } s.constants_index
        else do
          let (f, tl2) := alloc tl1 (Function.newVariable none)
          let h ← Runtime.add_variable tl2.heap rt f
          next { tl2 with heap := h } s.constants_index
      | some .CONSTANT =>
        -- take input from arguments if available, or create one
        if constants.length > s.constants_index then do
          let f ← elem constants s.constants_index
          let h ← Runtime.add_constant tl1.heap rt f
          next { tl1 with heap := h } (s.constants_index + 1)
        else do
          let (f, tl2) := alloc tl1 (Function.newConstant none)
          let h ← Runtime.add_constant tl2.heap rt f
          next { tl2 with heap := h } s.constants_index
      | some .ADDITION => do
        let l ← elem finput 0
        let r1 ← elem finput 1
        let tl2 ← add_operator tl1 rt (.addition l r1)
        next tl2 s.constants_index
      | some .SUBTRACTION => do
        let l ← elem finput 0
        let r1 ← elem finput 1
        let tl2 ← add_operator tl1 rt (.subtraction l r1)
        next tl2 s.constants_index
      | some .PRODUCT => do
        let l ← elem finput 0
        let r1 ← elem finput 1
        let tl2 ← add_operator tl1 rt (.product l r1)
        next tl2 s.constants_index
      | some .ELEMENT => do
        let l ← elem finput 0
        let r1 ← elem finput 1
        let tl2 ← add_operator tl1 rt (.element l r1)
        -- no break: the TRANSPOSE case follows
        let f ← elem finput 0
        let tl3 ← add_operator tl2 rt (.transpose f)
        next tl3 s.constants_index
      | some .TRANSPOSE => do
        let f ← elem finput 0
        let tl2 ← add_operator tl1 rt (.transpose f)
        next tl2 s.constants_index
      | some .EXPONENT => do
        let f ← elem finput 0
        let tl2 ← add_operator tl1 rt (.exponent f)
        next tl2 s.constants_index
      | none => .error "Unknown operator type in definition."
    else .ok s.tl

/-- `while (time >= _timeline.size()) _timeline.push_back(new RuntimeFrame())`. -/
def extend (timeline : List (List Nat)) (time : Nat) : List (List Nat) :=
  timeline ++ List.replicate (time + 1 - timeline.length) []

/-- `Timeline::add_runtime(time, dict, def, constants)`: returns the index of
the new Runtime in the frame `time`.  `defs` is the list of all Definitions,
`def_ptr` points into it; `fuel` bounds the nesting of imported functions. -/
def add_runtime (defs : List Definition) :
    Nat → Nat → Nat → List Nat → Timeline α → Except String (Nat × Timeline α)
  | 0, _, _, _, _ => .error "out of fuel"
  | fuel + 1, time, def_ptr, constants, tl => do
    let d ← elem defs def_ptr
    -- create new runtime index if needed
    let timeline := extend tl.timeline time
    -- get runtime frame from timeline
    let rt_frame ← elem timeline time
    let rt_index := rt_frame.length
    -- add new rt to runtime frame
    let (rt, tl1) := alloc tl (Function.newNode (.runtime [] [] [] none))
    let tl2 : Timeline α := { tl1 with timeline := timeline.set time (rt_frame ++ [rt]) }
    -- create runtime operators
    let tl3 ← add_runtime_loop (add_runtime defs fuel) time d constants rt rt_index
      (d.definition.length + 1) { tl := tl2 }
    pure (rt_index, tl3)

/-- `Timeline::str(path)`: the elements joined by dots. -/
def str (path : List String) : String :=
  path.foldl (fun p it => p ++ (if p.length > 0 then "." else "") ++ it) ""

/-- `variables.emplace(k, v)`: adds the entry unless the key is present. -/
def emplace {ν : Type} (m : List (String × ν)) (k : String) (v : ν) : List (String × ν) :=
  match Map.find m k with
  | some _ => m
  | none => m ++ [(k, v)]

/-- The record loop of `Timeline::get_variables`, for at most `steps` records;
`get_variables` is the recursive call. -/
def get_variables_loop (h : Heap α)
    (get_variables : Nat → Nat → List (String × Nat) → List String →
      Except String (List (String × Nat)))
    (rt : Nat) (d : Definition) (path : List String) :
    Nat → Nat → List (String × Nat) → Except String (List (String × Nat))
  | 0, _, _ => .error "out of fuel"
  | steps + 1, offset, vars => do
    let (n, r) ← d.get_record ⟨offset, 0, 0, 0, [], []⟩
    if n > 0 then
      match OperatorType.ofInt r.type with
      | some .FUNCTION => do
        -- recursively get variables
        let name ← d.get_name_of r.id
        let es ← Runtime.expressions h rt
        let child_rt ← elem es r.id
        let _ ← Runtime.expressions h child_rt
        let child_def ← d.get_import r.variant
        let vars1 ← get_variables child_rt child_def vars (path ++ [name])
        get_variables_loop h get_variables rt d path steps r.offset vars1
      | some .VARIABLE => do
        -- get the variable
        let name ← d.get_name_of r.id
        let es ← Runtime.expressions h rt
        let f ← elem es r.id
        get_variables_loop h get_variables rt d path steps r.offset
          (emplace vars (str (path ++ [name])) f)
      | _ => get_variables_loop h get_variables rt d path steps r.offset vars
    else .ok vars

/-- `Timeline::get_variables(rt, def, variables, path)`; `fuel` bounds the
nesting of imported functions. -/
def get_variables (defs : List Definition) (h : Heap α) :
    Nat → Nat → Nat → List (String × Nat) → List String → Except String (List (String × Nat))
  | 0, _, _, _, _ => .error "out of fuel"
  | fuel + 1, rt, def_ptr, vars, path => do
    let d ← elem defs def_ptr
    get_variables_loop h (get_variables defs h fuel) rt d path (d.definition.length + 1) 0
      vars

end Timeline

/-! ## network.hh -/

/-- The members of `class Network`. -/
structure Network (α : Type) where
  definition : Option Nat := none
  dictionary : Dictionary := {}
  timeline : Timeline α := {}
  time : Int := -1
deriving DecidableEq

namespace Network

variable {α : Type}

/-- `Network::load(json, resolver)`, on a Network that `clear()` has emptied.
Returns the Network and the calls made to the resolver. -/
def load (hash : String → Int) (resolver : Resolver) (fuel : Nat) (json : Except String Json) :
    Except String (Network α × List (String × String × String)) := do
  -- compile definition from json
  let (definition, st) ← Compiler.compile hash resolver fuel ⟨"", "", ""⟩ json {}
  -- create initial runtime
  let (_, timeline) ← Timeline.add_runtime st.dict.defs fuel 0 definition [] {}
  pure ({ definition := some definition, dictionary := st.dict, timeline := timeline,
          time := 0 }, st.calls)

/-- `Network::definition()`. -/
def get_definition (net : Network α) : Except String Definition :=
  match net.definition with
  | some p =>
    match net.dictionary.deref p with
    | some d => .ok d
    | none => .error "invalid pointer"
  | none => .error "Undefined Network. No definition available."

/-- `Network::variables()`. -/
def variables_of (net : Network α) (fuel : Nat) : Except String (List (String × Nat)) :=
  match net.definition with
  | some definition =>
    if net.timeline.time_size > 0 then do
      let rt ← Timeline.get_runtime net.timeline 0 0
      Timeline.get_variables net.dictionary.defs net.timeline.heap fuel rt definition [] []
    else .ok []
  | none => .ok []

/-- `Network::clear()`: empties the timeline and the dictionary, and sets
`_definition = NULL` and `_time = -1`; the state the constructor leaves. -/
def clear (_net : Network α) : Network α := {}

/-- `Network::input()`.  The index `_time` goes unchecked into
`_timeline[time]` inside `get_runtime`; an index out of range is an error here.
The source applies `.constants()` to the pointer that `get_runtime` returns,
which is read as `->constants()`. -/
def input (net : Network α) : Except String (List Nat) :=
  if (net.timeline.time_size : Int) > net.time then do
    let frame ← Timeline.elem net.timeline.timeline net.time
    let rt ← Timeline.elem frame 0
    Runtime.constants net.timeline.heap rt
  else .error "Undefined Network. No input available."

end Network

/-! ## unittest/main.cc -/

section numerical

variable {α : Type} [Field α]

/-- `dfdx(f, fr, fc, x, xr, xc)`: the central difference of entry `(fr, fc)` of
`f` in entry `(xr, xc)` of the matrix held by the Variable at address `x`,
with `eps = 1e-2`. -/
def dfdx (ex : α → α) (fuel : Nat) (h : Heap α) (f fr fc x xr xc : Nat) :
    Except String (α × Heap α) :=
  match h[x]? with
  | some ⟨_, some xm, _⟩ =>
    let eps : α := 1 / 100
    let xv := CPUContext.get xm
    let i := xr * xm.cols + xc
    match xv[i]? with
    | none => .error "index out of range"
    | some bak => do
      -- f2 = f(x+eps)
      let h1 ← refresh fuel h f true
      let x2 ← CPUContext.setBuffer xm (xv.set i (bak + eps))
      let (f2, h2) ← forward ex fuel (Function.setValue h1 x (some x2)) f
      -- f1 = f(x-eps)
      let h3 ← refresh fuel h2 f true
      let x1 ← CPUContext.setBuffer xm (xv.set i (bak - eps))
      let (f1, h4) ← forward ex fuel (Function.setValue h3 x (some x1)) f
      -- reset x
      let x0 ← CPUContext.setBuffer xm (xv.set i bak)
      let h5 := Function.setValue h4 x (some x0)
      -- df/dx = (f2 - f1) / (2 * eps)
      let j := fr * f1.cols + fc
      match (CPUContext.get f2)[j]?, (CPUContext.get f1)[j]? with
      | some v2, some v1 => pure ((v2 - v1) / (2 * eps), h5)
      | _, _ => .error "index out of range"
  | _ => .error "Variable is not set."

/-- The loop of `dfdx(f, fr, fc, x)` over the entries of `x`, row by row. -/
def dfdxLoop (ex : α → α) (fuel : Nat) (f fr fc x cols : Nat) :
    List Nat → Heap α → Except String (List α × Heap α)
  | [], h => .ok ([], h)
  | k :: ks, h => do
    let (v, h1) ← dfdx ex fuel h f fr fc x (k / cols) (k % cols)
    let (vs, h2) ← dfdxLoop ex fuel f fr fc x cols ks h1
    pure (v :: vs, h2)

/-- `dfdx(f, fr, fc, x)`: the matrix of the central differences of entry
`(fr, fc)` of `f` in every entry of the matrix held by the Variable `x`. -/
def dfdxMatrix (ex : α → α) (fuel : Nat) (h : Heap α) (f fr fc x : Nat) :
    Except String (CPUMatrix α × Heap α) :=
  match h[x]? with
  | some ⟨_, some xm, _⟩ => do
    let (v, h1) ← dfdxLoop ex fuel f fr fc x xm.cols (List.range (xm.rows * xm.cols)) h
    let ret ← CPUContext.setBuffer (CPUContext.create xm.rows xm.cols) v
    pure (ret, h1)
  | _ => .error "Variable is not set."

end numerical


/-! ## Fixtures of the unit tests -/

section fixtures

variable {α : Type} [CommRing α]

/-- The nodes of `test_function_addition`, in construction order:
`fa, fb, fc, fd, ab, cd, f` with `f = (a + b) + (c + d)`, `c` a Constant. -/
def additionHeap (a b c d : CPUMatrix α) : Heap α :=
  [ Function.newVariable (some a), Function.newVariable (some b),
    Function.newConstant (some c), Function.newVariable (some d),
    Function.newNode (.addition 0 1), Function.newNode (.addition 2 3),
    Function.newNode (.addition 4 5) ]

/-- The nodes of `test_function_subtract`: `fa, fb, f` with `f = a - b`. -/
def subtractHeap (a b : CPUMatrix α) : Heap α :=
  [ Function.newVariable (some a), Function.newVariable (some b),
    Function.newNode (.subtraction 0 1) ]

/-- The nodes of `test_function_product`: `fa, fb, f` with `f = a * b`. -/
def productHeap (a b : CPUMatrix α) : Heap α :=
  [ Function.newVariable (some a), Function.newVariable (some b),
    Function.newNode (.product 0 1) ]

end fixtures

/-- The matrix `mc = {1,2,3,4,5,7}` of `test_function_constant`. -/
def test_constant_mc : CPUMatrix ℤ := ⟨2, 3, [1, 2, 3, 4, 5, 7], rfl⟩

/-- The seed `md = {1,1,1,1,1,1}` of `test_function_constant`. -/
def test_constant_md : CPUMatrix ℤ := ⟨2, 3, [1, 1, 1, 1, 1, 1], rfl⟩

/-- The matrix `mc = {1,2,3,4,5,8}` of `test_function_variable`. -/
def test_variable_mc : CPUMatrix ℤ := ⟨2, 3, [1, 2, 3, 4, 5, 8], rfl⟩

/-- The matrix `ma = {1,2,3,4,5,6}` of the operator tests. -/
def test_ma : CPUMatrix ℤ := ⟨2, 3, [1, 2, 3, 4, 5, 6], rfl⟩

/-- The matrix `mb = {6,5,4,3,2,1}` of the operator tests. -/
def test_mb : CPUMatrix ℤ := ⟨2, 3, [6, 5, 4, 3, 2, 1], rfl⟩

/-- The matrix `mc = {1,2,3,1,2,3}` of `test_function_addition`. -/
def test_addition_mc : CPUMatrix ℤ := ⟨2, 3, [1, 2, 3, 1, 2, 3], rfl⟩

/-- The matrix `md = {4,5,6,6,7,8}` of `test_function_addition`. -/
def test_addition_md : CPUMatrix ℤ := ⟨2, 3, [4, 5, 6, 6, 7, 8], rfl⟩

/-- The seed `df_seed = {1,0,0,0,0,0}` of the operator tests. -/
def test_df_seed : CPUMatrix ℤ := ⟨2, 3, [1, 0, 0, 0, 0, 0], rfl⟩

/-- The matrix `ma = {1,2,3,4,5,6}` of `test_function_product`, with rational
entries so that the central difference can be taken. -/
def test_product_ma : CPUMatrix ℚ := ⟨2, 3, [1, 2, 3, 4, 5, 6], rfl⟩

/-- The matrix `mb = {7,7,8,8,9,9}` of `test_function_product`. -/
def test_product_mb : CPUMatrix ℚ := ⟨3, 2, [7, 7, 8, 8, 9, 9], rfl⟩

/-- The seed `dv = {1,0,0,0}` of `test_function_product`: one at `(0, 0)`. -/
def test_product_dv : CPUMatrix ℚ := ⟨2, 2, [1, 0, 0, 0], rfl⟩

/-- The one-hot 2×2 seed with its one at `(0, 1)`. -/
def seed_e01 : CPUMatrix ℚ := ⟨2, 2, [0, 1, 0, 0], rfl⟩

/-- The run of `test_function_product` with the seed `d` and the output
position `(fr, fc)`: `forward`, `backward(d)`, then the numerical derivatives.
Returns the buffers of `fa->derivative()`, of `dfdx(f, fr, fc, ma)`, of
`fb->derivative()` and of `dfdx(f, fr, fc, mb)`. -/
def test_function_product (d : CPUMatrix ℚ) (fr fc : Nat) :
    Except String (List ℚ × List ℚ × List ℚ × List ℚ) := do
  let (_, h1) ← forward id 2 (productHeap test_product_ma test_product_mb) 2
  let h2 ← backward id 2 h1 2 d
  let (na, h3) ← dfdxMatrix id 2 h2 2 fr fc 0
  let (nb, h4) ← dfdxMatrix id 2 h3 2 fr fc 1
  let da ← Function.derivative h4 0
  let db ← Function.derivative h4 1
  pure (da.data, na.data, db.data, nb.data)

/-! ## Fixtures of the network tests -/

/-- The example network of the comment at the head of `compiler.hh` (the
file `network-1.json` of the tests). -/
def network_1 : Json :=
  .object [("network", .object [
    ("name", .string "foo"),
    ("variables", .array [.string "x", .string "y", .string "z"]),
    ("constants", .array [.string "a", .string "b"]),
    ("imports", .object [
      ("bar", .object [("user", .string "joe19"), ("library", .string "default")])]),
    ("body", .object [
      ("e1", .array [.string "*", .string "a", .string "x"]),
      ("e2", .array [.string "**", .string "b", .string "y"]),
      ("e3", .array [.string "bar", .string "z"]),
      ("e4", .array [.string "*", .object [("e2", .number (-1))], .string "e3"]),
      ("return", .array [.string "+", .string "e1", .string "e2", .string "e3",
        .string "e4"])])])]

/-- A sub-network for the import `bar` of `network_1`, with the variables `x`
and `y` and one input (the file `network-2.json` of the tests is of this
kind). -/
def network_2 : Json :=
  .object [("network", .object [
    ("name", .string "bar"),
    ("variables", .array [.string "x", .string "y"]),
    ("constants", .array [.string "a"]),
    ("body", .object [
      ("e1", .array [.string "*", .string "a", .string "x"]),
      ("return", .array [.string "+", .string "e1", .string "y"])])])]

/-- The resolver `R` of `test_network`: every import resolves to
`network-2.json`. -/
def test_resolver : Resolver := fun _ _ _ => .ok network_2

/-- A string hash standing for `std::hash<std::string>` converted to `int`
(the standard library's function is not part of the sources): a polynomial
hash modulo 2^31. -/
def test_hash (s : String) : Int :=
  ((s.toList.foldl (fun h ch => (h * 131 + ch.toNat) % 2147483648) 7 : Nat) : Int)

/-- The network `network_1` with the operator of `e2` changed from `**` to
`*`, so that no ELEMENT record is on the tape. -/
def network_1_product : Json :=
  .object [("network", .object [
    ("name", .string "foo"),
    ("variables", .array [.string "x", .string "y", .string "z"]),
    ("constants", .array [.string "a", .string "b"]),
    ("imports", .object [
      ("bar", .object [("user", .string "joe19"), ("library", .string "default")])]),
    ("body", .object [
      ("e1", .array [.string "*", .string "a", .string "x"]),
      ("e2", .array [.string "*", .string "b", .string "y"]),
      ("e3", .array [.string "bar", .string "z"]),
      ("e4", .array [.string "*", .object [("e2", .number (-1))], .string "e3"]),
      ("return", .array [.string "+", .string "e1", .string "e2", .string "e3",
        .string "e4"])])])]

/-- A network that lists the variable `x` twice. -/
def network_twice_variable : Json :=
  .object [("network", .object [
    ("name", .string "foo"),
    ("variables", .array [.string "x", .string "x"]),
    ("body", .object [("return", .array [.string "T", .string "x"])])])]

/-- A network with `x` as a variable and as a constant, and a body expression
named `x` as well. -/
def network_shared_name : Json :=
  .object [("network", .object [
    ("name", .string "foo"),
    ("variables", .array [.string "x"]),
    ("constants", .array [.string "x"]),
    ("body", .object [
      ("x", .array [.string "T", .string "x"]),
      ("return", .array [.string "T", .string "x"])])])]

/-- The names `_names` and the tape of the Definition that a compilation
returns. -/
def compiled_names_tape (r : Except String (Nat × CompileState)) :
    Except String (List String × List Int) := do
  let (p, st) ← r
  match st.dict.deref p with
  | some d => pure (d.names, d.definition)
  | none => .error "invalid pointer"

/-- The first compilation of `network_1` by `Compiler("", "", "")` into an
empty Dictionary. -/
def compile_network_1 : Except String (Nat × CompileState) :=
  Compiler.compile test_hash test_resolver 3 ⟨"", "", ""⟩ (.ok network_1) {}

/-- The compilation of `network_1` a second time into the Dictionary that the
first compilation left. -/
def compile_network_1_again : Except String (Nat × CompileState) := do
  let (_, st) ← compile_network_1
  Compiler.compile test_hash test_resolver 3 ⟨"", "", ""⟩ (.ok network_1) st

/-- `Network::load` of a document with the resolver of the tests, then the
kinds of the nodes that `expressions()` of the root Runtime lists, and the
result of `Network::variables()`. -/
def load_and_list (json : Json) :
    Except String (List (Option (Kind ℤ)) × Except String (List (String × Nat))) := do
  let (net, _) ← (Network.load test_hash test_resolver 3 (.ok json) :
    Except String (Network ℤ × List (String × String × String)))
  let rt ← Timeline.get_runtime net.timeline 0 0
  let es ← Runtime.expressions net.timeline.heap rt
  pure (es.map (fun p => (net.timeline.heap[p]?).map (·.kind)), net.variables_of 3)

/-- The state that the first compilation of `network_1` leaves. -/
def network_1_state : CompileState :=
  match compile_network_1 with
  | .ok (_, st) => st
  | .error _ => {}

/-- A recurrent sub-network: `return` refers to `h` at time -1. -/
def network_recurrent : Json :=
  .object [("network", .object [
    ("name", .string "bar"),
    ("variables", .array [.string "w"]),
    ("constants", .array [.string "a"]),
    ("body", .object [
      ("h", .array [.string "*", .string "w", .string "a"]),
      ("return", .array [.string "+", .string "h", .object [("h", .number (-1))]])])])]

/-- A network that imports `bar` and never calls it. -/
def network_unused_import : Json :=
  .object [("network", .object [
    ("name", .string "foo"),
    ("variables", .array [.string "x"]),
    ("imports", .object [
      ("bar", .object [("user", .string "joe19"), ("library", .string "default")])]),
    ("body", .object [("return", .array [.string "T", .string "x"])])])]

/-- Of the Definition that a compilation returns: `recurrent()`, and
`recurrent()` of each Definition in its import table. -/
def compiled_recurrence (r : Except String (Nat × CompileState)) :
    Except String (Bool × List Bool) := do
  let (p, st) ← r
  match st.dict.deref p with
  | some d => pure (d.recurrent, d.import_defs.map (Definition.recurrent_at st.dict.defs))
  | none => .error "invalid pointer"

/-- The run of `test_network_load`: `load` of `network-1.json` with the resolver
of the tests, then `definition().get_name()` and `definition().recurrent()`. -/
def test_network_load : Except String (String × Bool) := do
  let (net, _) ← (Network.load test_hash test_resolver 3 (.ok network_1) :
    Except String (Network ℤ × List (String × String × String)))
  let d ← net.get_definition
  pure (d.get_name, d.recurrent)

/-- The nodes of `test_function_element`: `fa, fb, f` with `f = a & b`. -/
def elementHeap {α : Type} (a b : CPUMatrix α) : Heap α :=
  [ Function.newVariable (some a), Function.newVariable (some b),
    Function.newNode (.element 0 1) ]

/-- The nodes of `test_function_transpose`: `fa, f` with `f = a.T()`. -/
def transposeHeap {α : Type} (a : CPUMatrix α) : Heap α :=
  [ Function.newVariable (some a), Function.newNode (.transpose 0) ]

/-- The nodes of `test_function_exponent`: `fa, f` with `f = a.E()`. -/
def exponentHeap {α : Type} (a : CPUMatrix α) : Heap α :=
  [ Function.newVariable (some a), Function.newNode (.exponent 0) ]

/-- The nodes of `test_function_summation`: `fa, f` with `f` the sum of the
entries of `a`. -/
def summationHeap {α : Type} (a : CPUMatrix α) : Heap α :=
  [ Function.newVariable (some a), Function.newNode (.summation 0) ]

/-- A 1×2 matrix with the entries `x` and `y`. -/
def row2 (x y : ℤ) : CPUMatrix ℤ := ⟨1, 2, [x, y], rfl⟩

/-- An Exponent node over the Variable `a = [2, 3]`: `forward()`, then the
matrix of `a` is replaced by `[5, 7]`, then `refresh(true)` and
`backward([1, 1])`; returns `derivative()` of `a`. -/
def exponent_after_change (ex : ℤ → ℤ) : Except String (CPUMatrix ℤ) := do
  let (_, h1) ← forward ex 2 (exponentHeap (row2 2 3)) 1
  let h2 := Function.setValue h1 0 (some (row2 5 7))
  let h3 ← refresh 2 h2 1 true
  let h4 ← backward ex 2 h3 1 (row2 1 1)
  Function.derivative h4 0

/-- Whether the node is an operator node: a `UnaryOperator` or a
`BinaryOperator`. -/
def Kind.isOperator {α : Type} : Kind α → Bool
  | .exponent _ | .transpose _ | .summation _ => true
  | .addition _ _ | .subtraction _ _ | .product _ _ | .element _ _ => true
  | _ => false

/-- Every buffer the pool holds, queue by queue. -/
def Context.buffers {α : Type} (ctx : Context α) : List (CPUMatrix α) :=
  ctx.matrix_cache.flatMap (fun e => e.2)

/-- Every pooled buffer sits in the queue under the hash of its own shape. -/
def Context.Keyed {α : Type} (ctx : Context α) : Prop :=
  ∀ e ∈ ctx.matrix_cache, ∀ m ∈ e.2, Context.pair_hash m.rows m.cols = e.1

/-- The pool of `test_matrix_context`: two 2×3 buffers and one 3×2 buffer are
released into an empty pool. -/
def test_matrix_context : Context ℤ :=
  Context.put_all {} [CPUContext.create 2 3, CPUContext.create 2 3, CPUContext.create 3 2]

/-- A pool into which one buffer of 1 row and 0 columns was released. -/
def pool_one_by_zero : Context ℤ :=
  Context.put_matrix {} (CPUContext.create 1 0)

/-- The matrix `mb = {7,7,8,8,9,9}` of `test_function_element`. -/
def test_element_mb : CPUMatrix ℤ := ⟨2, 3, [7, 7, 8, 8, 9, 9], rfl⟩

/-- The matrix `ma = {7,2,3,4,5,6}` of `test_function_transpose`. -/
def test_transpose_ma : CPUMatrix ℤ := ⟨2, 3, [7, 2, 3, 4, 5, 6], rfl⟩

/-- The 3×2 seed `dv = {1,0,0,0,0,0}` of `test_function_transpose`. -/
def test_transpose_dv : CPUMatrix ℤ := ⟨3, 2, [1, 0, 0, 0, 0, 0], rfl⟩

/-- The 1×1 seed `dv = 1` of `test_function_summation`. -/
def test_summation_dv : CPUMatrix ℤ := ⟨1, 1, [1], rfl⟩

/-- `Network::load` of a document with the resolver of the tests, then
`definition().get_name()` and `input()`. -/
def load_and_input (json : Json) : Except String (String × List Nat) := do
  let (net, _) ← (Network.load test_hash test_resolver 3 (.ok json) :
    Except String (Network ℤ × List (String × String × String)))
  let d ← net.get_definition
  let i ← net.input
  pure (d.get_name, i)

/-- A network whose `return` gives three arguments to `+`. -/
def network_three_summands : Json :=
  .object [("network", .object [
    ("name", .string "foo"),
    ("variables", .array [.string "x", .string "y", .string "z"]),
    ("body", .object [
      ("return", .array [.string "+", .string "x", .string "y", .string "z"])])])]

/-- A network whose `return` gives two arguments to `T`. -/
def network_transpose_two : Json :=
  .object [("network", .object [
    ("name", .string "foo"),
    ("variables", .array [.string "x", .string "y"]),
    ("body", .object [("return", .array [.string "T", .string "x", .string "y"])])])]

/-- A network whose `return` gives one argument to `+`. -/
def network_one_summand : Json :=
  .object [("network", .object [
    ("name", .string "foo"),
    ("variables", .array [.string "x"]),
    ("body", .object [("return", .array [.string "+", .string "x"])])])]

/-- A network with a variable and an import of the same name `bar`; the key
"variables" comes before the key "imports". -/
def network_variables_first : Json :=
  .object [("network", .object [
    ("name", .string "foo"),
    ("variables", .array [.string "bar"]),
    ("imports", .object [
      ("bar", .object [("user", .string "joe19"), ("library", .string "default")])]),
    ("body", .object [("return", .array [.string "T", .string "bar"])])])]

/-- The network `network_variables_first` with the key "imports" before the
key "variables". -/
def network_imports_first : Json :=
  .object [("network", .object [
    ("name", .string "foo"),
    ("imports", .object [
      ("bar", .object [("user", .string "joe19"), ("library", .string "default")])]),
    ("variables", .array [.string "bar"]),
    ("body", .object [("return", .array [.string "T", .string "bar"])])])]

/-- A network whose `return` refers to the symbol `q`, which nothing defines. -/
def network_undefined_symbol : Json :=
  .object [("network", .object [
    ("name", .string "foo"),
    ("variables", .array [.string "x"]),
    ("body", .object [("return", .array [.string "T", .string "q"])])])]

/-- A network whose `return` calls `sigmoid`, which is neither an operator nor
an import. -/
def network_undefined_function : Json :=
  .object [("network", .object [
    ("name", .string "foo"),
    ("variables", .array [.string "x"]),
    ("body", .object [("return", .array [.string "sigmoid", .string "x"])])])]

/-- The error of a compilation, if it raised one. -/
def compile_error {β : Type} (r : Except String β) : Option String :=
  match r with
  | .error e => some e
  | .ok _ => none

/-! ## The tape, in the words of the specification -/

/-- The built-in operator that a function symbol names: `+`, `-`, `*`, `**`,
`T` and `E`. -/
def builtin_operator (fn : String) : Option OperatorType :=
  if fn = "+" then some .ADDITION
  else if fn = "-" then some .SUBTRACTION
  else if fn = "*" then some .PRODUCT
  else if fn = "**" then some .ELEMENT
  else if fn = "T" then some .TRANSPOSE
  else if fn = "E" then some .EXPONENT
  else none

/-- The type and the variant of the record of an expression that calls `fn`:
FUNCTION with the import slot when `fn` is the name of a registered import,
otherwise the built-in operator that `fn` names, with the variant -1. -/
def Definition.operator_of (d : Definition) (fn : String) : Option (OperatorType × Int) :=
  match Map.find d.import_index fn with
  | some slot => some (.FUNCTION, slot)
  | none => (builtin_operator fn).map (fun ty => (ty, -1))

/-- The number of integers a record takes on the tape: `4 + 2·ARG_COUNT`. -/
def Record.size (r : Record) : Nat := 4 + 2 * r.input.length

/-- The offset at which the record number `i` of the list starts, when the
list is written from offset 0: the sizes of the records before it. -/
def Record.start (rs : List Record) (i : Nat) : Nat := ((rs.take i).map Record.size).sum

/-- The Definitions built from `new Definition()` through the public
interface, each with the list of the records that the calls wrote, in the
order of the calls.  The record of a call carries the type and the variant
the call stands for, the id `_index.size()` at the call, the ids of the
arguments in the symbol table, and the time offsets given; its `offset` is
the offset at which the record ends. -/
inductive Written (defs : List Definition) : Definition → List Record → Prop where
  | empty : Written defs {} []
  | set_name (d : Definition) (rs : List Record) (name : String) :
      Written defs d rs → Written defs (d.set_name name) rs
  | add_import (d d1 : Definition) (rs : List Record) (name : String) (p : Nat) :
      Written defs d rs → p < defs.length → d.add_import name p = .ok d1 → Written defs d1 rs
  | add_variable (d d1 : Definition) (rs : List Record) (name : String) :
      Written defs d rs → d.add_variable name = .ok d1 →
      Written defs d1 (rs ++ [⟨d.definition.length + 4, OperatorType.VARIABLE.toInt, -1,
        (d.index.length : Int), [], []⟩])
  | add_constant (d d1 : Definition) (rs : List Record) (name : String) :
      Written defs d rs → d.add_constant name = .ok d1 →
      Written defs d1 (rs ++ [⟨d.definition.length + 4, OperatorType.CONSTANT.toInt, -1,
        (d.index.length : Int), [], []⟩])
  | add_expression (d d1 : Definition) (rs : List Record) (name function : String)
      (input : List String) (times : List Int) (ty : OperatorType) (variant : Int)
      (args : List Int) :
      Written defs d rs → d.add_expression defs name function input times = .ok d1 →
      d.operator_of function = some (ty, variant) → d.resolve_args name input = .ok args →
      Written defs d1 (rs ++ [⟨d.definition.length + 4 + args.length + args.length, ty.toInt,
        variant, (d.index.length : Int), args, times⟩])

/-- The Definition with the single variable `x`. -/
def definition_x : Definition :=
  match ({} : Definition).add_variable "x" with
  | .ok d => d
  | .error _ => {}

/-- A Definition that imports a function under the name `+`, declares the
variable `x` and adds the expression `r = ["+", "x"]`; the import is the
Definition at address 0. -/
def definition_import_plus : Except String Definition := do
  let d1 ← ({} : Definition).add_import "+" 0
  let d2 ← d1.add_variable "x"
  d2.add_expression [{}] "r" "+" ["x"] [0]

/-- A network that imports a function under the name `+` and calls `+`. -/
def network_import_plus : Json :=
  .object [("network", .object [
    ("name", .string "foo"),
    ("variables", .array [.string "x"]),
    ("imports", .object [
      ("+", .object [("user", .string "joe19"), ("library", .string "default")])]),
    ("body", .object [("return", .array [.string "+", .string "x"])])])]

/-- The Definition with the variable `x` and the expression `r = ["T", "x"]`. -/
def definition_x_transposed : Definition :=
  match definition_x.add_expression [] "r" "T" ["x"] [0] with
  | .ok d => d
  | .error _ => {}

/-- The symbol that an argument of an expression names: a string names
itself, an object `{name: t}` names its first key. -/
def Json.argument_name : Json → List String
  | .string s => [s]
  | .object ((name, _) :: _) => [name]
  | _ => []

/-- The symbols that the arguments of an expression array name: those of the
elements after the operator. -/
def Json.argument_names (elements : List Json) : List String :=
  (elements.drop 1).flatMap Json.argument_name

/-- A network whose expression `e1` refers to `e2`, which the body defines
later. -/
def network_later_symbol : Json :=
  .object [("network", .object [
    ("name", .string "foo"),
    ("variables", .array [.string "x"]),
    ("body", .object [
      ("e1", .array [.string "T", .string "e2"]),
      ("e2", .array [.string "T", .string "x"]),
      ("return", .array [.string "T", .string "e1"])])])]

/-- A network whose expression `h` refers to its own name, at time -1. -/
def network_own_name : Json :=
  .object [("network", .object [
    ("name", .string "foo"),
    ("variables", .array [.string "x"]),
    ("body", .object [
      ("h", .array [.string "+", .string "x", .object [("h", .number (-1))]]),
      ("return", .array [.string "T", .string "h"])])])]

/-- No record on the tape of the Definition refers to the future: the tape
reads as a list of records whose time offsets are all at most 0. -/
def Definition.PastTimes (d : Definition) : Prop :=
  ∃ rs, Reads d.definition 0 rs ∧ ∀ r ∈ rs, ∀ t ∈ r.times, t ≤ 0

/-- A network whose `return` refers to `x` at time 1. -/
def network_future : Json :=
  .object [("network", .object [
    ("name", .string "foo"),
    ("variables", .array [.string "x"]),
    ("body", .object [("return", .array [.string "T", .object [("x", .number 1)]])])])]

/-- A network with a name and a body only: no variables, no constants
and no imports. -/
def network_minimal : Json :=
  .object [("network", .object [
    ("name", .string "foo"),
    ("body", .object [("return", .array [.string "+"])])])]

/-- The network `network_minimal` without its "return": the body holds the
expression `e` only. -/
def network_no_return : Json :=
  .object [("network", .object [
    ("name", .string "foo"),
    ("body", .object [("e", .array [.string "+"])])])]

/-! ## Expressions: what a graph of operator nodes stands for -/

/-- The unary operator nodes. -/
inductive UnaryOp where
  | exponent | transpose | summation
deriving DecidableEq

/-- The binary operator nodes. -/
inductive BinaryOp where
  | addition | subtraction | product | element
deriving DecidableEq

/-- The operator and the input of a `UnaryOperator` node. -/
def Kind.unary {α : Type} : Kind α → Option (UnaryOp × Nat)
  | .exponent f => some (.exponent, f)
  | .transpose f => some (.transpose, f)
  | .summation f => some (.summation, f)
  | _ => none

/-- The operator and the inputs of a `BinaryOperator` node. -/
def Kind.binary {α : Type} : Kind α → Option (BinaryOp × Nat × Nat)
  | .addition l r => some (.addition, l, r)
  | .subtraction l r => some (.subtraction, l, r)
  | .product l r => some (.product, l, r)
  | .element l r => some (.element, l, r)
  | _ => none

/-- Whether the node is a `Variable` or a `Constant`. -/
def Kind.isLeaf {α : Type} : Kind α → Bool
  | .variable _ | .constant _ => true
  | _ => false

/-- An expression over matrices: a leaf holds the matrix of a Variable or a
Constant (none when no matrix is set). -/
inductive Expr (α : Type) where
  | leaf (value : Option (CPUMatrix α))
  | unary (op : UnaryOp) (e : Expr α)
  | binary (op : BinaryOp) (l r : Expr α)

section expressions

variable {α : Type} [CommRing α]

/-- `compute()` of a unary operator on the value of its input. -/
def UnaryOp.apply (ex : α → α) : UnaryOp → CPUMatrix α → CPUMatrix α
  | .exponent, a => Matrix.E ex a
  | .transpose, a => Matrix.T a
  | .summation, a => Matrix.full 1 1 (Matrix.S a)

/-- `compute()` of a binary operator on the values of its inputs. -/
def BinaryOp.apply : BinaryOp → CPUMatrix α → CPUMatrix α → Except String (CPUMatrix α)
  | .addition, a, b => Matrix.add a b
  | .subtraction, a, b => Matrix.sub a b
  | .product, a, b => Matrix.mul a b
  | .element, a, b => Matrix.and a b

/-- The value of an expression on the matrices of its leaves; the left
operand is evaluated first. -/
def Expr.eval (ex : α → α) : Expr α → Except String (CPUMatrix α)
  | .leaf (some v) => .ok v
  | .leaf none => .error "Variable is not set."
  | .unary op e => do
    let a ← e.eval ex
    pure (op.apply ex a)
  | .binary op l r => do
    let a ← l.eval ex
    let b ← r.eval ex
    op.apply a b

end expressions

/-- The node at address `p` is the root of a graph of operator nodes over
Variable and Constant leaves that stands for the expression `e`: a leaf of `e`
holds the matrix that the Variable or Constant holds now.  Nodes may be shared
between operands. -/
inductive Represents {α : Type} (h : Heap α) : Nat → Expr α → Prop where
  | leaf (p : Nat) (node : Function α) :
      h[p]? = some node → node.kind.isLeaf = true → Represents h p (.leaf node.value)
  | unary (p : Nat) (node : Function α) (op : UnaryOp) (f : Nat) (e : Expr α) :
      h[p]? = some node → node.kind.unary = some (op, f) → Represents h f e →
      Represents h p (.unary op e)
  | binary (p : Nat) (node : Function α) (op : BinaryOp) (l r : Nat) (e1 e2 : Expr α) :
      h[p]? = some node → node.kind.binary = some (op, l, r) → Represents h l e1 →
      Represents h r e2 → Represents h p (.binary op e1 e2)

/-- From `h` to `h1` only caches were invalidated: every node keeps its class
and its value, and an invalid cache stays invalid. -/
def Cleared {α : Type} (h h1 : Heap α) : Prop :=
  h1.length = h.length ∧
  ∀ (q : Nat) (node : Function α), h[q]? = some node →
    ∃ node1 : Function α, h1[q]? = some node1 ∧ node1.kind = node.kind ∧
    node1.value = node.value ∧ (node.cache = false → node1.cache = false)

/-- From `h` to `h1` only values were stored: every node keeps its class, the
leaves are unchanged, and a node that changed has a valid cache and holds the
value of the expression it stands for. -/
def Stored {α : Type} [CommRing α] (ex : α → α) (h h1 : Heap α) : Prop :=
  h1.length = h.length ∧
  ∀ (q : Nat) (node : Function α), h[q]? = some node →
    ∃ node1 : Function α, h1[q]? = some node1 ∧ node1.kind = node.kind ∧
    (node.kind.isLeaf = true → node1 = node) ∧
    (node1 = node ∨ (node1.cache = true ∧ ∃ v, node1.value = some v ∧
      ∀ e, Represents h q e → e.eval ex = .ok v))

/-- A network whose import object has the member "version" besides "user"
and "library"; the body does not call the import. -/
def network_import_version : Json :=
  .object [("network", .object [
    ("name", .string "foo"),
    ("variables", .array [.string "x"]),
    ("imports", .object [
      ("bar", .object [("user", .string "joe19"), ("library", .string "default"),
        ("version", .string "2")])]),
    ("body", .object [("return", .array [.string "T", .string "x"])])])]

/-- The state that the compilation of `network_2` (named "bar") by
`Compiler("", "", "")` into an empty Dictionary leaves. -/
def network_2_state : CompileState :=
  match Compiler.compile test_hash test_resolver 3 ⟨"", "", ""⟩ (.ok network_2) {} with
  | .ok (_, st) => st
  | .error _ => {}

/-! ## Fixtures of the Runtime claims -/

/-- A network with an ELEMENT expression `e` before `return`. -/
def network_element : Json :=
  .object [("network", .object [
    ("name", .string "foo"),
    ("variables", .array [.string "x", .string "y"]),
    ("body", .object [
      ("e", .array [.string "**", .string "x", .string "y"]),
      ("return", .array [.string "E", .string "e"])])])]

/-- A network whose body has the key "return" first and the expression `e`
after it. -/
def network_return_first : Json :=
  .object [("network", .object [
    ("name", .string "foo"),
    ("variables", .array [.string "x"]),
    ("body", .object [
      ("return", .array [.string "T", .string "x"]),
      ("e", .array [.string "E", .string "x"])])])]

/-- A network whose `return`, the last key of the body, is an ELEMENT
expression. -/
def network_element_return : Json :=
  .object [("network", .object [
    ("name", .string "foo"),
    ("variables", .array [.string "x", .string "y"]),
    ("body", .object [("return", .array [.string "**", .string "x", .string "y"])])])]

/-- A network that lists the variable `x` twice and then the variable `y`. -/
def network_xxy : Json :=
  .object [("network", .object [
    ("name", .string "foo"),
    ("variables", .array [.string "x", .string "x", .string "y"]),
    ("body", .object [("return", .array [.string "T", .string "y"])])])]

/-- `Network::load` of a document with the resolver of the tests, then of the
root Runtime: the kinds of the nodes that `expressions()` lists and the kind
of the main node. -/
def load_root (json : Json) : Except String (List (Option (Kind ℤ)) × Option (Kind ℤ)) := do
  let (net, _) ← (Network.load test_hash test_resolver 3 (.ok json) :
    Except String (Network ℤ × List (String × String × String)))
  let rt ← Timeline.get_runtime net.timeline 0 0
  let kind := fun (p : Nat) => (net.timeline.heap[p]?).map (·.kind)
  match net.timeline.heap[rt]? with
  | some ⟨_, _, .runtime es _ _ main⟩ => pure (es.map kind, main.bind kind)
  | _ => .error "not a Runtime"

/-- `Network::load` of a document, then the addresses that `expressions()`,
`variables()` and `constants()` of the root Runtime list. -/
def load_root_lists (json : Json) : Except String (List Nat × List Nat × List Nat) := do
  let (net, _) ← (Network.load test_hash test_resolver 3 (.ok json) :
    Except String (Network ℤ × List (String × String × String)))
  let rt ← Timeline.get_runtime net.timeline 0 0
  match net.timeline.heap[rt]? with
  | some ⟨_, _, .runtime es vs cs _⟩ => pure (es, vs, cs)
  | _ => .error "not a Runtime"

/-- `Network::load` of a document, then the main node of the root Runtime and
the node that `expressions()` lists for the id of the symbol "return". -/
def load_main_return (json : Json) : Except String (Option Nat × Option Nat) := do
  let (net, _) ← (Network.load test_hash test_resolver 3 (.ok json) :
    Except String (Network ℤ × List (String × String × String)))
  let d ← net.get_definition
  let rt ← Timeline.get_runtime net.timeline 0 0
  match net.timeline.heap[rt]?, Map.find d.index "return" with
  | some ⟨_, _, .runtime es _ _ main⟩, some id => pure (main, es[id.toNat]?)
  | _, _ => .error "not a Runtime"

/-- `Network::load` of a document, `set` of the matrix `x` on the first
Variable of the root Runtime, then `forward()` of the root Runtime: the buffer
of the value. -/
def load_forward (json : Json) (x : CPUMatrix ℤ) : Except String (Nat × Nat × List ℤ) := do
  let (net, _) ← (Network.load test_hash test_resolver 3 (.ok json) :
    Except String (Network ℤ × List (String × String × String)))
  let rt ← Timeline.get_runtime net.timeline 0 0
  let vars ← Runtime.variables_of net.timeline.heap rt
  let px ← Timeline.elem vars 0
  let (v, _) ← forward (fun a => 2 * a) 4 (Function.setValue net.timeline.heap px (some x)) rt
  pure (v.rows, v.cols, v.data)

/-- The id and the argument ids of every record of the Definition that a
compilation returns, in tape order. -/
def compiled_ids_args (r : Except String (Nat × CompileState)) :
    Except String (List (Int × List Int)) := do
  let (p, st) ← r
  match st.dict.deref p with
  | some d => do
    let rs ← d.records
    pure (rs.map (fun r => (r.id, r.input)))
  | none => .error "invalid pointer"

/-- The Definition built by `add_variable("x")`, `add_variable("x")` and
`add_expression("r", "T", ["x"], [0])`. -/
def definition_x_twice : Except String Definition := do
  let d1 ← ({} : Definition).add_variable "x"
  let d2 ← d1.add_variable "x"
  d2.add_expression [] "r" "T" ["x"] [0]

/-- Of the Definition that a compilation returns: the names, the ids of the
records in tape order, `variables()` and `constants()`. -/
def compiled_ids (r : Except String (Nat × CompileState)) :
    Except String (List String × List Int × List Int × List Int) := do
  let (p, st) ← r
  match st.dict.deref p with
  | some d => do
    let rs ← d.records
    pure (d.names, rs.map (·.id), d.vars, d.consts)
  | none => .error "invalid pointer"

/-- The compilation of a document by `Compiler("", "", "")` into an empty
Dictionary, then `add_runtime(0, …)` and `add_runtime(t, …)` on an empty
Timeline: `variables()` of every Runtime of the frame 0 and of the frame `t`. -/
def frame_variables (json : Json) (t : Nat) :
    Except String (List (List Nat) × List (List Nat)) := do
  let (p, st) ← Compiler.compile test_hash test_resolver 3 ⟨"", "", ""⟩ (.ok json) {}
  let (_, tl0) ← (Timeline.add_runtime st.dict.defs 3 0 p [] {} :
    Except String (Nat × Timeline ℤ))
  let (_, tl1) ← Timeline.add_runtime st.dict.defs 3 t p [] tl0
  let frame0 ← Timeline.elem tl1.timeline 0
  let frame1 ← Timeline.elem tl1.timeline t
  let vars0 ← frame0.mapM (Runtime.variables_of tl1.heap)
  let vars1 ← frame1.mapM (Runtime.variables_of tl1.heap)
  pure (vars0, vars1)

/-- A 2×3 matrix. -/
def shape_l : CPUMatrix ℤ := ⟨2, 3, [1, 2, 3, 4, 5, 6], rfl⟩

/-- A 3×4 matrix. -/
def shape_r : CPUMatrix ℤ := ⟨3, 4, [1, 0, 0, 0, 0, 1, 0, 0, 0, 0, 1, 0], rfl⟩

/-- A seed of the shape 2×4 of the product of `shape_l` and `shape_r`. -/
def shape_d : CPUMatrix ℤ := ⟨2, 4, [1, 0, 0, 0, 0, 0, 0, 0], rfl⟩

/-- The timeline that `Network::load` of the example network leaves. -/
def network_1_timeline : Except String (Timeline ℤ) :=
  (Network.load test_hash test_resolver 3 (.ok network_1) :
    Except String (Network ℤ × List (String × String × String))).map (fun r => r.1.timeline)

/-- `Network::load` of the example network, then `set` of the matrices `x`
and `y` on the first two Variables and of `a` and `b` on the two Constants of
the root Runtime (the third Variable `z`, the input of `e3`, and the Variables
of the imported function stay without a value), then `forward()` of the
Runtime at position `i` of the frame 0: the root Runtime for 0, the Runtime of
the imported function `e3` for 1. -/
def network_1_forward (i : Nat) (x y a b : CPUMatrix ℤ) : Except String (CPUMatrix ℤ) := do
  let tl ← network_1_timeline
  let rt ← Timeline.get_runtime tl 0 0
  let vars ← Runtime.variables_of tl.heap rt
  let consts ← Runtime.constants tl.heap rt
  let px ← Timeline.elem vars 0
  let py ← Timeline.elem vars 1
  let pa ← Timeline.elem consts 0
  let pb ← Timeline.elem consts 1
  let h := Function.setValue (Function.setValue (Function.setValue (Function.setValue
    tl.heap px (some x)) py (some y)) pa (some a)) pb (some b)
  let f ← Timeline.get_runtime tl 0 i
  let (v, _) ← forward id 4 h f
  pure v

/-- The Definition with the variables `x`, `y`, `z` and the expression
`return = ["+", "x", "y", "z"]`. -/
def tape_three_summands : Definition :=
  match (do
    let d1 ← ({} : Definition).add_variable "x"
    let d2 ← d1.add_variable "y"
    let d3 ← d2.add_variable "z"
    d3.add_expression [] "return" "+" ["x", "y", "z"] [0, 0, 0]) with
  | .ok d => d
  | .error _ => {}

/-- The Timeline in which the Runtime at address 0, the only one of the frame
0, lists three Variables. -/
def three_variables_timeline : Timeline ℤ :=
  { heap := [Function.newNode (.runtime [1, 2, 3] [1, 2, 3] [] none),
      Function.newVariable none, Function.newVariable none, Function.newVariable none],
    timeline := [[0]],
    expressions := [0, 1, 2, 3] }

/-- A network named `+`. -/
def network_named_plus : Json :=
  .object [("network", .object [
    ("name", .string "+"),
    ("variables", .array [.string "x"]),
    ("body", .object [("return", .array [.string "T", .string "x"])])])]

/-- The state that the compilation of `network_named_plus` by
`Compiler("", "", "")` into an empty Dictionary leaves. -/
def network_named_plus_state : CompileState :=
  match Compiler.compile test_hash test_resolver 3 ⟨"", "", ""⟩ (.ok network_named_plus) {} with
  | .ok (_, st) => st
  | .error _ => {}

/-! ## Instantiation, frame after frame -/

/-- The tape reads as a list of records, each with an id that is at most its
position, with arguments that are ids below its position, and with time
offsets that are at most 0; the symbol table has at most one entry per record
and its values are below the number of records. -/
def Definition.Tape (d : Definition) : Prop :=
  ∃ rs, Reads d.definition 0 rs ∧ d.index.length ≤ rs.length ∧
    (∀ k v, Map.find d.index k = some v → 0 ≤ v ∧ v < (rs.length : Int)) ∧
    ∀ (i : Nat) (r : Record), rs[i]? = some r →
      (0 ≤ r.id ∧ r.id ≤ (i : Int)) ∧ (∀ a ∈ r.input, 0 ≤ a ∧ a < (i : Int)) ∧
        ∀ t ∈ r.times, t ≤ 0

/-- The Definitions that the FUNCTION records of the list `rs` call, in the
order of the records: the pointers in their import slots. -/
def Definition.calls (d : Definition) (rs : List Record) : List Nat :=
  rs.flatMap (fun r =>
    match OperatorType.ofInt r.type, d.get_import r.variant with
    | some .FUNCTION, .ok p => [p]
    | _, _ => [])

namespace Timeline

variable {α : Type}

/-- The node at the address `rt` is a Runtime that lists at least `n`
expressions. -/
def IsRuntime (h : Heap α) (rt n : Nat) : Prop :=
  ∃ c v es vs cs m, h[rt]? = some ⟨c, v, .runtime es vs cs m⟩ ∧ n ≤ es.length

/-- Every Runtime of the heap `h` is a Runtime of the heap `h1` that lists no
fewer expressions. -/
def Grows (h h1 : Heap α) : Prop := ∀ rt n, IsRuntime h rt n → IsRuntime h1 rt n

/-- The Runtimes that `add_runtime` creates for the Definition at `p`, in the
order in which they enter the frame: for each one the number of records of its
Definition.  The Runtime of the Definition comes first, then those of the
functions that its FUNCTION records call, each with the Runtimes below it. -/
def need (defs : List Definition) : Nat → Nat → List Nat
  | 0, _ => []
  | fuel + 1, p =>
    match defs[p]? with
    | none => []
    | some d =>
      match d.records with
      | .ok rs => rs.length :: (d.calls rs).flatMap (need defs fuel)
      | .error _ => []

/-- From the position `off` on, the frame lists Runtimes with at least the
numbers of expressions that `ns` gives. -/
def Shaped (h : Heap α) (frame : List Nat) (off : Nat) (ns : List Nat) : Prop :=
  ∀ (j n : Nat), ns[j]? = some n → ∃ rt, frame[off + j]? = some rt ∧ IsRuntime h rt n

/-- The frame `time` that `add_runtime(time, …)` starts from: the one of the
timeline, or an empty one that it appends. -/
def frame_of (tl : Timeline α) (time : Nat) : List Nat :=
  ((extend tl.timeline time)[time]?).getD []

/-- What `add_runtime(time, …)` for the Definition at `p` leaves of the
Timeline `tl`: the Runtimes that existed are Runtimes with no fewer
expressions, the other frames are as they were, and the frame `time` has
gained the Runtimes that `need` lists. -/
structure Instantiated (defs : List Definition) (fuel p time : Nat) (tl tl1 : Timeline α) :
    Prop where
  grows : Grows tl.heap tl1.heap
  others : ∀ f, f ≠ time → tl1.timeline[f]? = (extend tl.timeline time)[f]?
  frame : ∃ new, tl1.timeline[time]? = some (frame_of tl time ++ new) ∧
    new.length = (need defs fuel p).length ∧
    Shaped tl1.heap (frame_of tl time ++ new) (frame_of tl time).length (need defs fuel p)

/-- The frames before `time` hold, from the position at which
`add_runtime(time, …)` puts its Runtime, the Runtimes that `need` lists for the
Definition at `p`. -/
def Prepared (defs : List Definition) (fuel p time : Nat) (tl : Timeline α) : Prop :=
  ∀ f, f < time → ∃ frame, tl.timeline[f]? = some frame ∧
    Shaped tl.heap frame (frame_of tl time).length (need defs fuel p)

/-- The calls `add_runtime(0, …)`, …, `add_runtime(n - 1, …)` for the
Definition at `p`, with no inputs, on an empty Timeline. -/
def instantiate (defs : List Definition) (fuel p : Nat) : Nat → Except String (Timeline α)
  | 0 => .ok {}
  | n + 1 => do
    let tl ← instantiate defs fuel p n
    let (_, tl1) ← add_runtime defs fuel n p [] tl
    pure tl1

end Timeline

namespace Timeline

variable {α : Type}

/-- What an argument `(arg, t)` of a record is resolved to, in the words of
the specification, for the Runtime at `rt`, at the position `rt_index` of the
frame `time`: the node `f` is `R.expressions[arg]` when `t = 0`; it is
`timeline[time + t][rt_index].expressions[arg]` when `t` is not 0 and
`time + t ≥ 0`; and it is a new ZeroFeed node over `R.expressions[arg]` when
`time + t < 0`.  `tl` is the Timeline before the record is resolved and `tl1`
the one after. -/
def Resolved (time rt rt_index : Nat) (tl tl1 : Timeline α) (arg t : Int) (f : Nat) : Prop :=
  (t = 0 → ∃ es, Runtime.expressions tl.heap rt = .ok es ∧ elem es arg = .ok f) ∧
  (t ≠ 0 → 0 ≤ (time : Int) + t →
    ∃ frame prt es, elem tl.timeline ((time : Int) + t) = .ok frame ∧
      elem frame (rt_index : Int) = .ok prt ∧ Runtime.expressions tl.heap prt = .ok es ∧
      elem es arg = .ok f) ∧
  (t ≠ 0 → (time : Int) + t < 0 →
    ∃ es dlg, Runtime.expressions tl.heap rt = .ok es ∧ elem es arg = .ok dlg ∧
      tl1.heap[f]? = some (Function.newNode (.zeroFeed dlg)) ∧ tl.heap.length ≤ f)

end Timeline

namespace Timeline

variable {α : Type}

/-- The state of the record loop of `add_runtime(time, …)` before it reads the
record `i` of the tape `rs` of `d`, for the Runtime at `rt` that entered the
frame after the Runtimes `frame0`: the Runtime lists at least `i` expressions,
the frame holds after it the Runtimes of the functions called so far, the
other frames are those of `frames0`, and the Runtimes of the heap `h0` at the
start are still Runtimes. -/
structure Looping (defs : List Definition) (fuel : Nat) (d : Definition) (rs : List Record)
    (time rt : Nat) (frame0 : List Nat) (h0 : Heap α) (frames0 : List (List Nat)) (i : Nat)
    (tl : Timeline α) : Prop where
  runtime : IsRuntime tl.heap rt i
  frame : ∃ kids, tl.timeline[time]? = some (frame0 ++ rt :: kids) ∧
    kids.length = ((d.calls (rs.take i)).flatMap (need defs fuel)).length ∧
    Shaped tl.heap (frame0 ++ rt :: kids) (frame0.length + 1)
      ((d.calls (rs.take i)).flatMap (need defs fuel))
  others : ∀ f, f ≠ time → tl.timeline[f]? = frames0[f]?
  grows : Grows h0 tl.heap

end Timeline

/-- The Timeline after `add_runtime(0, …)` for the example network, compiled
by `Compiler("", "", "")` into an empty Dictionary (its Definition is at the
address 1, the one of its import at 0). -/
def network_1_frame_0 : Timeline ℤ :=
  match Timeline.instantiate network_1_state.dict.defs 3 1 1 with
  | .ok tl => tl
  | .error _ => {}

/-- The matrix `Matrix(ctx, 0, 4294967296)`: no row and 2^32 columns, so its
buffer holds no scalar. -/
def wide_matrix : CPUMatrix ℤ :=
  CPUContext.create 0 4294967296

/-- The matrix `Matrix(ctx, 4294967296, 0)`: 2^32 rows and no column. -/
def tall_matrix : CPUMatrix ℤ :=
  CPUContext.create 4294967296 0
/-! # Theorems -/

/-! ## Matrices -/

section matrix_lemmas

variable {α : Type}

theorem CPUMatrix.eq_of {a b : CPUMatrix α} (hr : a.rows = b.rows) (hc : a.cols = b.cols)
    (hd : a.data = b.data) : a = b := by
  cases a; cases b; simp_all

theorem zipWith_replicate_zero_add [AddMonoid α] (l : List α) (n : Nat) (h : l.length = n) :
    List.zipWith (· + ·) (List.replicate n (0 : α)) l = l := by
  subst h
  induction l with
  | nil => rfl
  | cons x xs ih => simp [List.replicate_succ, ih]

theorem zipWith_add_assoc [AddSemigroup α] (a b c : List α) :
    List.zipWith (· + ·) (List.zipWith (· + ·) a b) c
      = List.zipWith (· + ·) a (List.zipWith (· + ·) b c) := by
  induction a generalizing b c with
  | nil => simp
  | cons x xs ih =>
    cases b with
    | nil => simp
    | cons y ys =>
      cases c with
      | nil => simp
      | cons z zs => simp [ih, add_assoc]

theorem Matrix.zero_add [CommRing α] (d : CPUMatrix α) :
    Matrix.add (Matrix.full d.rows d.cols 0) d = .ok d := by
  unfold Matrix.add CPUContext.add
  simp only [Matrix.full, CPUContext.set, CPUContext.create, and_self, dite_true]
  congr 1
  exact CPUMatrix.eq_of rfl rfl (zipWith_replicate_zero_add d.data _ d.size_eq)

theorem Matrix.toInt_of_lt {n : Nat} (h : n < 2147483648) : Matrix.toInt n = (n : Int) := by
  unfold Matrix.toInt
  have hm : n % 4294967296 = n := Nat.mod_eq_of_lt (by omega)
  simp [hm, h]

/-- For a matrix with fewer than 2^31 rows and columns, `rows()` and `cols()`
return its sides, and `Matrix(ctx, a.rows(), a.cols())` has the shape of `a`. -/
theorem Matrix.sized_of_lt [Zero α] (a : CPUMatrix α) (v : α) (hr : a.rows < 2147483648)
    (hc : a.cols < 2147483648) :
    Matrix.sized (Matrix.rows a) (Matrix.cols a) v = .ok (Matrix.full a.rows a.cols v) := by
  simp [Matrix.sized, Matrix.rows, Matrix.cols, Matrix.toInt_of_lt hr, Matrix.toInt_of_lt hc]

theorem Matrix.add_ok [Add α] (a b : CPUMatrix α) (hr : a.rows = b.rows) (hc : a.cols = b.cols) :
    ∃ s, Matrix.add a b = .ok s ∧ s.rows = a.rows ∧ s.cols = a.cols ∧
      s.data = List.zipWith (· + ·) a.data b.data := by
  unfold Matrix.add CPUContext.add
  simp [hr, hc]

theorem Matrix.sub_ok [Sub α] (a b : CPUMatrix α) (hr : a.rows = b.rows) (hc : a.cols = b.cols) :
    ∃ s, Matrix.sub a b = .ok s ∧ s.rows = a.rows ∧ s.cols = a.cols ∧
      s.data = List.zipWith (· - ·) a.data b.data := by
  unfold Matrix.sub CPUContext.sub
  simp [hr, hc]

theorem Heap.lt_of_getElem? {β : Type} {h : List β} {p : Nat} {x : β} (hp : h[p]? = some x) :
    p < h.length := by
  rcases Nat.lt_or_ge p h.length with hl | hl
  · exact hl
  · rw [List.getElem?_eq_none hl] at hp; cases hp

end matrix_lemmas

/-! ## Leaves: `Variable` and `Constant` -/

section leaves

variable {α : Type} [CommRing α]

/-- A Variable accumulates seeds that have fewer than 2^31 rows and columns.
For a Variable in any state of its gradient buffer (`g` absent, or present with
the shape of the seeds), and such seeds `d1`, `d2` of one shape with sum `s`:
`backward(d1)` followed by `backward(d2)` leaves the node exactly as a single
`backward(s)` does; on a fresh Variable that leaves `derivative() == s`, and a
single `backward(d1)` leaves `derivative() == d1`. -/
theorem Variable_backward_accumulates (ex : α → α) (fuel : Nat) (h : Heap α) (p : Nat)
    (c : Bool) (v g : Option (CPUMatrix α)) (d1 d2 : CPUMatrix α)
    (hp : h[p]? = some ⟨c, v, .variable g⟩)
    (hg : ∀ m, g = some m → m.rows = d1.rows ∧ m.cols = d1.cols)
    (hr : d1.rows = d2.rows) (hc : d1.cols = d2.cols)
    (hlr : d1.rows < 2147483648) (hlc : d1.cols < 2147483648) :
    ∃ s, Matrix.add d1 d2 = .ok s ∧ s.rows = d1.rows ∧ s.cols = d1.cols ∧
      s.data = List.zipWith (· + ·) d1.data d2.data ∧
      (∃ h2, backward ex (fuel + 1) h p s = .ok h2 ∧
        (backward ex (fuel + 1) h p d1 >>= fun h1 => backward ex (fuel + 1) h1 p d2) = .ok h2 ∧
        (g = none → Function.derivative h2 p = .ok s)) ∧
      (g = none →
        (backward ex (fuel + 1) h p d1 >>= fun h1 => Function.derivative h1 p) = .ok d1) := by
  obtain ⟨s, hs, hsr, hsc, hsd⟩ := Matrix.add_ok d1 d2 hr hc
  have hlt : p < h.length := Heap.lt_of_getElem? hp
  have hs0 : Matrix.add (Matrix.full s.rows s.cols 0) s = .ok s := Matrix.zero_add s
  have hd0 : Matrix.add (Matrix.full d1.rows d1.cols 0) d1 = .ok d1 := Matrix.zero_add d1
  have hzs := Matrix.sized_of_lt s (0 : α) (by omega) (by omega)
  have hzd := Matrix.sized_of_lt d1 (0 : α) hlr hlc
  refine ⟨s, hs, hsr, hsc, hsd, ?_, ?_⟩
  · cases g with
    | none =>
      simp [backward, hp, hzs, hzd, hs0, hd0, bind, Except.bind, pure, Except.pure, hlt, hs,
        Function.derivative]
    | some m =>
      obtain ⟨hmr, hmc⟩ := hg m rfl
      obtain ⟨s1, hs1, hs1r, hs1c, hs1d⟩ := Matrix.add_ok m d1 hmr hmc
      obtain ⟨s2, hs2, hs2r, hs2c, hs2d⟩ :=
        Matrix.add_ok s1 d2 (hs1r.trans (hmr.trans hr)) (hs1c.trans (hmc.trans hc))
      obtain ⟨s3, hs3, hs3r, hs3c, hs3d⟩ :=
        Matrix.add_ok m s (hmr.trans hsr.symm) (hmc.trans hsc.symm)
      have he : s2 = s3 :=
        CPUMatrix.eq_of (by omega) (by omega) (by
          rw [hs2d, hs3d, hs1d, hsd, zipWith_add_assoc])
      subst he
      simp [backward, hp, bind, Except.bind, pure, Except.pure, hlt, hs1, hs2, hs3]
  · intro hn
    subst hn
    simp [backward, hp, hzd, hd0, bind, Except.bind, pure, Except.pure, hlt,
      Function.derivative]

end leaves

section constant

variable {α : Type} [CommRing α]

end constant

section constant_claim

variable {α : Type} [CommRing α]

end constant_claim

section operators

variable {α : Type} [CommRing α]

/-- For `f = (a + b) + (c + d)` over fresh Variables `a`, `b`, `d` and a
fresh Constant `c`, all of one shape with fewer than 2^31 rows and columns, and
a seed `s` of that shape: `f.forward()` is the elementwise sum, and
`f.backward(s)` leaves `s` as the derivative of `a`, `b` and `d` and the zero
matrix as the derivative of `c`. -/
theorem Addition_forward_backward (ex : α → α) (fuel : Nat) (a b c d s : CPUMatrix α)
    (hb : b.rows = a.rows ∧ b.cols = a.cols) (hc : c.rows = a.rows ∧ c.cols = a.cols)
    (hd : d.rows = a.rows ∧ d.cols = a.cols) (hs : s.rows = a.rows ∧ s.cols = a.cols)
    (hl : a.rows < 2147483648 ∧ a.cols < 2147483648) :
    ∃ v h1, forward ex (fuel + 3) (additionHeap a b c d) 6 = .ok (v, h1) ∧
      v.rows = a.rows ∧ v.cols = a.cols ∧
      v.data = List.zipWith (· + ·) (List.zipWith (· + ·) a.data b.data)
        (List.zipWith (· + ·) c.data d.data) ∧
      ∃ h2, backward ex (fuel + 3) h1 6 s = .ok h2 ∧
        Function.derivative h2 0 = .ok s ∧ Function.derivative h2 1 = .ok s ∧
        Function.derivative h2 3 = .ok s ∧
        Function.derivative h2 2 = .ok (Matrix.full a.rows a.cols 0) := by
  obtain ⟨ab, hab, habr, habc, habd⟩ := Matrix.add_ok a b hb.1.symm hb.2.symm
  obtain ⟨cd, hcd, hcdr, hcdc, hcdd⟩ :=
    Matrix.add_ok c d (hc.1.trans hd.1.symm) (hc.2.trans hd.2.symm)
  obtain ⟨v, hv, hvr, hvc, hvd⟩ :=
    Matrix.add_ok ab cd (by omega) (by omega)
  have hs0 : Matrix.add (Matrix.full a.rows a.cols 0) s = .ok s := by
    rw [← hs.1, ← hs.2]; exact Matrix.zero_add s
  have hz : Matrix.sized (Matrix.rows s) (Matrix.cols s) (0 : α)
      = .ok (Matrix.full a.rows a.cols 0) := by
    rw [← hs.1, ← hs.2]; exact Matrix.sized_of_lt s 0 (by omega) (by omega)
  refine ⟨v, [ Function.newVariable (some a), Function.newVariable (some b),
      Function.newConstant (some c), Function.newVariable (some d),
      ⟨true, some ab, .addition 0 1⟩, ⟨true, some cd, .addition 2 3⟩,
      ⟨true, some v, .addition 4 5⟩ ], ?_, by omega, by omega, by rw [hvd, habd, hcdd], ?_⟩
  · simp [forward, additionHeap, Function.newVariable, Function.newConstant,
      Function.newNode, bind, Except.bind, pure, Except.pure, hab, hcd, hv]
  · simp [backward, Function.newVariable, Function.newConstant, bind, Except.bind, pure,
      Except.pure, hz, hs0, Function.derivative]

/-- For `f = l - r` over fresh Variables of one shape with fewer than 2^31
rows and columns and a seed `d` of that shape: `f.forward()` is the elementwise
difference, and `f.backward(d)` leaves `d` as the derivative of `l` and `-d`
(every entry of `d` negated) as the derivative of `r`. -/
theorem Subtraction_forward_backward (ex : α → α) (fuel : Nat) (l r d : CPUMatrix α)
    (hr : r.rows = l.rows ∧ r.cols = l.cols) (hd : d.rows = l.rows ∧ d.cols = l.cols)
    (hl : l.rows < 2147483648 ∧ l.cols < 2147483648) :
    ∃ v h1, forward ex (fuel + 2) (subtractHeap l r) 2 = .ok (v, h1) ∧
      v.rows = l.rows ∧ v.cols = l.cols ∧
      v.data = List.zipWith (· - ·) l.data r.data ∧
      ∃ h2 g, backward ex (fuel + 2) h1 2 d = .ok h2 ∧
        Function.derivative h2 0 = .ok d ∧ Function.derivative h2 1 = .ok g ∧
        g.rows = d.rows ∧ g.cols = d.cols ∧ g.data = d.data.map (fun x => -x) := by
  obtain ⟨v, hv, hvr, hvc, hvd⟩ := Matrix.sub_ok l r hr.1.symm hr.2.symm
  have hd0 : Matrix.add (Matrix.full l.rows l.cols 0) d = .ok d := by
    rw [← hd.1, ← hd.2]; exact Matrix.zero_add d
  have hn0 := Matrix.zero_add (Matrix.smul d (-1))
  have hz : Matrix.sized (Matrix.rows d) (Matrix.cols d) (0 : α)
      = .ok (Matrix.full l.rows l.cols 0) := by
    rw [← hd.1, ← hd.2]; exact Matrix.sized_of_lt d 0 (by omega) (by omega)
  have hzn := Matrix.sized_of_lt (Matrix.smul d (-1)) (0 : α)
    (by simp only [Matrix.smul, CPUContext.mul]; omega)
    (by simp only [Matrix.smul, CPUContext.mul]; omega)
  refine ⟨v, [ Function.newVariable (some l), Function.newVariable (some r),
      ⟨true, some v, .subtraction 0 1⟩ ], ?_, hvr, hvc, hvd, ?_⟩
  · simp [forward, subtractHeap, Function.newVariable, Function.newNode, bind, Except.bind,
      pure, Except.pure, hv]
  · refine ⟨[ ⟨false, some l, .variable (some d)⟩,
        ⟨false, some r, .variable (some (Matrix.smul d (-1)))⟩,
        ⟨true, some v, .subtraction 0 1⟩ ], Matrix.smul d (-1), ?_, ?_, ?_, rfl, rfl, ?_⟩
    · simp [backward, Function.newVariable, bind, Except.bind, pure, Except.pure, hd0,
        hz, hzn, hn0]
    · simp [Function.derivative]
    · simp [Function.derivative]
    · simp [Matrix.smul, CPUContext.mul]

end operators

/-! ## Closed instances on the matrices of the unit tests -/

/-- The Variable of `test_function_variable`, with the seed `md` given twice. -/
theorem Variable_backward_accumulates_witness :
    (([Function.newVariable (some test_variable_mc)] : Heap ℤ)[0]?
        = some ⟨false, some test_variable_mc, .variable none⟩) ∧
    (test_constant_md.rows = test_constant_md.rows ∧
      test_constant_md.cols = test_constant_md.cols) ∧
    (test_constant_md.rows < 2147483648 ∧ test_constant_md.cols < 2147483648) ∧
    ∃ s, Matrix.add test_constant_md test_constant_md = .ok s ∧
      s.rows = test_constant_md.rows ∧ s.cols = test_constant_md.cols ∧
      s.data = List.zipWith (· + ·) test_constant_md.data test_constant_md.data ∧
      (∃ h2, backward id 1 [Function.newVariable (some test_variable_mc)] 0 s = .ok h2 ∧
        (backward id 1 [Function.newVariable (some test_variable_mc)] 0 test_constant_md
          >>= fun h1 => backward id 1 h1 0 test_constant_md) = .ok h2 ∧
        ((none : Option (CPUMatrix ℤ)) = none → Function.derivative h2 0 = .ok s)) ∧
      ((none : Option (CPUMatrix ℤ)) = none →
        (backward id 1 [Function.newVariable (some test_variable_mc)] 0 test_constant_md
          >>= fun h1 => Function.derivative h1 0) = .ok test_constant_md) :=
  ⟨rfl, ⟨rfl, rfl⟩, ⟨by decide, by decide⟩,
    Variable_backward_accumulates id 0 _ 0 false (some test_variable_mc) none
      test_constant_md test_constant_md rfl (by simp) rfl rfl (by decide) (by decide)⟩

/-- The graph and the seed of `test_function_addition`. -/
theorem Addition_forward_backward_witness :
    (test_mb.rows = test_ma.rows ∧ test_mb.cols = test_ma.cols) ∧
    (test_addition_mc.rows = test_ma.rows ∧ test_addition_mc.cols = test_ma.cols) ∧
    (test_addition_md.rows = test_ma.rows ∧ test_addition_md.cols = test_ma.cols) ∧
    (test_df_seed.rows = test_ma.rows ∧ test_df_seed.cols = test_ma.cols) ∧
    (test_ma.rows < 2147483648 ∧ test_ma.cols < 2147483648) ∧
    ∃ v h1, forward id 3
        (additionHeap test_ma test_mb test_addition_mc test_addition_md) 6 = .ok (v, h1) ∧
      v.rows = test_ma.rows ∧ v.cols = test_ma.cols ∧
      v.data = List.zipWith (· + ·) (List.zipWith (· + ·) test_ma.data test_mb.data)
        (List.zipWith (· + ·) test_addition_mc.data test_addition_md.data) ∧
      ∃ h2, backward id 3 h1 6 test_df_seed = .ok h2 ∧
        Function.derivative h2 0 = .ok test_df_seed ∧
        Function.derivative h2 1 = .ok test_df_seed ∧
        Function.derivative h2 3 = .ok test_df_seed ∧
        Function.derivative h2 2 = .ok (Matrix.full test_ma.rows test_ma.cols 0) :=
  ⟨⟨rfl, rfl⟩, ⟨rfl, rfl⟩, ⟨rfl, rfl⟩, ⟨rfl, rfl⟩, ⟨by decide, by decide⟩,
    Addition_forward_backward id 0 test_ma test_mb test_addition_mc
      test_addition_md test_df_seed ⟨rfl, rfl⟩ ⟨rfl, rfl⟩ ⟨rfl, rfl⟩ ⟨rfl, rfl⟩
      ⟨by decide, by decide⟩⟩

/-- The graph and the seed of `test_function_subtract`. -/
theorem Subtraction_forward_backward_witness :
    (test_mb.rows = test_ma.rows ∧ test_mb.cols = test_ma.cols) ∧
    (test_df_seed.rows = test_ma.rows ∧ test_df_seed.cols = test_ma.cols) ∧
    (test_ma.rows < 2147483648 ∧ test_ma.cols < 2147483648) ∧
    ∃ v h1, forward id 2 (subtractHeap test_ma test_mb) 2 = .ok (v, h1) ∧
      v.rows = test_ma.rows ∧ v.cols = test_ma.cols ∧
      v.data = List.zipWith (· - ·) test_ma.data test_mb.data ∧
      ∃ h2 g, backward id 2 h1 2 test_df_seed = .ok h2 ∧
        Function.derivative h2 0 = .ok test_df_seed ∧ Function.derivative h2 1 = .ok g ∧
        g.rows = test_df_seed.rows ∧ g.cols = test_df_seed.cols ∧
        g.data = test_df_seed.data.map (fun x => -x) :=
  ⟨⟨rfl, rfl⟩, ⟨rfl, rfl⟩, ⟨by decide, by decide⟩,
    Subtraction_forward_backward id 0 test_ma test_mb test_df_seed
      ⟨rfl, rfl⟩ ⟨rfl, rfl⟩ ⟨by decide, by decide⟩⟩

/-- C1 fails on the code. In `test_function_product` (a = [[1,2,3],[4,5,6]],
b = [[7,7],[8,8],[9,9]]) with the one-hot seed at `(0, 1)`, `Product::backward`
leaves a.derivative = [[0,0,0],[7,8,9]] and b.derivative = [[4,0],[5,0],[6,0]],
while the partial derivatives of `f(0,1)`, which the central difference gives
exactly, are [[7,8,9],[0,0,0]] and [[0,1],[0,2],[0,3]].  With the seed at
`(0, 0)` of the test the two agree. -/
theorem Product_backward_transposes_seed :
    test_function_product seed_e01 0 1
      = .ok ([0, 0, 0, 7, 8, 9], [7, 8, 9, 0, 0, 0], [4, 0, 5, 0, 6, 0], [0, 1, 0, 2, 0, 3]) ∧
    test_function_product test_product_dv 0 0
      = .ok ([7, 8, 9, 0, 0, 0], [7, 8, 9, 0, 0, 0], [1, 0, 2, 0, 3, 0], [1, 0, 2, 0, 3, 0]) := by
  decide!

/-! ## Definitions: the tape and the interface -/

section map_lemmas

variable {κ ν : Type} [DecidableEq κ]

theorem Map.find_assign (m : List (κ × ν)) (k k' : κ) (v : ν) :
    Map.find (Map.assign m k v) k' = if k = k' then some v else Map.find m k' := by
  induction m with
  | nil => simp [Map.assign, Map.find]
  | cons e m ih =>
    obtain ⟨a, b⟩ := e
    by_cases hak : a = k
    · subst hak
      by_cases hk : a = k' <;> simp [Map.assign, Map.find, hk]
    · by_cases hk : k = k'
      · subst hk
        simp [Map.assign, Map.find, hak, ih]
      · simp [Map.assign, Map.find, hak, ih, hk]

theorem Map.length_assign_of_find_none (m : List (κ × ν)) (k : κ) (v : ν)
    (h : Map.find m k = none) : (Map.assign m k v).length = m.length + 1 := by
  induction m with
  | nil => simp [Map.assign]
  | cons e m ih =>
    obtain ⟨a, b⟩ := e
    by_cases hak : a = k
    · simp [Map.find, hak] at h
    · simp [Map.find, hak] at h
      simp [Map.assign, hak, ih h]

end map_lemmas

section tape_lemmas

theorem Definition.get_record_of_prefix (d : Definition) (off : Nat) (r : Record)
    (post : List Int) (hlen : r.input.length = r.times.length)
    (hoff : r.offset = off + 4 + r.input.length + r.input.length)
    (h : d.definition.drop off = r.encode ++ post) :
    d.get_record ⟨off, 0, 0, 0, [], []⟩
      = .ok ((r.input.length : Int) + r.input.length + 4, r) := by
  have hget : ∀ i, d.definition[off + i]? = (r.encode ++ post)[i]? := by
    intro i; rw [← h, List.getElem?_drop]
  have hlt : ¬ off ≥ d.definition.length := by
    intro hge
    have := List.drop_eq_nil_of_le hge
    rw [this] at h
    simp [Record.encode] at h
  have h0 := hget 0
  have h1 := hget 1
  have h2 := hget 2
  have h3 := hget 3
  simp [Record.encode] at h0 h1 h2 h3
  have hd4 : d.definition.drop (off + 4) = r.input ++ (r.times ++ post) := by
    rw [← List.drop_drop, h]
    simp [Record.encode]
  have hd5 : d.definition.drop (off + 4 + r.times.length) = r.times ++ post := by
    rw [← hlen, ← List.drop_drop, hd4]
    simp
  have hl5 : r.times.length ≤ d.definition.length - (off + 4 + r.times.length) := by
    have := congrArg List.length hd5
    simp at this
    omega
  cases r with
  | mk roff rty rvar rid rin rtimes =>
    simp only at *
    unfold Definition.get_record
    simp [hlt, h0, h1, h2, h3, hd4, hd5, hl5, hlen, hoff]

end tape_lemmas

section reads_lemmas

theorem Reads.append {tape : List Int} {rs : List Record} (r : Record)
    (hlen : r.input.length = r.times.length)
    (hoff : r.offset = tape.length + 4 + r.input.length + r.input.length) :
    ∀ {off : Nat}, Reads tape off rs → Reads (tape ++ r.encode) off (rs ++ [r]) := by
  induction rs with
  | nil =>
    intro off h
    simp only [Reads] at h
    subst h
    refine ⟨hlen, hoff, ?_, ?_⟩
    · simp
    · simp [Reads, hoff, Record.encode, hlen]; omega
  | cons x xs ih =>
    intro off h
    obtain ⟨h1, h2, ⟨post, h3⟩, h4⟩ := h
    refine ⟨h1, h2, ⟨post ++ r.encode, ?_⟩, ih h4⟩
    have hle : off ≤ tape.length := by
      by_contra hgt
      have := List.drop_eq_nil_of_le (Nat.le_of_lt (Nat.lt_of_not_le hgt))
      rw [this] at h3
      simp [Record.encode] at h3
    rw [List.drop_append_of_le_length hle, ← h3, List.append_assoc]

theorem Reads.length_le {tape : List Int} {rs : List Record} :
    ∀ {off : Nat}, Reads tape off rs → off + rs.length ≤ tape.length := by
  induction rs with
  | nil => intro off h; simp only [Reads] at h; simp [h]
  | cons x xs ih =>
    intro off h
    obtain ⟨_, h2, _, h4⟩ := h
    have := ih h4
    simp only [List.length_cons]
    omega

theorem Definition.records_loop_of_Reads (d : Definition) {rs : List Record} :
    ∀ {off steps : Nat}, Reads d.definition off rs → rs.length < steps →
      d.records_loop steps off = .ok rs := by
  induction rs with
  | nil =>
    intro off steps h hs
    simp only [Reads] at h
    cases steps with
    | zero => omega
    | succ n =>
      simp [Definition.records_loop, Definition.get_record, h, bind, Except.bind, pure,
        Except.pure]
  | cons x xs ih =>
    intro off steps h hs
    obtain ⟨h1, h2, ⟨post, h3⟩, h4⟩ := h
    cases steps with
    | zero => omega
    | succ n =>
      have hg := Definition.get_record_of_prefix d off x post h1 h2 h3.symm
      have hrec := ih h4 (by simpa using hs)
      have hpos : (0 : Int) < (x.input.length : Int) + x.input.length + 4 := by omega
      simp [Definition.records_loop, hg, hrec, bind, Except.bind, pure, Except.pure, hpos]

theorem Definition.records_of_Reads (d : Definition) {rs : List Record}
    (h : Reads d.definition 0 rs) : d.records = .ok rs := by
  have := Reads.length_le h
  exact Definition.records_loop_of_Reads d h (by omega)

end reads_lemmas

section definition_lemmas

theorem Definition.resolve_args_length (d : Definition) (name : String) :
    ∀ (input : List String) (args : List Int),
      d.resolve_args name input = .ok args → args.length = input.length := by
  intro input
  induction input with
  | nil => intro args h; simp [Definition.resolve_args] at h; subst h; rfl
  | cons s rest ih =>
    intro args h
    simp only [Definition.resolve_args] at h
    split at h
    · cases hr : d.resolve_args name rest with
      | error e => simp [hr, bind, Except.bind] at h
      | ok as =>
        simp [hr, bind, Except.bind, pure, Except.pure] at h
        subst h
        simp [ih as hr]
    · simp at h

/-- What a successful `add_record` does to each member of the Definition. -/
theorem Definition.add_record_spec (d d1 : Definition) (ty : OperatorType) (variant : Int)
    (name : String) (input : List String) (times : List Int)
    (h : d.add_record ty variant name input times = .ok d1) :
    ∃ r : Record, r.type = ty.toInt ∧ r.variant = variant ∧ r.times = times ∧
      r.id = (d.index.length : Int) ∧ d.resolve_args name input = .ok r.input ∧
      r.input.length = r.times.length ∧
      r.offset = d.definition.length + 4 + r.input.length + r.input.length ∧
      d1.definition = d.definition ++ r.encode ∧
      d1.recurrent = (d.recurrent || times.any (fun t => decide (t < 0))) ∧
      d1.import_index = d.import_index ∧ d1.import_defs = d.import_defs ∧
      d1.name = d.name ∧ d1.vars = d.vars ∧ d1.consts = d.consts ∧
      d1.names = d.names ++ [name] ∧
      d1.index = Map.assign d.index name (d.index.length : Int) := by
  unfold Definition.add_record at h
  split at h
  · simp at h
  · rename_i hlen
    cases hr : d.resolve_args name input with
    | error e => simp [hr, bind, Except.bind] at h
    | ok args =>
      simp [hr, bind, Except.bind, pure, Except.pure] at h
      have hal := Definition.resolve_args_length d name input args hr
      refine ⟨⟨d.definition.length + 4 + args.length + args.length, ty.toInt, variant,
        (d.index.length : Int), args, times⟩, rfl, rfl, rfl, rfl, rfl, ?_, rfl, ?_⟩
      · simp at hlen; simp [hal, hlen]
      · subst h
        simp [Record.encode]

end definition_lemmas

section built_lemmas

theorem exists_mem_append_singleton {β : Type} (rs : List β) (x : β) (P : β → Prop) :
    (∃ r ∈ rs ++ [x], P r) ↔ (∃ r ∈ rs, P r) ∨ P x := by
  constructor
  · rintro ⟨r, hr, hp⟩
    rcases List.mem_append.1 hr with hm | hm
    · exact Or.inl ⟨r, hm, hp⟩
    · simp at hm; subst hm; exact Or.inr hp
  · rintro (⟨r, hr, hp⟩ | hp)
    · exact ⟨r, List.mem_append.2 (Or.inl hr), hp⟩
    · exact ⟨x, by simp, hp⟩

theorem Definition.get_import_congr (d d1 : Definition) (v : Int)
    (hv : 0 ≤ v ∧ v.toNat < d.import_defs.length)
    (h : ∃ x, d1.import_defs = d.import_defs ++ x) :
    d1.get_import v = d.get_import v := by
  obtain ⟨x, hx⟩ := h
  have hneg : ¬ v < 0 := by omega
  simp [Definition.get_import, hneg, hx, List.getElem?_append_left hv.2, hv.2]

theorem exists_calls_congr (defs : List Definition) (d d1 : Definition) (rs : List Record)
    (hvar : ∀ r ∈ rs, r.type = OperatorType.FUNCTION.toInt →
      0 ≤ r.variant ∧ r.variant.toNat < d.import_defs.length)
    (h : ∃ x, d1.import_defs = d.import_defs ++ x) :
    (∃ r ∈ rs, d1.calls_recurrent defs r) ↔ (∃ r ∈ rs, d.calls_recurrent defs r) := by
  constructor
  · rintro ⟨r, hr, ht, q, hq, hrec⟩
    exact ⟨r, hr, ht, q, by rw [← Definition.get_import_congr d d1 _ (hvar r hr ht) h]; exact hq,
      hrec⟩
  · rintro ⟨r, hr, ht, q, hq, hrec⟩
    exact ⟨r, hr, ht, q, by rw [Definition.get_import_congr d d1 _ (hvar r hr ht) h]; exact hq,
      hrec⟩

/-- A record added by `add_record` extends the invariant; `c` tells whether the
new record calls a recurrent import. -/
theorem WellBuilt.add_record {defs : List Definition} {d : Definition}
    {rs : List Record} (w : WellBuilt defs d rs) (d0 d1 d2 : Definition)
    (ty : OperatorType) (variant : Int) (name : String) (input : List String)
    (times : List Int)
    (h0 : d0.definition = d.definition ∧ d0.import_index = d.import_index ∧
      d0.import_defs = d.import_defs ∧ d0.recurrent = d.recurrent)
    (h : d0.add_record ty variant name input times = .ok d1)
    (hty : ty = .FUNCTION → 0 ≤ variant ∧ variant.toNat < d.import_defs.length)
    (h2 : d2.definition = d1.definition ∧ d2.import_index = d1.import_index ∧
      d2.import_defs = d1.import_defs)
    (hrec : d2.recurrent = true ↔ d1.recurrent = true ∨
      (ty = .FUNCTION ∧ ∃ q, d.get_import variant = .ok q ∧
        Definition.recurrent_at defs q = true)) :
    ∃ r, r.type = ty.toInt ∧ r.variant = variant ∧ r.times = times ∧
      WellBuilt defs d2 (rs ++ [r]) := by
  obtain ⟨r, hrt, hrv, hrtimes, hrid, hres, hlen, hoff, hdef, hrc, hii, hid, _⟩ :=
    Definition.add_record_spec d0 d1 ty variant name input times h
  obtain ⟨h0d, h0i, h0p, h0r⟩ := h0
  obtain ⟨h2d, h2i, h2p⟩ := h2
  have hsame : ∃ x, d2.import_defs = d.import_defs ++ x := ⟨[], by simp [h2p, hid, h0p]⟩
  refine ⟨r, hrt, hrv, hrtimes, ?_⟩
  have hvars : ∀ r' ∈ rs ++ [r], r'.type = OperatorType.FUNCTION.toInt →
      0 ≤ r'.variant ∧ r'.variant.toNat < d.import_defs.length := by
    intro r' hr' ht'
    rcases List.mem_append.1 hr' with hm | hm
    · exact w.variants r' hm ht'
    · simp at hm
      subst hm
      have : ty = .FUNCTION := by
        rw [hrt] at ht'
        cases ty <;> first | rfl | simp [OperatorType.toInt] at ht'
      rw [hrv]
      exact hty this
  constructor
  · rw [h2d, hdef, h0d]
    exact Reads.append r hlen (by rw [hoff, h0d]) w.reads
  · rw [h2i, h2p, hii, hid, h0i, h0p]; exact w.import_sizes
  · rw [h2i, h2p, hii, hid, h0i, h0p]; exact w.slots
  · rw [h2p, hid, h0p]; exact hvars
  · rw [h2p, hid, h0p]; exact w.valid
  · rw [exists_calls_congr defs d d2 (rs ++ [r]) hvars hsame, hrec, hrc, h0r]
    have hneg : (times.any (fun t => decide (t < 0)) = true) ↔ r.has_negative_time := by
      simp [Record.has_negative_time, hrtimes]
    have hw := w.recurrent_iff
    rw [exists_mem_append_singleton, exists_mem_append_singleton]
    simp only [Bool.or_eq_true, hneg, hw, Definition.calls_recurrent, hrt, hrv]
    constructor
    · rintro (((h | h) | h) | ⟨ht, h⟩)
      · exact Or.inl (Or.inl h)
      · exact Or.inr (Or.inl h)
      · exact Or.inl (Or.inr h)
      · exact Or.inr (Or.inr ⟨by rw [ht], h⟩)
    · rintro ((h | h) | (h | ⟨ht, h⟩))
      · exact Or.inl (Or.inl (Or.inl h))
      · exact Or.inl (Or.inr h)
      · exact Or.inl (Or.inl (Or.inr h))
      · refine Or.inr ⟨?_, h⟩
        cases ty <;> first | rfl | simp [OperatorType.toInt] at ht

end built_lemmas

section built_wellbuilt

theorem WellBuilt.add_builtin {defs : List Definition} {d d1 : Definition}
    {rs : List Record} (w : WellBuilt defs d rs)
    (ty : OperatorType) (hty : ty ≠ .FUNCTION) (name : String) (input : List String)
    (times : List Int) (h : d.add_record ty (-1) name input times = .ok d1) :
    ∃ r, r.type = ty.toInt ∧ r.variant = -1 ∧ r.times = times ∧
      WellBuilt defs d1 (rs ++ [r]) :=
  w.add_record d d1 d1 ty (-1) name input times ⟨rfl, rfl, rfl, rfl⟩ h
    (fun hf => absurd hf hty) ⟨rfl, rfl, rfl⟩
    (by constructor
        · intro h1; exact Or.inl h1
        · rintro (h1 | ⟨hf, _⟩)
          · exact h1
          · exact absurd hf hty)

/-- Every Definition built through the public interface is well built. -/
theorem Built.wellBuilt {defs : List Definition} {d : Definition} (b : Built defs d) :
    ∃ rs, WellBuilt defs d rs := by
  induction b with
  | empty =>
    refine ⟨[], ⟨rfl, rfl, ?_, ?_, ?_, ?_⟩⟩
    · intro k v h; simp [Map.find] at h
    · intro r hr; simp at hr
    · intro q hq; simp at hq
    · simp
  | set_name d name _ ih =>
    obtain ⟨rs, w⟩ := ih
    exact ⟨rs, ⟨w.reads, w.import_sizes, w.slots, w.variants, w.valid, w.recurrent_iff⟩⟩
  | add_variable d d1 name _ h ih =>
    obtain ⟨rs, w⟩ := ih
    obtain ⟨r, _, _, _, w1⟩ := w.add_record
      { d with vars := d.vars ++ [(d.index.length : Int)] } d1 d1 .VARIABLE (-1) name [] []
      ⟨rfl, rfl, rfl, rfl⟩ h
      (fun hf => by cases hf) ⟨rfl, rfl, rfl⟩
      (by constructor
          · intro h1; exact Or.inl h1
          · rintro (h1 | ⟨hf, _⟩)
            · exact h1
            · cases hf)
    exact ⟨_, w1⟩
  | add_constant d d1 name _ h ih =>
    obtain ⟨rs, w⟩ := ih
    obtain ⟨r, _, _, _, w1⟩ := w.add_record
      { d with consts := d.consts ++ [(d.index.length : Int)] } d1 d1 .CONSTANT (-1) name [] []
      ⟨rfl, rfl, rfl, rfl⟩ h
      (fun hf => by cases hf) ⟨rfl, rfl, rfl⟩
      (by constructor
          · intro h1; exact Or.inl h1
          · rintro (h1 | ⟨hf, _⟩)
            · exact h1
            · cases hf)
    exact ⟨_, w1⟩
  | add_import d d1 name p _ hp h ih =>
    obtain ⟨rs, w⟩ := ih
    unfold Definition.add_import at h
    cases hf : Map.find d.import_index name with
    | some v => simp [hf] at h
    | none =>
      simp [hf] at h
      subst h
      have hsame : ∃ x, ({ d with
          import_index := Map.assign d.import_index name (d.import_index.length : Int)
          import_defs := d.import_defs ++ [p] } : Definition).import_defs
            = d.import_defs ++ x := ⟨[p], rfl⟩
      refine ⟨rs, ⟨w.reads, ?_, ?_, ?_, ?_, ?_⟩⟩
      · simp [Map.length_assign_of_find_none _ _ _ hf, w.import_sizes]
      · intro k v hk
        simp only [Map.find_assign] at hk
        split at hk
        · simp at hk
          subst hk
          simp [w.import_sizes]
        · have := w.slots k v hk
          simp only [List.length_append, List.length_singleton]
          omega
      · intro r hr ht
        have := w.variants r hr ht
        simp only [List.length_append, List.length_singleton]
        omega
      · intro q hq
        simp only [List.mem_append, List.mem_singleton] at hq
        rcases hq with hq | hq
        · exact w.valid q hq
        · rw [hq]; exact hp
      · rw [exists_calls_congr defs d _ rs w.variants hsame]
        exact w.recurrent_iff
  | add_expression d d1 name function input times _ h ih =>
    obtain ⟨rs, w⟩ := ih
    unfold Definition.add_expression at h
    cases hf : Map.find d.import_index function with
    | some slot =>
      simp only [hf] at h
      have hslot := w.slots function slot hf
      cases hr : d.add_record .FUNCTION slot name input times with
      | error e => simp [hr, bind, Except.bind] at h
      | ok d0 =>
        simp only [hr, bind, Except.bind] at h
        obtain ⟨_, _, _, _, _, _, _, _, _, _, _, hid, _⟩ :=
          Definition.add_record_spec d d0 .FUNCTION slot name input times hr
        obtain ⟨p, hp⟩ : ∃ p, d.import_defs[slot.toNat]? = some p :=
          ⟨d.import_defs[slot.toNat], List.getElem?_eq_getElem hslot.2⟩
        have hp0 : d0.import_defs[slot.toNat]? = some p := by rw [hid]; exact hp
        rw [hp0] at h
        simp only [pure, Except.pure, Except.ok.injEq] at h
        have hget : d.get_import slot = .ok p := by
          have hneg : ¬ slot < 0 := by omega
          simp [Definition.get_import, hneg, hp]
        obtain ⟨r, _, _, _, w1⟩ := w.add_record d d0 d1 .FUNCTION slot name input times
          ⟨rfl, rfl, rfl, rfl⟩ hr (fun _ => hslot)
          (by subst h; split <;> exact ⟨rfl, rfl, rfl⟩)
          (by
            subst h
            rw [hget]
            by_cases hrc : Definition.recurrent_at defs p = true
            · simp [hrc]
            · simp [hrc])
        exact ⟨_, w1⟩
    | none =>
      simp only [hf] at h
      split at h
      · obtain ⟨r, _, _, _, w1⟩ := w.add_builtin .ADDITION (by decide) name input times h
        exact ⟨_, w1⟩
      split at h
      · obtain ⟨r, _, _, _, w1⟩ := w.add_builtin .SUBTRACTION (by decide) name input times h
        exact ⟨_, w1⟩
      split at h
      · obtain ⟨r, _, _, _, w1⟩ := w.add_builtin .PRODUCT (by decide) name input times h
        exact ⟨_, w1⟩
      split at h
      · obtain ⟨r, _, _, _, w1⟩ := w.add_builtin .ELEMENT (by decide) name input times h
        exact ⟨_, w1⟩
      split at h
      · obtain ⟨r, _, _, _, w1⟩ := w.add_builtin .TRANSPOSE (by decide) name input times h
        exact ⟨_, w1⟩
      split at h
      · obtain ⟨r, _, _, _, w1⟩ := w.add_builtin .EXPONENT (by decide) name input times h
        exact ⟨_, w1⟩
      · simp at h

end built_wellbuilt

section chain

open Compiler

theorem Except.bind_ok_iff {ε β γ : Type} (x : Except ε β) (f : β → Except ε γ) (c : γ) :
    (x >>= f) = .ok c ↔ ∃ a, x = .ok a ∧ f a = .ok c := by
  cases x with
  | error e => simp [bind, Except.bind]
  | ok a => simp [bind, Except.bind]

variable {Q : List Definition → Definition → Prop}

theorem Compiler.compile_variables_loop_preserves (hQ : Preserved Q) (defs : List Definition)
    (c : Compiler) (path : List String) :
    ∀ (ms : List Json) (i : Nat) (d d1 : Definition), Q defs d →
      compile_variables_loop c path ms i d = .ok d1 → Q defs d1 := by
  intro ms
  induction ms with
  | nil => intro i d d1 hq h; simp [compile_variables_loop] at h; subst h; exact hq
  | cons m ms ih =>
    intro i d d1 hq h
    simp only [compile_variables_loop] at h
    rw [Except.bind_ok_iff] at h
    obtain ⟨_, _, h⟩ := h
    rw [Except.bind_ok_iff] at h
    obtain ⟨name, _, h⟩ := h
    split at h
    · simp [unexpected_element] at h
    · rw [Except.bind_ok_iff] at h
      obtain ⟨d0, h0, h⟩ := h
      exact ih _ _ _ (hQ.add_variable defs d d0 name hq h0) h

theorem Compiler.compile_variables_preserves (hQ : Preserved Q) (defs : List Definition)
    (c : Compiler) (path : List String) (node : Json) (d d1 : Definition) (hq : Q defs d)
    (h : compile_variables c node d path = .ok d1) : Q defs d1 := by
  simp only [compile_variables] at h
  rw [Except.bind_ok_iff] at h
  obtain ⟨_, _, h⟩ := h
  split at h
  · exact compile_variables_loop_preserves hQ defs c path _ _ _ _ hq h
  · simp at h; subst h; exact hq

theorem Compiler.compile_constants_loop_preserves (hQ : Preserved Q) (defs : List Definition)
    (c : Compiler) (path : List String) :
    ∀ (ms : List Json) (i : Nat) (d d1 : Definition), Q defs d →
      compile_constants_loop c path ms i d = .ok d1 → Q defs d1 := by
  intro ms
  induction ms with
  | nil => intro i d d1 hq h; simp [compile_constants_loop] at h; subst h; exact hq
  | cons m ms ih =>
    intro i d d1 hq h
    simp only [compile_constants_loop] at h
    rw [Except.bind_ok_iff] at h
    obtain ⟨_, _, h⟩ := h
    rw [Except.bind_ok_iff] at h
    obtain ⟨name, _, h⟩ := h
    split at h
    · simp [unexpected_element] at h
    · rw [Except.bind_ok_iff] at h
      obtain ⟨d0, h0, h⟩ := h
      exact ih _ _ _ (hQ.add_constant defs d d0 name hq h0) h

theorem Compiler.compile_constants_preserves (hQ : Preserved Q) (defs : List Definition)
    (c : Compiler) (path : List String) (node : Json) (d d1 : Definition) (hq : Q defs d)
    (h : compile_constants c node d path = .ok d1) : Q defs d1 := by
  simp only [compile_constants] at h
  rw [Except.bind_ok_iff] at h
  obtain ⟨_, _, h⟩ := h
  split at h
  · exact compile_constants_loop_preserves hQ defs c path _ _ _ _ hq h
  · simp at h; subst h; exact hq

/-- The times that `compile_argument` collects do not point into the future. -/
theorem Compiler.compile_argument_loop_times (c : Compiler) (path : List String) :
    ∀ (ms : List (String × Json)) (count : Nat) (args : List String) (times : List Int)
      (r : List String × List Int), (∀ t ∈ times, t ≤ 0) →
      compile_argument_loop c path ms count (args, times) = .ok r → ∀ t ∈ r.2, t ≤ 0 := by
  intro ms
  induction ms with
  | nil => intro count args times r ht h; simp [compile_argument_loop] at h; subst h; exact ht
  | cons m ms ih =>
    intro count args times r ht h
    obtain ⟨name, value⟩ := m
    simp only [compile_argument_loop] at h
    split at h
    · rw [Except.bind_ok_iff] at h
      obtain ⟨_, _, h⟩ := h
      rw [Except.bind_ok_iff] at h
      obtain ⟨_, _, h⟩ := h
      rw [Except.bind_ok_iff] at h
      obtain ⟨time, _, h⟩ := h
      split at h
      · simp at h
      · rename_i hle
        refine ih _ _ _ r ?_ h
        intro t hmem
        rcases List.mem_append.1 hmem with hm | hm
        · exact ht t hm
        · simp only [List.mem_singleton] at hm
          subst hm
          exact Int.not_lt.1 hle
    · simp [unexpected_element] at h

/-- The times that `compile_expression` collects do not point into the
future. -/
theorem Compiler.compile_expression_loop_times (c : Compiler) (path : List String) :
    ∀ (ms : List Json) (i : Nat) (op : Option String) (args : List String) (times : List Int)
      (r : Option String × List String × List Int), (∀ t ∈ times, t ≤ 0) →
      compile_expression_loop c path ms i op (args, times) = .ok r → ∀ t ∈ r.2.2, t ≤ 0 := by
  intro ms
  induction ms with
  | nil =>
    intro i op args times r ht h
    simp [compile_expression_loop] at h
    subst h
    exact ht
  | cons m ms ih =>
    intro i op args times r ht h
    simp only [compile_expression_loop] at h
    split at h
    · rw [Except.bind_ok_iff] at h
      obtain ⟨_, _, h⟩ := h
      exact ih _ _ _ _ r ht h
    · rw [Except.bind_ok_iff] at h
      obtain ⟨_, _, h⟩ := h
      refine ih _ _ _ _ r ?_ h
      intro t hmem
      rcases List.mem_append.1 hmem with hm | hm
      · exact ht t hm
      · simp only [List.mem_singleton] at hm
        subst hm
        exact Int.le_refl 0
    · rw [Except.bind_ok_iff] at h
      obtain ⟨⟨args1, times1⟩, h1, h⟩ := h
      simp only [compile_argument] at h1
      rw [Except.bind_ok_iff] at h1
      obtain ⟨_, _, h1⟩ := h1
      exact ih _ _ _ _ r (compile_argument_loop_times c _ _ 0 args times _ ht h1) h
    · simp [unexpected_element] at h

theorem Compiler.compile_expression_preserves (hQ : Preserved Q) (dict : Dictionary)
    (c : Compiler) (path : List String) (node : Json) (d d1 : Definition)
    (hq : Q dict.defs d) (h : compile_expression c dict node d path = .ok d1) :
    Q dict.defs d1 := by
  simp only [compile_expression] at h
  rw [Except.bind_ok_iff] at h
  obtain ⟨_, _, h⟩ := h
  split at h
  · rw [Except.bind_ok_iff] at h
    obtain ⟨⟨op, args, times⟩, hl, h⟩ := h
    rw [Except.bind_ok_iff] at h
    obtain ⟨_, _, h⟩ := h
    rw [Except.bind_ok_iff] at h
    obtain ⟨_, _, h⟩ := h
    exact hQ.add_expression dict.defs d d1 _ _ _ _ hq
      (compile_expression_loop_times c path _ 0 none [] [] _ (by simp) hl) h
  · simp at h; subst h; exact hq

theorem Compiler.compile_body_loop_preserves (hQ : Preserved Q) (dict : Dictionary)
    (c : Compiler) (path : List String) :
    ∀ (ms : List (String × Json)) (ret : Bool) (d : Definition) (r : Bool × Definition),
      Q dict.defs d → compile_body_loop c dict path ms ret d = .ok r → Q dict.defs r.2 := by
  intro ms
  induction ms with
  | nil => intro ret d r hq h; simp [compile_body_loop] at h; subst h; exact hq
  | cons m ms ih =>
    intro ret d r hq h
    obtain ⟨key, value⟩ := m
    simp only [compile_body_loop] at h
    rw [Except.bind_ok_iff] at h
    obtain ⟨d0, h0, h⟩ := h
    exact ih _ _ _ (compile_expression_preserves hQ dict c _ _ _ _ hq h0) h

theorem Compiler.compile_body_preserves (hQ : Preserved Q) (dict : Dictionary)
    (c : Compiler) (path : List String) (node : Json) (d d1 : Definition)
    (hq : Q dict.defs d) (h : compile_body c dict node d path = .ok d1) :
    Q dict.defs d1 := by
  simp only [compile_body] at h
  rw [Except.bind_ok_iff] at h
  obtain ⟨_, _, h⟩ := h
  split at h
  · rw [Except.bind_ok_iff] at h
    obtain ⟨⟨ret, d0⟩, h0, h⟩ := h
    rw [Except.bind_ok_iff] at h
    obtain ⟨_, _, h⟩ := h
    simp [pure, Except.pure] at h
    subst h
    exact compile_body_loop_preserves hQ dict c path _ _ _ _ hq h0
  · simp at h; subst h; exact hq

end chain

section chain_state

open Compiler

variable {Q : List Definition → Definition → Prop}
variable {hash : String → Int} {resolver : Resolver}
variable {rec : Compiler → Except String Json → CompileState → Except String (Nat × CompileState)}

theorem Compiler.compile_import_preserves (hQ : Preserved Q) (hrec : GoodCompile rec)
    (c : Compiler) (node : Json) (d : Definition) (st : CompileState) (path : List String)
    (r : Definition × CompileState) (hq : Q st.dict.defs d)
    (h : compile_import hash resolver rec c node d st path = .ok r) :
    st.dict.defs <+: r.2.dict.defs ∧ Q r.2.dict.defs r.1 := by
  simp only [compile_import] at h
  rw [Except.bind_ok_iff] at h
  obtain ⟨_, _, h⟩ := h
  split at h
  · simp at h; subst h; exact ⟨List.prefix_refl _, hq⟩
  · split at h
    · rw [Except.bind_ok_iff] at h
      obtain ⟨⟨user, library⟩, _, h⟩ := h
      rw [Except.bind_ok_iff] at h
      obtain ⟨_, _, h⟩ := h
      rw [Except.bind_ok_iff] at h
      obtain ⟨_, _, h⟩ := h
      rw [Except.bind_ok_iff] at h
      obtain ⟨⟨p, st2⟩, hc, h⟩ := h
      rw [Except.bind_ok_iff] at h
      obtain ⟨d1, hd1, h⟩ := h
      simp [pure, Except.pure] at h
      subst h
      obtain ⟨hpre, hp⟩ := hrec _ _ _ _ _ hc
      exact ⟨hpre, hQ.add_import _ d d1 _ p (hQ.mono _ _ d hpre hq) hp hd1⟩
    · simp at h; subst h; exact ⟨List.prefix_refl _, hq⟩

theorem Compiler.compile_imports_loop_preserves (hQ : Preserved Q) (hrec : GoodCompile rec)
    (c : Compiler) (path : List String) :
    ∀ (ms : List (String × Json)) (d : Definition) (st : CompileState)
      (r : Definition × CompileState), Q st.dict.defs d →
      compile_imports_loop hash resolver rec c path ms d st = .ok r →
      st.dict.defs <+: r.2.dict.defs ∧ Q r.2.dict.defs r.1 := by
  intro ms
  induction ms with
  | nil =>
    intro d st r hq h
    simp [compile_imports_loop] at h
    subst h
    exact ⟨List.prefix_refl _, hq⟩
  | cons m ms ih =>
    intro d st r hq h
    obtain ⟨name, value⟩ := m
    simp only [compile_imports_loop] at h
    rw [Except.bind_ok_iff] at h
    obtain ⟨⟨d1, st1⟩, h1, h⟩ := h
    obtain ⟨hpre1, hq1⟩ := compile_import_preserves hQ hrec c value d st _ _ hq h1
    obtain ⟨hpre2, hq2⟩ := ih d1 st1 r hq1 h
    exact ⟨hpre1.trans hpre2, hq2⟩

theorem Compiler.compile_imports_preserves (hQ : Preserved Q) (hrec : GoodCompile rec)
    (c : Compiler) (node : Json) (d : Definition) (st : CompileState) (path : List String)
    (r : Definition × CompileState) (hq : Q st.dict.defs d)
    (h : compile_imports hash resolver rec c node d st path = .ok r) :
    st.dict.defs <+: r.2.dict.defs ∧ Q r.2.dict.defs r.1 := by
  simp only [compile_imports] at h
  rw [Except.bind_ok_iff] at h
  obtain ⟨_, _, h⟩ := h
  split at h
  · exact compile_imports_loop_preserves hQ hrec c path _ d st r hq h
  · simp at h; subst h; exact ⟨List.prefix_refl _, hq⟩

theorem Compiler.compile_root_loop_preserves (hQ : Preserved Q)
    (hname : ∀ defs d n, Q defs d → Q defs (d.set_name n)) (hrec : GoodCompile rec)
    (c : Compiler) (path : List String) :
    ∀ (ms : List (String × Json)) (s s1 : RootState), Q s.st.dict.defs s.d →
      compile_root_loop hash resolver rec c path ms s = .ok s1 →
      s.st.dict.defs <+: s1.st.dict.defs ∧ Q s1.st.dict.defs s1.d := by
  intro ms
  induction ms with
  | nil =>
    intro s s1 hq h
    simp [compile_root_loop] at h
    subst h
    exact ⟨List.prefix_refl _, hq⟩
  | cons m ms ih =>
    intro s s1 hq h
    obtain ⟨key, value⟩ := m
    simp only [compile_root_loop] at h
    split at h
    · rw [Except.bind_ok_iff] at h
      obtain ⟨n, _, h⟩ := h
      rw [Except.bind_ok_iff] at h
      obtain ⟨_, _, h⟩ := h
      exact ih { s with name := true, d := s.d.set_name n } s1 (hname _ _ n hq) h
    split at h
    · rw [Except.bind_ok_iff] at h
      obtain ⟨d1, h1, h⟩ := h
      exact ih { s with variables_seen := true, d := d1 } s1
        (compile_variables_preserves hQ _ c _ value s.d d1 hq h1) h
    split at h
    · rw [Except.bind_ok_iff] at h
      obtain ⟨d1, h1, h⟩ := h
      exact ih { s with constants_seen := true, d := d1 } s1
        (compile_constants_preserves hQ _ c _ value s.d d1 hq h1) h
    split at h
    · rw [Except.bind_ok_iff] at h
      obtain ⟨⟨d1, st1⟩, h1, h⟩ := h
      obtain ⟨hpre1, hq1⟩ := compile_imports_preserves hQ hrec c value s.d s.st _ _ hq h1
      obtain ⟨hpre2, hq2⟩ := ih { s with imports_seen := true, d := d1, st := st1 } s1 hq1 h
      exact ⟨hpre1.trans hpre2, hq2⟩
    split at h
    · exact ih { s with body := some value } s1 hq h
    · simp [unexpected_element] at h

theorem Compiler.compile_root_preserves (hQ : Preserved Q)
    (hname : ∀ defs d n, Q defs d → Q defs (d.set_name n)) (hrec : GoodCompile rec)
    (c : Compiler) (node : Json) (d : Definition) (st : CompileState) (path : List String)
    (r : Definition × CompileState) (hq : Q st.dict.defs d)
    (h : compile_root hash resolver rec c node d st path = .ok r) :
    st.dict.defs <+: r.2.dict.defs ∧ Q r.2.dict.defs r.1 := by
  simp only [compile_root] at h
  rw [Except.bind_ok_iff] at h
  obtain ⟨_, _, h⟩ := h
  split at h
  · rw [Except.bind_ok_iff] at h
    obtain ⟨s, hs, h⟩ := h
    rw [Except.bind_ok_iff] at h
    obtain ⟨_, _, h⟩ := h
    rw [Except.bind_ok_iff] at h
    obtain ⟨_, _, h⟩ := h
    rw [Except.bind_ok_iff] at h
    obtain ⟨d1, hd1, h⟩ := h
    simp [pure, Except.pure] at h
    subst h
    obtain ⟨hpre, hq1⟩ := compile_root_loop_preserves hQ hname hrec c path _
      { d := d, st := st } s hq hs
    exact ⟨hpre, compile_body_preserves hQ s.st.dict c _ _ s.d d1 hq1 hd1⟩
  · simp at h; subst h; exact ⟨List.prefix_refl _, hq⟩

theorem Compiler.compile_definition_loop_preserves (hQ : Preserved Q)
    (hname : ∀ defs d n, Q defs d → Q defs (d.set_name n)) (hrec : GoodCompile rec)
    (c : Compiler) (path : List String) :
    ∀ (ms : List (String × Json)) (function : Bool) (d : Definition) (st : CompileState)
      (r : Bool × Definition × CompileState), Q st.dict.defs d →
      compile_definition_loop hash resolver rec c path ms function d st = .ok r →
      st.dict.defs <+: r.2.2.dict.defs ∧ Q r.2.2.dict.defs r.2.1 := by
  intro ms
  induction ms with
  | nil =>
    intro function d st r hq h
    simp [compile_definition_loop] at h
    subst h
    exact ⟨List.prefix_refl _, hq⟩
  | cons m ms ih =>
    intro function d st r hq h
    obtain ⟨key, value⟩ := m
    simp only [compile_definition_loop] at h
    split at h
    · rw [Except.bind_ok_iff] at h
      obtain ⟨⟨d1, st1⟩, h1, h⟩ := h
      obtain ⟨hpre1, hq1⟩ := compile_root_preserves hQ hname hrec c value d st _ _ hq h1
      obtain ⟨hpre2, hq2⟩ := ih _ _ _ _ hq1 h
      exact ⟨hpre1.trans hpre2, hq2⟩
    · simp [unexpected_element] at h

theorem Compiler.compile_definition_preserves (hQ : Preserved Q)
    (hname : ∀ defs d n, Q defs d → Q defs (d.set_name n)) (hrec : GoodCompile rec)
    (c : Compiler) (doc : Json) (d : Definition) (st : CompileState) (path : List String)
    (r : Definition × CompileState) (hq : Q st.dict.defs d)
    (h : compile_definition hash resolver rec c doc d st path = .ok r) :
    st.dict.defs <+: r.2.dict.defs ∧ Q r.2.dict.defs r.1 := by
  simp only [compile_definition] at h
  rw [Except.bind_ok_iff] at h
  obtain ⟨_, _, h⟩ := h
  split at h
  · rw [Except.bind_ok_iff] at h
    obtain ⟨⟨function, d1, st1⟩, h1, h⟩ := h
    rw [Except.bind_ok_iff] at h
    obtain ⟨_, _, h⟩ := h
    simp [pure, Except.pure] at h
    subst h
    exact compile_definition_loop_preserves hQ hname hrec c path _ _ d st _ hq h1
  · simp at h; subst h; exact ⟨List.prefix_refl _, hq⟩

/-- What `Compiler::compile` returns, in terms of `compile_definition`. -/
theorem Compiler.compile_ok_iff (fuel : Nat) (c : Compiler) (json : Except String Json)
    (st : CompileState) (p : Nat) (st2 : CompileState) :
    compile hash resolver (fuel + 1) c json st = .ok (p, st2) ↔
      ∃ members d st1, json = .ok (.object members) ∧
        compile_definition hash resolver (compile hash resolver fuel) c (.object members) {}
          st [] = .ok (d, st1) ∧
        p = st1.dict.defs.length ∧
        st2 = { st1 with dict := (Dictionary.put ⟨st1.dict.defs ++ [d], st1.dict.index⟩
          (Dictionary.id hash c.user c.library d.get_name) st1.dict.defs.length) } := by
  simp only [compile]
  rw [Except.bind_ok_iff]
  constructor
  · rintro ⟨doc, hdoc, h⟩
    split at h
    · rename_i members
      rw [Except.bind_ok_iff] at h
      obtain ⟨⟨d, st1⟩, h1, h⟩ := h
      simp [pure, Except.pure] at h
      exact ⟨members, d, st1, hdoc, h1, h.1.symm, h.2.symm⟩
    · simp at h
  · rintro ⟨members, d, st1, hdoc, h1, hp, hst⟩
    refine ⟨.object members, hdoc, ?_⟩
    simp only []
    rw [Except.bind_ok_iff]
    exact ⟨(d, st1), h1, by simp [pure, Except.pure, hp, hst]⟩

theorem Compiler.compile_good (hash : String → Int) (resolver : Resolver) :
    ∀ fuel, GoodCompile (compile hash resolver fuel) := by
  intro fuel
  induction fuel with
  | zero => intro c json st p st1 h; simp [compile] at h
  | succ fuel ih =>
    intro c json st p st2 h
    rw [compile_ok_iff] at h
    obtain ⟨members, d, st1, _, h1, hp, hst⟩ := h
    have hT : Preserved (fun _ _ => True) :=
      ⟨fun _ _ _ _ _ _ => trivial, fun _ _ _ _ _ _ => trivial, fun _ _ _ _ _ _ _ _ => trivial,
        fun _ _ _ _ _ _ _ _ _ _ => trivial, fun _ _ _ _ _ => trivial⟩
    obtain ⟨hpre, _⟩ := compile_definition_preserves hT (fun _ _ _ _ => trivial) ih c
      (.object members) {} st [] (d, st1) trivial h1
    subst hst hp
    simp only [Dictionary.put, List.length_append, List.length_singleton]
    exact ⟨hpre.trans (List.prefix_append _ _), by omega⟩

end chain_state

section built_compile

open Compiler

theorem Definition.recurrent_at_prefix {defs defs1 : List Definition} (hpre : defs <+: defs1)
    {p : Nat} (hp : p < defs.length) :
    Definition.recurrent_at defs1 p = Definition.recurrent_at defs p := by
  obtain ⟨t, ht⟩ := hpre
  subst ht
  simp [Definition.recurrent_at, List.getElem?_append_left hp]

theorem Definition.add_expression_prefix {defs defs1 : List Definition} (d : Definition)
    (hvalid : ∀ q ∈ d.import_defs, q < defs.length) (hpre : defs <+: defs1)
    (name function : String) (input : List String) (times : List Int) :
    d.add_expression defs1 name function input times
      = d.add_expression defs name function input times := by
  unfold Definition.add_expression
  cases hf : Map.find d.import_index function with
  | none => rfl
  | some slot =>
    simp only []
    cases hr : d.add_record .FUNCTION slot name input times with
    | error e => rfl
    | ok d0 =>
      obtain ⟨_, _, _, _, _, _, _, _, _, _, _, hid, _⟩ :=
        Definition.add_record_spec d d0 .FUNCTION slot name input times hr
      simp only [bind, Except.bind]
      cases hp : d0.import_defs[slot.toNat]? with
      | none => rfl
      | some p =>
        have hmem : p ∈ d.import_defs := by
          rw [← hid]; exact List.getElem?_mem hp
        simp only [Definition.recurrent_at_prefix hpre (hvalid p hmem)]

theorem Built.mono {defs defs1 : List Definition} {d : Definition} (hpre : defs <+: defs1)
    (b : Built defs d) : Built defs1 d := by
  induction b with
  | empty => exact Built.empty
  | set_name d name _ ih => exact Built.set_name d name ih
  | add_variable d d1 name _ h ih => exact Built.add_variable d d1 name ih h
  | add_constant d d1 name _ h ih => exact Built.add_constant d d1 name ih h
  | add_import d d1 name p _ hp h ih =>
    exact Built.add_import d d1 name p ih (Nat.lt_of_lt_of_le hp hpre.length_le) h
  | add_expression d d1 name function input times b h ih =>
    obtain ⟨rs, w⟩ := b.wellBuilt
    refine Built.add_expression d d1 name function input times ih ?_
    rw [Definition.add_expression_prefix d w.valid hpre]
    exact h

theorem Built.preserved : Preserved Built :=
  ⟨fun _ d d1 name b h => Built.add_variable d d1 name b h,
   fun _ d d1 name b h => Built.add_constant d d1 name b h,
   fun _ d d1 name p b hp h => Built.add_import d d1 name p b hp h,
   fun _ d d1 name function input times b _ h =>
     Built.add_expression d d1 name function input times b h,
   fun _ _ _ hpre b => Built.mono hpre b⟩

/-- The Definition that `Compiler::compile` returns is built through the
public interface of `Definition`, and the Definitions that existed before are
kept. -/
theorem Compiler.compile_built (hash : String → Int) (resolver : Resolver) (fuel : Nat)
    (c : Compiler) (json : Except String Json) (st : CompileState) (p : Nat)
    (st2 : CompileState) (h : compile hash resolver fuel c json st = .ok (p, st2)) :
    ∃ d, st2.dict.deref p = some d ∧ Built st2.dict.defs d ∧
      st.dict.defs <+: st2.dict.defs := by
  cases fuel with
  | zero => simp [compile] at h
  | succ fuel =>
    rw [compile_ok_iff] at h
    obtain ⟨members, d, st1, _, h1, hp, hst⟩ := h
    obtain ⟨hpre, hb⟩ := compile_definition_preserves Built.preserved
      (fun _ d n b => Built.set_name d n b) (compile_good hash resolver fuel) c
      (.object members) {} st [] (d, st1) Built.empty h1
    subst hst hp
    refine ⟨d, ?_, ?_, ?_⟩
    · simp [Dictionary.deref, Dictionary.put]
    · exact Built.mono (List.prefix_append _ _) hb
    · exact hpre.trans (List.prefix_append _ _)

end built_compile

/-! ## The recurrence flag -/

/-- C4, as amended. For every Definition `d` that `Compiler::compile` returns,
with `rs` the records of its tape: `recurrent()` is true if and only if some
record carries a negative time offset or some FUNCTION record calls an import
(`get_import` of its variant) whose Definition is recurrent. -/
theorem Compiler.compile_recurrent_iff (hash : String → Int) (resolver : Resolver)
    (fuel : Nat) (c : Compiler) (json : Except String Json) (st : CompileState) (p : Nat)
    (st2 : CompileState) (h : Compiler.compile hash resolver fuel c json st = .ok (p, st2)) :
    ∃ d rs, st2.dict.deref p = some d ∧ d.records = .ok rs ∧
      (d.recurrent = true ↔
        (∃ r ∈ rs, r.has_negative_time) ∨ (∃ r ∈ rs, d.calls_recurrent st2.dict.defs r)) := by
  obtain ⟨d, hd, hb, _⟩ := Compiler.compile_built hash resolver fuel c json st p st2 h
  obtain ⟨rs, w⟩ := hb.wellBuilt
  exact ⟨d, rs, hd, Definition.records_of_Reads d w.reads, w.recurrent_iff⟩

/-- The example network: it is recurrent, through the argument `{"e2": -1}`. -/
theorem Compiler.compile_recurrent_iff_witness :
    Compiler.compile test_hash test_resolver 3 ⟨"", "", ""⟩ (.ok network_1) {}
      = .ok (1, network_1_state) ∧
    (network_1_state.dict.deref 1).map (·.recurrent) = some true ∧
    ∃ d rs, network_1_state.dict.deref 1 = some d ∧ d.records = .ok rs ∧
      (d.recurrent = true ↔
        (∃ r ∈ rs, r.has_negative_time) ∨
          (∃ r ∈ rs, d.calls_recurrent network_1_state.dict.defs r)) :=
  ⟨by decide!, by decide!,
    Compiler.compile_recurrent_iff test_hash test_resolver 3 ⟨"", "", ""⟩ (.ok network_1) {} 1
      network_1_state (by decide!)⟩

/-- C4, as stated, fails: a network that imports the recurrent Definition `bar`
and never calls it compiles to a Definition with `recurrent() == false`, while
the one Definition in its import table is recurrent. -/
theorem unused_recurrent_import_not_recurrent :
    compiled_recurrence (Compiler.compile test_hash (fun _ _ _ => .ok network_recurrent) 3
        ⟨"", "", ""⟩ (.ok network_unused_import) {})
      = .ok (false, [true]) := by
  decide!

/-! ## The name of a compiled Definition -/

section name

open Compiler

theorem Definition.add_expression_name (defs : List Definition) (d d1 : Definition)
    (name function : String) (input : List String) (times : List Int)
    (h : d.add_expression defs name function input times = .ok d1) : d1.name = d.name := by
  have key : ∀ ty variant d0, d.add_record ty variant name input times = .ok d0 →
      d0.name = d.name := by
    intro ty variant d0 h0
    obtain ⟨_, _, _, _, _, _, _, _, _, _, _, _, hn, _⟩ :=
      Definition.add_record_spec d d0 ty variant name input times h0
    exact hn
  unfold Definition.add_expression at h
  split at h
  · rw [Except.bind_ok_iff] at h
    obtain ⟨d0, h0, h⟩ := h
    split at h
    · simp only [pure, Except.pure, Except.ok.injEq] at h
      subst h
      have hk := key _ _ d0 h0
      split <;> exact hk
    · simp at h
  · split at h
    · exact key _ _ _ h
    split at h
    · exact key _ _ _ h
    split at h
    · exact key _ _ _ h
    split at h
    · exact key _ _ _ h
    split at h
    · exact key _ _ _ h
    split at h
    · exact key _ _ _ h
    · simp at h

theorem Definition.preserved_name (n : String) : Preserved (fun _ d => d.name = n) := by
  refine ⟨?_, ?_, ?_, ?_, fun _ _ _ _ h => h⟩
  · intro _ d d1 name hq h
    obtain ⟨_, _, _, _, _, _, _, _, _, _, _, _, hn, _⟩ :=
      Definition.add_record_spec _ d1 .VARIABLE (-1) name [] [] h
    rw [hn]; exact hq
  · intro _ d d1 name hq h
    obtain ⟨_, _, _, _, _, _, _, _, _, _, _, _, hn, _⟩ :=
      Definition.add_record_spec _ d1 .CONSTANT (-1) name [] [] h
    rw [hn]; exact hq
  · intro _ d d1 name p hq _ h
    unfold Definition.add_import at h
    split at h
    · simp at h
    · simp at h; subst h; exact hq
  · intro defs d d1 name function input times hq _ h
    rw [Definition.add_expression_name defs d d1 name function input times h]; exact hq

variable {hash : String → Int} {resolver : Resolver}
variable {rec : Compiler → Except String Json → CompileState → Except String (Nat × CompileState)}

/-- The loop of `compile_root` and the member "name": once the name is set no
further member "name" is accepted and the name stays; and when the loop sets
it, it is the string of the only member "name". -/
theorem Compiler.compile_root_loop_name (hrec : GoodCompile rec) (c : Compiler)
    (path : List String) :
    ∀ (ms : List (String × Json)) (s s1 : RootState),
      compile_root_loop hash resolver rec c path ms s = .ok s1 →
      (s.name = true → s1.name = true ∧ s1.d.name = s.d.name ∧ ∀ v, ("name", v) ∉ ms) ∧
      (s.name = false → s1.name = true →
        ("name", Json.string s1.d.name) ∈ ms ∧
          ∀ v, ("name", v) ∈ ms → v = Json.string s1.d.name) := by
  intro ms
  induction ms with
  | nil =>
    intro s s1 h
    simp [compile_root_loop] at h
    subst h
    exact ⟨fun hs => ⟨hs, rfl, by simp⟩, fun hs hs1 => by simp [hs] at hs1⟩
  | cons m ms ih =>
    intro s s1 h
    obtain ⟨key, value⟩ := m
    simp only [compile_root_loop] at h
    -- a member that is not taken as the name leaves the name as it is
    have other : ∀ (s2 : RootState), s2.name = s.name → s2.d.name = s.d.name →
        ¬ (s.name = false ∧ key = "name") → key ≠ "name" →
        compile_root_loop hash resolver rec c path ms s2 = .ok s1 →
        (s.name = true → s1.name = true ∧ s1.d.name = s.d.name ∧
          ∀ v, ("name", v) ∉ (key, value) :: ms) ∧
        (s.name = false → s1.name = true →
          ("name", Json.string s1.d.name) ∈ (key, value) :: ms ∧
            ∀ v, ("name", v) ∈ (key, value) :: ms → v = Json.string s1.d.name) := by
      intro s2 hn hd _ hkey h2
      obtain ⟨ih1, ih2⟩ := ih s2 s1 h2
      constructor
      · intro hs
        obtain ⟨a, b, e⟩ := ih1 (hn.trans hs)
        refine ⟨a, b.trans hd, ?_⟩
        intro v hv
        simp only [List.mem_cons, Prod.mk.injEq] at hv
        rcases hv with ⟨hk, _⟩ | hv
        · exact hkey hk.symm
        · exact e v hv
      · intro hs hs1
        obtain ⟨a, b⟩ := ih2 (hn.trans hs) hs1
        refine ⟨List.mem_cons_of_mem _ a, ?_⟩
        intro v hv
        simp only [List.mem_cons, Prod.mk.injEq] at hv
        rcases hv with ⟨hk, _⟩ | hv
        · exact absurd hk.symm hkey
        · exact b v hv
    split at h
    · rename_i hcond
      rw [Except.bind_ok_iff] at h
      obtain ⟨n, hn, h⟩ := h
      rw [Except.bind_ok_iff] at h
      obtain ⟨_, _, h⟩ := h
      obtain ⟨ih1, _⟩ := ih { s with name := true, d := s.d.set_name n } s1 h
      obtain ⟨a, b, e⟩ := ih1 rfl
      have hval : value = Json.string n := by
        cases value <;> simp [getString] at hn
        subst hn; rfl
      have hb : s1.d.name = n := b
      constructor
      · intro hs; simp [hs] at hcond
      · intro _ _
        rw [hb, hcond.2, hval]
        refine ⟨List.mem_cons_self _ _, ?_⟩
        intro v hv
        simp only [List.mem_cons, Prod.mk.injEq, true_and] at hv
        rcases hv with hv | hv
        · exact hv
        · exact absurd hv (e v)
    rename_i hcond
    split at h
    · rename_i hc2
      rw [Except.bind_ok_iff] at h
      obtain ⟨d1, h1, h⟩ := h
      exact other { s with variables_seen := true, d := d1 } rfl
        (compile_variables_preserves (Definition.preserved_name s.d.name) [] c _ value s.d d1
          rfl h1) hcond (by rw [hc2.2]; decide) h
    split at h
    · rename_i hc2
      rw [Except.bind_ok_iff] at h
      obtain ⟨d1, h1, h⟩ := h
      exact other { s with constants_seen := true, d := d1 } rfl
        (compile_constants_preserves (Definition.preserved_name s.d.name) [] c _ value s.d d1
          rfl h1) hcond (by rw [hc2.2]; decide) h
    split at h
    · rename_i hc2
      rw [Except.bind_ok_iff] at h
      obtain ⟨⟨d1, st1⟩, h1, h⟩ := h
      exact other { s with imports_seen := true, d := d1, st := st1 } rfl
        (compile_imports_preserves (Definition.preserved_name s.d.name) hrec c value s.d
          s.st _ _ rfl h1).2 hcond (by rw [hc2.2]; decide) h
    split at h
    · rename_i hc2
      exact other { s with body := some value } rfl rfl hcond (by rw [hc2.2]; decide) h
    · simp [unexpected_element] at h

end name

section name_compile

open Compiler

variable {hash : String → Int} {resolver : Resolver}
variable {rec : Compiler → Except String Json → CompileState → Except String (Nat × CompileState)}

theorem Compiler.assert_type_object (c : Compiler) (node : Json) (path : List String)
    (h : assert_type c node 3 path = .ok ()) : ∃ ms, node = .object ms := by
  cases node with
  | object ms => exact ⟨ms, rfl⟩
  | bool b => cases b <;> simp [assert_type, Json.getType] at h
  | null => simp [assert_type, Json.getType] at h
  | array _ => simp [assert_type, Json.getType] at h
  | string _ => simp [assert_type, Json.getType] at h
  | number _ => simp [assert_type, Json.getType] at h

theorem Compiler.compile_root_name (hrec : GoodCompile rec) (c : Compiler) (node : Json)
    (d : Definition) (st : CompileState) (path : List String) (r : Definition × CompileState)
    (h : compile_root hash resolver rec c node d st path = .ok r) :
    ∃ ms, node = .object ms ∧ ("name", Json.string r.1.name) ∈ ms ∧
      ∀ v, ("name", v) ∈ ms → v = Json.string r.1.name := by
  simp only [compile_root] at h
  rw [Except.bind_ok_iff] at h
  obtain ⟨_, ha, h⟩ := h
  obtain ⟨ms, hms⟩ := assert_type_object c node path ha
  subst hms
  simp only [] at h
  rw [Except.bind_ok_iff] at h
  obtain ⟨s, hs, h⟩ := h
  rw [Except.bind_ok_iff] at h
  obtain ⟨_, hname, h⟩ := h
  rw [Except.bind_ok_iff] at h
  obtain ⟨_, _, h⟩ := h
  rw [Except.bind_ok_iff] at h
  obtain ⟨d1, hd1, h⟩ := h
  simp only [pure, Except.pure, Except.ok.injEq] at h
  subst h
  have hs1 : s.name = true := by
    cases hn : s.name with
    | true => rfl
    | false => simp [assert_element, hn] at hname
  have hbody : d1.name = s.d.name :=
    compile_body_preserves (Definition.preserved_name s.d.name) s.st.dict c _ _ s.d d1 rfl hd1
  obtain ⟨_, h2⟩ := compile_root_loop_name hrec c path ms { d := d, st := st } s hs
  obtain ⟨hm, hu⟩ := h2 rfl hs1
  refine ⟨ms, rfl, ?_, ?_⟩
  · simpa [hbody] using hm
  · simpa [hbody] using hu

theorem Compiler.compile_definition_loop_done (c : Compiler) (path : List String)
    (ms : List (String × Json)) (d : Definition) (st : CompileState)
    (r : Bool × Definition × CompileState)
    (h : compile_definition_loop hash resolver rec c path ms true d st = .ok r) :
    ms = [] ∧ r = (true, d, st) := by
  cases ms with
  | nil => simp [compile_definition_loop] at h; exact ⟨rfl, h.symm⟩
  | cons m ms =>
    obtain ⟨key, value⟩ := m
    simp [compile_definition_loop, unexpected_element] at h

theorem Compiler.compile_definition_network (c : Compiler) (doc : Json) (d : Definition)
    (st : CompileState) (path : List String) (r : Definition × CompileState)
    (h : compile_definition hash resolver rec c doc d st path = .ok r) :
    ∃ value, doc = .object [("network", value)] ∧
      compile_root hash resolver rec c value d st (path ++ ["network"]) = .ok r := by
  simp only [compile_definition] at h
  rw [Except.bind_ok_iff] at h
  obtain ⟨_, ha, h⟩ := h
  obtain ⟨ms, hms⟩ := assert_type_object c doc path ha
  subst hms
  simp only [] at h
  rw [Except.bind_ok_iff] at h
  obtain ⟨⟨function, d1, st1⟩, hl, h⟩ := h
  rw [Except.bind_ok_iff] at h
  obtain ⟨_, hf, h⟩ := h
  simp only [pure, Except.pure, Except.ok.injEq] at h
  subst h
  cases ms with
  | nil =>
    simp [compile_definition_loop] at hl
    simp [assert_element, hl.1.symm] at hf
  | cons m ms =>
    obtain ⟨key, value⟩ := m
    simp only [compile_definition_loop] at hl
    split at hl
    · rename_i hcond
      rw [Except.bind_ok_iff] at hl
      obtain ⟨⟨d2, st2⟩, hroot, hl⟩ := hl
      obtain ⟨hnil, hr⟩ := compile_definition_loop_done c path ms d2 st2 _ hl
      simp only [Prod.mk.injEq] at hr
      subst hnil
      refine ⟨value, by rw [hcond.2], ?_⟩
      rw [← hcond.2, hroot, hr.2.1, hr.2.2]
    · simp [unexpected_element] at hl

/-- The name of the Definition that `Compiler::compile` returns: the document
is an object with the single member "network", an object in which "name"
occurs once, with a string value, and that string is the name. -/
theorem Compiler.compile_name_eq (hash : String → Int) (resolver : Resolver) (fuel : Nat)
    (c : Compiler) (json : Except String Json) (st : CompileState) (p : Nat)
    (st2 : CompileState) (h : compile hash resolver fuel c json st = .ok (p, st2)) :
    ∃ net n d, json = .ok (.object [("network", .object net)]) ∧
      ("name", Json.string n) ∈ net ∧ (∀ v, ("name", v) ∈ net → v = Json.string n) ∧
      st2.dict.deref p = some d ∧ d.get_name = n := by
  cases fuel with
  | zero => simp [compile] at h
  | succ fuel =>
    rw [compile_ok_iff] at h
    obtain ⟨members, d, st1, hjson, h1, hp, hst⟩ := h
    obtain ⟨value, hdoc, hroot⟩ := compile_definition_network c _ {} st [] (d, st1) h1
    obtain ⟨net, hnet, hm, hu⟩ :=
      compile_root_name (compile_good hash resolver fuel) c value {} st _ (d, st1) hroot
    subst hnet hst hp
    refine ⟨net, d.name, d, by rw [hjson, hdoc], hm, hu, ?_, rfl⟩
    simp [Dictionary.deref, Dictionary.put]

end name_compile

/-- C6. When `Compiler::compile` returns, the document is an object whose only
member is "network", the network object has exactly one member "name", a
string `n`, and the Definition returned has `get_name() == n`; after
`Network::load` of that document `definition()` is that Definition. -/
theorem Network.definition_get_name (hash : String → Int) (resolver : Resolver) (fuel : Nat)
    (c : Compiler) (json : Except String Json) (st : CompileState) (p : Nat)
    (st2 : CompileState) (h : Compiler.compile hash resolver fuel c json st = .ok (p, st2)) :
    ∃ net n d, json = .ok (.object [("network", .object net)]) ∧
      ("name", Json.string n) ∈ net ∧ (∀ v, ("name", v) ∈ net → v = Json.string n) ∧
      st2.dict.deref p = some d ∧ d.get_name = n ∧
      ∀ (N : Network ℤ) (calls : List (String × String × String)),
        c = ⟨"", "", ""⟩ → st = {} → Network.load hash resolver fuel json = .ok (N, calls) →
        N.get_definition = .ok d := by
  obtain ⟨net, n, d, hjson, hm, hu, hd, hn⟩ :=
    Compiler.compile_name_eq hash resolver fuel c json st p st2 h
  refine ⟨net, n, d, hjson, hm, hu, hd, hn, ?_⟩
  intro N calls hc hst hload
  subst hc hst
  simp only [Network.load] at hload
  rw [Except.bind_ok_iff] at hload
  obtain ⟨⟨p1, st1⟩, h1, hload⟩ := hload
  rw [h] at h1
  simp only [Except.ok.injEq, Prod.mk.injEq] at h1
  obtain ⟨hp, hs⟩ := h1
  subst hp hs
  rw [Except.bind_ok_iff] at hload
  obtain ⟨⟨_, tl⟩, _, hload⟩ := hload
  simp only [pure, Except.pure, Except.ok.injEq, Prod.mk.injEq] at hload
  obtain ⟨hN, _⟩ := hload
  subst hN
  simp [Network.get_definition, hd]

/-- The example network with the resolver of the tests: the Definition is
named "foo" and is recurrent, as `test_network_load` asserts. -/
theorem Network.definition_get_name_witness :
    Compiler.compile test_hash test_resolver 3 ⟨"", "", ""⟩ (.ok network_1) {}
      = .ok (1, network_1_state) ∧
    test_network_load = .ok ("foo", true) ∧
    ∃ net n d, (.ok network_1 : Except String Json) = .ok (.object [("network", .object net)]) ∧
      ("name", Json.string n) ∈ net ∧ (∀ v, ("name", v) ∈ net → v = Json.string n) ∧
      network_1_state.dict.deref 1 = some d ∧ d.get_name = n ∧
      ∀ (N : Network ℤ) (calls : List (String × String × String)),
        (⟨"", "", ""⟩ : Compiler) = ⟨"", "", ""⟩ → ({} : CompileState) = {} →
        Network.load test_hash test_resolver 3 (.ok network_1) = .ok (N, calls) →
        N.get_definition = .ok d :=
  ⟨by decide!, by decide!,
    Network.definition_get_name test_hash test_resolver 3 ⟨"", "", ""⟩ (.ok network_1) {} 1
      network_1_state (by decide!)⟩

/-! ## Compiler and Timeline on concrete networks -/

/-- C2 fails on the code. `Definition::id` searches the import index only, so
neither `compile_variables`, `compile_constants` nor `assert_unique` sees a
variable, constant or expression of the same name: a network that lists the
variable `x` twice compiles, and so does one with `x` as variable, constant and
body expression.  The later records re-use the name and even the id. -/
theorem compile_accepts_repeated_names :
    compiled_names_tape
        (Compiler.compile test_hash test_resolver 3 ⟨"", "", ""⟩ (.ok network_twice_variable) {})
      = .ok (["x", "x", "return"], [1, -1, 0, 0, 1, -1, 1, 0, 7, -1, 1, 1, 1, 0]) ∧
    compiled_names_tape
        (Compiler.compile test_hash test_resolver 3 ⟨"", "", ""⟩ (.ok network_shared_name) {})
      = .ok (["x", "x", "x", "return"],
          [1, -1, 0, 0, 2, -1, 1, 0, 7, -1, 1, 1, 1, 0, 7, -1, 1, 1, 1, 0]) := by
  decide!

/-- C3 fails on the code. The first compilation of the example network resolves
the import `bar` once; the second compilation into the same Dictionary
resolves it again (two calls in the log), because `compile_import` looks for
the key of (the compiler's user, the compiler's library, "bar"), here `::bar`,
while the import was stored under `joe19:default:bar`. -/
theorem second_compile_resolves_again :
    (compile_network_1.map (fun r => r.2.calls)) = .ok [("joe19", "default", "bar")] ∧
    (compile_network_1_again.map (fun r => r.2.calls))
      = .ok [("joe19", "default", "bar"), ("joe19", "default", "bar")] := by
  decide!

/-- C5 fails on the code. After `load` of the example network the root Runtime
lists 11 nodes for the 10 records of the tape, because the ELEMENT case of
`add_runtime` falls through into TRANSPOSE: `expressions()[7]`, which
`get_variables` reads as the Runtime of the FUNCTION record `e3` (id 7), is
that Transpose node, and the Runtime of `e3` is at index 8.  With `*` in place
of `**` the same network gives the five entries the claim describes. -/
theorem get_variables_reads_shifted_expressions :
    load_and_list network_1
      = .ok ([some (.variable none), some (.variable none), some (.variable none),
          some (.constant none), some (.constant none), some (.product 4 1),
          some (.element 5 2), some (.transpose 5),
          some (.runtime [10, 11, 3, 12, 13] [10, 11] [3] (some 13)),
          some (.product 14 8), some (.addition 6 7)],
        .error "not a Runtime") ∧
    (load_and_list network_1_product).map (·.2)
      = .ok (.ok [("x", 1), ("y", 2), ("z", 3), ("e3.x", 9), ("e3.y", 10)]) := by
  decide!

/-! ## The operators of `Matrix` -/

section matrix_operators

variable {α : Type}

theorem CPUMatrix.index_lt {r c i j : Nat} (hi : i < r) (hj : j < c) : i * c + j < r * c := by
  have h1 : (i + 1) * c ≤ r * c := Nat.mul_le_mul_right c hi
  have h2 : (i + 1) * c = i * c + c := Nat.succ_mul i c
  omega

theorem CPUMatrix.coeff_ofFn [Zero α] (r c : Nat) (f : Nat → Nat → α) (i j : Nat)
    (hi : i < r) (hj : j < c) : (CPUMatrix.ofFn r c f).coeff i j = f i j := by
  have hlt := CPUMatrix.index_lt hi hj
  have hc : 0 < c := Nat.lt_of_le_of_lt (Nat.zero_le j) hj
  have hdiv : (i * c + j) / c = i := by
    rw [Nat.add_comm, Nat.add_mul_div_right _ _ hc, Nat.div_eq_of_lt hj, Nat.zero_add]
  have hmod : (i * c + j) % c = j := by
    rw [Nat.add_comm, Nat.add_mul_mod_self_right, Nat.mod_eq_of_lt hj]
  simp [CPUMatrix.coeff, CPUMatrix.ofFn, List.getD, hlt, hdiv, hmod]

theorem Matrix.and_ok [Zero α] [Add α] [Mul α] (a b : CPUMatrix α)
    (hb : ¬ (b.rows = 1 ∧ b.cols = 1))
    (hr : a.rows = b.rows) (hc : a.cols = b.cols) :
    ∃ p, Matrix.and a b = .ok p ∧ p.rows = a.rows ∧ p.cols = a.cols ∧
      p.data = List.zipWith (· * ·) a.data b.data := by
  unfold Matrix.and CPUContext.mulElem
  simp [hb, hr, hc]

end matrix_operators

/-! ## Operators: `Element`, `Transpose`, `Summation`, `Exponent` -/

section more_operators

variable {α : Type} [CommRing α]

/-- For `f = l & r` over fresh Variables of one shape that is not 1×1 and has
fewer than 2^31 rows and columns, and a seed `d` of that shape: `f.forward()`
is the element-wise product, and `f.backward(d)` leaves `r ⊙ d` as the
derivative of `l` and `d ⊙ l` as the derivative of `r`. -/
theorem Element_forward_backward (ex : α → α) (fuel : Nat) (l r d : CPUMatrix α)
    (hl : ¬ (l.rows = 1 ∧ l.cols = 1))
    (hr : r.rows = l.rows ∧ r.cols = l.cols) (hd : d.rows = l.rows ∧ d.cols = l.cols)
    (hs : l.rows < 2147483648 ∧ l.cols < 2147483648) :
    ∃ v h1, forward ex (fuel + 2) (elementHeap l r) 2 = .ok (v, h1) ∧
      v.rows = l.rows ∧ v.cols = l.cols ∧
      v.data = List.zipWith (· * ·) l.data r.data ∧
      ∃ h2 gl gr, backward ex (fuel + 2) h1 2 d = .ok h2 ∧
        Function.derivative h2 0 = .ok gl ∧ Function.derivative h2 1 = .ok gr ∧
        gl.rows = l.rows ∧ gl.cols = l.cols ∧
        gl.data = List.zipWith (· * ·) r.data d.data ∧
        gr.rows = l.rows ∧ gr.cols = l.cols ∧
        gr.data = List.zipWith (· * ·) d.data l.data := by
  have hr1 : ¬ (r.rows = 1 ∧ r.cols = 1) := by rw [hr.1, hr.2]; exact hl
  have hd1 : ¬ (d.rows = 1 ∧ d.cols = 1) := by rw [hd.1, hd.2]; exact hl
  obtain ⟨v, hv, hvr, hvc, hvd⟩ := Matrix.and_ok l r hr1 hr.1.symm hr.2.symm
  obtain ⟨gl, hgl, hglr, hglc, hgld⟩ :=
    Matrix.and_ok r d hd1 (hr.1.trans hd.1.symm) (hr.2.trans hd.2.symm)
  obtain ⟨gr, hgr, hgrr, hgrc, hgrd⟩ := Matrix.and_ok d l hl hd.1 hd.2
  have hgl0 := Matrix.zero_add gl
  have hgr0 := Matrix.zero_add gr
  have hzl := Matrix.sized_of_lt gl (0 : α) (by omega) (by omega)
  have hzr := Matrix.sized_of_lt gr (0 : α) (by omega) (by omega)
  refine ⟨v, [ Function.newVariable (some l), Function.newVariable (some r),
      ⟨true, some v, .element 0 1⟩ ], ?_, hvr, hvc, hvd, ?_⟩
  · simp [forward, elementHeap, Function.newVariable, Function.newNode, bind, Except.bind,
      pure, Except.pure, hv]
  · refine ⟨[ ⟨false, some l, .variable (some gl)⟩, ⟨false, some r, .variable (some gr)⟩,
        ⟨true, some v, .element 0 1⟩ ], gl, gr, ?_, ?_, ?_,
      hglr.trans hr.1, hglc.trans hr.2, hgld, hgrr.trans hd.1, hgrc.trans hd.2, hgrd⟩
    · simp [backward, forward, Function.newVariable, bind, Except.bind, pure, Except.pure,
        hgl, hgr, hzl, hzr, hgl0, hgr0]
    · simp [Function.derivative]
    · simp [Function.derivative]

/-- For `f = a.T()` over a fresh Variable `a`: `f.forward()` has the shape
`cols × rows` of `a` and entry `(j, i)` is `a(i, j)`; and for every seed `d`
with fewer than 2^31 rows and columns, `f.backward(d)` leaves the transpose of
`d` as the derivative of `a`: for `a` of shape m×n and `d` of shape n×m it has
shape m×n and entry `(i, j)` is `d(j, i)`. -/
theorem Transpose_forward_backward (ex : α → α) (fuel : Nat) (a d : CPUMatrix α)
    (hs : d.rows < 2147483648 ∧ d.cols < 2147483648) :
    ∃ v h1, forward ex (fuel + 2) (transposeHeap a) 1 = .ok (v, h1) ∧
      v.rows = a.cols ∧ v.cols = a.rows ∧
      (∀ i j, i < a.rows → j < a.cols → v.coeff j i = a.coeff i j) ∧
      ∃ h2 g, backward ex (fuel + 2) h1 1 d = .ok h2 ∧
        Function.derivative h2 0 = .ok g ∧ g = Matrix.T d ∧
        g.rows = d.cols ∧ g.cols = d.rows ∧
        (d.rows = a.cols → d.cols = a.rows → g.rows = a.rows ∧ g.cols = a.cols) ∧
        (∀ i j, i < d.cols → j < d.rows → g.coeff i j = d.coeff j i) := by
  have hg0 := Matrix.zero_add (Matrix.T d)
  have hz := Matrix.sized_of_lt (Matrix.T d) (0 : α) hs.2 hs.1
  refine ⟨Matrix.T a, [ Function.newVariable (some a),
      ⟨true, some (Matrix.T a), .transpose 0⟩ ], ?_, rfl, rfl, ?_, ?_⟩
  · simp [forward, transposeHeap, Function.newVariable, Function.newNode, bind, Except.bind,
      pure, Except.pure]
  · intro i j hi hj
    exact CPUMatrix.coeff_ofFn _ _ _ j i hj hi
  · refine ⟨[ ⟨false, some a, .variable (some (Matrix.T d))⟩,
        ⟨true, some (Matrix.T a), .transpose 0⟩ ], Matrix.T d, ?_, ?_, rfl, rfl, rfl, ?_, ?_⟩
    · simp [backward, Function.newVariable, bind, Except.bind, pure, Except.pure, hz, hg0]
    · simp [Function.derivative]
    · intro h1 h2
      exact ⟨h2, h1⟩
    · intro i j hi hj
      exact CPUMatrix.coeff_ofFn _ _ _ i j hi hj

/-- For the Summation node `f` over a fresh Variable `a` with fewer than 2^31
rows and columns: `f.forward()` is the 1×1 matrix that holds the sum of the
entries of `a`; and for every seed `d`, `f.backward(d)` leaves as the
derivative of `a` the matrix of the shape of `a` whose every entry is the sum
of the entries of `d`. -/
theorem Summation_forward_backward (ex : α → α) (fuel : Nat) (a d : CPUMatrix α)
    (hs : a.rows < 2147483648 ∧ a.cols < 2147483648) :
    ∃ v h1, forward ex (fuel + 2) (summationHeap a) 1 = .ok (v, h1) ∧
      v.rows = 1 ∧ v.cols = 1 ∧ v.data = [a.data.sum] ∧
      ∃ h2 g, backward ex (fuel + 2) h1 1 d = .ok h2 ∧
        Function.derivative h2 0 = .ok g ∧
        g.rows = a.rows ∧ g.cols = a.cols ∧
        g.data = List.replicate (a.rows * a.cols) d.data.sum := by
  have hg0 := Matrix.zero_add (Matrix.full a.rows a.cols (Matrix.S d))
  refine ⟨Matrix.full 1 1 (Matrix.S a), [ Function.newVariable (some a),
      ⟨true, some (Matrix.full 1 1 (Matrix.S a)), .summation 0⟩ ], ?_, rfl, rfl, ?_, ?_⟩
  · simp [forward, summationHeap, Function.newVariable, Function.newNode, bind, Except.bind,
      pure, Except.pure]
  · simp [Matrix.full, CPUContext.set, CPUContext.create, Matrix.S, CPUContext.summation,
      List.sum]
  · refine ⟨[ ⟨false, some a, .variable (some (Matrix.full a.rows a.cols (Matrix.S d)))⟩,
        ⟨true, some (Matrix.full 1 1 (Matrix.S a)), .summation 0⟩ ],
      Matrix.full a.rows a.cols (Matrix.S d), ?_, ?_, rfl, rfl, ?_⟩
    · have hz1 := Matrix.sized_of_lt a (Matrix.S d) hs.1 hs.2
      have hz2 : Matrix.sized (Matrix.rows (Matrix.full a.rows a.cols (Matrix.S d)))
          (Matrix.cols (Matrix.full a.rows a.cols (Matrix.S d))) (0 : α)
          = .ok (Matrix.full a.rows a.cols 0) :=
        Matrix.sized_of_lt (Matrix.full a.rows a.cols (Matrix.S d)) 0 hs.1 hs.2
      have hg1 : Matrix.add (Matrix.full a.rows a.cols 0)
          (Matrix.full a.rows a.cols (Matrix.S d))
          = .ok (Matrix.full a.rows a.cols (Matrix.S d)) := hg0
      simp [backward, forward, Function.newVariable, bind, Except.bind, pure, Except.pure,
        hz1, hz2, hg1]
    · simp [Function.derivative]
    · simp [Matrix.full, CPUContext.set, CPUContext.create, Matrix.S, CPUContext.summation,
        List.sum]

end more_operators

/-! ## Closed instances of the operator claims -/

/-- The graph and the seed of `test_function_element`. -/
theorem Element_forward_backward_witness :
    ¬ (test_ma.rows = 1 ∧ test_ma.cols = 1) ∧
    (test_element_mb.rows = test_ma.rows ∧ test_element_mb.cols = test_ma.cols) ∧
    (test_df_seed.rows = test_ma.rows ∧ test_df_seed.cols = test_ma.cols) ∧
    (test_ma.rows < 2147483648 ∧ test_ma.cols < 2147483648) ∧
    ∃ v h1, forward (fun x => x) 2 (elementHeap test_ma test_element_mb) 2 = .ok (v, h1) ∧
      v.rows = 2 ∧ v.cols = 3 ∧ v.data = [7, 14, 24, 32, 45, 54] ∧
      ∃ h2 gl gr, backward (fun x => x) 2 h1 2 test_df_seed = .ok h2 ∧
        Function.derivative h2 0 = .ok gl ∧ Function.derivative h2 1 = .ok gr ∧
        gl.rows = 2 ∧ gl.cols = 3 ∧ gl.data = [7, 0, 0, 0, 0, 0] ∧
        gr.rows = 2 ∧ gr.cols = 3 ∧ gr.data = [1, 0, 0, 0, 0, 0] :=
  ⟨by decide, by decide, by decide, ⟨by decide, by decide⟩,
    Element_forward_backward (fun x => x) 0 test_ma test_element_mb test_df_seed (by decide)
      (by decide) (by decide) ⟨by decide, by decide⟩⟩

/-- The graph and the seed of `test_function_transpose`. -/
theorem Transpose_forward_backward_witness :
    (test_transpose_dv.rows < 2147483648 ∧ test_transpose_dv.cols < 2147483648) ∧
    ∃ v h1, forward (fun x => x) 2 (transposeHeap test_transpose_ma) 1 = .ok (v, h1) ∧
      v.rows = 3 ∧ v.cols = 2 ∧
      (∀ i j, i < 2 → j < 3 → v.coeff j i = test_transpose_ma.coeff i j) ∧
      ∃ h2 g, backward (fun x => x) 2 h1 1 test_transpose_dv = .ok h2 ∧
        Function.derivative h2 0 = .ok g ∧ g = ⟨2, 3, [1, 0, 0, 0, 0, 0], rfl⟩ ∧
        g.rows = 2 ∧ g.cols = 3 ∧
        (test_transpose_dv.rows = 3 → test_transpose_dv.cols = 2 → g.rows = 2 ∧ g.cols = 3) ∧
        (∀ i j, i < 2 → j < 3 → g.coeff i j = test_transpose_dv.coeff j i) :=
  ⟨⟨by decide, by decide⟩,
    Transpose_forward_backward (fun x => x) 0 test_transpose_ma test_transpose_dv
      ⟨by decide, by decide⟩⟩

/-- The graph and the seed of `test_function_summation`: the seed `[1]` gives
the all-ones matrix. -/
theorem Summation_forward_backward_witness :
    (test_ma.rows < 2147483648 ∧ test_ma.cols < 2147483648) ∧
    ∃ v h1, forward (fun x => x) 2 (summationHeap test_ma) 1 = .ok (v, h1) ∧
      v.rows = 1 ∧ v.cols = 1 ∧ v.data = [21] ∧
      ∃ h2 g, backward (fun x => x) 2 h1 1 test_summation_dv = .ok h2 ∧
        Function.derivative h2 0 = .ok g ∧
        g.rows = 2 ∧ g.cols = 3 ∧ g.data = [1, 1, 1, 1, 1, 1] :=
  ⟨⟨by decide, by decide⟩,
    Summation_forward_backward (fun x => x) 0 test_ma test_summation_dv ⟨by decide, by decide⟩⟩

/-- C13 fails on the code. `Exponent::backward` multiplies the seed with the
stored `_value`, not with `forward()`.  On a node whose `forward()` was never
called `_value` is null (the dereference is an error here).  After
`forward()` on `a = [2, 3]`, a change of `a` to `[5, 7]` and `refresh(true)`,
`backward([1, 1])` gives `a` the derivative `[exp 2, exp 3]`, the seed times
the old value, where `d ⊙ forward()` is `[exp 5, exp 7]`. -/
theorem Exponent_backward_uses_stored_value (ex : ℤ → ℤ) :
    backward ex 2 (exponentHeap (row2 2 3)) 1 (row2 1 1) = .error "null value" ∧
    exponent_after_change ex = .ok (row2 (ex 2) (ex 3)) ∧
    (do let (_, h1) ← forward ex 2 (exponentHeap (row2 5 7)) 1
        let h2 ← backward ex 2 h1 1 (row2 1 1)
        Function.derivative h2 0) = .ok (row2 (ex 5) (ex 7)) := by
  refine ⟨?_, ?_, ?_⟩
  · simp [backward, exponentHeap, Function.newVariable, Function.newNode]
  · simp [exponent_after_change, forward, backward, refresh, exponentHeap,
      Function.newVariable, Function.newNode, Function.setValue, Function.derivative, bind,
      Except.bind, pure, Except.pure, Matrix.E, CPUContext.exponent, Matrix.and,
      CPUContext.mulElem, Matrix.add, CPUContext.add, Matrix.sized, Matrix.rows, Matrix.cols,
      Matrix.toInt, Matrix.full, CPUContext.set, CPUContext.create, row2]
  · simp [forward, backward, exponentHeap,
      Function.newVariable, Function.newNode, Function.derivative, bind,
      Except.bind, pure, Except.pure, Matrix.E, CPUContext.exponent, Matrix.and,
      CPUContext.mulElem, Matrix.add, CPUContext.add, Matrix.sized, Matrix.rows, Matrix.cols,
      Matrix.toInt, Matrix.full, CPUContext.set, CPUContext.create, row2]

/-! ## Memoization of `forward` -/

/-- The cached value of an operator node: `_value` when it is set and `_cache`
is true. -/
theorem cached_some {α : Type} (value : Option (CPUMatrix α)) (cache : Bool) (w : CPUMatrix α)
    (hw : (match value with
      | some v => if cache = true then some v else none
      | none => none) = some w) : value = some w ∧ cache = true := by
  cases value with
  | none => simp at hw
  | some u =>
    cases cache with
    | false => simp at hw
    | true => simpa using hw

section memoization

variable {α : Type} [CommRing α]

theorem forward_length_unary (fuel : Nat) (h : Heap α) (p f : Nat) (node : Function α)
    (g : CPUMatrix α → CPUMatrix α) (ex : α → α)
    (ih : ∀ (h : Heap α) (p : Nat) (v : CPUMatrix α) (h1 : Heap α),
      forward ex fuel h p = .ok (v, h1) → h1.length = h.length)
    (v : CPUMatrix α) (h1 : Heap α)
    (hf : (do
      let (a, h1) ← forward ex fuel h f
      pure (g a, h1.set p { node with cache := true, value := some (g a) })) = .ok (v, h1)) :
    h1.length = h.length := by
  rw [Except.bind_ok_iff] at hf
  obtain ⟨⟨a, ha⟩, h0, hf⟩ := hf
  simp only [pure, Except.pure, Except.ok.injEq, Prod.mk.injEq] at hf
  rw [← hf.2, List.length_set]
  exact ih _ _ _ _ h0

theorem forward_length_binary (fuel : Nat) (h : Heap α) (p l r : Nat) (node : Function α)
    (g : CPUMatrix α → CPUMatrix α → Except String (CPUMatrix α)) (ex : α → α)
    (ih : ∀ (h : Heap α) (p : Nat) (v : CPUMatrix α) (h1 : Heap α),
      forward ex fuel h p = .ok (v, h1) → h1.length = h.length)
    (v : CPUMatrix α) (h1 : Heap α)
    (hf : (do
      let (a, h1) ← forward ex fuel h l
      let (b, h2) ← forward ex fuel h1 r
      let c ← g a b
      pure (c, h2.set p { node with cache := true, value := some c })) = .ok (v, h1)) :
    h1.length = h.length := by
  rw [Except.bind_ok_iff] at hf
  obtain ⟨⟨a, ha⟩, h0, hf⟩ := hf
  rw [Except.bind_ok_iff] at hf
  obtain ⟨⟨b, hb⟩, h2, hf⟩ := hf
  rw [Except.bind_ok_iff] at hf
  obtain ⟨c, _, hf⟩ := hf
  simp only [pure, Except.pure, Except.ok.injEq, Prod.mk.injEq] at hf
  rw [← hf.2, List.length_set, ih _ _ _ _ h2]
  exact ih _ _ _ _ h0

/-- The heap keeps its length through `forward`. -/
theorem forward_length (ex : α → α) :
    ∀ (fuel : Nat) (h : Heap α) (p : Nat) (v : CPUMatrix α) (h1 : Heap α),
      forward ex fuel h p = .ok (v, h1) → h1.length = h.length := by
  intro fuel
  induction fuel with
  | zero => intro h p v h1 hf; simp [forward] at hf
  | succ fuel ih =>
    intro h p v h1 hf
    simp only [forward] at hf
    split at hf
    · simp at hf
    · rename_i node hn
      split at hf
      · split at hf
        · simp at hf; rw [hf.2]
        · simp at hf
      · split at hf
        · simp at hf; rw [hf.2]
        · simp at hf
      · split at hf
        · simp at hf; rw [hf.2]
        · exact forward_length_unary fuel h p _ node _ ex ih v h1 hf
      · split at hf
        · simp at hf; rw [hf.2]
        · exact forward_length_unary fuel h p _ node _ ex ih v h1 hf
      · split at hf
        · simp at hf; rw [hf.2]
        · exact forward_length_unary fuel h p _ node (fun a => Matrix.full 1 1 (Matrix.S a)) ex ih v
            h1 hf
      · split at hf
        · simp at hf; rw [hf.2]
        · exact forward_length_binary fuel h p _ _ node _ ex ih v h1 hf
      · split at hf
        · simp at hf; rw [hf.2]
        · exact forward_length_binary fuel h p _ _ node _ ex ih v h1 hf
      · split at hf
        · simp at hf; rw [hf.2]
        · exact forward_length_binary fuel h p _ _ node _ ex ih v h1 hf
      · split at hf
        · simp at hf; rw [hf.2]
        · exact forward_length_binary fuel h p _ _ node _ ex ih v h1 hf
      · split at hf
        · simp at hf; rw [hf.2]
        · rw [Except.bind_ok_iff] at hf
          obtain ⟨⟨a, ha⟩, h0, hf⟩ := hf
          rw [Except.bind_ok_iff] at hf
          obtain ⟨z, _, hf⟩ := hf
          simp only [pure, Except.pure, Except.ok.injEq, Prod.mk.injEq] at hf
          rw [← hf.2, List.length_set]
          exact ih _ _ _ _ h0
      · split at hf
        · exact ih _ _ _ _ hf
        · simp at hf

/-- After a `forward()` that returned `v`, an operator node holds `v` with a
valid cache. -/
theorem forward_stores (ex : α → α) (fuel : Nat) (h : Heap α) (p : Nat) (node : Function α)
    (v : CPUMatrix α) (h1 : Heap α) (hn : h[p]? = some node)
    (hk : node.kind.isOperator = true) (hf : forward ex fuel h p = .ok (v, h1)) :
    h1[p]? = some { node with cache := true, value := some v } := by
  have hp : p < h.length := Heap.lt_of_getElem? hn
  cases fuel with
  | zero => simp [forward] at hf
  | succ fuel =>
    have ih := forward_length ex fuel
    obtain ⟨cache, value, kind⟩ := node
    simp only [forward, hn] at hf
    cases kind <;> simp [Kind.isOperator] at hk
    · simp only at hf
      split at hf
      · rename_i w hw
        obtain ⟨h3, h4⟩ := cached_some value cache w hw
        simp only [Except.ok.injEq, Prod.mk.injEq] at hf
        rw [← hf.2, hn, h3, h4, hf.1]
      · rw [Except.bind_ok_iff] at hf
        obtain ⟨⟨a, ha⟩, h0, hf⟩ := hf
        simp only [pure, Except.pure, Except.ok.injEq, Prod.mk.injEq] at hf
        have hl := ih _ _ _ _ h0
        rw [← hf.2, ← hf.1]
        simp [List.getElem?_set, hl, hp]
    · simp only at hf
      split at hf
      · rename_i w hw
        obtain ⟨h3, h4⟩ := cached_some value cache w hw
        simp only [Except.ok.injEq, Prod.mk.injEq] at hf
        rw [← hf.2, hn, h3, h4, hf.1]
      · rw [Except.bind_ok_iff] at hf
        obtain ⟨⟨a, ha⟩, h0, hf⟩ := hf
        simp only [pure, Except.pure, Except.ok.injEq, Prod.mk.injEq] at hf
        have hl := ih _ _ _ _ h0
        rw [← hf.2, ← hf.1]
        simp [List.getElem?_set, hl, hp]
    · simp only at hf
      split at hf
      · rename_i w hw
        obtain ⟨h3, h4⟩ := cached_some value cache w hw
        simp only [Except.ok.injEq, Prod.mk.injEq] at hf
        rw [← hf.2, hn, h3, h4, hf.1]
      · rw [Except.bind_ok_iff] at hf
        obtain ⟨⟨a, ha⟩, h0, hf⟩ := hf
        simp only [pure, Except.pure, Except.ok.injEq, Prod.mk.injEq] at hf
        have hl := ih _ _ _ _ h0
        rw [← hf.2, ← hf.1]
        simp [List.getElem?_set, hl, hp]
    · simp only at hf
      split at hf
      · rename_i w hw
        obtain ⟨h3, h4⟩ := cached_some value cache w hw
        simp only [Except.ok.injEq, Prod.mk.injEq] at hf
        rw [← hf.2, hn, h3, h4, hf.1]
      · rw [Except.bind_ok_iff] at hf
        obtain ⟨⟨a, ha⟩, h0, hf⟩ := hf
        rw [Except.bind_ok_iff] at hf
        obtain ⟨⟨b, hb⟩, h2, hf⟩ := hf
        rw [Except.bind_ok_iff] at hf
        obtain ⟨c, _, hf⟩ := hf
        simp only [pure, Except.pure, Except.ok.injEq, Prod.mk.injEq] at hf
        have hl := ih _ _ _ _ h0
        have hl2 := ih _ _ _ _ h2
        rw [← hf.2, ← hf.1]
        simp [List.getElem?_set, hl, hl2, hp]
    · simp only at hf
      split at hf
      · rename_i w hw
        obtain ⟨h3, h4⟩ := cached_some value cache w hw
        simp only [Except.ok.injEq, Prod.mk.injEq] at hf
        rw [← hf.2, hn, h3, h4, hf.1]
      · rw [Except.bind_ok_iff] at hf
        obtain ⟨⟨a, ha⟩, h0, hf⟩ := hf
        rw [Except.bind_ok_iff] at hf
        obtain ⟨⟨b, hb⟩, h2, hf⟩ := hf
        rw [Except.bind_ok_iff] at hf
        obtain ⟨c, _, hf⟩ := hf
        simp only [pure, Except.pure, Except.ok.injEq, Prod.mk.injEq] at hf
        have hl := ih _ _ _ _ h0
        have hl2 := ih _ _ _ _ h2
        rw [← hf.2, ← hf.1]
        simp [List.getElem?_set, hl, hl2, hp]
    · simp only at hf
      split at hf
      · rename_i w hw
        obtain ⟨h3, h4⟩ := cached_some value cache w hw
        simp only [Except.ok.injEq, Prod.mk.injEq] at hf
        rw [← hf.2, hn, h3, h4, hf.1]
      · rw [Except.bind_ok_iff] at hf
        obtain ⟨⟨a, ha⟩, h0, hf⟩ := hf
        rw [Except.bind_ok_iff] at hf
        obtain ⟨⟨b, hb⟩, h2, hf⟩ := hf
        rw [Except.bind_ok_iff] at hf
        obtain ⟨c, _, hf⟩ := hf
        simp only [pure, Except.pure, Except.ok.injEq, Prod.mk.injEq] at hf
        have hl := ih _ _ _ _ h0
        have hl2 := ih _ _ _ _ h2
        rw [← hf.2, ← hf.1]
        simp [List.getElem?_set, hl, hl2, hp]
    · simp only at hf
      split at hf
      · rename_i w hw
        obtain ⟨h3, h4⟩ := cached_some value cache w hw
        simp only [Except.ok.injEq, Prod.mk.injEq] at hf
        rw [← hf.2, hn, h3, h4, hf.1]
      · rw [Except.bind_ok_iff] at hf
        obtain ⟨⟨a, ha⟩, h0, hf⟩ := hf
        rw [Except.bind_ok_iff] at hf
        obtain ⟨⟨b, hb⟩, h2, hf⟩ := hf
        rw [Except.bind_ok_iff] at hf
        obtain ⟨c, _, hf⟩ := hf
        simp only [pure, Except.pure, Except.ok.injEq, Prod.mk.injEq] at hf
        have hl := ih _ _ _ _ h0
        have hl2 := ih _ _ _ _ h2
        rw [← hf.2, ← hf.1]
        simp [List.getElem?_set, hl, hl2, hp]

/-- `forward()` of an operator node with a valid cache returns the stored
value and leaves every node as it is; one unit of fuel is enough, so no
other node is called. -/
theorem forward_cached (ex : α → α) (n : Nat) (h : Heap α) (p : Nat) (node : Function α)
    (v : CPUMatrix α) (hk : node.kind.isOperator = true)
    (hn : h[p]? = some { node with cache := true, value := some v }) :
    forward ex (n + 1) h p = .ok (v, h) := by
  obtain ⟨cache, value, kind⟩ := node
  cases kind <;> simp [Kind.isOperator] at hk <;> simp [forward, hn]

/-- C20. Once `forward()` of an operator node (unary or binary) has returned
`v`, the node holds `v` with a valid cache, and in every heap in which the
node is still in that state (no `refresh` has reset its cache) a further
`forward()` returns `v` and changes no node.  It does so with one unit of
fuel, which allows no call of `forward()` on an input, and the heap it
returns is the one it was given, so nothing is computed or stored. -/
theorem Operator_forward_computes_once (ex : α → α) (fuel : Nat) (h : Heap α) (p : Nat)
    (node : Function α) (v : CPUMatrix α) (h1 : Heap α) (hn : h[p]? = some node)
    (hk : node.kind.isOperator = true) (hf : forward ex fuel h p = .ok (v, h1)) :
    h1[p]? = some { node with cache := true, value := some v } ∧
    ∀ (h2 : Heap α), h2[p]? = h1[p]? → ∀ (n : Nat), forward ex (n + 1) h2 p = .ok (v, h2) := by
  have hs := forward_stores ex fuel h p node v h1 hn hk hf
  refine ⟨hs, ?_⟩
  intro h2 h2p n
  exact forward_cached ex n h2 p node v hk (h2p.trans hs)

end memoization

/-- The node `f = a - b` of `test_function_subtract`. -/
theorem Operator_forward_computes_once_witness :
    (subtractHeap test_ma test_mb)[2]? = some (Function.newNode (.subtraction 0 1)) ∧
    forward (fun x => x) 2 (subtractHeap test_ma test_mb) 2 =
      .ok (⟨2, 3, [-5, -3, -1, 1, 3, 5], rfl⟩,
        [Function.newVariable (some test_ma), Function.newVariable (some test_mb),
          ⟨true, some ⟨2, 3, [-5, -3, -1, 1, 3, 5], rfl⟩, .subtraction 0 1⟩]) ∧
    ([Function.newVariable (some test_ma), Function.newVariable (some test_mb),
        ⟨true, some ⟨2, 3, [-5, -3, -1, 1, 3, 5], rfl⟩, .subtraction 0 1⟩][2]? =
      some ⟨true, some ⟨2, 3, [-5, -3, -1, 1, 3, 5], rfl⟩, .subtraction 0 1⟩ ∧
    ∀ (h2 : Heap ℤ),
      h2[2]? = [Function.newVariable (some test_ma), Function.newVariable (some test_mb),
        ⟨true, some ⟨2, 3, [-5, -3, -1, 1, 3, 5], rfl⟩, .subtraction 0 1⟩][2]? →
      ∀ (n : Nat), forward (fun x => x) (n + 1) h2 2 =
        .ok ((⟨2, 3, [-5, -3, -1, 1, 3, 5], rfl⟩ : CPUMatrix ℤ), h2)) :=
  ⟨rfl, by decide!, Operator_forward_computes_once (fun x => x) 2 (subtractHeap test_ma test_mb) 2
    (Function.newNode (.subtraction 0 1)) ⟨2, 3, [-5, -3, -1, 1, 3, 5], rfl⟩ _ rfl rfl
    (by decide!)⟩

/-! ## The buffer pool of `Context` -/

section pool

variable {κ ν : Type} [DecidableEq κ]

theorem Map.find_assign_self (m : List (κ × ν)) (k : κ) (v : ν) :
    Map.find (Map.assign m k v) k = some v := by
  induction m with
  | nil => simp [Map.assign, Map.find]
  | cons e m ih =>
    obtain ⟨k', v'⟩ := e
    by_cases hk : k' = k
    · simp [Map.assign, Map.find, hk]
    · simp [Map.assign, Map.find, hk, ih]

theorem Map.find_assign_of_ne (m : List (κ × ν)) (k k1 : κ) (v : ν) (hne : k1 ≠ k) :
    Map.find (Map.assign m k v) k1 = Map.find m k1 := by
  induction m with
  | nil => simp [Map.assign, Map.find, Ne.symm hne]
  | cons e m ih =>
    obtain ⟨k', v'⟩ := e
    by_cases hk : k' = k
    · subst hk
      simp [Map.assign, Map.find, Ne.symm hne]
    · by_cases hk1 : k' = k1
      · subst hk1
        simp [Map.assign, Map.find, hk]
      · simp [Map.assign, Map.find, hk, hk1, ih]

theorem Map.mem_assign (m : List (κ × ν)) (k : κ) (v : ν) (e : κ × ν)
    (he : e ∈ Map.assign m k v) : e = (k, v) ∨ e ∈ m := by
  induction m with
  | nil => simpa [Map.assign] using he
  | cons e' m ih =>
    obtain ⟨k', v'⟩ := e'
    by_cases hk : k' = k
    · simp only [Map.assign, hk, if_true, List.mem_cons] at he
      rcases he with he | he
      · exact Or.inl he
      · exact Or.inr (List.mem_cons_of_mem _ he)
    · simp only [Map.assign, hk, if_false, List.mem_cons] at he
      rcases he with he | he
      · exact Or.inr (he ▸ List.mem_cons_self _ _)
      · rcases ih he with h | h
        · exact Or.inl h
        · exact Or.inr (List.mem_cons_of_mem _ h)

theorem Map.mem_of_find (m : List (κ × ν)) (k : κ) (v : ν) (h : Map.find m k = some v) :
    (k, v) ∈ m := by
  induction m with
  | nil => simp [Map.find] at h
  | cons e m ih =>
    obtain ⟨k', v'⟩ := e
    by_cases hk : k' = k
    · simp [Map.find, hk] at h
      simp [hk, h]
    · simp [Map.find, hk] at h
      exact List.mem_cons_of_mem _ (ih h)

theorem Map.sum_assign {β : Type} (m : List (κ × List β)) (k : κ) (v : List β) :
    ((Map.assign m k v).map (fun e => e.2.length)).sum +
        (match Map.find m k with
          | some q => q.length
          | none => 0) =
      (m.map (fun e => e.2.length)).sum + v.length := by
  induction m with
  | nil => simp [Map.assign, Map.find]
  | cons e m ih =>
    obtain ⟨k', v'⟩ := e
    by_cases hk : k' = k
    · simp [Map.assign, Map.find, hk]; omega
    · simp only [Map.assign, Map.find, hk, if_false, List.map_cons, List.sum_cons]
      omega

end pool

section pool_counts

variable {α : Type}

/-- Two shapes with sides below `2^32` have the same hash only when they are
the same shape. -/
theorem Context.pair_hash_injective (r c r1 c1 : Nat) (hr : r < 4294967296)
    (hc : c < 4294967296) (hr1 : r1 < 4294967296) (hc1 : c1 < 4294967296)
    (h : Context.pair_hash r c = Context.pair_hash r1 c1) : r = r1 ∧ c = c1 := by
  unfold Context.pair_hash at h
  omega

/-- Releasing a buffer raises the count of its own shape by one. -/
theorem Context.count_of_put_matrix (ctx : Context α) (m : CPUMatrix α) :
    (ctx.put_matrix m).get_matrix_count_of m.rows m.cols =
      ctx.get_matrix_count_of m.rows m.cols + 1 := by
  cases hq : Map.find ctx.matrix_cache (Context.pair_hash m.rows m.cols) with
  | none => simp [Context.put_matrix, Context.get_matrix_count_of, hq, Map.find_assign_self]
  | some q => simp [Context.put_matrix, Context.get_matrix_count_of, hq, Map.find_assign_self]

/-- Releasing a buffer leaves the count under every other hash as it is. -/
theorem Context.count_of_put_matrix_of_ne (ctx : Context α) (m : CPUMatrix α) (r c : Nat)
    (hne : Context.pair_hash r c ≠ Context.pair_hash m.rows m.cols) :
    (ctx.put_matrix m).get_matrix_count_of r c = ctx.get_matrix_count_of r c := by
  cases hq : Map.find ctx.matrix_cache (Context.pair_hash m.rows m.cols) with
  | none =>
    simp [Context.put_matrix, Context.get_matrix_count_of, hq, Map.find_assign_of_ne _ _ _ _ hne]
  | some q =>
    simp [Context.put_matrix, Context.get_matrix_count_of, hq, Map.find_assign_of_ne _ _ _ _ hne]

/-- Releasing a buffer raises the total count by one. -/
theorem Context.count_put_matrix (ctx : Context α) (m : CPUMatrix α) :
    (ctx.put_matrix m).get_matrix_count = ctx.get_matrix_count + 1 := by
  have hs := fun v => Map.sum_assign ctx.matrix_cache (Context.pair_hash m.rows m.cols) v
  cases hq : Map.find ctx.matrix_cache (Context.pair_hash m.rows m.cols) with
  | none =>
    have := hs [m]
    simp only [hq] at this
    simpa [Context.put_matrix, Context.get_matrix_count, hq] using this
  | some q =>
    have := hs (q ++ [m])
    simp only [hq, List.length_append, List.length_singleton] at this
    simp only [Context.put_matrix, Context.get_matrix_count, hq]
    omega

/-- Releasing `N` buffers of the shape `(r, c)` raises the count of that shape
by `N`. -/
theorem Context.count_of_put_all (r c : Nat) :
    ∀ (ms : List (CPUMatrix α)) (ctx : Context α), (∀ m ∈ ms, m.rows = r ∧ m.cols = c) →
      (ctx.put_all ms).get_matrix_count_of r c = ctx.get_matrix_count_of r c + ms.length := by
  intro ms
  induction ms with
  | nil => intro ctx _; simp [Context.put_all]
  | cons m ms ih =>
    intro ctx hms
    have hm := hms m (List.mem_cons_self _ _)
    simp only [Context.put_all]
    rw [ih _ (fun x hx => hms x (List.mem_cons_of_mem _ hx))]
    have := Context.count_of_put_matrix ctx m
    rw [hm.1, hm.2] at this
    rw [this, List.length_cons]
    omega

/-- A `get_matrix(r, c)` lowers the count under the hash of `(r, c)` by one,
and leaves it at zero when the queue is empty. -/
theorem Context.count_of_get_matrix [Zero α] (ctx : Context α) (r c : Nat) :
    (ctx.get_matrix r c).2.get_matrix_count_of r c = ctx.get_matrix_count_of r c - 1 := by
  cases hq : Map.find ctx.matrix_cache (Context.pair_hash r c) with
  | none => simp [Context.get_matrix, Context.get_matrix_count_of, hq]
  | some q =>
    cases q with
    | nil => simp [Context.get_matrix, Context.get_matrix_count_of, hq]
    | cons top rest =>
      simp [Context.get_matrix, Context.get_matrix_count_of, hq, Map.find_assign_self]

/-- The buffer `get_matrix(r, c)` returns: the front of the queue under the
hash of `(r, c)` when that queue holds a buffer, a new `r × c` matrix
otherwise. -/
theorem Context.get_matrix_fifo [Zero α] (ctx : Context α) (r c : Nat) :
    (ctx.get_matrix r c).1 =
      match Map.find ctx.matrix_cache (Context.pair_hash r c) with
      | some (top :: _) => top
      | _ => CPUContext.create r c := by
  unfold Context.get_matrix
  split <;> simp_all

/-- The empty pool is keyed by shape. -/
theorem Context.keyed_empty : Context.Keyed ({} : Context α) := by
  intro e he
  simp at he

/-- The invariant `Keyed` is kept by `put_matrix`. -/
theorem Context.keyed_put_matrix (ctx : Context α) (m : CPUMatrix α) (hk : ctx.Keyed) :
    (ctx.put_matrix m).Keyed := by
  intro e he x hx
  unfold Context.put_matrix at he
  cases hq : Map.find ctx.matrix_cache (Context.pair_hash m.rows m.cols) with
  | none =>
    simp only [hq] at he
    rcases Map.mem_assign _ _ _ _ he with h | h
    · subst h
      simp at hx
      subst hx
      rfl
    · exact hk e h x hx
  | some q =>
    simp only [hq] at he
    rcases Map.mem_assign _ _ _ _ he with h | h
    · subst h
      simp only [List.mem_append, List.mem_singleton] at hx
      rcases hx with hx | hx
      · exact hk _ (Map.mem_of_find _ _ _ hq) x hx
      · subst hx
        rfl
    · exact hk e h x hx

/-- The invariant `Keyed` is kept by `get_matrix`. -/
theorem Context.keyed_get_matrix [Zero α] (ctx : Context α) (r c : Nat) (hk : ctx.Keyed) :
    (ctx.get_matrix r c).2.Keyed := by
  unfold Context.get_matrix
  split
  · rename_i top rest hq
    intro e he x hx
    rcases Map.mem_assign _ _ _ _ he with h | h
    · subst h
      exact hk _ (Map.mem_of_find _ _ _ hq) x (List.mem_cons_of_mem _ hx)
    · exact hk e h x hx
  · exact hk

/-- In a pool keyed by shape, `get_matrix(r, c)` returns a buffer whose shape
has the hash of `(r, c)`; it is an `r × c` buffer when the sides of both
shapes are below `2^32`. -/
theorem Context.get_matrix_shape [Zero α] (ctx : Context α) (r c : Nat) (hk : ctx.Keyed) :
    Context.pair_hash (ctx.get_matrix r c).1.rows (ctx.get_matrix r c).1.cols =
        Context.pair_hash r c ∧
      (r < 4294967296 → c < 4294967296 → (ctx.get_matrix r c).1.rows < 4294967296 →
        (ctx.get_matrix r c).1.cols < 4294967296 →
        (ctx.get_matrix r c).1.rows = r ∧ (ctx.get_matrix r c).1.cols = c) := by
  have h1 : Context.pair_hash (ctx.get_matrix r c).1.rows (ctx.get_matrix r c).1.cols =
      Context.pair_hash r c := by
    unfold Context.get_matrix
    split
    · rename_i top rest hq
      exact hk _ (Map.mem_of_find _ _ _ hq) top (List.mem_cons_self _ _)
    · rfl
  exact ⟨h1, fun hr hc hr1 hc1 => Context.pair_hash_injective _ _ _ _ hr1 hc1 hr hc h1⟩

/-- The counts of `test_matrix_context`: 3 in all, 2 of shape 2×3 and 1 of
shape 3×2. -/
theorem test_matrix_context_counts :
    test_matrix_context.get_matrix_count = 3 ∧
    test_matrix_context.get_matrix_count_of 2 3 = 2 ∧
    test_matrix_context.get_matrix_count_of 3 2 = 1 := by
  decide!

end pool_counts

/-- C18 fails on the code: the count is kept per hash `(r << 32) + c`, not per
shape, and the shapes 1×0 and 0×4294967296 have the same hash.  The pool
`pool_one_by_zero` holds no buffer of shape 0×4294967296, yet its count for
that shape is 1; after one buffer of that shape is released the count is 2,
not 1, and after a following `get_matrix(0, 4294967296)` it is 1, not 0.  The
total count is then 2, while the counts of the two shapes in the pool are 2
each. -/
theorem pool_count_is_per_hash :
    (∀ m ∈ pool_one_by_zero.buffers, ¬(m.rows = 0 ∧ m.cols = 4294967296)) ∧
    pool_one_by_zero.get_matrix_count_of 0 4294967296 = 1 ∧
    (pool_one_by_zero.put_all [CPUContext.create 0 4294967296]).get_matrix_count_of
      0 4294967296 = 2 ∧
    ((pool_one_by_zero.put_all [CPUContext.create 0 4294967296]).get_matrix
      0 4294967296).2.get_matrix_count_of 0 4294967296 = 1 ∧
    (pool_one_by_zero.put_all [CPUContext.create 0 4294967296]).get_matrix_count = 2 ∧
    (pool_one_by_zero.put_all [CPUContext.create 0 4294967296]).get_matrix_count_of 1 0 = 2 := by
  decide!

/-- C19 fails on the code: `get_matrix` looks the queue up by the hash
`(r << 32) + c`, which the shapes 1×0 and 0×4294967296 share.  From the pool
`pool_one_by_zero`, reached by one `put_matrix` and holding no buffer of shape
0×4294967296, `get_matrix(0, 4294967296)` returns the released buffer of 1 row
and 0 columns and takes it out of the pool, where a new buffer of 0 rows and
4294967296 columns is due. -/
theorem get_matrix_returns_other_shape :
    pool_one_by_zero = Context.put_matrix {} (CPUContext.create 1 0) ∧
    (∀ m ∈ pool_one_by_zero.buffers, ¬(m.rows = 0 ∧ m.cols = 4294967296)) ∧
    (pool_one_by_zero.get_matrix 0 4294967296).1 = CPUContext.create 1 0 ∧
    (pool_one_by_zero.get_matrix 0 4294967296).1.rows = 1 ∧
    (pool_one_by_zero.get_matrix 0 4294967296).1.cols = 0 ∧
    (pool_one_by_zero.get_matrix 0 4294967296).2.buffers = [] := by
  decide!

/-! ## The records of `add_expression` and the tape round trip -/

section expression_records

/-- What `add_record` appends, by the record it encodes. -/
theorem Definition.add_record_tape (d d1 : Definition) (ty : OperatorType) (variant : Int)
    (name : String) (input : List String) (times : List Int) (args : List Int)
    (h : d.add_record ty variant name input times = .ok d1)
    (hargs : d.resolve_args name input = .ok args) :
    input.length = times.length ∧ args.length = times.length ∧
      d1.definition = d.definition ++
        Record.encode ⟨d.definition.length + 4 + args.length + args.length, ty.toInt, variant,
          (d.index.length : Int), args, times⟩ := by
  obtain ⟨r, hrt, hrv, hrtimes, hrid, hres, hlen, hoff, hdef, _⟩ :=
    Definition.add_record_spec d d1 ty variant name input times h
  rw [hargs] at hres
  simp only [Except.ok.injEq] at hres
  have hal := Definition.resolve_args_length d name input args hargs
  refine ⟨?_, ?_, ?_⟩
  · rw [← hal, hres, hlen, hrtimes]
  · rw [hres, hlen, hrtimes]
  · rw [hdef]
    simp [Record.encode, hrt, hrv, hrid, hrtimes, ← hres]

/-- With as many times as arguments and resolvable arguments, `add_record`
succeeds. -/
theorem Definition.add_record_ok (d : Definition) (ty : OperatorType) (variant : Int)
    (name : String) (input : List String) (times : List Int) (args : List Int)
    (hlen : input.length = times.length) (hargs : d.resolve_args name input = .ok args) :
    ∃ d1, d.add_record ty variant name input times = .ok d1 := by
  unfold Definition.add_record
  simp [hlen, hargs, bind, Except.bind, pure, Except.pure]

/-- The tape after a successful `add_expression`, by the type and variant that
the function name stands for. -/
theorem Definition.add_expression_tape (defs : List Definition) (d d1 : Definition)
    (name fn : String) (input : List String) (times : List Int) (ty : OperatorType)
    (variant : Int) (args : List Int)
    (h : d.add_expression defs name fn input times = .ok d1)
    (hop : d.operator_of fn = some (ty, variant))
    (hargs : d.resolve_args name input = .ok args) :
    input.length = times.length ∧ args.length = times.length ∧
      d1.definition = d.definition ++
        Record.encode ⟨d.definition.length + 4 + args.length + args.length, ty.toInt, variant,
          (d.index.length : Int), args, times⟩ := by
  unfold Definition.add_expression at h
  unfold Definition.operator_of at hop
  cases hf : Map.find d.import_index fn with
  | some slot =>
    simp only [hf, Option.some.injEq, Prod.mk.injEq] at h hop
    obtain ⟨hty, hv⟩ := hop
    subst hty hv
    rw [Except.bind_ok_iff] at h
    obtain ⟨d0, h0, h⟩ := h
    have ht := Definition.add_record_tape d d0 .FUNCTION slot name input times args h0 hargs
    split at h
    · simp only [pure, Except.pure, Except.ok.injEq] at h
      subst h
      split <;> exact ht
    · simp at h
  | none =>
    simp only [hf] at h hop
    unfold builtin_operator at hop
    split at h
    · rename_i hfn; simp [hfn] at hop
      obtain ⟨hty, hv⟩ := hop; subst hty hv
      exact Definition.add_record_tape d d1 _ _ name input times args h hargs
    split at h
    · rename_i hfn1 hfn; simp [hfn1, hfn] at hop
      obtain ⟨hty, hv⟩ := hop; subst hty hv
      exact Definition.add_record_tape d d1 _ _ name input times args h hargs
    split at h
    · rename_i hfn1 hfn2 hfn; simp [hfn1, hfn2, hfn] at hop
      obtain ⟨hty, hv⟩ := hop; subst hty hv
      exact Definition.add_record_tape d d1 _ _ name input times args h hargs
    split at h
    · rename_i hfn1 hfn2 hfn3 hfn; simp [hfn1, hfn2, hfn3, hfn] at hop
      obtain ⟨hty, hv⟩ := hop; subst hty hv
      exact Definition.add_record_tape d d1 _ _ name input times args h hargs
    split at h
    · rename_i hfn1 hfn2 hfn3 hfn4 hfn; simp [hfn1, hfn2, hfn3, hfn4, hfn] at hop
      obtain ⟨hty, hv⟩ := hop; subst hty hv
      exact Definition.add_record_tape d d1 _ _ name input times args h hargs
    split at h
    · rename_i hfn1 hfn2 hfn3 hfn4 hfn5 hfn; simp [hfn1, hfn2, hfn3, hfn4, hfn5, hfn] at hop
      obtain ⟨hty, hv⟩ := hop; subst hty hv
      exact Definition.add_record_tape d d1 _ _ name input times args h hargs
    · simp at h

/-- With resolvable arguments and as many times, `add_expression` succeeds for
every function name that stands for a record type, on a Definition built
through the interface. -/
theorem Definition.add_expression_ok (defs : List Definition) (d : Definition)
    (name fn : String) (input : List String) (times : List Int) (ty : OperatorType)
    (variant : Int) (args : List Int) (hb : Built defs d)
    (hlen : input.length = times.length) (hargs : d.resolve_args name input = .ok args)
    (hop : d.operator_of fn = some (ty, variant)) :
    ∃ d1, d.add_expression defs name fn input times = .ok d1 := by
  obtain ⟨rs, w⟩ := hb.wellBuilt
  unfold Definition.operator_of at hop
  unfold Definition.add_expression
  cases hf : Map.find d.import_index fn with
  | some slot =>
    simp only [hf]
    obtain ⟨d0, h0⟩ := Definition.add_record_ok d .FUNCTION slot name input times args hlen hargs
    obtain ⟨_, _, _, _, _, _, _, _, _, _, _, hid, _⟩ :=
      Definition.add_record_spec d d0 .FUNCTION slot name input times h0
    have hslot := w.slots fn slot hf
    have hp : d0.import_defs[slot.toNat]? = some (d.import_defs[slot.toNat]) := by
      rw [hid]; exact List.getElem?_eq_getElem hslot.2
    simp [h0, bind, Except.bind, hp, pure, Except.pure]
  | none =>
    simp only [hf] at hop ⊢
    unfold builtin_operator at hop
    split
    · exact Definition.add_record_ok d _ _ name input times args hlen hargs
    split
    · exact Definition.add_record_ok d _ _ name input times args hlen hargs
    split
    · exact Definition.add_record_ok d _ _ name input times args hlen hargs
    split
    · exact Definition.add_record_ok d _ _ name input times args hlen hargs
    split
    · exact Definition.add_record_ok d _ _ name input times args hlen hargs
    split
    · exact Definition.add_record_ok d _ _ name input times args hlen hargs
    · rename_i h1 h2 h3 h4 h5 h6
      simp [h1, h2, h3, h4, h5, h6] at hop

/-- C23 (as amended). On a Definition built through the interface, with as
many time offsets as arguments and every argument in the symbol table,
`add_expression(name, fn, args, times)` appends one record with the id
`_index.size()`, the ids of the arguments and the times given: a FUNCTION
record with the import slot as variant when `fn` is the name of a
registered import (whatever that name is: the imports are looked up first),
otherwise a record of the type ADDITION for "+", SUBTRACTION for "-", PRODUCT for "*",
ELEMENT for "**", TRANSPOSE for "T", EXPONENT for "E", with variant -1.  For
every other `fn` it fails with the error "Undefined function". -/
theorem Definition.add_expression_record (defs : List Definition) (d : Definition)
    (name fn : String) (input : List String) (times : List Int) (args : List Int)
    (hb : Built defs d) (hlen : input.length = times.length)
    (hargs : d.resolve_args name input = .ok args) :
    (builtin_operator "+" = some .ADDITION ∧ builtin_operator "-" = some .SUBTRACTION ∧
      builtin_operator "*" = some .PRODUCT ∧ builtin_operator "**" = some .ELEMENT ∧
      builtin_operator "T" = some .TRANSPOSE ∧ builtin_operator "E" = some .EXPONENT ∧
      (fn ∉ ["+", "-", "*", "**", "T", "E"] → builtin_operator fn = none)) ∧
    (∀ slot, Map.find d.import_index fn = some slot →
      ∃ d1, d.add_expression defs name fn input times = .ok d1 ∧
        d1.definition = d.definition ++
          Record.encode ⟨d.definition.length + 4 + args.length + args.length,
            OperatorType.FUNCTION.toInt, slot, (d.index.length : Int), args, times⟩) ∧
    (Map.find d.import_index fn = none → ∀ ty, builtin_operator fn = some ty →
      ∃ d1, d.add_expression defs name fn input times = .ok d1 ∧
        d1.definition = d.definition ++
          Record.encode ⟨d.definition.length + 4 + args.length + args.length,
            ty.toInt, -1, (d.index.length : Int), args, times⟩) ∧
    (Map.find d.import_index fn = none → builtin_operator fn = none →
      d.add_expression defs name fn input times =
        .error s!"Undefined function '{fn}' in expression '{name}'.") := by
  refine ⟨⟨by decide, by decide, by decide, by decide, by decide, by decide, ?_⟩, ?_, ?_, ?_⟩
  · intro hfn
    simp only [List.mem_cons, List.mem_singleton, List.not_mem_nil, or_false, not_or] at hfn
    obtain ⟨h1, h2, h3, h4, h5, h6⟩ := hfn
    simp [builtin_operator, h1, h2, h3, h4, h5, h6]
  · intro slot hf
    have hop : d.operator_of fn = some (.FUNCTION, slot) := by
      simp [Definition.operator_of, hf]
    obtain ⟨d1, h1⟩ := Definition.add_expression_ok defs d name fn input times _ _ args hb hlen
      hargs hop
    exact ⟨d1, h1, (Definition.add_expression_tape defs d d1 name fn input times _ _ args h1 hop
      hargs).2.2⟩
  · intro hf ty hty
    have hop : d.operator_of fn = some (ty, -1) := by
      simp [Definition.operator_of, hf, hty]
    obtain ⟨d1, h1⟩ := Definition.add_expression_ok defs d name fn input times _ _ args hb hlen
      hargs hop
    exact ⟨d1, h1, (Definition.add_expression_tape defs d d1 name fn input times _ _ args h1 hop
      hargs).2.2⟩
  · intro hf hnone
    unfold builtin_operator at hnone
    unfold Definition.add_expression
    simp only [hf]
    split at hnone
    · simp at hnone
    split at hnone
    · simp at hnone
    split at hnone
    · simp at hnone
    split at hnone
    · simp at hnone
    split at hnone
    · simp at hnone
    split at hnone
    · simp at hnone
    rename_i h1 h2 h3 h4 h5 h6
    simp [h1, h2, h3, h4, h5, h6]

end expression_records

section round_trip

theorem Record.start_zero (rs : List Record) : Record.start rs 0 = 0 := by
  simp [Record.start]

theorem Record.start_succ (r : Record) (rs : List Record) (i : Nat) :
    Record.start (r :: rs) (i + 1) = r.size + Record.start rs i := by
  simp [Record.start]

/-- On a tape that holds the records `rs` from `off` on, `get_record` at the
start of record `i` returns its size and the record, and the offset after the
read is the start plus the size. -/
theorem Reads.get_record (d : Definition) {rs : List Record} :
    ∀ {off : Nat}, Reads d.definition off rs → ∀ (i : Nat) (hi : i < rs.length),
      d.get_record ⟨off + Record.start rs i, 0, 0, 0, [], []⟩ =
          .ok (((rs[i]).size : Int), rs[i]) ∧
        (rs[i]).offset = off + Record.start rs i + (rs[i]).size := by
  induction rs with
  | nil => intro off _ i hi; simp at hi
  | cons x xs ih =>
    intro off h i hi
    obtain ⟨h1, h2, ⟨post, h3⟩, h4⟩ := h
    cases i with
    | zero =>
      have hg := Definition.get_record_of_prefix d off x post h1 h2 h3.symm
      simp only [Record.start_zero, Nat.add_zero, List.getElem_cons_zero]
      refine ⟨?_, ?_⟩
      · rw [hg]
        simp only [Record.size]
        congr 2
        push_cast
        ring
      · rw [h2]; simp only [Record.size]; omega
    | succ j =>
      have hj : j < xs.length := by simpa using hi
      obtain ⟨ih1, ih2⟩ := ih h4 j hj
      have hoff : off + Record.start (x :: xs) (j + 1) = x.offset + Record.start xs j := by
        rw [Record.start_succ, h2]; simp only [Record.size]; omega
      simp only [List.getElem_cons_succ]
      rw [hoff]
      exact ⟨ih1, ih2⟩

/-- The records end where the tape ends. -/
theorem Reads.start_length {tape : List Int} {rs : List Record} :
    ∀ {off : Nat}, Reads tape off rs → off + Record.start rs rs.length = tape.length := by
  induction rs with
  | nil => intro off h; simp only [Reads] at h; simp [Record.start, h]
  | cons x xs ih =>
    intro off h
    obtain ⟨_, h2, _, h4⟩ := h
    have := ih h4
    rw [List.length_cons, Record.start_succ]
    rw [h2] at this
    simp only [Record.size]
    omega

/-- The records that the calls wrote are the records on the tape, and the
Definition is one built through the interface. -/
theorem Written.reads {defs : List Definition} {d : Definition} {rs : List Record}
    (h : Written defs d rs) : Reads d.definition 0 rs ∧ Built defs d := by
  induction h with
  | empty => exact ⟨rfl, Built.empty⟩
  | set_name d rs name _ ih => exact ⟨ih.1, Built.set_name d name ih.2⟩
  | add_import d d1 rs name p _ hp h ih =>
    refine ⟨?_, Built.add_import d d1 name p ih.2 hp h⟩
    unfold Definition.add_import at h
    split at h
    · simp at h
    · simp only [Except.ok.injEq] at h
      subst h
      exact ih.1
  | add_variable d d1 rs name _ h ih =>
    refine ⟨?_, Built.add_variable d d1 name ih.2 h⟩
    obtain ⟨_, _, hdef⟩ := Definition.add_record_tape _ d1 .VARIABLE (-1) name [] [] [] h rfl
    rw [hdef]
    exact Reads.append _ rfl rfl ih.1
  | add_constant d d1 rs name _ h ih =>
    refine ⟨?_, Built.add_constant d d1 name ih.2 h⟩
    obtain ⟨_, _, hdef⟩ := Definition.add_record_tape _ d1 .CONSTANT (-1) name [] [] [] h rfl
    rw [hdef]
    exact Reads.append _ rfl rfl ih.1
  | add_expression d d1 rs name fn input times ty variant args _ h hop hargs ih =>
    refine ⟨?_, Built.add_expression d d1 name fn input times ih.2 h⟩
    obtain ⟨_, hal, hdef⟩ :=
      Definition.add_expression_tape defs d d1 name fn input times ty variant args h hop hargs
    rw [hdef]
    exact Reads.append _ hal rfl ih.1

/-- A successful `add_expression` stands for a record type and has resolved its
arguments. -/
theorem Definition.add_expression_inv (defs : List Definition) (d d1 : Definition)
    (name fn : String) (input : List String) (times : List Int)
    (h : d.add_expression defs name fn input times = .ok d1) :
    ∃ ty variant args, d.operator_of fn = some (ty, variant) ∧
      d.resolve_args name input = .ok args := by
  unfold Definition.add_expression at h
  unfold Definition.operator_of builtin_operator
  cases hf : Map.find d.import_index fn with
  | some slot =>
    simp only [hf] at h
    rw [Except.bind_ok_iff] at h
    obtain ⟨d0, h0, _⟩ := h
    obtain ⟨r, _, _, _, _, hres, _⟩ := Definition.add_record_spec d d0 _ _ name input times h0
    exact ⟨_, _, r.input, rfl, hres⟩
  | none =>
    simp only [hf] at h
    split at h
    · rename_i h1
      obtain ⟨r, _, _, _, _, hres, _⟩ := Definition.add_record_spec d d1 _ _ name input times h
      exact ⟨.ADDITION, -1, r.input, by simp [h1], hres⟩
    split at h
    · rename_i h1 h2
      obtain ⟨r, _, _, _, _, hres, _⟩ := Definition.add_record_spec d d1 _ _ name input times h
      exact ⟨.SUBTRACTION, -1, r.input, by simp [h1, h2], hres⟩
    split at h
    · rename_i h1 h2 h3
      obtain ⟨r, _, _, _, _, hres, _⟩ := Definition.add_record_spec d d1 _ _ name input times h
      exact ⟨.PRODUCT, -1, r.input, by simp [h1, h2, h3], hres⟩
    split at h
    · rename_i h1 h2 h3 h4
      obtain ⟨r, _, _, _, _, hres, _⟩ := Definition.add_record_spec d d1 _ _ name input times h
      exact ⟨.ELEMENT, -1, r.input, by simp [h1, h2, h3, h4], hres⟩
    split at h
    · rename_i h1 h2 h3 h4 h5
      obtain ⟨r, _, _, _, _, hres, _⟩ := Definition.add_record_spec d d1 _ _ name input times h
      exact ⟨.TRANSPOSE, -1, r.input, by simp [h1, h2, h3, h4, h5], hres⟩
    split at h
    · rename_i h1 h2 h3 h4 h5 h6
      obtain ⟨r, _, _, _, _, hres, _⟩ := Definition.add_record_spec d d1 _ _ name input times h
      exact ⟨.EXPONENT, -1, r.input, by simp [h1, h2, h3, h4, h5, h6], hres⟩
    · simp at h

/-- Every Definition built through the interface has its list of written
records. -/
theorem Built.written {defs : List Definition} {d : Definition} (b : Built defs d) :
    ∃ rs, Written defs d rs := by
  induction b with
  | empty => exact ⟨[], Written.empty⟩
  | set_name d name _ ih =>
    obtain ⟨rs, w⟩ := ih
    exact ⟨rs, Written.set_name d rs name w⟩
  | add_variable d d1 name _ h ih =>
    obtain ⟨rs, w⟩ := ih
    exact ⟨_, Written.add_variable d d1 rs name w h⟩
  | add_constant d d1 name _ h ih =>
    obtain ⟨rs, w⟩ := ih
    exact ⟨_, Written.add_constant d d1 rs name w h⟩
  | add_import d d1 name p _ hp h ih =>
    obtain ⟨rs, w⟩ := ih
    exact ⟨rs, Written.add_import d d1 rs name p w hp h⟩
  | add_expression d d1 name fn input times _ h ih =>
    obtain ⟨rs, w⟩ := ih
    obtain ⟨ty, variant, args, hop, hargs⟩ :=
      Definition.add_expression_inv defs d d1 name fn input times h
    exact ⟨_, Written.add_expression d d1 rs name fn input times ty variant args w h hop hargs⟩

/-- C22. For a Definition built from `new Definition()` by successful calls of
the interface, with `rs` the records that `add_variable`, `add_constant` and
`add_expression` wrote, in order: the loop that reads with `get_record` from
offset 0 (with cleared argument vectors for every read, as the callers do)
yields exactly `rs`; the read of record `i` starts where the records before it
end, returns `4 + 2·ARG_COUNT` and the record as written, and leaves the
offset advanced by that amount; the records end at the end of the tape; and a
read at the end of the tape (or past it) returns -1 and changes nothing. -/
theorem Written_round_trip (defs : List Definition) (d : Definition) (rs : List Record)
    (h : Written defs d rs) :
    d.records = .ok rs ∧
    (∀ (i : Nat) (hi : i < rs.length),
      d.get_record ⟨Record.start rs i, 0, 0, 0, [], []⟩ =
          .ok (4 + 2 * ((rs[i]).input.length : Int), rs[i]) ∧
        (rs[i]).offset = Record.start rs i + (4 + 2 * (rs[i]).input.length)) ∧
    Record.start rs rs.length = d.definition.length ∧
    (∀ r : Record, d.definition.length ≤ r.offset → d.get_record r = .ok (-1, r)) := by
  have hr := (Written.reads h).1
  refine ⟨Definition.records_of_Reads d hr, ?_, ?_, ?_⟩
  · intro i hi
    have := Reads.get_record d hr i hi
    simp only [Nat.zero_add, Record.size] at this
    refine ⟨?_, this.2⟩
    rw [this.1]
    congr 2
  · have := Reads.start_length hr
    simpa using this
  · intro r hle
    simp [Definition.get_record, hle]

end round_trip

/-- The Definition with the variable `x` is built through the interface. -/
theorem definition_x_built : Built [] definition_x :=
  Built.add_variable {} definition_x "x" Built.empty (by decide!)

/-- The records written for the variable `x` and the expression
`r = ["T", "x"]`. -/
theorem definition_x_transposed_written :
    Written [] definition_x_transposed
      [⟨4, 1, -1, 0, [], []⟩, ⟨10, 7, -1, 1, [0], [0]⟩] :=
  Written.add_expression definition_x definition_x_transposed [⟨4, 1, -1, 0, [], []⟩]
    "r" "T" ["x"] [0] .TRANSPOSE (-1) [0]
    (Written.add_variable {} definition_x [] "x" Written.empty (by decide!))
    (by decide!) (by decide!) (by decide!)

/-- The variable `x` and the expression `r = ["T", "x"]`: the tape
`1 -1 0 0 | 7 -1 1 1 0 0` reads back as the two records, of sizes 4 and 6. -/
theorem Written_round_trip_witness :
    Written [] definition_x_transposed
      [⟨4, 1, -1, 0, [], []⟩, ⟨10, 7, -1, 1, [0], [0]⟩] ∧
    definition_x_transposed.definition = [1, -1, 0, 0, 7, -1, 1, 1, 0, 0] ∧
    definition_x_transposed.records =
      .ok [⟨4, 1, -1, 0, [], []⟩, ⟨10, 7, -1, 1, [0], [0]⟩] ∧
    definition_x_transposed.get_record ⟨4, 0, 0, 0, [], []⟩ =
      .ok (6, ⟨10, 7, -1, 1, [0], [0]⟩) ∧
    definition_x_transposed.get_record ⟨10, 0, 0, 0, [], []⟩ =
      .ok (-1, ⟨10, 0, 0, 0, [], []⟩) :=
  ⟨definition_x_transposed_written, by decide!,
    (Written_round_trip [] definition_x_transposed _ definition_x_transposed_written).1,
    ((Written_round_trip [] definition_x_transposed _ definition_x_transposed_written).2.1 1
      (by decide)).1,
    (Written_round_trip [] definition_x_transposed _ definition_x_transposed_written).2.2.2
      ⟨10, 0, 0, 0, [], []⟩ (by decide)⟩

/-- The variable `x` and the expression `r = ["T", "x"]`: a TRANSPOSE record
with variant -1, id 1 and the argument id 0 is appended. -/
theorem Definition.add_expression_record_witness :
    Built [] definition_x ∧ ["x"].length = [(0 : Int)].length ∧
    definition_x.resolve_args "r" ["x"] = .ok [0] ∧
    Map.find definition_x.import_index "T" = none ∧
    ∃ d1, definition_x.add_expression [] "r" "T" ["x"] [0] = .ok d1 ∧
      d1.definition = [1, -1, 0, 0] ++ [7, -1, 1, 1, 0, 0] :=
  ⟨definition_x_built, rfl, by decide!, by decide!,
    (Definition.add_expression_record [] definition_x "r" "T" ["x"] [0] [0] definition_x_built
      rfl (by decide!)).2.2.1 (by decide!) .TRANSPOSE (by decide)⟩

/-- C23 as stated fails. With an import registered under the name `+`,
`add_expression(r, "+", [x], [0])` appends a FUNCTION record (type 0, variant
the slot 0), not an ADDITION record (type 3, variant -1): the tape ends with
`0 0 1 1 0 0`.  The Compiler reaches this from a document whose "imports"
has the key "+". -/
theorem import_named_like_operator_is_called :
    definition_import_plus.map (·.definition) = .ok [1, -1, 0, 0, 0, 0, 1, 1, 0, 0] ∧
    OperatorType.FUNCTION.toInt = 0 ∧ OperatorType.ADDITION.toInt = 3 ∧
    compiled_names_tape (Compiler.compile test_hash test_resolver 3 ⟨"", "", ""⟩
      (.ok network_import_plus) {}) =
        .ok (["x", "return"], [1, -1, 0, 0, 0, 0, 1, 1, 0, 0]) := by
  decide!

/-! ## Arguments that name no symbol -/

section undefined_arguments

open Compiler

theorem Except.exists_error_of_ne_ok {ε β : Type} (x : Except ε β) (h : ∀ r, x ≠ .ok r) :
    ∃ e, x = .error e := by
  cases x with
  | error e => exact ⟨e, rfl⟩
  | ok r => exact absurd rfl (h r)

/-- The names that a successful `compile_argument` adds. -/
theorem Compiler.compile_argument_loop_args (c : Compiler) (path : List String)
    (ms : List (String × Json)) (args : List String) (times : List Int)
    (r : List String × List Int)
    (h : compile_argument_loop c path ms 0 (args, times) = .ok r) :
    r.1 = args ++ Json.argument_name (.object ms) := by
  cases ms with
  | nil => simp [compile_argument_loop] at h; subst h; simp [Json.argument_name]
  | cons m ms =>
    obtain ⟨name, value⟩ := m
    simp only [compile_argument_loop, if_true] at h
    rw [Except.bind_ok_iff] at h
    obtain ⟨_, _, h⟩ := h
    rw [Except.bind_ok_iff] at h
    obtain ⟨_, _, h⟩ := h
    rw [Except.bind_ok_iff] at h
    obtain ⟨time, _, h⟩ := h
    split at h
    · simp at h
    · cases ms with
      | nil => simp [compile_argument_loop] at h; subst h; simp [Json.argument_name]
      | cons m2 ms2 =>
        obtain ⟨n2, v2⟩ := m2
        simp [compile_argument_loop, unexpected_element] at h

/-- The names that a successful `compile_expression_loop` collects once the
operator is found. -/
theorem Compiler.compile_expression_loop_args (c : Compiler) (path : List String) :
    ∀ (ms : List Json) (i : Nat) (o : String) (args : List String) (times : List Int)
      (r : Option String × List String × List Int),
      compile_expression_loop c path ms i (some o) (args, times) = .ok r →
      r.2.1 = args ++ ms.flatMap Json.argument_name := by
  intro ms
  induction ms with
  | nil => intro i o args times r h; simp [compile_expression_loop] at h; subst h; simp
  | cons m ms ih =>
    intro i o args times r h
    cases m with
    | string s =>
      simp only [compile_expression_loop] at h
      rw [Except.bind_ok_iff] at h
      obtain ⟨_, _, h⟩ := h
      rw [ih _ _ _ _ _ h]
      simp [Json.argument_name]
    | object members =>
      simp only [compile_expression_loop] at h
      rw [Except.bind_ok_iff] at h
      obtain ⟨⟨args1, times1⟩, h1, h⟩ := h
      simp only [compile_argument] at h1
      rw [Except.bind_ok_iff] at h1
      obtain ⟨_, _, h1⟩ := h1
      have ha := compile_argument_loop_args c _ members args times _ h1
      simp only at ha
      rw [ih _ _ _ _ _ h, ha]
      simp
    | null => simp [compile_expression_loop, unexpected_element] at h
    | bool b => simp [compile_expression_loop, unexpected_element] at h
    | array es => simp [compile_expression_loop, unexpected_element] at h
    | number n => simp [compile_expression_loop, unexpected_element] at h

/-- The names that a successful `compile_expression_loop` collects from the
whole array. -/
theorem Compiler.compile_expression_loop_names (c : Compiler) (path : List String)
    (ms : List Json) (r : Option String × List String × List Int)
    (h : compile_expression_loop c path ms 0 none ([], []) = .ok r) :
    r.2.1 = Json.argument_names ms := by
  cases ms with
  | nil => simp [compile_expression_loop] at h; subst h; simp [Json.argument_names]
  | cons m ms =>
    cases m with
    | string s =>
      simp only [compile_expression_loop] at h
      rw [Except.bind_ok_iff] at h
      obtain ⟨_, _, h⟩ := h
      rw [compile_expression_loop_args c path ms _ _ _ _ _ h]
      simp [Json.argument_names]
    | object members => simp [compile_expression_loop, unexpected_element] at h
    | null => simp [compile_expression_loop, unexpected_element] at h
    | bool b => simp [compile_expression_loop, unexpected_element] at h
    | array es => simp [compile_expression_loop, unexpected_element] at h
    | number n => simp [compile_expression_loop, unexpected_element] at h

/-- The loop of `add_record` resolves only names of the symbol table. -/
theorem Definition.resolve_args_mem (d : Definition) (name : String) :
    ∀ (input : List String) (args : List Int), d.resolve_args name input = .ok args →
      ∀ s ∈ input, Map.find d.index s ≠ none := by
  intro input
  induction input with
  | nil => intro args _ s hs; simp at hs
  | cons x xs ih =>
    intro args h s hs
    simp only [Definition.resolve_args] at h
    split at h
    · rename_i i hi
      rw [Except.bind_ok_iff] at h
      obtain ⟨as, h1, _⟩ := h
      rcases List.mem_cons.1 hs with hx | hx
      · rw [hx, hi]; simp
      · exact ih as h1 s hx
    · simp at h

/-- A successful `add_expression` has all its arguments in the symbol table. -/
theorem Definition.add_expression_mem (defs : List Definition) (d d1 : Definition)
    (name fn : String) (input : List String) (times : List Int)
    (h : d.add_expression defs name fn input times = .ok d1) :
    ∀ s ∈ input, Map.find d.index s ≠ none := by
  obtain ⟨_, _, args, _, hargs⟩ := Definition.add_expression_inv defs d d1 name fn input times h
  exact Definition.resolve_args_mem d name input args hargs

/-- A successful `compile_expression` of an array has all the symbols its
arguments name in the symbol table. -/
theorem Compiler.compile_expression_mem (c : Compiler) (dict : Dictionary)
    (elements : List Json) (d d1 : Definition) (path : List String)
    (h : compile_expression c dict (.array elements) d path = .ok d1) :
    ∀ s ∈ Json.argument_names elements, Map.find d.index s ≠ none := by
  simp only [compile_expression] at h
  rw [Except.bind_ok_iff] at h
  obtain ⟨_, _, h⟩ := h
  rw [Except.bind_ok_iff] at h
  obtain ⟨⟨op, args, times⟩, hl, h⟩ := h
  rw [Except.bind_ok_iff] at h
  obtain ⟨_, _, h⟩ := h
  rw [Except.bind_ok_iff] at h
  obtain ⟨_, _, h⟩ := h
  have hn := compile_expression_loop_names c path elements _ hl
  simp only at hn
  rw [← hn]
  exact Definition.add_expression_mem dict.defs d d1 _ _ args times h

/-- A successful `compile_body_loop` has compiled each member in the
Definition that the members before it left. -/
theorem Compiler.compile_body_loop_split (c : Compiler) (dict : Dictionary)
    (path : List String) (key : String) (value : Json) (ms2 : List (String × Json)) :
    ∀ (ms1 : List (String × Json)) (ret : Bool) (d : Definition) (r : Bool × Definition),
      compile_body_loop c dict path (ms1 ++ (key, value) :: ms2) ret d = .ok r →
      ∃ r1 d2, compile_body_loop c dict path ms1 ret d = .ok r1 ∧
        compile_expression c dict value r1.2 (path ++ [key]) = .ok d2 := by
  intro ms1
  induction ms1 with
  | nil =>
    intro ret d r h
    simp only [List.nil_append, compile_body_loop] at h
    rw [Except.bind_ok_iff] at h
    obtain ⟨d2, h2, _⟩ := h
    exact ⟨(ret, d), d2, by simp [compile_body_loop], h2⟩
  | cons m ms1 ih =>
    intro ret d r h
    obtain ⟨k, v⟩ := m
    simp only [List.cons_append, compile_body_loop] at h
    rw [Except.bind_ok_iff] at h
    obtain ⟨d0, h0, h⟩ := h
    obtain ⟨r1, d2, hr1, hd2⟩ := ih _ _ _ h
    refine ⟨r1, d2, ?_, hd2⟩
    simp only [compile_body_loop]
    rw [Except.bind_ok_iff]
    exact ⟨d0, h0, hr1⟩

/-- C24. The compilation of an expression fails when one of its arguments (a
string, or the key of an object `{name: t}`, whatever `t` is) names a symbol
that is not in the symbol table `_index` of the Definition at that point; and
the compilation of a body fails when that holds of one of its expressions in
the Definition that the expressions before it left. -/
theorem Compiler.compile_expression_undefined_argument (c : Compiler) (dict : Dictionary)
    (elements : List Json) (path : List String) (s : String)
    (hs : s ∈ Json.argument_names elements) :
    (∀ d : Definition, Map.find d.index s = none →
      ∃ e, compile_expression c dict (.array elements) d path = .error e) ∧
    (∀ (ms1 ms2 : List (String × Json)) (key : String) (ret : Bool) (d : Definition)
      (r1 : Bool × Definition),
      compile_body_loop c dict path ms1 ret d = .ok r1 → Map.find r1.2.index s = none →
      ∃ e, compile_body_loop c dict path (ms1 ++ (key, .array elements) :: ms2) ret d
        = .error e) := by
  constructor
  · intro d hun
    apply Except.exists_error_of_ne_ok
    intro d1 h
    exact compile_expression_mem c dict elements d d1 path h s hs hun
  · intro ms1 ms2 key ret d r1 h1 hun
    apply Except.exists_error_of_ne_ok
    intro r h
    obtain ⟨r1', d2, hr1, hd2⟩ := compile_body_loop_split c dict path key _ ms2 ms1 ret d r h
    rw [h1] at hr1
    simp only [Except.ok.injEq] at hr1
    subst hr1
    exact compile_expression_mem c dict elements _ d2 _ hd2 s hs hun

end undefined_arguments

/-- The argument `q` of `["T", "q"]` is not in the symbol table of the
Definition with the variable `x`; and whole networks with an unknown name, a
name the body defines later, and the name of the expression itself. -/
theorem Compiler.compile_expression_undefined_argument_witness :
    "q" ∈ Json.argument_names [.string "T", .string "q"] ∧
    Map.find definition_x.index "q" = none ∧
    (∃ e, Compiler.compile_expression ⟨"", "", ""⟩ {} (.array [.string "T", .string "q"])
      definition_x ["network", "body", "return"] = .error e) ∧
    compile_error (Compiler.compile test_hash test_resolver 3 ⟨"", "", ""⟩
      (.ok network_undefined_symbol) {}) =
        some "Undefined symbol 'q' referenced as argument in expression 'return'." ∧
    compile_error (Compiler.compile test_hash test_resolver 3 ⟨"", "", ""⟩
      (.ok network_later_symbol) {}) =
        some "Undefined symbol 'e2' referenced as argument in expression 'e1'." ∧
    compile_error (Compiler.compile test_hash test_resolver 3 ⟨"", "", ""⟩
      (.ok network_own_name) {}) =
        some "Undefined symbol 'h' referenced as argument in expression 'h'." :=
  ⟨by decide, by decide!,
    (Compiler.compile_expression_undefined_argument ⟨"", "", ""⟩ {}
      [.string "T", .string "q"] ["network", "body", "return"] "q" (by decide)).1 definition_x
      (by decide!),
    by decide!, by decide!, by decide!⟩

/-! ## Time offsets -/

section past_times

open Compiler

theorem Definition.PastTimes.append_record {d d1 : Definition} (r : Record)
    (hp : d.PastTimes) (hlen : r.input.length = r.times.length)
    (hoff : r.offset = d.definition.length + 4 + r.input.length + r.input.length)
    (hdef : d1.definition = d.definition ++ r.encode) (ht : ∀ t ∈ r.times, t ≤ 0) :
    d1.PastTimes := by
  obtain ⟨rs, hr, hts⟩ := hp
  refine ⟨rs ++ [r], ?_, ?_⟩
  · rw [hdef]; exact Reads.append r hlen hoff hr
  · intro x hx
    rcases List.mem_append.1 hx with hm | hm
    · exact hts x hm
    · simp only [List.mem_singleton] at hm
      subst hm
      exact ht

/-- The interface keeps the time offsets of the tape at or below 0 when it is
given none above 0. -/
theorem Definition.preserved_past : Preserved (fun _ d => d.PastTimes) := by
  refine ⟨?_, ?_, ?_, ?_, fun _ _ _ _ h => h⟩
  · intro _ d d1 name hq h
    obtain ⟨_, _, hdef⟩ := Definition.add_record_tape _ d1 .VARIABLE (-1) name [] [] [] h rfl
    exact Definition.PastTimes.append_record _ hq rfl rfl hdef (by simp)
  · intro _ d d1 name hq h
    obtain ⟨_, _, hdef⟩ := Definition.add_record_tape _ d1 .CONSTANT (-1) name [] [] [] h rfl
    exact Definition.PastTimes.append_record _ hq rfl rfl hdef (by simp)
  · intro _ d d1 name p hq _ h
    unfold Definition.add_import at h
    split at h
    · simp at h
    · simp only [Except.ok.injEq] at h
      subst h
      exact hq
  · intro defs d d1 name fn input times hq ht h
    obtain ⟨ty, variant, args, hop, hargs⟩ :=
      Definition.add_expression_inv defs d d1 name fn input times h
    obtain ⟨_, hal, hdef⟩ :=
      Definition.add_expression_tape defs d d1 name fn input times ty variant args h hop hargs
    exact Definition.PastTimes.append_record _ hq hal rfl hdef ht

/-- The tape of the Definition that `Compiler::compile` returns holds no time
offset above 0. -/
theorem Compiler.compile_past (hash : String → Int) (resolver : Resolver) (fuel : Nat)
    (c : Compiler) (json : Except String Json) (st : CompileState) (p : Nat)
    (st2 : CompileState) (h : compile hash resolver fuel c json st = .ok (p, st2)) :
    ∃ d, st2.dict.deref p = some d ∧ d.PastTimes := by
  cases fuel with
  | zero => simp [compile] at h
  | succ fuel =>
    rw [compile_ok_iff] at h
    obtain ⟨members, d, st1, _, h1, hp, hst⟩ := h
    obtain ⟨_, hb⟩ := compile_definition_preserves Definition.preserved_past
      (fun _ _ _ b => b) (compile_good hash resolver fuel) c
      (.object members) {} st [] (d, st1) ⟨[], rfl, by simp⟩ h1
    subst hst hp
    exact ⟨d, by simp [Dictionary.deref, Dictionary.put], hb⟩

/-- An argument object with a time above 0 in an expression that compiles does
not exist. -/
theorem Compiler.compile_expression_loop_no_future (c : Compiler) (path : List String) :
    ∀ (ms : List Json) (i : Nat) (op : Option String) (acc : List String × List Int)
      (r : Option String × List String × List Int),
      compile_expression_loop c path ms i op acc = .ok r →
      ∀ (name : String) (t : Int) (rest : List (String × Json)),
        Json.object ((name, .number t) :: rest) ∈ ms → t ≤ 0 := by
  intro ms
  induction ms with
  | nil => intro i op acc r _ name t rest hm; simp at hm
  | cons m ms ih =>
    intro i op acc r h name t rest hm
    obtain ⟨args, times⟩ := acc
    simp only [compile_expression_loop] at h
    split at h
    · rw [Except.bind_ok_iff] at h
      obtain ⟨_, _, h⟩ := h
      rcases List.mem_cons.1 hm with hx | hx
      · cases hx
      · exact ih _ _ _ _ h name t rest hx
    · rw [Except.bind_ok_iff] at h
      obtain ⟨_, _, h⟩ := h
      rcases List.mem_cons.1 hm with hx | hx
      · cases hx
      · exact ih _ _ _ _ h name t rest hx
    · rename_i o members
      rw [Except.bind_ok_iff] at h
      obtain ⟨r1, h1, h⟩ := h
      rcases List.mem_cons.1 hm with hx | hx
      · simp only [Json.object.injEq] at hx
        subst hx
        simp only [compile_argument] at h1
        rw [Except.bind_ok_iff] at h1
        obtain ⟨_, _, h1⟩ := h1
        simp only [compile_argument_loop, if_true] at h1
        rw [Except.bind_ok_iff] at h1
        obtain ⟨_, _, h1⟩ := h1
        rw [Except.bind_ok_iff] at h1
        obtain ⟨_, _, h1⟩ := h1
        rw [Except.bind_ok_iff] at h1
        obtain ⟨time, htime, h1⟩ := h1
        simp only [getInt] at htime
        split at htime
        · simp only [Except.ok.injEq] at htime
          subst htime
          split at h1
          · simp at h1
          · rename_i hle; exact Int.not_lt.1 hle
        · simp at htime
      · exact ih _ _ _ _ h name t rest hx
    · simp [unexpected_element] at h

/-- C25. An argument object `{name: t}` with a name that is not empty and a
32-bit `t > 0` makes `compile_argument` raise "Argument 'name' at 'path' refers
to future values."; with `t ≤ 0` the argument and its time are accepted.  An
expression with an argument object whose time is above 0 does not compile.
And the tape of every Definition that `Compiler::compile` returns reads as a
list of records in which every time offset is at most 0. -/
theorem Compiler.compile_rejects_future_times (hash : String → Int) (resolver : Resolver)
    (c : Compiler) :
    (∀ (args : List String) (times : List Int) (path : List String) (name : String) (t : Int),
      name.length ≠ 0 → 0 < t → t ≤ 2147483647 →
      compile_argument c (.object [(name, .number t)]) args times path =
        .error ("Argument '" ++ name ++ "' at '" ++ c.str (path ++ [name])
          ++ "' refers to future values.")) ∧
    (∀ (args : List String) (times : List Int) (path : List String) (name : String) (t : Int),
      name.length ≠ 0 → t ≤ 0 → -2147483648 ≤ t →
      compile_argument c (.object [(name, .number t)]) args times path =
        .ok (args ++ [name], times ++ [t])) ∧
    (∀ (dict : Dictionary) (d : Definition) (path : List String) (elements : List Json)
      (name : String) (t : Int) (rest : List (String × Json)),
      Json.object ((name, .number t) :: rest) ∈ elements → 0 < t →
      ∃ e, compile_expression c dict (.array elements) d path = .error e) ∧
    (∀ (fuel : Nat) (json : Except String Json) (st : CompileState) (p : Nat)
      (st2 : CompileState), compile hash resolver fuel c json st = .ok (p, st2) →
      ∃ d rs, st2.dict.deref p = some d ∧ d.records = .ok rs ∧
        ∀ r ∈ rs, ∀ t ∈ r.times, t ≤ 0) := by
  refine ⟨?_, ?_, ?_, ?_⟩
  · intro args times path name t hname hpos hmax
    have hmin : -2147483648 ≤ t := by omega
    simp [compile_argument, compile_argument_loop, assert_type, assert_value, Json.getType,
      getInt, hname, hpos, hmax, hmin, bind, Except.bind]
  · intro args times path name t hname hle hmin
    have hmax : t ≤ 2147483647 := by omega
    have hnot : ¬ 0 < t := by omega
    simp [compile_argument, compile_argument_loop, assert_type, assert_value, Json.getType,
      getInt, hname, hnot, hmax, hmin, bind, Except.bind]
  · intro dict d path elements name t rest hm hpos
    apply Except.exists_error_of_ne_ok
    intro d1 h
    simp only [compile_expression] at h
    rw [Except.bind_ok_iff] at h
    obtain ⟨_, _, h⟩ := h
    rw [Except.bind_ok_iff] at h
    obtain ⟨r, hl, _⟩ := h
    have := compile_expression_loop_no_future c path elements 0 none _ r hl name t rest hm
    omega
  · intro fuel json st p st2 h
    obtain ⟨d, hd, rs, hr, ht⟩ := compile_past hash resolver fuel c json st p st2 h
    exact ⟨d, rs, hd, Definition.records_of_Reads d hr, ht⟩

end past_times

/-- The argument `{"x": 1}` of `return` in a network, and the example
network, whose tape holds the times 0 and -1. -/
theorem Compiler.compile_rejects_future_times_witness :
    Compiler.compile_argument ⟨"", "", ""⟩ (.object [("x", .number 1)]) [] []
        ["network", "body", "return", "[1]"] =
      .error "Argument 'x' at '////network/body/return/[1]/x' refers to future values." ∧
    Compiler.compile_argument ⟨"", "", ""⟩ (.object [("e2", .number (-1))]) ["a"] [0]
        ["network", "body", "e4", "[1]"] = .ok (["a", "e2"], [0, -1]) ∧
    compile_error (Compiler.compile test_hash test_resolver 3 ⟨"", "", ""⟩
      (.ok network_future) {}) =
        some "Argument 'x' at '////network/body/return/[1]/x' refers to future values." ∧
    Compiler.compile test_hash test_resolver 3 ⟨"", "", ""⟩ (.ok network_1) {}
      = .ok (1, network_1_state) ∧
    ∃ d rs, network_1_state.dict.deref 1 = some d ∧ d.records = .ok rs ∧
      ∀ r ∈ rs, ∀ t ∈ r.times, t ≤ 0 :=
  ⟨(Compiler.compile_rejects_future_times test_hash test_resolver ⟨"", "", ""⟩).1 [] []
      ["network", "body", "return", "[1]"] "x" 1 (by decide) (by decide) (by decide),
    (Compiler.compile_rejects_future_times test_hash test_resolver ⟨"", "", ""⟩).2.1 ["a"] [0]
      ["network", "body", "e4", "[1]"] "e2" (-1) (by decide) (by decide) (by decide),
    by decide!, by decide!,
    (Compiler.compile_rejects_future_times test_hash test_resolver ⟨"", "", ""⟩).2.2.2 3
      (.ok network_1) {} 1 network_1_state (by decide!)⟩

/-! ## Required elements -/

section required_elements

open Compiler

variable {hash : String → Int} {resolver : Resolver}
variable {rec : Compiler → Except String Json → CompileState → Except String (Nat × CompileState)}

/-- The loop of `compile_root` and the member "body": once a body is kept no
further member "body" is accepted; and the body kept by the loop is the only
member "body". -/
theorem Compiler.compile_root_loop_body (c : Compiler) (path : List String) :
    ∀ (ms : List (String × Json)) (s s1 : RootState),
      compile_root_loop hash resolver rec c path ms s = .ok s1 →
      (∀ b, s.body = some b → s1.body = some b ∧ ∀ v, ("body", v) ∉ ms) ∧
      (s.body = none → ∀ b, s1.body = some b →
        ("body", b) ∈ ms ∧ ∀ v, ("body", v) ∈ ms → v = b) := by
  intro ms
  induction ms with
  | nil =>
    intro s s1 h
    simp [compile_root_loop] at h
    subst h
    exact ⟨fun b hb => ⟨hb, by simp⟩, fun hs b hb => by simp [hs] at hb⟩
  | cons m ms ih =>
    intro s s1 h
    obtain ⟨key, value⟩ := m
    simp only [compile_root_loop] at h
    have other : ∀ (s2 : RootState), s2.body = s.body → key ≠ "body" →
        compile_root_loop hash resolver rec c path ms s2 = .ok s1 →
        (∀ b, s.body = some b → s1.body = some b ∧ ∀ v, ("body", v) ∉ (key, value) :: ms) ∧
        (s.body = none → ∀ b, s1.body = some b →
          ("body", b) ∈ (key, value) :: ms ∧
            ∀ v, ("body", v) ∈ (key, value) :: ms → v = b) := by
      intro s2 hb hkey h2
      obtain ⟨ih1, ih2⟩ := ih s2 s1 h2
      constructor
      · intro b hs
        obtain ⟨a, e⟩ := ih1 b (hb.trans hs)
        refine ⟨a, ?_⟩
        intro v hv
        simp only [List.mem_cons, Prod.mk.injEq] at hv
        rcases hv with ⟨hk, _⟩ | hv
        · exact hkey hk.symm
        · exact e v hv
      · intro hs b hs1
        obtain ⟨a, e⟩ := ih2 (hb.trans hs) b hs1
        refine ⟨List.mem_cons_of_mem _ a, ?_⟩
        intro v hv
        simp only [List.mem_cons, Prod.mk.injEq] at hv
        rcases hv with ⟨hk, _⟩ | hv
        · exact absurd hk.symm hkey
        · exact e v hv
    split at h
    · rename_i hc
      rw [Except.bind_ok_iff] at h
      obtain ⟨n, _, h⟩ := h
      rw [Except.bind_ok_iff] at h
      obtain ⟨_, _, h⟩ := h
      exact other { s with name := true, d := s.d.set_name n } rfl (by rw [hc.2]; decide) h
    split at h
    · rename_i hc
      rw [Except.bind_ok_iff] at h
      obtain ⟨d1, _, h⟩ := h
      exact other { s with variables_seen := true, d := d1 } rfl (by rw [hc.2]; decide) h
    split at h
    · rename_i hc
      rw [Except.bind_ok_iff] at h
      obtain ⟨d1, _, h⟩ := h
      exact other { s with constants_seen := true, d := d1 } rfl (by rw [hc.2]; decide) h
    split at h
    · rename_i hc
      rw [Except.bind_ok_iff] at h
      obtain ⟨⟨d1, st1⟩, _, h⟩ := h
      exact other { s with imports_seen := true, d := d1, st := st1 } rfl
        (by rw [hc.2]; decide) h
    split at h
    · rename_i hc
      obtain ⟨ih1, _⟩ := ih { s with body := some value } s1 h
      obtain ⟨a, e⟩ := ih1 value rfl
      have hnone : s.body = none := by
        cases hb : s.body with
        | none => rfl
        | some b => simp [hb] at hc
      constructor
      · intro b hb; rw [hnone] at hb; cases hb
      · intro _ b hb
        rw [a] at hb
        simp only [Option.some.injEq] at hb
        subst hb
        rw [hc.2]
        refine ⟨List.mem_cons_self _ _, ?_⟩
        intro v hv
        simp only [List.mem_cons, Prod.mk.injEq, true_and] at hv
        rcases hv with hv | hv
        · exact hv
        · exact absurd hv (e v)
    · simp [unexpected_element] at h

/-- The loop of `compile_root` accepts as "name" only a string that is not
empty. -/
theorem Compiler.compile_root_loop_name_value (hrec : GoodCompile rec) (c : Compiler)
    (path : List String) :
    ∀ (ms : List (String × Json)) (s s1 : RootState),
      compile_root_loop hash resolver rec c path ms s = .ok s1 → s.name = false →
      ∀ v, ("name", v) ∈ ms → ∃ n, v = Json.string n ∧ n.length ≠ 0 := by
  intro ms
  induction ms with
  | nil => intro s s1 _ _ v hv; simp at hv
  | cons m ms ih =>
    intro s s1 h hs v hv
    obtain ⟨key, value⟩ := m
    have h0 := h
    simp only [compile_root_loop] at h
    have other : ∀ (s2 : RootState), s2.name = s.name → key ≠ "name" →
        compile_root_loop hash resolver rec c path ms s2 = .ok s1 →
        ∃ n, v = Json.string n ∧ n.length ≠ 0 := by
      intro s2 hn hkey h2
      simp only [List.mem_cons, Prod.mk.injEq] at hv
      rcases hv with ⟨hk, _⟩ | hv
      · exact absurd hk.symm hkey
      · exact ih s2 s1 h2 (hn.trans hs) v hv
    split at h
    · rename_i hc
      rw [Except.bind_ok_iff] at h
      obtain ⟨n, hn, h⟩ := h
      rw [Except.bind_ok_iff] at h
      obtain ⟨_, hval, h⟩ := h
      have hvalue : value = Json.string n := by
        cases value <;> simp [getString] at hn
        subst hn; rfl
      have hne : n.length ≠ 0 := by
        intro h0
        simp [assert_value, h0] at hval
      obtain ⟨ih1, _⟩ := compile_root_loop_name hrec c path ms
        { s with name := true, d := s.d.set_name n } s1 h
      obtain ⟨_, _, e⟩ := ih1 rfl
      simp only [List.mem_cons, Prod.mk.injEq] at hv
      rcases hv with ⟨_, hv⟩ | hv
      · exact ⟨n, hv.trans hvalue, hne⟩
      · exact absurd hv (e v)
    split at h
    · rename_i hc
      rw [Except.bind_ok_iff] at h
      obtain ⟨d1, _, h⟩ := h
      exact other { s with variables_seen := true, d := d1 } rfl (by rw [hc.2]; decide) h
    split at h
    · rename_i hc
      rw [Except.bind_ok_iff] at h
      obtain ⟨d1, _, h⟩ := h
      exact other { s with constants_seen := true, d := d1 } rfl (by rw [hc.2]; decide) h
    split at h
    · rename_i hc
      rw [Except.bind_ok_iff] at h
      obtain ⟨⟨d1, st1⟩, _, h⟩ := h
      exact other { s with imports_seen := true, d := d1, st := st1 } rfl
        (by rw [hc.2]; decide) h
    split at h
    · rename_i hc
      exact other { s with body := some value } rfl (by rw [hc.2]; decide) h
    · simp [unexpected_element] at h

/-- The flag `ret` of the loop of `compile_body` is raised by a member
"return" only. -/
theorem Compiler.compile_body_loop_return (c : Compiler) (dict : Dictionary)
    (path : List String) :
    ∀ (ms : List (String × Json)) (ret : Bool) (d : Definition) (r : Bool × Definition),
      compile_body_loop c dict path ms ret d = .ok r → r.1 = true →
      ret = true ∨ ∃ v, ("return", v) ∈ ms := by
  intro ms
  induction ms with
  | nil =>
    intro ret d r h hr
    simp [compile_body_loop] at h
    subst h
    exact Or.inl hr
  | cons m ms ih =>
    intro ret d r h hr
    obtain ⟨key, value⟩ := m
    simp only [compile_body_loop] at h
    rw [Except.bind_ok_iff] at h
    obtain ⟨d1, _, h⟩ := h
    rcases ih _ _ _ h hr with h1 | ⟨v, hv⟩
    · simp only [Bool.or_eq_true, decide_eq_true_eq] at h1
      rcases h1 with h1 | h1
      · exact Or.inl h1
      · exact Or.inr ⟨value, by rw [h1]; exact List.mem_cons_self _ _⟩
    · exact Or.inr ⟨v, List.mem_cons_of_mem _ hv⟩

/-- A body that compiles is an object with a member "return". -/
theorem Compiler.compile_body_return (c : Compiler) (dict : Dictionary) (node : Json)
    (d d1 : Definition) (path : List String) (h : compile_body c dict node d path = .ok d1) :
    ∃ bms, node = .object bms ∧ ∃ v, ("return", v) ∈ bms := by
  simp only [compile_body] at h
  rw [Except.bind_ok_iff] at h
  obtain ⟨_, ha, h⟩ := h
  obtain ⟨bms, hb⟩ := assert_type_object c node path ha
  subst hb
  simp only [] at h
  rw [Except.bind_ok_iff] at h
  obtain ⟨⟨ret, d0⟩, hl, h⟩ := h
  rw [Except.bind_ok_iff] at h
  obtain ⟨_, hret, _⟩ := h
  have hr : ret = true := by
    cases ret with
    | true => rfl
    | false => simp [assert_element] at hret
  rcases compile_body_loop_return c dict path bms false d _ hl hr with h1 | h1
  · cases h1
  · exact ⟨bms, rfl, h1⟩

/-- A network object that compiles has one member "name", a string that is
not empty, and one member "body", an object with a member "return". -/
theorem Compiler.compile_root_shape (hrec : GoodCompile rec) (c : Compiler) (node : Json)
    (d : Definition) (st : CompileState) (path : List String) (r : Definition × CompileState)
    (h : compile_root hash resolver rec c node d st path = .ok r) :
    ∃ net n bms, node = .object net ∧
      ("name", Json.string n) ∈ net ∧ (∀ v, ("name", v) ∈ net → v = Json.string n) ∧
      n.length ≠ 0 ∧
      ("body", Json.object bms) ∈ net ∧ (∀ v, ("body", v) ∈ net → v = Json.object bms) ∧
      ∃ v, ("return", v) ∈ bms := by
  obtain ⟨net, hnet, hname, huniq⟩ := compile_root_name hrec c node d st path r h
  subst hnet
  simp only [compile_root] at h
  rw [Except.bind_ok_iff] at h
  obtain ⟨_, _, h⟩ := h
  rw [Except.bind_ok_iff] at h
  obtain ⟨s, hs, h⟩ := h
  rw [Except.bind_ok_iff] at h
  obtain ⟨_, _, h⟩ := h
  rw [Except.bind_ok_iff] at h
  obtain ⟨_, hbody, h⟩ := h
  rw [Except.bind_ok_iff] at h
  obtain ⟨d1, hd1, _⟩ := h
  obtain ⟨n, hn, hne⟩ := compile_root_loop_name_value hrec c path net { d := d, st := st } s hs
    rfl _ hname
  simp only [Json.string.injEq] at hn
  obtain ⟨b, hb⟩ : ∃ b, s.body = some b := by
    cases hsb : s.body with
    | some b => exact ⟨b, rfl⟩
    | none => simp [assert_element, hsb] at hbody
  obtain ⟨_, h2⟩ := compile_root_loop_body c path net { d := d, st := st } s hs
  obtain ⟨hmem, hbu⟩ := h2 rfl b hb
  rw [hb] at hd1
  simp only [Option.getD_some] at hd1
  obtain ⟨bms, hbms, hret⟩ := compile_body_return c s.st.dict b s.d d1 _ hd1
  subst hbms
  exact ⟨net, r.1.name, bms, rfl, hname, huniq, by rw [hn]; exact hne, hmem, hbu, hret⟩

/-- A document that compiles is an object whose only member is "network", an
object with one member "name", a string that is not empty, and one member
"body", an object with a member "return". -/
theorem Compiler.compile_shape (hash : String → Int) (resolver : Resolver) (fuel : Nat)
    (c : Compiler) (json : Except String Json) (st : CompileState) (p : Nat)
    (st2 : CompileState) (h : compile hash resolver fuel c json st = .ok (p, st2)) :
    ∃ net n bms, json = .ok (.object [("network", .object net)]) ∧
      ("name", Json.string n) ∈ net ∧ (∀ v, ("name", v) ∈ net → v = Json.string n) ∧
      n.length ≠ 0 ∧
      ("body", Json.object bms) ∈ net ∧ (∀ v, ("body", v) ∈ net → v = Json.object bms) ∧
      ∃ v, ("return", v) ∈ bms := by
  cases fuel with
  | zero => simp [compile] at h
  | succ fuel =>
    rw [compile_ok_iff] at h
    obtain ⟨members, d, st1, hjson, h1, _, _⟩ := h
    obtain ⟨value, hdoc, hroot⟩ := compile_definition_network c (.object members) {} st []
      (d, st1) h1
    obtain ⟨net, n, bms, hnet, rest⟩ := compile_root_shape (compile_good hash resolver fuel) c
      value {} st _ (d, st1) hroot
    subst hnet
    exact ⟨net, n, bms, by rw [hjson, hdoc], rest⟩

end required_elements

/-- C26. `Compiler::compile` fails when the document has no member "network",
when the network object has no member "name" or has the name "", when it has
no member "body", and when the body has no member "return".  A network object
with a name and a body only compiles exactly when its body compiles in the
empty Definition of that name: the absence of "variables", "constants" and
"imports" raises no error. -/
theorem Compiler.compile_requires (hash : String → Int) (resolver : Resolver) (fuel : Nat)
    (c : Compiler) (st : CompileState) :
    (∀ members, (∀ v, ("network", v) ∉ members) →
      ∃ e, compile hash resolver fuel c (.ok (.object members)) st = .error e) ∧
    (∀ members net, ("network", Json.object net) ∈ members → (∀ v, ("name", v) ∉ net) →
      ∃ e, compile hash resolver fuel c (.ok (.object members)) st = .error e) ∧
    (∀ members net, ("network", Json.object net) ∈ members → ("name", Json.string "") ∈ net →
      ∃ e, compile hash resolver fuel c (.ok (.object members)) st = .error e) ∧
    (∀ members net, ("network", Json.object net) ∈ members → (∀ v, ("body", v) ∉ net) →
      ∃ e, compile hash resolver fuel c (.ok (.object members)) st = .error e) ∧
    (∀ members net bms, ("network", Json.object net) ∈ members →
      ("body", Json.object bms) ∈ net → (∀ v, ("return", v) ∉ bms) →
      ∃ e, compile hash resolver fuel c (.ok (.object members)) st = .error e) ∧
    (∀ (n : String) (b : Json), n.length ≠ 0 →
      ((∃ r, compile hash resolver (fuel + 1) c
          (.ok (.object [("network", .object [("name", .string n), ("body", b)])])) st = .ok r) ↔
        ∃ d, compile_body c st.dict b (({} : Definition).set_name n) ["network", "body"]
          = .ok d)) := by
  have key : ∀ members p st2,
      compile hash resolver fuel c (.ok (.object members)) st = .ok (p, st2) →
      ∃ net n bms, members = [("network", .object net)] ∧
        ("name", Json.string n) ∈ net ∧ (∀ v, ("name", v) ∈ net → v = Json.string n) ∧
        n.length ≠ 0 ∧
        ("body", Json.object bms) ∈ net ∧ (∀ v, ("body", v) ∈ net → v = Json.object bms) ∧
        ∃ v, ("return", v) ∈ bms := by
    intro members p st2 h
    obtain ⟨net, n, bms, hj, rest⟩ := compile_shape hash resolver fuel c _ st p st2 h
    simp only [Except.ok.injEq, Json.object.injEq] at hj
    exact ⟨net, n, bms, hj, rest⟩
  refine ⟨?_, ?_, ?_, ?_, ?_, ?_⟩
  · intro members hno
    apply Except.exists_error_of_ne_ok
    rintro ⟨p, st2⟩ h
    obtain ⟨net, n, bms, hm, _⟩ := key members p st2 h
    exact hno (.object net) (by rw [hm]; exact List.mem_cons_self _ _)
  · intro members net hnet hno
    apply Except.exists_error_of_ne_ok
    rintro ⟨p, st2⟩ h
    obtain ⟨net1, n, bms, hm, hname, _⟩ := key members p st2 h
    rw [hm] at hnet
    simp only [List.mem_singleton, Prod.mk.injEq, Json.object.injEq, true_and] at hnet
    subst hnet
    exact hno _ hname
  · intro members net hnet hempty
    apply Except.exists_error_of_ne_ok
    rintro ⟨p, st2⟩ h
    obtain ⟨net1, n, bms, hm, _, huniq, hne, _⟩ := key members p st2 h
    rw [hm] at hnet
    simp only [List.mem_singleton, Prod.mk.injEq, Json.object.injEq, true_and] at hnet
    subst hnet
    have := huniq _ hempty
    simp only [Json.string.injEq] at this
    subst this
    exact hne rfl
  · intro members net hnet hno
    apply Except.exists_error_of_ne_ok
    rintro ⟨p, st2⟩ h
    obtain ⟨net1, n, bms, hm, _, _, _, hbody, _⟩ := key members p st2 h
    rw [hm] at hnet
    simp only [List.mem_singleton, Prod.mk.injEq, Json.object.injEq, true_and] at hnet
    subst hnet
    exact hno _ hbody
  · intro members net bms hnet hbody hno
    apply Except.exists_error_of_ne_ok
    rintro ⟨p, st2⟩ h
    obtain ⟨net1, n, bms1, hm, _, _, _, _, hbu, v, hv⟩ := key members p st2 h
    rw [hm] at hnet
    simp only [List.mem_singleton, Prod.mk.injEq, Json.object.injEq, true_and] at hnet
    subst hnet
    have := hbu _ hbody
    simp only [Json.object.injEq] at this
    subst this
    exact hno v hv
  · intro n b hn
    simp only [compile, compile_definition, compile_definition_loop, compile_root,
      compile_root_loop, assert_type, assert_value, assert_element, Json.getType, getString,
      bind, Except.bind, pure, Except.pure]
    simp [hn]
    cases compile_body c st.dict b (({} : Definition).set_name n) ["network", "body"] with
    | error e => simp
    | ok d => simp

/-- The empty document, a network without "return", and the network with a
name and a body only, which compiles to the one record of `return`. -/
theorem Compiler.compile_requires_witness :
    (∃ e, Compiler.compile test_hash test_resolver 3 ⟨"", "", ""⟩ (.ok (.object [])) {}
      = .error e) ∧
    compile_error (Compiler.compile test_hash test_resolver 3 ⟨"", "", ""⟩
      (.ok (.object [])) {}) = some "Missing element 'network' at '///'." ∧
    (∃ e, Compiler.compile test_hash test_resolver 3 ⟨"", "", ""⟩ (.ok network_no_return) {}
      = .error e) ∧
    compile_error (Compiler.compile test_hash test_resolver 3 ⟨"", "", ""⟩
      (.ok network_no_return) {}) = some "Missing element 'return' at '////network/body'." ∧
    compiled_names_tape (Compiler.compile test_hash test_resolver 3 ⟨"", "", ""⟩
      (.ok network_minimal) {}) = .ok (["return"], [3, -1, 0, 0]) :=
  ⟨(Compiler.compile_requires test_hash test_resolver 3 ⟨"", "", ""⟩ {}).1 []
      (fun _ hv => by cases hv),
    by decide!,
    (Compiler.compile_requires test_hash test_resolver 3 ⟨"", "", ""⟩ {}).2.2.2.2.1
      [("network", .object [("name", .string "foo"),
        ("body", .object [("e", .array [.string "+"])])])]
      [("name", .string "foo"), ("body", .object [("e", .array [.string "+"])])]
      [("e", .array [.string "+"])] (List.mem_cons_self _ _)
      (List.mem_cons_of_mem _ (List.mem_cons_self _ _))
      (fun v hv => by simp at hv),
    by decide!, by decide!⟩

/-! ## Closed runs on networks -/

/-- C27 fails on the code.  The order of the keys decides whether the
compilation succeeds: with a variable and an import both named `bar`, the
network compiles when "variables" comes before "imports", and with "imports"
first it fails with "Unexpected element 'bar'", for `Definition::id` (the test
`compile_variables` makes) sees imports only.  And an import object with the
member "version" is rejected in an empty Dictionary but accepted in one that
holds a Definition under the key of `("", "", "bar")`: `compile_import`
returns at its skip test before it looks at the members. -/
theorem key_order_changes_compilation :
    compile_error (Compiler.compile test_hash test_resolver 3 ⟨"", "", ""⟩
      (.ok network_variables_first) {}) = none ∧
    compile_error (Compiler.compile test_hash test_resolver 3 ⟨"", "", ""⟩
      (.ok network_imports_first) {}) =
        some "Unexpected element 'bar' at '////network/variables/[0]'." ∧
    compile_error (Compiler.compile test_hash test_resolver 3 ⟨"", "", ""⟩
      (.ok network_import_version) {}) =
        some "Unexpected element 'version' at '////network/imports/bar/version'." ∧
    Compiler.compile test_hash test_resolver 3 ⟨"", "", ""⟩ (.ok network_2) {}
      = .ok (0, network_2_state) ∧
    compile_error (Compiler.compile test_hash test_resolver 3 ⟨"", "", ""⟩
      (.ok network_import_version) network_2_state) = none := by
  decide!

/-- C28 fails on the code: the errors that `Definition::add_record` and
`Definition::add_expression` raise, for an argument that names an undefined
symbol and for an unknown operator, name the expression and carry no path.
The Compiler is `Compiler("joe19", "default", "foo")`, whose path to the
expression is "/joe19/default/foo/network/body/return". -/
theorem definition_errors_carry_no_path :
    Compiler.str ⟨"joe19", "default", "foo"⟩ ["network", "body", "return"] =
      "/joe19/default/foo/network/body/return" ∧
    compile_error (Compiler.compile test_hash test_resolver 3 ⟨"joe19", "default", "foo"⟩
      (.ok network_undefined_symbol) {}) =
        some "Undefined symbol 'q' referenced as argument in expression 'return'." ∧
    compile_error (Compiler.compile test_hash test_resolver 3 ⟨"joe19", "default", "foo"⟩
      (.ok network_undefined_function) {}) =
        some "Undefined function 'sigmoid' in expression 'return'." ∧
    ¬ ("/joe19/default/foo".toList <:+:
      "Undefined symbol 'q' referenced as argument in expression 'return'.".toList) ∧
    ¬ ("/joe19/default/foo".toList <:+:
      "Undefined function 'sigmoid' in expression 'return'.".toList) := by
  decide!

/-- C29 fails on the code for `input()`: on a Network in which nothing is
loaded `_time` is -1, so the guard `time_size() > _time` is `0 > -1` and holds,
and `input()` goes on to `_timeline[-1]` (an index out of range, the error of
that name here) where the claim has it raise "Undefined Network. No input
available.".  `definition()` does raise its error, and after a load both
return. -/
theorem input_of_unloaded_network_reads_timeline :
    ({} : Network ℤ).get_definition = .error "Undefined Network. No definition available." ∧
    (Network.clear ({} : Network ℤ)) = {} ∧
    ((({} : Network ℤ).timeline.time_size : Int) > ({} : Network ℤ).time) ∧
    ({} : Network ℤ).input = .error "index out of range" ∧
    ({} : Network ℤ).input ≠ .error "Undefined Network. No input available." ∧
    load_and_input network_1 = .ok ("foo", [4, 5]) := by
  decide!

/-- C30 fails on the code in its second half: `add_runtime` checks no argument
count.  A `+` with three arguments is instantiated as the Addition of the first
two, a `T` with two arguments as the Transpose of the first; nothing fails.
With one argument for `+` the source reads `finput[1]` past the end of the
vector (the error "index out of range" here). -/
theorem add_runtime_checks_no_arity :
    compile_error (Compiler.compile test_hash test_resolver 3 ⟨"", "", ""⟩
      (.ok network_one_summand) {}) = none ∧
    (load_and_list network_three_summands).map (·.1) =
      .ok [some (.variable none), some (.variable none), some (.variable none),
        some (.addition 1 2)] ∧
    (load_and_list network_transpose_two).map (·.1) =
      .ok [some (.variable none), some (.variable none), some (.transpose 1)] ∧
    (load_and_list network_one_summand).map (·.1) = .error "index out of range" := by
  decide!

/-! ## Refresh, then forward -/

section graph_relations

variable {α : Type}

theorem Kind.not_leaf_of_unary {k : Kind α} {x : UnaryOp × Nat} (h : k.unary = some x) :
    k.isLeaf = false := by
  cases k <;> simp [Kind.unary] at h <;> rfl

theorem Kind.not_leaf_of_binary {k : Kind α} {x : BinaryOp × Nat × Nat}
    (h : k.binary = some x) : k.isLeaf = false := by
  cases k <;> simp [Kind.binary] at h <;> rfl

theorem Kind.not_binary_of_unary {k : Kind α} {x : UnaryOp × Nat} (h : k.unary = some x) :
    k.binary = none := by
  cases k <;> simp [Kind.unary] at h <;> rfl

theorem Represents.unique {h : Heap α} {p : Nat} {e : Expr α} (hr : Represents h p e) :
    ∀ e1, Represents h p e1 → e1 = e := by
  induction hr with
  | leaf p node hn hl =>
    intro e1 h1
    cases h1 with
    | leaf _ node1 hn1 _ =>
      rw [hn] at hn1; simp only [Option.some.injEq] at hn1; subst hn1; rfl
    | unary _ node1 op f e hn1 hu _ =>
      rw [hn] at hn1; simp only [Option.some.injEq] at hn1; subst hn1
      rw [Kind.not_leaf_of_unary hu] at hl; cases hl
    | binary _ node1 op l r e1 e2 hn1 hb _ _ =>
      rw [hn] at hn1; simp only [Option.some.injEq] at hn1; subst hn1
      rw [Kind.not_leaf_of_binary hb] at hl; cases hl
  | unary p node op f e hn hu _ ih =>
    intro e1 h1
    cases h1 with
    | leaf _ node1 hn1 hl =>
      rw [hn] at hn1; simp only [Option.some.injEq] at hn1; subst hn1
      rw [Kind.not_leaf_of_unary hu] at hl; cases hl
    | unary _ node1 op1 f1 e1 hn1 hu1 hr1 =>
      rw [hn] at hn1; simp only [Option.some.injEq] at hn1; subst hn1
      rw [hu] at hu1
      simp only [Option.some.injEq, Prod.mk.injEq] at hu1
      obtain ⟨hop, hf⟩ := hu1
      subst hop hf
      rw [ih e1 hr1]
    | binary _ node1 op1 l r e1 e2 hn1 hb _ _ =>
      rw [hn] at hn1; simp only [Option.some.injEq] at hn1; subst hn1
      rw [Kind.not_binary_of_unary hu] at hb; cases hb
  | binary p node op l r e1 e2 hn hb _ _ ih1 ih2 =>
    intro e h1
    cases h1 with
    | leaf _ node1 hn1 hl =>
      rw [hn] at hn1; simp only [Option.some.injEq] at hn1; subst hn1
      rw [Kind.not_leaf_of_binary hb] at hl; cases hl
    | unary _ node1 op1 f1 e1 hn1 hu1 _ =>
      rw [hn] at hn1; simp only [Option.some.injEq] at hn1; subst hn1
      rw [Kind.not_binary_of_unary hu1] at hb; cases hb
    | binary _ node1 op1 l1 r1 e3 e4 hn1 hb1 hr1 hr2 =>
      rw [hn] at hn1; simp only [Option.some.injEq] at hn1; subst hn1
      rw [hb] at hb1
      simp only [Option.some.injEq, Prod.mk.injEq] at hb1
      obtain ⟨hop, hl, hr⟩ := hb1
      subst hop hl hr
      rw [ih1 e3 hr1, ih2 e4 hr2]

theorem Cleared.same (h : Heap α) : Cleared h h :=
  ⟨rfl, fun _ node hn => ⟨node, hn, rfl, rfl, fun hc => hc⟩⟩

theorem Cleared.set (h : Heap α) (p : Nat) (node : Function α) (hn : h[p]? = some node) :
    Cleared h (h.set p { node with cache := false }) := by
  have hp : p < h.length := Heap.lt_of_getElem? hn
  refine ⟨by simp, ?_⟩
  intro q nodeq hq
  by_cases hpq : p = q
  · subst hpq
    rw [hn] at hq
    simp only [Option.some.injEq] at hq
    subst hq
    exact ⟨{ node with cache := false }, by simp [List.getElem?_set, hp], rfl, rfl,
      fun _ => rfl⟩
  · exact ⟨nodeq, by simp [List.getElem?_set, hpq, hq], rfl, rfl, fun hc => hc⟩

end graph_relations

section forward_ready

variable {α : Type} [CommRing α]

theorem Stored.store {ex : α → α} {h h1 : Heap α} (hs : Stored ex h h1) (p : Nat)
    (node : Function α) (e : Expr α) (v : CPUMatrix α) (hn : h[p]? = some node)
    (hnl : node.kind.isLeaf = false) (hrep : Represents h p e) (hev : e.eval ex = .ok v) :
    Stored ex h (h1.set p { node with cache := true, value := some v }) := by
  have hp : p < h1.length := by rw [hs.1]; exact Heap.lt_of_getElem? hn
  refine ⟨by simp [hs.1], ?_⟩
  intro q nodeq hq
  by_cases hpq : p = q
  · subst hpq
    rw [hn] at hq
    simp only [Option.some.injEq] at hq
    subst hq
    refine ⟨{ node with cache := true, value := some v }, by simp [List.getElem?_set, hp], rfl,
      ?_, Or.inr ⟨rfl, v, rfl, ?_⟩⟩
    · intro hleaf; rw [hnl] at hleaf; cases hleaf
    · intro e1 he1
      rw [hrep.unique e1 he1]
      exact hev
  · obtain ⟨node1, h1n, rest⟩ := hs.2 q nodeq hq
    exact ⟨node1, by simp [List.getElem?_set, hpq, h1n], rest⟩

end forward_ready

/-- C31 fails on the code. The ELEMENT case of `add_runtime` has no `break`
and runs into the TRANSPOSE case, so an ELEMENT record contributes two nodes:
for the four records `x, y, e = x ** y, return = E(e)` the root Runtime lists
five nodes, `Element(x, y)` and `Transpose(x)` for the one record `e`, and
`expressions()[3]`, the place of the record `return` (id 3), holds that
Transpose; the node of `return` is at index 4.  The lists `variables()` and
`constants()` are as the claim says. -/
theorem element_record_adds_two_nodes :
    compiled_ids (Compiler.compile test_hash test_resolver 3 ⟨"", "", ""⟩
      (.ok network_element) {}) = .ok (["x", "y", "e", "return"], [0, 1, 2, 3], [0, 1], []) ∧
    load_root network_element
      = .ok ([some (.variable none), some (.variable none), some (.element 1 2),
          some (.transpose 1), some (.exponent 3)], some (.exponent 3)) ∧
    load_root_lists network_element = .ok ([1, 2, 3, 4, 5], [1, 2], []) := by
  decide!

/-- C32 fails on the code. `Runtime::add_expression` makes every expression
it adds the main node, so the main node is the node added last.  With the key
"return" first in the body (`return = T(x)`, then `e = E(x)`) the document
compiles and the main node is the Exponent node of `e`, not the Transpose node
of `return`: `forward()` on `x = [5, 7]` returns the 1×2 value of `e` (with
doubling in the place of the exponential, `[10, 14]`), not the 2×1 transpose.
With `return = x ** y` as the last key the main node is the Transpose node that
the ELEMENT case adds after the Element node.  In the sub-network of the tests
the main node is the node of `return`. -/
theorem main_is_the_last_expression :
    load_root network_return_first
      = .ok ([some (.variable none), some (.transpose 1), some (.exponent 1)],
        some (.exponent 1)) ∧
    load_main_return network_return_first = .ok (some 3, some 2) ∧
    load_forward network_return_first (row2 5 7) = .ok (1, 2, [10, 14]) ∧
    load_root network_element_return
      = .ok ([some (.variable none), some (.variable none), some (.element 1 2),
          some (.transpose 1)], some (.transpose 1)) ∧
    load_main_return network_element_return = .ok (some 4, some 3) ∧
    load_main_return network_2 = .ok (some 5, some 5) := by
  refine ⟨?_, ?_, ?_, ?_, ?_, ?_⟩ <;> decide!

/-- C33 fails on the code. `add_record` takes `_index.size()` as the id of the
new record, and a name that is in `_index` already does not make it grow: after
`add_variable("x")` twice, the expression `r = T(x)` gets the id 1 and its
argument `x` resolves to the id 1 as well, so the argument id is not less than
the id of the record.  The Compiler accepts the same from a document that
lists the variable `x` twice. -/
theorem repeated_name_breaks_order :
    definition_x_twice.bind (fun d => d.records.map (fun rs => rs.map (fun r => (r.id, r.input))))
      = .ok [(0, []), (1, []), (1, [1])] ∧
    compiled_ids_args (Compiler.compile test_hash test_resolver 3 ⟨"", "", ""⟩
      (.ok network_twice_variable) {}) = .ok [(0, []), (1, []), (1, [1])] := by
  decide!

/-- C34 fails on the code. For the variables `x, x, y` and the expression
`return` the four records carry the ids 0, 1, 1, 2: the record number 2 (`y`)
has the id 1, `variables()` is `[0, 1, 1]`, the expression `return` has the id
2 that would be the id of `y`, and no record has the id 3.  In the example
network, whose names are distinct, the ids are 0 … 9 in order. -/
theorem repeated_name_repeats_id :
    compiled_ids (Compiler.compile test_hash test_resolver 3 ⟨"", "", ""⟩ (.ok network_xxy) {})
      = .ok (["x", "x", "y", "return"], [0, 1, 1, 2], [0, 1, 1], []) ∧
    compiled_ids (Compiler.compile test_hash test_resolver 3 ⟨"", "", ""⟩ (.ok network_1) {})
      = .ok (["x", "y", "z", "a", "b", "e1", "e2", "e3", "e4", "return"],
        [0, 1, 2, 3, 4, 5, 6, 7, 8, 9], [0, 1, 2], [3, 4]) := by
  decide!

/-- C36 fails on the code. At a time above 0 the VARIABLE case takes
`rt_zero[rt_index]->expressions()[id]` with the id of the record; for the
variables `x, x, y` the third record has the id 1, so the frame 1 lists the
second Variable of the frame 0 in the third place: `[1, 2, 2]` against
`[1, 2, 3]`.  In the example network the frames 0 and 1 list the same
Variables, for the root Runtime and for the Runtime of the import.  With a
recurrent Definition, `add_runtime(2, …)` right after `add_runtime(0, …)`
reads the Runtime 0 of the empty frame 1 (out of range). -/
theorem repeated_name_shares_other_variable :
    frame_variables network_xxy 1 = .ok ([[1, 2, 3]], [[1, 2, 2]]) ∧
    frame_variables network_1 1 = .ok ([[1, 2, 3], [10, 11]], [[1, 2, 3], [10, 11]]) ∧
    frame_variables network_recurrent 1 = .ok ([[1]], [[1]]) ∧
    frame_variables network_recurrent 2 = .error "index out of range" := by
  decide!

/-! ## `ZeroFeed` -/

section zero_feed

variable {α : Type} [CommRing α]

/-- `ZeroFeed::forward` on a node that holds no value yet evaluates the
delegate `ref`, and when that returns `m`, a matrix with fewer than 2^31 rows
and columns, it returns the matrix of the shape of `m` whose entries are all
zero and stores it in the node; every later call, in any heap in which the node
still holds that matrix, returns it and changes nothing;
`ZeroFeed::backward(d)` returns with the heap unchanged. -/
theorem ZeroFeed_forward_backward (ex : α → α) (fuel : Nat) (h h1 : Heap α) (p ref : Nat)
    (node : Function α) (m : CPUMatrix α)
    (hn : h[p]? = some node) (hk : node.kind = .zeroFeed ref) (hv : node.value = none)
    (hf : forward ex fuel h ref = .ok (m, h1))
    (hs : m.rows < 2147483648 ∧ m.cols < 2147483648) :
    ∃ z : CPUMatrix α,
      forward ex (fuel + 1) h p = .ok (z, h1.set p { node with value := some z }) ∧
      z.rows = m.rows ∧ z.cols = m.cols ∧ z.data = List.replicate (m.rows * m.cols) 0 ∧
      (h1.set p { node with value := some z })[p]? = some { node with value := some z } ∧
      (∀ (n : Nat) (h2 : Heap α) (node2 : Function α), h2[p]? = some node2 →
        node2.kind = .zeroFeed ref → node2.value = some z →
        forward ex (n + 1) h2 p = .ok (z, h2)) ∧
      (∀ (n : Nat) (h2 : Heap α) (node2 : Function α) (d : CPUMatrix α), h2[p]? = some node2 →
        node2.kind = .zeroFeed ref → backward ex (n + 1) h2 p d = .ok h2) := by
  have hp : p < h.length := Heap.lt_of_getElem? hn
  have hl : h1.length = h.length := forward_length ex fuel h ref m h1 hf
  refine ⟨Matrix.full m.rows m.cols 0, ?_, rfl, rfl, rfl, ?_, ?_, ?_⟩
  · simp [forward, hn, hk, hv, hf, Matrix.sized_of_lt m (0 : α) hs.1 hs.2, bind, Except.bind,
      pure, Except.pure]
  · simp [hl, hp]
  · intro n h2 node2 h2n h2k h2v
    simp [forward, h2n, h2k, h2v]
  · intro n h2 node2 d h2n h2k
    simp [backward, h2n, h2k]

/-- A ZeroFeed over a Variable that holds a 2×3 matrix. -/
theorem ZeroFeed_forward_backward_witness :
    (test_constant_mc.rows < 2147483648 ∧ test_constant_mc.cols < 2147483648) ∧
    ∃ z : CPUMatrix ℤ,
      forward id 2 [Function.newVariable (some test_constant_mc),
          Function.newNode (.zeroFeed 0)] 1
        = .ok (z, [Function.newVariable (some test_constant_mc),
            { Function.newNode (.zeroFeed 0) with value := some z }]) ∧
      z.rows = 2 ∧ z.cols = 3 ∧ z.data = [0, 0, 0, 0, 0, 0] :=
  let ⟨z, h1, h2, h3, h4, _⟩ := ZeroFeed_forward_backward id 1
    [Function.newVariable (some test_constant_mc), Function.newNode (.zeroFeed 0)]
    [Function.newVariable (some test_constant_mc), Function.newNode (.zeroFeed 0)]
    1 0 (Function.newNode (.zeroFeed 0)) test_constant_mc rfl rfl rfl rfl ⟨by decide, by decide⟩
  ⟨⟨by decide, by decide⟩, z, h1, h2, h3, h4⟩

end zero_feed

/-! ## The seed of `Product::backward` -/

section product_seed

variable {α : Type} [CommRing α]

/-- The product `r * d` of `Matrix::operator*` is refused by the backend when
neither matrix is 1×1 and `r.cols ≠ d.rows`. -/
theorem Matrix.mul_shape_error (r d : CPUMatrix α) (hr : 2 ≤ r.rows) (hd : 2 ≤ d.rows)
    (hne : r.cols ≠ d.rows) :
    Matrix.mul r d = .error "dimension mismatch in matrix-product multiplication" := by
  have h1 : ¬ (r.rows = 1 ∧ r.cols = 1) := by omega
  have h2 : ¬ (d.rows = 1 ∧ d.cols = 1) := by omega
  simp [Matrix.mul, CPUContext.prod, h1, h2, hne]

/-- C38. For a Product node over `l` and `r`, where `r.forward()` returns a
k×n matrix, `backward(d)` with a seed `d` of the shape m×n of the output, with
m, k, n ≥ 2 and m ≠ n, ends in the backend error of the matrix product: the
first statement of `Product::backward` multiplies `r.forward()` by `d`, which
needs `n = m`. -/
theorem Product_backward_shape_error (ex : α → α) (fuel : Nat) (h h1 : Heap α) (p l r : Nat)
    (node : Function α) (rv d : CPUMatrix α) (m k n : Nat)
    (hn : h[p]? = some node) (hk : node.kind = .product l r)
    (hf : forward ex fuel h r = .ok (rv, h1))
    (hrows : rv.rows = k) (hcols : rv.cols = n) (hdrows : d.rows = m) (_hdcols : d.cols = n)
    (hm : 2 ≤ m) (hk2 : 2 ≤ k) (_hn2 : 2 ≤ n) (hmn : m ≠ n) :
    backward ex (fuel + 1) h p d
      = .error "dimension mismatch in matrix-product multiplication" := by
  have hmul := Matrix.mul_shape_error rv d (by omega) (by omega) (by omega)
  simp [backward, hn, hk, hf, hmul, bind, Except.bind]

end product_seed

/-- C38 on the Product of a 2×3 and a 3×4 Variable: `forward()` returns the
2×4 product, and `backward` with a 2×4 seed fails, before and after
`forward()`. -/
theorem Product_backward_shape_error_witness :
    (forward id 2 (productHeap shape_l shape_r) 2).map (fun x => (x.1.rows, x.1.cols))
      = .ok (2, 4) ∧
    backward id 2 (productHeap shape_l shape_r) 2 shape_d
      = .error "dimension mismatch in matrix-product multiplication" :=
  ⟨by decide!, Product_backward_shape_error id 1 (productHeap shape_l shape_r)
    (productHeap shape_l shape_r) 2 0 1 (Function.newNode (.product 0 1)) shape_r shape_d
    2 3 4 rfl rfl rfl rfl rfl rfl rfl (by decide) (by decide) (by decide) (by decide)⟩

/-! ## The inputs an operator node is built from -/

section first_inputs

variable {α : Type}

open Timeline in
/-- In the record loop of `add_runtime`, a record of a binary operator other
than ELEMENT whose inputs resolve to `f0, f1, rest…` adds the node over `f0`
and `f1`, and a record of a unary operator whose inputs resolve to
`f0, rest…` adds the node over `f0`. -/
theorem Timeline.add_runtime_loop_operator
    (add_rt : Nat → Nat → List Nat → Timeline α → Except String (Nat × Timeline α))
    (time : Nat) (d : Definition) (constants : List Nat) (rt rt_index steps : Nat)
    (s : LoopState α) (n : Int) (r : Record) (finput : List Nat) (tl1 : Timeline α)
    (hrec : d.get_record ⟨s.offset, 0, 0, 0, [], []⟩ = .ok (n, r)) (hn : n > 0)
    (hres : resolve_input time rt rt_index r.input r.times s.tl = .ok (finput, tl1)) :
    (∀ (f0 f1 : Nat) (rest : List Nat) (k : Nat → Nat → Kind α), finput = f0 :: f1 :: rest →
      (OperatorType.ofInt r.type = some .ADDITION ∧ k = Kind.addition ∨
        OperatorType.ofInt r.type = some .SUBTRACTION ∧ k = Kind.subtraction ∨
        OperatorType.ofInt r.type = some .PRODUCT ∧ k = Kind.product) →
      add_runtime_loop add_rt time d constants rt rt_index (steps + 1) s
        = (add_operator tl1 rt (k f0 f1)).bind (fun tl2 =>
            add_runtime_loop add_rt time d constants rt rt_index steps
              { offset := r.offset, constants_index := s.constants_index, tl := tl2 })) ∧
    (∀ (f0 : Nat) (rest : List Nat) (k : Nat → Kind α), finput = f0 :: rest →
      (OperatorType.ofInt r.type = some .TRANSPOSE ∧ k = Kind.transpose ∨
        OperatorType.ofInt r.type = some .EXPONENT ∧ k = Kind.exponent) →
      add_runtime_loop add_rt time d constants rt rt_index (steps + 1) s
        = (add_operator tl1 rt (k f0)).bind (fun tl2 =>
            add_runtime_loop add_rt time d constants rt rt_index steps
              { offset := r.offset, constants_index := s.constants_index, tl := tl2 })) := by
  constructor
  · intro f0 f1 rest k hfin hk
    subst hfin
    rcases hk with ⟨ht, rfl⟩ | ⟨ht, rfl⟩ | ⟨ht, rfl⟩ <;>
      simp [add_runtime_loop, hrec, hn, hres, ht, elem, bind, Except.bind]
  · intro f0 rest k hfin hk
    subst hfin
    rcases hk with ⟨ht, rfl⟩ | ⟨ht, rfl⟩ <;>
      simp [add_runtime_loop, hrec, hn, hres, ht, elem, bind, Except.bind]

end first_inputs

/-- The timeline that `load` of the example network leaves: 17 nodes, the root
Runtime at address 0 and the Runtime of the import `e3` at address 9. -/
theorem network_1_timeline_eq : network_1_timeline = .ok
    { heap := [
        Function.newNode (.runtime [1, 2, 3, 4, 5, 6, 7, 8, 9, 15, 16] [1, 2, 3] [4, 5] (some 16)),
        Function.newVariable none, Function.newVariable none, Function.newVariable none,
        Function.newConstant none, Function.newConstant none,
        Function.newNode (.product 4 1), Function.newNode (.element 5 2),
        Function.newNode (.transpose 5),
        Function.newNode (.runtime [10, 11, 3, 12, 13] [10, 11] [3] (some 13)),
        Function.newVariable none, Function.newVariable none,
        Function.newNode (.product 3 10), Function.newNode (.addition 12 11),
        Function.newNode (.zeroFeed 7), Function.newNode (.product 14 8),
        Function.newNode (.addition 6 7)],
      timeline := [[0, 9]],
      expressions := [0, 1, 2, 3, 4, 5, 6, 7, 8, 9, 10, 11, 12, 13, 14, 15, 16] } := by
  decide!

/-- `forward()` of the root Runtime of the example network is `a * x + b ** y`
for the matrices set on `x`, `y`, `a` and `b`, while `z` and the Variables of
the import hold nothing: `forward()` of the Runtime of `e3` fails. -/
theorem network_1_forward_eq (x y a b : CPUMatrix ℤ) :
    network_1_forward 0 x y a b
      = (do let e1 ← Matrix.mul a x; let e2 ← Matrix.and b y; Matrix.add e1 e2) ∧
    network_1_forward 1 x y a b = .error "Variable is not set." := by
  unfold network_1_forward
  rw [network_1_timeline_eq]
  constructor
  · cases h1 : Matrix.mul a x with
    | error e =>
      simp [Timeline.get_runtime, Timeline.elem, Runtime.variables_of, Runtime.constants,
        Function.setValue, Function.newNode, Function.newVariable, Function.newConstant,
        forward, bind, Except.bind, pure, Except.pure, h1]
    | ok e1 =>
      cases h2 : Matrix.and b y with
      | error e =>
        simp [Timeline.get_runtime, Timeline.elem, Runtime.variables_of, Runtime.constants,
          Function.setValue, Function.newNode, Function.newVariable, Function.newConstant,
          forward, bind, Except.bind, pure, Except.pure, h1, h2]
      | ok e2 =>
        cases h3 : Matrix.add e1 e2 <;>
        simp [Timeline.get_runtime, Timeline.elem, Runtime.variables_of, Runtime.constants,
          Function.setValue, Function.newNode, Function.newVariable, Function.newConstant,
          forward, bind, Except.bind, pure, Except.pure, h1, h2, h3]
  · simp [Timeline.get_runtime, Timeline.elem, Runtime.variables_of, Runtime.constants,
      Function.setValue, Function.newNode, Function.newVariable, Function.newConstant, forward,
      bind, Except.bind, pure, Except.pure]

/-- C39. In the record loop of `add_runtime`, once the inputs of a record are
resolved to `f0, f1, rest…`, an ADDITION, SUBTRACTION or PRODUCT record adds
the node `Addition(f0, f1)`, `Subtraction(f0, f1)` or `Product(f0, f1)`, and a
TRANSPOSE or EXPONENT record with the inputs `f0, rest…` adds `Transpose(f0)`
or `Exponent(f0)`: the loop goes on from that node whatever `rest` holds.  In
the example network, `return = ["+", "e1", "e2", "e3", "e4"]` is the main node
`Addition(6, 7)` over the nodes of `e1 = a * x` and `e2 = b ** y`, and
`forward()` of the root Runtime is `a * x + b ** y` for all matrices `x`, `y`,
`a`, `b`, with nothing set on the inputs of `e3`, whose `forward()` fails. -/
theorem add_runtime_uses_first_inputs :
    (∀ (α : Type)
      (add_rt : Nat → Nat → List Nat → Timeline α → Except String (Nat × Timeline α))
      (time : Nat) (d : Definition) (constants : List Nat) (rt rt_index steps : Nat)
      (s : Timeline.LoopState α) (n : Int) (r : Record) (finput : List Nat) (tl1 : Timeline α),
      d.get_record ⟨s.offset, 0, 0, 0, [], []⟩ = .ok (n, r) → n > 0 →
      Timeline.resolve_input time rt rt_index r.input r.times s.tl = .ok (finput, tl1) →
      (∀ (f0 f1 : Nat) (rest : List Nat) (k : Nat → Nat → Kind α), finput = f0 :: f1 :: rest →
        (OperatorType.ofInt r.type = some .ADDITION ∧ k = Kind.addition ∨
          OperatorType.ofInt r.type = some .SUBTRACTION ∧ k = Kind.subtraction ∨
          OperatorType.ofInt r.type = some .PRODUCT ∧ k = Kind.product) →
        Timeline.add_runtime_loop add_rt time d constants rt rt_index (steps + 1) s
          = (Timeline.add_operator tl1 rt (k f0 f1)).bind (fun tl2 =>
              Timeline.add_runtime_loop add_rt time d constants rt rt_index steps
                { offset := r.offset, constants_index := s.constants_index, tl := tl2 })) ∧
      (∀ (f0 : Nat) (rest : List Nat) (k : Nat → Kind α), finput = f0 :: rest →
        (OperatorType.ofInt r.type = some .TRANSPOSE ∧ k = Kind.transpose ∨
          OperatorType.ofInt r.type = some .EXPONENT ∧ k = Kind.exponent) →
        Timeline.add_runtime_loop add_rt time d constants rt rt_index (steps + 1) s
          = (Timeline.add_operator tl1 rt (k f0)).bind (fun tl2 =>
              Timeline.add_runtime_loop add_rt time d constants rt rt_index steps
                { offset := r.offset, constants_index := s.constants_index, tl := tl2 }))) ∧
    load_root network_1
      = .ok ([some (.variable none), some (.variable none), some (.variable none),
          some (.constant none), some (.constant none), some (.product 4 1),
          some (.element 5 2), some (.transpose 5),
          some (.runtime [10, 11, 3, 12, 13] [10, 11] [3] (some 13)),
          some (.product 14 8), some (.addition 6 7)], some (.addition 6 7)) ∧
    load_root_lists network_1
      = .ok ([1, 2, 3, 4, 5, 6, 7, 8, 9, 15, 16], [1, 2, 3], [4, 5]) ∧
    (∀ x y a b : CPUMatrix ℤ,
      network_1_forward 0 x y a b
        = (do let e1 ← Matrix.mul a x; let e2 ← Matrix.and b y; Matrix.add e1 e2) ∧
      network_1_forward 1 x y a b = .error "Variable is not set.") :=
  ⟨fun _ add_rt time d constants rt rt_index steps s n r finput tl1 hrec hn hres =>
      Timeline.add_runtime_loop_operator add_rt time d constants rt rt_index steps s n r finput
        tl1 hrec hn hres,
    by decide!, by decide!, network_1_forward_eq⟩

/-- C39 on the record `return = ["+", "x", "y", "z"]`, read at offset 12 in a
Runtime that lists the three Variables 1, 2, 3: the inputs resolve to
`1, 2, 3` and the loop goes on from `Addition(1, 2)`. -/
theorem add_runtime_uses_first_inputs_witness :
    tape_three_summands.get_record ⟨12, 0, 0, 0, [], []⟩
      = .ok (10, ⟨22, 3, -1, 3, [0, 1, 2], [0, 0, 0]⟩) ∧
    Timeline.resolve_input 0 0 0 [0, 1, 2] [0, 0, 0] three_variables_timeline
      = .ok ([1, 2, 3], three_variables_timeline) ∧
    Timeline.add_runtime_loop (Timeline.add_runtime [] 0) 0 tape_three_summands [] 0 0 (1 + 1)
        { offset := 12, constants_index := 0, tl := three_variables_timeline }
      = (Timeline.add_operator three_variables_timeline 0 (.addition 1 2)).bind (fun tl2 =>
          Timeline.add_runtime_loop (Timeline.add_runtime [] 0) 0 tape_three_summands [] 0 0 1
            { offset := 22, constants_index := 0, tl := tl2 }) :=
  ⟨by decide!, by decide!,
    (add_runtime_uses_first_inputs.1 ℤ (Timeline.add_runtime [] 0) 0 tape_three_summands [] 0 0 1
      { offset := 12, constants_index := 0, tl := three_variables_timeline } 10
      ⟨22, 3, -1, 3, [0, 1, 2], [0, 0, 0]⟩ [1, 2, 3] three_variables_timeline
      (by decide!) (by decide) (by decide!)).1 1 2 [3] Kind.addition rfl (Or.inl ⟨by decide, rfl⟩)⟩

/-! ## Imports that are skipped -/

/-- With no import named `fn` and `fn` not one of the six operator symbols,
`add_expression` raises "Undefined function", whatever the arguments are. -/
theorem Definition.add_expression_undefined (defs : List Definition) (d : Definition)
    (name fn : String) (input : List String) (times : List Int)
    (hf : Map.find d.import_index fn = none) (hnone : builtin_operator fn = none) :
    d.add_expression defs name fn input times =
      .error s!"Undefined function '{fn}' in expression '{name}'." := by
  unfold builtin_operator at hnone
  unfold Definition.add_expression
  simp only [hf]
  split at hnone
  · simp at hnone
  split at hnone
  · simp at hnone
  split at hnone
  · simp at hnone
  split at hnone
  · simp at hnone
  split at hnone
  · simp at hnone
  split at hnone
  · simp at hnone
  rename_i h1 h2 h3 h4 h5 h6
  simp [h1, h2, h3, h4, h5, h6]

/-- C40 (as amended). When the Dictionary holds an entry under the key of
(`_user`, `_library`, f) of the Compiler, `compile_import` of an import entry
named f (the last element of the path) returns with the Definition and the
state unchanged: no call of the Resolver is made and no import slot is
registered.  A body expression with the operator f, on a Definition that has
no import slot named f, then fails with "Undefined function" once its elements
are read and its name is accepted, provided f is not one of the six operator
symbols. -/
theorem Compiler.compile_import_skipped (hash : String → Int) (resolver : Resolver)
    (rec : Compiler → Except String Json → CompileState → Except String (Nat × CompileState))
    (c : Compiler) (members : List (String × Json)) (d : Definition) (st : CompileState)
    (path : List String) (q : Nat)
    (hkey : st.dict.get (Dictionary.id hash c.user c.library (path.getLast?.getD "")) = some q) :
    compile_import hash resolver rec c (.object members) d st path = .ok (d, st) ∧
    ∀ (d1 : Definition) (dict : Dictionary) (elements : List Json) (epath : List String)
      (args : List String) (times : List Int),
      Map.find d1.import_index (path.getLast?.getD "") = none →
      builtin_operator (path.getLast?.getD "") = none →
      compile_expression_loop c epath elements 0 none ([], [])
        = .ok (some (path.getLast?.getD ""), args, times) →
      d1.id (epath.getLast?.getD "") < 0 →
      compile_expression c dict (.array elements) d1 epath =
        .error ("Undefined function '" ++ path.getLast?.getD "" ++ "' in expression '"
          ++ epath.getLast?.getD "" ++ "'.") := by
  constructor
  · simp [compile_import, assert_type, Json.getType, hkey, bind, Except.bind]
  · intro d1 dict elements epath args times hslot hop hloop hid
    have hu : assert_unique c (epath.getLast?.getD "") d1 epath = .ok () := by
      simp [assert_unique, hid]
    have hund := Definition.add_expression_undefined dict.defs d1 (epath.getLast?.getD "")
      (path.getLast?.getD "") args times hslot hop
    simp [compile_expression, assert_type, Json.getType, hloop, assert_element, hu, hund,
      bind, Except.bind]
    simp [toString]

/-- C40 on the example network, compiled by `Compiler("", "", "")` into a
Dictionary that holds the Definition named "bar" under the key of
("", "", "bar"): the import entry `bar` is skipped, the expression
`e3 = ["bar", "z"]` is refused, and so is the document. -/
theorem Compiler.compile_import_skipped_witness :
    network_2_state.dict.get (Dictionary.id test_hash "" "" "bar") = some 0 ∧
    compile_import test_hash test_resolver (Compiler.compile test_hash test_resolver 2)
      ⟨"", "", ""⟩ (.object [("user", .string "joe19"), ("library", .string "default")])
      {} network_2_state ["network", "imports", "bar"] = .ok ({}, network_2_state) ∧
    compile_expression ⟨"", "", ""⟩ network_2_state.dict (.array [.string "bar", .string "z"])
      definition_x ["network", "body", "e3"] =
        .error "Undefined function 'bar' in expression 'e3'." ∧
    compile_error (Compiler.compile test_hash test_resolver 3 ⟨"", "", ""⟩ (.ok network_1)
      network_2_state) = some "Undefined function 'bar' in expression 'e3'." :=
  ⟨by decide!,
    (Compiler.compile_import_skipped test_hash test_resolver
      (Compiler.compile test_hash test_resolver 2) ⟨"", "", ""⟩
      [("user", .string "joe19"), ("library", .string "default")] {} network_2_state
      ["network", "imports", "bar"] 0 (by decide!)).1,
    (Compiler.compile_import_skipped test_hash test_resolver
      (Compiler.compile test_hash test_resolver 2) ⟨"", "", ""⟩
      [("user", .string "joe19"), ("library", .string "default")] {} network_2_state
      ["network", "imports", "bar"] 0 (by decide!)).2 definition_x network_2_state.dict
      [.string "bar", .string "z"] ["network", "body", "e3"] ["z"] [0]
      (by decide!) (by decide!) (by decide!) (by decide!),
    by decide!⟩

/-- C40 as stated fails. An import entry named `+` is skipped when the
Dictionary holds a Definition named `+` under the key of ("", "", "+"); no
call of the Resolver is made and no import slot is registered, and the body
expression `return = ["+", "x"]` compiles, as an ADDITION record (type 3,
variant -1). -/
theorem skipped_operator_import_compiles :
    network_named_plus_state.dict.get (Dictionary.id test_hash "" "" "+") = some 0 ∧
    compiled_names_tape (Compiler.compile test_hash test_resolver 3 ⟨"", "", ""⟩
      (.ok network_import_plus) network_named_plus_state)
      = .ok (["x", "return"], [1, -1, 0, 0, 3, -1, 1, 1, 0, 0]) ∧
    (Compiler.compile test_hash test_resolver 3 ⟨"", "", ""⟩
      (.ok network_import_plus) network_named_plus_state).map
        (fun r => (r.2.calls, (r.2.dict.deref r.1).map (·.import_index)))
      = .ok ([], some []) := by
  decide!

/-! ## Instantiation, frame after frame -/

section tape

theorem Map.length_assign_le {κ ν : Type} [DecidableEq κ] (m : List (κ × ν)) (k : κ) (v : ν) :
    (Map.assign m k v).length ≤ m.length + 1 := by
  induction m with
  | nil => simp [Map.assign]
  | cons e m ih =>
    obtain ⟨a, b⟩ := e
    by_cases hak : a = k
    · simp [Map.assign, hak]
    · simp [Map.assign, hak]; omega

/-- The ids that `resolve_args` returns are values of the symbol table. -/
theorem Definition.resolve_args_values (d : Definition) (name : String) :
    ∀ (input : List String) (args : List Int), d.resolve_args name input = .ok args →
      ∀ a ∈ args, ∃ k, Map.find d.index k = some a := by
  intro input
  induction input with
  | nil => intro args h a ha; simp [Definition.resolve_args] at h; subst h; simp at ha
  | cons x xs ih =>
    intro args h a ha
    simp only [Definition.resolve_args] at h
    split at h
    · rename_i i hi
      rw [Except.bind_ok_iff] at h
      obtain ⟨as, h1, h⟩ := h
      simp [pure, Except.pure] at h
      subst h
      rcases List.mem_cons.1 ha with hx | hx
      · exact ⟨x, by rw [hx, hi]⟩
      · exact ih as h1 a hx
    · simp at h

/-- A record appended by `add_record` keeps the tape well formed. -/
theorem Definition.Tape.after_add_record {d d1 : Definition} (ty : OperatorType) (variant : Int)
    (name : String) (input : List String) (times : List Int) (hq : d.Tape)
    (ht : ∀ t ∈ times, t ≤ 0) (h : d.add_record ty variant name input times = .ok d1) :
    d1.Tape := by
  obtain ⟨rs, hreads, hlen, hvals, hrs⟩ := hq
  obtain ⟨r, _, _, hrtimes, hrid, hres, hrlen, hoff, hdef, _, _, _, _, _, _, _, hindex⟩ :=
    Definition.add_record_spec d d1 ty variant name input times h
  refine ⟨rs ++ [r], ?_, ?_, ?_, ?_⟩
  · rw [hdef]; exact Reads.append r hrlen hoff hreads
  · rw [hindex]
    have := Map.length_assign_le d.index name (d.index.length : Int)
    simp only [List.length_append, List.length_singleton]
    omega
  · intro k v hf
    rw [hindex, Map.find_assign] at hf
    simp only [List.length_append, List.length_singleton]
    split at hf
    · simp only [Option.some.injEq] at hf
      subst hf
      omega
    · have := hvals k v hf
      omega
  · intro i x hx
    rcases Nat.lt_or_ge i rs.length with hi | hi
    · rw [List.getElem?_append_left hi] at hx
      exact hrs i x hx
    · rw [List.getElem?_append_right hi] at hx
      have hi0 : i - rs.length = 0 := by
        by_contra hne
        have : 1 ≤ i - rs.length := by omega
        rw [List.getElem?_eq_none (by simpa using this)] at hx
        cases hx
      rw [hi0] at hx
      simp only [List.getElem?_cons_zero, Option.some.injEq] at hx
      subst hx
      have hirs : i = rs.length := by omega
      refine ⟨⟨by omega, by omega⟩, ?_, ?_⟩
      · intro a ha
        obtain ⟨k, hk⟩ := Definition.resolve_args_values d name input r.input hres a ha
        have := hvals k a hk
        omega
      · rw [hrtimes]; exact ht

theorem Definition.Tape.with_vars {d : Definition} (vs cs : List Int) (hq : d.Tape) :
    Definition.Tape { d with vars := vs, consts := cs } := hq

/-- The interface keeps the tape well formed when it is given no time offset
above 0. -/
theorem Definition.preserved_tape : Preserved (fun _ d => d.Tape) := by
  refine ⟨?_, ?_, ?_, ?_, fun _ _ _ _ h => h⟩
  · intro _ d d1 name hq h
    exact Definition.Tape.after_add_record .VARIABLE (-1) name [] []
      (Definition.Tape.with_vars _ _ hq) (by simp) h
  · intro _ d d1 name hq h
    exact Definition.Tape.after_add_record .CONSTANT (-1) name [] []
      (Definition.Tape.with_vars _ _ hq) (by simp) h
  · intro _ d d1 name p hq _ h
    unfold Definition.add_import at h
    split at h
    · simp at h
    · simp only [Except.ok.injEq] at h
      subst h
      exact hq
  · intro defs d d1 name fn input times hq ht h
    unfold Definition.add_expression at h
    split at h
    · rw [Except.bind_ok_iff] at h
      obtain ⟨d0, h0, h⟩ := h
      have hq0 := Definition.Tape.after_add_record _ _ name input times hq ht h0
      split at h
      · simp only [pure, Except.pure, Except.ok.injEq] at h
        subst h
        split
        · exact hq0
        · exact hq0
      · simp at h
    · split at h
      · exact Definition.Tape.after_add_record _ _ name input times hq ht h
      split at h
      · exact Definition.Tape.after_add_record _ _ name input times hq ht h
      split at h
      · exact Definition.Tape.after_add_record _ _ name input times hq ht h
      split at h
      · exact Definition.Tape.after_add_record _ _ name input times hq ht h
      split at h
      · exact Definition.Tape.after_add_record _ _ name input times hq ht h
      split at h
      · exact Definition.Tape.after_add_record _ _ name input times hq ht h
      · simp at h

end tape
section all_definitions

open Compiler

variable {P : Definition → Prop}
variable {hash : String → Int} {resolver : Resolver}
variable {rec : Compiler → Except String Json → CompileState → Except String (Nat × CompileState)}

theorem Compiler.compile_import_all
    (hrec : ∀ c json st p st1, rec c json st = .ok (p, st1) →
      (∀ e ∈ st.dict.defs, P e) → ∀ e ∈ st1.dict.defs, P e)
    (c : Compiler) (node : Json) (d : Definition) (st : CompileState) (path : List String)
    (r : Definition × CompileState) (hall : ∀ e ∈ st.dict.defs, P e)
    (h : compile_import hash resolver rec c node d st path = .ok r) :
    ∀ e ∈ r.2.dict.defs, P e := by
  simp only [compile_import] at h
  rw [Except.bind_ok_iff] at h
  obtain ⟨_, _, h⟩ := h
  split at h
  · simp at h; subst h; exact hall
  · split at h
    · rw [Except.bind_ok_iff] at h
      obtain ⟨⟨user, library⟩, _, h⟩ := h
      rw [Except.bind_ok_iff] at h
      obtain ⟨_, _, h⟩ := h
      rw [Except.bind_ok_iff] at h
      obtain ⟨_, _, h⟩ := h
      rw [Except.bind_ok_iff] at h
      obtain ⟨⟨p, st2⟩, hc, h⟩ := h
      rw [Except.bind_ok_iff] at h
      obtain ⟨d1, hd1, h⟩ := h
      simp [pure, Except.pure] at h
      subst h
      exact hrec _ _ _ _ _ hc (by simpa using hall)
    · simp at h; subst h; exact hall

theorem Compiler.compile_imports_loop_all
    (hrec : ∀ c json st p st1, rec c json st = .ok (p, st1) →
      (∀ e ∈ st.dict.defs, P e) → ∀ e ∈ st1.dict.defs, P e)
    (c : Compiler) (path : List String) :
    ∀ (ms : List (String × Json)) (d : Definition) (st : CompileState)
      (r : Definition × CompileState), (∀ e ∈ st.dict.defs, P e) →
      compile_imports_loop hash resolver rec c path ms d st = .ok r →
      ∀ e ∈ r.2.dict.defs, P e := by
  intro ms
  induction ms with
  | nil =>
    intro d st r hall h
    simp [compile_imports_loop] at h
    subst h
    exact hall
  | cons m ms ih =>
    intro d st r hall h
    obtain ⟨name, value⟩ := m
    simp only [compile_imports_loop] at h
    rw [Except.bind_ok_iff] at h
    obtain ⟨⟨d1, st1⟩, h1, h⟩ := h
    exact ih d1 st1 r (compile_import_all hrec c value d st _ _ hall h1) h

theorem Compiler.compile_imports_all
    (hrec : ∀ c json st p st1, rec c json st = .ok (p, st1) →
      (∀ e ∈ st.dict.defs, P e) → ∀ e ∈ st1.dict.defs, P e)
    (c : Compiler) (node : Json) (d : Definition) (st : CompileState) (path : List String)
    (r : Definition × CompileState) (hall : ∀ e ∈ st.dict.defs, P e)
    (h : compile_imports hash resolver rec c node d st path = .ok r) :
    ∀ e ∈ r.2.dict.defs, P e := by
  simp only [compile_imports] at h
  rw [Except.bind_ok_iff] at h
  obtain ⟨_, _, h⟩ := h
  split at h
  · exact compile_imports_loop_all hrec c path _ d st r hall h
  · simp at h; subst h; exact hall

theorem Compiler.compile_root_loop_all
    (hrec : ∀ c json st p st1, rec c json st = .ok (p, st1) →
      (∀ e ∈ st.dict.defs, P e) → ∀ e ∈ st1.dict.defs, P e)
    (c : Compiler) (path : List String) :
    ∀ (ms : List (String × Json)) (s s1 : RootState), (∀ e ∈ s.st.dict.defs, P e) →
      compile_root_loop hash resolver rec c path ms s = .ok s1 →
      ∀ e ∈ s1.st.dict.defs, P e := by
  intro ms
  induction ms with
  | nil =>
    intro s s1 hall h
    simp [compile_root_loop] at h
    subst h
    exact hall
  | cons m ms ih =>
    intro s s1 hall h
    obtain ⟨key, value⟩ := m
    simp only [compile_root_loop] at h
    split at h
    · rw [Except.bind_ok_iff] at h
      obtain ⟨n, _, h⟩ := h
      rw [Except.bind_ok_iff] at h
      obtain ⟨_, _, h⟩ := h
      exact ih { s with name := true, d := s.d.set_name n } s1 hall h
    split at h
    · rw [Except.bind_ok_iff] at h
      obtain ⟨d1, h1, h⟩ := h
      exact ih { s with variables_seen := true, d := d1 } s1 hall h
    split at h
    · rw [Except.bind_ok_iff] at h
      obtain ⟨d1, h1, h⟩ := h
      exact ih { s with constants_seen := true, d := d1 } s1 hall h
    split at h
    · rw [Except.bind_ok_iff] at h
      obtain ⟨⟨d1, st1⟩, h1, h⟩ := h
      exact ih { s with imports_seen := true, d := d1, st := st1 } s1
        (compile_imports_all hrec c value s.d s.st _ _ hall h1) h
    split at h
    · exact ih { s with body := some value } s1 hall h
    · simp [unexpected_element] at h

theorem Compiler.compile_root_all
    (hrec : ∀ c json st p st1, rec c json st = .ok (p, st1) →
      (∀ e ∈ st.dict.defs, P e) → ∀ e ∈ st1.dict.defs, P e)
    (c : Compiler) (node : Json) (d : Definition) (st : CompileState) (path : List String)
    (r : Definition × CompileState) (hall : ∀ e ∈ st.dict.defs, P e)
    (h : compile_root hash resolver rec c node d st path = .ok r) :
    ∀ e ∈ r.2.dict.defs, P e := by
  simp only [compile_root] at h
  rw [Except.bind_ok_iff] at h
  obtain ⟨_, _, h⟩ := h
  split at h
  · rw [Except.bind_ok_iff] at h
    obtain ⟨s, hs, h⟩ := h
    rw [Except.bind_ok_iff] at h
    obtain ⟨_, _, h⟩ := h
    rw [Except.bind_ok_iff] at h
    obtain ⟨_, _, h⟩ := h
    rw [Except.bind_ok_iff] at h
    obtain ⟨d1, hd1, h⟩ := h
    simp [pure, Except.pure] at h
    subst h
    exact compile_root_loop_all hrec c path _ { d := d, st := st } s hall hs
  · simp at h; subst h; exact hall

theorem Compiler.compile_definition_loop_all
    (hrec : ∀ c json st p st1, rec c json st = .ok (p, st1) →
      (∀ e ∈ st.dict.defs, P e) → ∀ e ∈ st1.dict.defs, P e)
    (c : Compiler) (path : List String) :
    ∀ (ms : List (String × Json)) (function : Bool) (d : Definition) (st : CompileState)
      (r : Bool × Definition × CompileState), (∀ e ∈ st.dict.defs, P e) →
      compile_definition_loop hash resolver rec c path ms function d st = .ok r →
      ∀ e ∈ r.2.2.dict.defs, P e := by
  intro ms
  induction ms with
  | nil =>
    intro function d st r hall h
    simp [compile_definition_loop] at h
    subst h
    exact hall
  | cons m ms ih =>
    intro function d st r hall h
    obtain ⟨key, value⟩ := m
    simp only [compile_definition_loop] at h
    split at h
    · rw [Except.bind_ok_iff] at h
      obtain ⟨⟨d1, st1⟩, h1, h⟩ := h
      exact ih _ _ _ _ (compile_root_all hrec c value d st _ _ hall h1) h
    · simp [unexpected_element] at h

theorem Compiler.compile_definition_all
    (hrec : ∀ c json st p st1, rec c json st = .ok (p, st1) →
      (∀ e ∈ st.dict.defs, P e) → ∀ e ∈ st1.dict.defs, P e)
    (c : Compiler) (doc : Json) (d : Definition) (st : CompileState) (path : List String)
    (r : Definition × CompileState) (hall : ∀ e ∈ st.dict.defs, P e)
    (h : compile_definition hash resolver rec c doc d st path = .ok r) :
    ∀ e ∈ r.2.dict.defs, P e := by
  simp only [compile_definition] at h
  rw [Except.bind_ok_iff] at h
  obtain ⟨_, _, h⟩ := h
  split at h
  · rw [Except.bind_ok_iff] at h
    obtain ⟨⟨function, d1, st1⟩, h1, h⟩ := h
    rw [Except.bind_ok_iff] at h
    obtain ⟨_, _, h⟩ := h
    simp [pure, Except.pure] at h
    subst h
    exact compile_definition_loop_all hrec c path _ _ d st _ hall h1
  · simp at h; subst h; exact hall

end all_definitions

/-- Every Definition of the Dictionary after `Compiler::compile` has a well
formed tape, when those of the Dictionary before have. -/
theorem Compiler.compile_tapes (hash : String → Int) (resolver : Resolver) :
    ∀ (fuel : Nat) (c : Compiler) (json : Except String Json) (st : CompileState) (p : Nat)
      (st2 : CompileState), compile hash resolver fuel c json st = .ok (p, st2) →
      (∀ e ∈ st.dict.defs, e.Tape) → ∀ e ∈ st2.dict.defs, e.Tape := by
  intro fuel
  induction fuel with
  | zero => intro c json st p st2 h; simp [compile] at h
  | succ fuel ih =>
    intro c json st p st2 h hall
    rw [compile_ok_iff] at h
    obtain ⟨members, d, st1, _, h1, hp, hst⟩ := h
    have hall1 := compile_definition_all ih c (.object members) {} st [] (d, st1) hall h1
    obtain ⟨_, hd⟩ := compile_definition_preserves Definition.preserved_tape
      (fun _ _ _ b => b) (compile_good hash resolver fuel) c
      (.object members) {} st [] (d, st1)
      ⟨[], rfl, by simp, by intro k v hk; simp [Map.find] at hk, by intro i r hr; simp at hr⟩ h1
    subst hst hp
    intro e he
    simp only [Dictionary.put, List.mem_append, List.mem_singleton] at he
    rcases he with he | he
    · exact hall1 e he
    · subst he; exact hd
section heap_lemmas

variable {α : Type}

open Timeline

theorem Timeline.IsRuntime.fewer {h : Heap α} {rt n m : Nat} (hr : IsRuntime h rt n)
    (hm : m ≤ n) : IsRuntime h rt m := by
  obtain ⟨c, v, es, vs, cs, mn, hn, hl⟩ := hr
  exact ⟨c, v, es, vs, cs, mn, hn, by omega⟩

theorem Timeline.IsRuntime.lt {h : Heap α} {rt n : Nat} (hr : IsRuntime h rt n) :
    rt < h.length := by
  obtain ⟨c, v, es, vs, cs, mn, hn, _⟩ := hr
  exact Heap.lt_of_getElem? hn

theorem Timeline.IsRuntime.append_heap {h : Heap α} {rt n : Nat} (hr : IsRuntime h rt n)
    (ext : Heap α) : IsRuntime (h ++ ext) rt n := by
  have hlt := hr.lt
  obtain ⟨c, v, es, vs, cs, mn, hn, hl⟩ := hr
  exact ⟨c, v, es, vs, cs, mn, by rw [List.getElem?_append_left hlt]; exact hn, hl⟩

theorem Timeline.Grows.rfl_heap (h : Heap α) : Grows h h := fun _ _ hr => hr

theorem Timeline.Grows.step {h h1 h2 : Heap α} (h12 : Grows h h1) (h23 : Grows h1 h2) :
    Grows h h2 := fun rt n hr => h23 rt n (h12 rt n hr)

theorem Timeline.Grows.by_append (h ext : Heap α) : Grows h (h ++ ext) :=
  fun _ _ hr => hr.append_heap ext

theorem Timeline.IsRuntime.expressions {h : Heap α} {rt n : Nat} (hr : IsRuntime h rt n) :
    ∃ es, Runtime.expressions h rt = .ok es ∧ n ≤ es.length := by
  obtain ⟨c, v, es, vs, cs, mn, hn, hl⟩ := hr
  exact ⟨es, by simp [Runtime.expressions, hn], hl⟩

theorem Timeline.Grows.set_runtime {h : Heap α} {rt : Nat} {c v : _} {es vs cs : List Nat}
    {m : Option Nat} (hn : h[rt]? = some ⟨c, v, .runtime es vs cs m⟩)
    (c1 v1 : _) (es1 vs1 cs1 : List Nat) (m1 : Option Nat) (hl : es.length ≤ es1.length) :
    Grows h (h.set rt ⟨c1, v1, .runtime es1 vs1 cs1 m1⟩) := by
  intro rt' n' hr
  have hlt := Heap.lt_of_getElem? hn
  by_cases he : rt' = rt
  · subst he
    obtain ⟨c', v', es', vs', cs', m', hn', hl'⟩ := hr
    rw [hn] at hn'
    simp only [Option.some.injEq, Function.mk.injEq, Kind.runtime.injEq] at hn'
    obtain ⟨_, _, hes, _⟩ := hn'
    subst hes
    exact ⟨c1, v1, es1, vs1, cs1, m1, by simp [hlt], by omega⟩
  · obtain ⟨c', v', es', vs', cs', m', hn', hl'⟩ := hr
    exact ⟨c', v', es', vs', cs', m', by rw [List.getElem?_set_ne (Ne.symm he)]; exact hn', hl'⟩

theorem Runtime.add_expression_grows {h : Heap α} {rt n : Nat} (hr : IsRuntime h rt n) (f : Nat) :
    ∃ h1, Runtime.add_expression h rt f = .ok h1 ∧ IsRuntime h1 rt (n + 1) ∧ Grows h h1 := by
  have hlt := hr.lt
  obtain ⟨c, v, es, vs, cs, mn, hn, hl⟩ := hr
  refine ⟨h.set rt ⟨c, v, .runtime (es ++ [f]) vs cs (some f)⟩,
    by simp only [Runtime.add_expression, hn], ?_, ?_⟩
  · exact ⟨c, v, es ++ [f], vs, cs, some f, by simp [hlt], by simp; omega⟩
  · exact Grows.set_runtime hn _ _ _ _ _ _ (by simp)

theorem Runtime.add_variable_grows {h : Heap α} {rt n : Nat} (hr : IsRuntime h rt n) (f : Nat) :
    ∃ h1, Runtime.add_variable h rt f = .ok h1 ∧ IsRuntime h1 rt (n + 1) ∧ Grows h h1 := by
  have hlt := hr.lt
  obtain ⟨c, v, es, vs, cs, mn, hn, hl⟩ := hr
  refine ⟨h.set rt ⟨c, v, .runtime (es ++ [f]) (vs ++ [f]) cs mn⟩,
    by simp only [Runtime.add_variable, hn], ?_, ?_⟩
  · exact ⟨c, v, es ++ [f], vs ++ [f], cs, mn, by simp [hlt], by simp; omega⟩
  · exact Grows.set_runtime hn _ _ _ _ _ _ (by simp)

theorem Runtime.add_constant_grows {h : Heap α} {rt n : Nat} (hr : IsRuntime h rt n) (f : Nat) :
    ∃ h1, Runtime.add_constant h rt f = .ok h1 ∧ IsRuntime h1 rt (n + 1) ∧ Grows h h1 := by
  have hlt := hr.lt
  obtain ⟨c, v, es, vs, cs, mn, hn, hl⟩ := hr
  refine ⟨h.set rt ⟨c, v, .runtime (es ++ [f]) vs (cs ++ [f]) mn⟩,
    by simp only [Runtime.add_constant, hn], ?_, ?_⟩
  · exact ⟨c, v, es ++ [f], vs, cs ++ [f], mn, by simp [hlt], by simp; omega⟩
  · exact Grows.set_runtime hn _ _ _ _ _ _ (by simp)

theorem Timeline.elem_ok_iff {β : Type} (v : List β) (i : Int) (x : β) :
    elem v i = .ok x ↔ 0 ≤ i ∧ v[i.toNat]? = some x := by
  unfold elem
  by_cases hi : i < 0
  · simp [hi]
  · simp only [hi, if_false]
    cases hv : v[i.toNat]? with
    | none => simp
    | some y => simp; omega

theorem Timeline.elem_nat {β : Type} (v : List β) (k : Nat) (x : β) :
    elem v (k : Int) = .ok x ↔ v[k]? = some x := by
  rw [elem_ok_iff]
  simp

theorem Timeline.elem_of_lt {β : Type} (v : List β) (i : Int) (h0 : 0 ≤ i)
    (hlt : i < (v.length : Int)) : ∃ x, elem v i = .ok x ∧ v[i.toNat]? = some x := by
  have hl : i.toNat < v.length := by omega
  exact ⟨v[i.toNat], (elem_ok_iff v i _).2 ⟨h0, List.getElem?_eq_getElem hl⟩,
    List.getElem?_eq_getElem hl⟩

/-- `add_operator` on a Runtime returns: the Runtime has one more expression. -/
theorem Timeline.add_operator_ok {tl : Timeline α} {rt n : Nat} (hr : IsRuntime tl.heap rt n)
    (k : Kind α) :
    ∃ tl1, add_operator tl rt k = .ok tl1 ∧ IsRuntime tl1.heap rt (n + 1) ∧
      Grows tl.heap tl1.heap ∧ tl1.timeline = tl.timeline := by
  have hr1 : IsRuntime (tl.heap ++ [Function.newNode k]) rt n := hr.append_heap _
  obtain ⟨h1, hh1, hrt, hg⟩ := Runtime.add_expression_grows hr1 tl.heap.length
  refine ⟨{ (alloc tl (Function.newNode k)).2 with heap := h1 }, ?_, hrt,
    (Grows.by_append _ _).step hg, rfl⟩
  simp only [add_operator, alloc, hh1, bind, Except.bind, pure, Except.pure]

end heap_lemmas
section resolve_lemmas

variable {α : Type}

open Timeline

/-- What a successful `resolve_input` leaves: one input per argument, the
frames as they were, and the heap with ZeroFeed nodes appended. -/
theorem Timeline.resolve_input_effect (time rt rt_index : Nat) :
    ∀ (input times : List Int) (tl : Timeline α) (fs : List Nat) (tl1 : Timeline α),
      resolve_input time rt rt_index input times tl = .ok (fs, tl1) →
      fs.length = input.length ∧ tl1.timeline = tl.timeline ∧
        ∃ ext, tl1.heap = tl.heap ++ ext ∧
          ∀ z ∈ ext, ∃ dlg, z = Function.newNode (.zeroFeed dlg) := by
  intro input
  induction input with
  | nil =>
    intro times tl fs tl1 h
    simp [resolve_input] at h
    obtain ⟨h1, h2⟩ := h
    subst h1 h2
    exact ⟨rfl, rfl, [], by simp, by simp⟩
  | cons arg input ih =>
    intro times tl fs tl1 h
    cases times with
    | nil => simp [resolve_input] at h
    | cons t times =>
      simp only [resolve_input] at h
      split at h
      · rw [Except.bind_ok_iff] at h
        obtain ⟨es, _, h⟩ := h
        rw [Except.bind_ok_iff] at h
        obtain ⟨f, _, h⟩ := h
        rw [Except.bind_ok_iff] at h
        obtain ⟨⟨fs', tl'⟩, hr, h⟩ := h
        simp [pure, Except.pure] at h
        obtain ⟨h1, h2⟩ := h
        subst h1 h2
        obtain ⟨hl, ht, ext, hh, hz⟩ := ih times tl fs' tl' hr
        exact ⟨by simp [hl], ht, ext, hh, hz⟩
      split at h
      · rw [Except.bind_ok_iff] at h
        obtain ⟨frame, _, h⟩ := h
        rw [Except.bind_ok_iff] at h
        obtain ⟨prt, _, h⟩ := h
        rw [Except.bind_ok_iff] at h
        obtain ⟨es, _, h⟩ := h
        rw [Except.bind_ok_iff] at h
        obtain ⟨f, _, h⟩ := h
        rw [Except.bind_ok_iff] at h
        obtain ⟨⟨fs', tl'⟩, hr, h⟩ := h
        simp [pure, Except.pure] at h
        obtain ⟨h1, h2⟩ := h
        subst h1 h2
        obtain ⟨hl, ht, ext, hh, hz⟩ := ih times tl fs' tl' hr
        exact ⟨by simp [hl], ht, ext, hh, hz⟩
      · rw [Except.bind_ok_iff] at h
        obtain ⟨es, _, h⟩ := h
        rw [Except.bind_ok_iff] at h
        obtain ⟨dlg, _, h⟩ := h
        simp only [alloc] at h
        rw [Except.bind_ok_iff] at h
        obtain ⟨⟨fs', tl'⟩, hr, h⟩ := h
        simp [pure, Except.pure] at h
        obtain ⟨h1, h2⟩ := h
        subst h1 h2
        obtain ⟨hl, ht, ext, hh, hz⟩ := ih times _ fs' tl' hr
        refine ⟨by simp [hl], ht, Function.newNode (.zeroFeed dlg) :: ext, ?_, ?_⟩
        · rw [hh]; simp
        · intro z hzm
          rcases List.mem_cons.1 hzm with hzm | hzm
          · exact ⟨dlg, hzm⟩
          · exact hz z hzm

/-- The inputs of a record resolve when the Runtime lists more expressions
than the ids name and the frames that the time offsets point to hold, at the
position of the Runtime, a Runtime that does as well. -/
theorem Timeline.resolve_input_ok (time rt rt_index k : Nat) :
    ∀ (input times : List Int) (tl : Timeline α), input.length = times.length →
      (∀ a ∈ input, 0 ≤ a ∧ a < (k : Int)) → IsRuntime tl.heap rt k →
      (∀ t ∈ times, t ≠ 0 → 0 ≤ (time : Int) + t →
        ∃ frame prt, tl.timeline[((time : Int) + t).toNat]? = some frame ∧
          frame[rt_index]? = some prt ∧ IsRuntime tl.heap prt k) →
      ∃ fs tl1, resolve_input time rt rt_index input times tl = .ok (fs, tl1) := by
  intro input
  induction input with
  | nil => intro times tl _ _ _ _; exact ⟨[], tl, by simp [resolve_input]⟩
  | cons arg input ih =>
    intro times tl hlen hargs hrt hpast
    cases times with
    | nil => simp at hlen
    | cons t times =>
      have hlen' : input.length = times.length := by simpa using hlen
      have harg := hargs arg (List.mem_cons_self _ _)
      have hargs' : ∀ a ∈ input, 0 ≤ a ∧ a < (k : Int) :=
        fun a ha => hargs a (List.mem_cons_of_mem _ ha)
      have hpast' : ∀ t' ∈ times, t' ≠ 0 → 0 ≤ (time : Int) + t' →
          ∃ frame prt, tl.timeline[((time : Int) + t').toNat]? = some frame ∧
            frame[rt_index]? = some prt ∧ IsRuntime tl.heap prt k :=
        fun t' ht' => hpast t' (List.mem_cons_of_mem _ ht')
      obtain ⟨es, hes, hk⟩ := hrt.expressions
      obtain ⟨f, hf, _⟩ := elem_of_lt es arg harg.1 (by omega)
      simp only [resolve_input]
      split
      · obtain ⟨fs, tl1, hr⟩ := ih times tl hlen' hargs' hrt hpast'
        exact ⟨f :: fs, tl1, by simp [hes, hf, hr, bind, Except.bind, pure, Except.pure]⟩
      split
      · rename_i ht0 htime
        obtain ⟨frame, prt, hframe, hprt, hprtr⟩ := hpast t (List.mem_cons_self _ _) ht0 htime
        obtain ⟨es', hes', hk'⟩ := hprtr.expressions
        obtain ⟨f', hf', _⟩ := elem_of_lt es' arg harg.1 (by omega)
        obtain ⟨fs, tl1, hr⟩ := ih times tl hlen' hargs' hrt hpast'
        have h1 : elem tl.timeline ((time : Int) + t) = .ok frame :=
          (elem_ok_iff _ _ _).2 ⟨htime, hframe⟩
        have h2 : elem frame (rt_index : Int) = .ok prt := (elem_nat _ _ _).2 hprt
        exact ⟨f' :: fs, tl1, by
          simp [h1, h2, hes', hf', hr, bind, Except.bind, pure, Except.pure]⟩
      · obtain ⟨fs, tl1, hr⟩ := ih times (alloc tl (Function.newNode (.zeroFeed f))).2 hlen'
          hargs' (hrt.append_heap _) (by
            intro t' ht' h0 h1
            obtain ⟨frame, prt, hframe, hprt, hprtr⟩ := hpast' t' ht' h0 h1
            exact ⟨frame, prt, hframe, hprt, hprtr.append_heap _⟩)
        exact ⟨tl.heap.length :: fs, tl1, by
          simp [hes, hf, alloc, bind, Except.bind, pure, Except.pure] at hr ⊢
          simp [hr]⟩

end resolve_lemmas
section resolved_lemmas

variable {α : Type}

open Timeline

theorem Runtime.expressions_of_append {h : Heap α} {p dlg : Nat} {es : List Nat}
    (he : Runtime.expressions (h ++ [Function.newNode (.zeroFeed dlg)]) p = .ok es) :
    Runtime.expressions h p = .ok es := by
  unfold Runtime.expressions at he ⊢
  rcases Nat.lt_trichotomy p h.length with hlt | heq | hgt
  · rw [List.getElem?_append_left hlt] at he
    exact he
  · subst heq
    simp [Function.newNode] at he
  · rw [List.getElem?_eq_none (by simp; omega)] at he
    simp at he

theorem Timeline.Resolved.of_alloc {time rt rt_index : Nat} {tl tl1 : Timeline α} {dlg : Nat}
    {arg t : Int} {f : Nat}
    (h : Resolved time rt rt_index (alloc tl (Function.newNode (.zeroFeed dlg))).2 tl1 arg t f) :
    Resolved time rt rt_index tl tl1 arg t f := by
  obtain ⟨h1, h2, h3⟩ := h
  refine ⟨?_, ?_, ?_⟩
  · intro ht
    obtain ⟨es, he, hf⟩ := h1 ht
    exact ⟨es, Runtime.expressions_of_append he, hf⟩
  · intro ht h0
    obtain ⟨frame, prt, es, hfr, hprt, he, hf⟩ := h2 ht h0
    exact ⟨frame, prt, es, hfr, hprt, Runtime.expressions_of_append he, hf⟩
  · intro ht h0
    obtain ⟨es, d, he, hd, hz, hl⟩ := h3 ht h0
    refine ⟨es, d, Runtime.expressions_of_append he, hd, hz, ?_⟩
    simp [alloc] at hl
    omega

/-- Every input that `resolve_input` returns is the node that the
specification names for its argument. -/
theorem Timeline.resolve_input_resolved (time rt rt_index : Nat) :
    ∀ (input times : List Int) (tl : Timeline α) (fs : List Nat) (tl1 : Timeline α),
      resolve_input time rt rt_index input times tl = .ok (fs, tl1) →
      ∀ (i : Nat) (arg t : Int) (f : Nat), input[i]? = some arg → times[i]? = some t →
        fs[i]? = some f → Resolved time rt rt_index tl tl1 arg t f := by
  intro input
  induction input with
  | nil => intro times tl fs tl1 _ i arg t f hi; simp at hi
  | cons a input ih =>
    intro times tl fs tl1 h i arg t f hi hti hfi
    cases times with
    | nil => simp [resolve_input] at h
    | cons t0 times =>
      simp only [resolve_input] at h
      split at h
      · rename_i ht0
        rw [Except.bind_ok_iff] at h
        obtain ⟨es, hes, h⟩ := h
        rw [Except.bind_ok_iff] at h
        obtain ⟨f0, hf0, h⟩ := h
        rw [Except.bind_ok_iff] at h
        obtain ⟨⟨fs', tl'⟩, hr, h⟩ := h
        simp [pure, Except.pure] at h
        obtain ⟨h1, h2⟩ := h
        subst h1 h2
        cases i with
        | zero =>
          simp at hi hti hfi
          subst hi hti hfi
          exact ⟨fun _ => ⟨es, hes, hf0⟩, fun hne => absurd ht0 hne, fun hne => absurd ht0 hne⟩
        | succ i =>
          simp at hi hti hfi
          exact ih times tl fs' tl' hr i arg t f hi hti hfi
      split at h
      · rename_i ht0 htime
        rw [Except.bind_ok_iff] at h
        obtain ⟨frame, hframe, h⟩ := h
        rw [Except.bind_ok_iff] at h
        obtain ⟨prt, hprt, h⟩ := h
        rw [Except.bind_ok_iff] at h
        obtain ⟨es, hes, h⟩ := h
        rw [Except.bind_ok_iff] at h
        obtain ⟨f0, hf0, h⟩ := h
        rw [Except.bind_ok_iff] at h
        obtain ⟨⟨fs', tl'⟩, hr, h⟩ := h
        simp [pure, Except.pure] at h
        obtain ⟨h1, h2⟩ := h
        subst h1 h2
        cases i with
        | zero =>
          simp at hi hti hfi
          subst hi hti hfi
          exact ⟨fun h0 => absurd h0 ht0, fun _ _ => ⟨frame, prt, es, hframe, hprt, hes, hf0⟩,
            fun _ hlt => absurd htime (by omega)⟩
        | succ i =>
          simp at hi hti hfi
          exact ih times tl fs' tl' hr i arg t f hi hti hfi
      · rename_i ht0 htime
        rw [Except.bind_ok_iff] at h
        obtain ⟨es, hes, h⟩ := h
        rw [Except.bind_ok_iff] at h
        obtain ⟨dlg, hdlg, h⟩ := h
        rw [Except.bind_ok_iff] at h
        obtain ⟨⟨fs', tl'⟩, hr, h⟩ := h
        simp [pure, Except.pure] at h
        obtain ⟨h1, h2⟩ := h
        subst h1 h2
        cases i with
        | zero =>
          simp at hi hti hfi
          subst hi hti
          obtain ⟨_, _, ext, hext, _⟩ := resolve_input_effect time rt rt_index input times _ fs'
            tl' hr
          refine ⟨fun h0 => absurd h0 ht0, fun _ h0 => absurd h0 htime, fun _ _ => ?_⟩
          refine ⟨es, dlg, hes, hdlg, ?_, ?_⟩
          · rw [hext, ← hfi]
            simp only [alloc, List.append_assoc, List.singleton_append]
            rw [List.getElem?_append_right (Nat.le_refl _)]
            simp
          · rw [← hfi]
            simp [alloc]
        | succ i =>
          simp at hi hti hfi
          exact (ih times _ fs' tl' hr i arg t f hi hti hfi).of_alloc

end resolved_lemmas
section shape_lemmas

variable {α : Type}

open Timeline

theorem Timeline.Shaped.grows {h h1 : Heap α} {frame : List Nat} {off : Nat} {ns : List Nat}
    (hs : Shaped h frame off ns) (hg : Grows h h1) : Shaped h1 frame off ns := by
  intro j n hj
  obtain ⟨rt, hrt, hr⟩ := hs j n hj
  exact ⟨rt, hrt, hg rt n hr⟩

theorem Timeline.Shaped.frame_append {h : Heap α} {frame : List Nat} {off : Nat}
    {ns : List Nat} (hs : Shaped h frame off ns) (new : List Nat) :
    Shaped h (frame ++ new) off ns := by
  intro j n hj
  obtain ⟨rt, hrt, hr⟩ := hs j n hj
  exact ⟨rt, by rw [List.getElem?_append_left (Heap.lt_of_getElem? hrt)]; exact hrt, hr⟩

theorem Timeline.Shaped.segment {h : Heap α} {frame : List Nat} {off : Nat}
    (a b c : List Nat) (hs : Shaped h frame off (a ++ b ++ c)) :
    Shaped h frame (off + a.length) b := by
  intro j n hj
  have hlt : j < b.length := Heap.lt_of_getElem? hj
  obtain ⟨rt, hrt, hr⟩ := hs (a.length + j) n (by
    rw [List.append_assoc, List.getElem?_append_right (by omega)]
    simp only [Nat.add_sub_cancel_left]
    rw [List.getElem?_append_left hlt]
    exact hj)
  exact ⟨rt, by rw [Nat.add_assoc]; exact hrt, hr⟩

theorem Timeline.Shaped.join {h : Heap α} {frame : List Nat} {off : Nat} {a b : List Nat}
    (ha : Shaped h frame off a) (hb : Shaped h frame (off + a.length) b) :
    Shaped h frame off (a ++ b) := by
  intro j n hj
  rcases Nat.lt_or_ge j a.length with hlt | hge
  · rw [List.getElem?_append_left hlt] at hj
    exact ha j n hj
  · rw [List.getElem?_append_right hge] at hj
    obtain ⟨rt, hrt, hr⟩ := hb (j - a.length) n hj
    refine ⟨rt, ?_, hr⟩
    have : off + a.length + (j - a.length) = off + j := by omega
    rw [← this]
    exact hrt

theorem Timeline.Shaped.empty (h : Heap α) (frame : List Nat) (off : Nat) :
    Shaped h frame off [] := by
  intro j n hj
  simp at hj

theorem Timeline.Shaped.head {h : Heap α} {frame : List Nat} {off n : Nat} {ns : List Nat}
    (hs : Shaped h frame off (n :: ns)) : ∃ rt, frame[off]? = some rt ∧ IsRuntime h rt n := by
  obtain ⟨rt, hrt, hr⟩ := hs 0 n (by simp)
  exact ⟨rt, by simpa using hrt, hr⟩

theorem Timeline.need_of_records {defs : List Definition} {p : Nat} {d : Definition}
    {rs : List Record} (fuel : Nat) (hp : defs[p]? = some d) (hr : d.records = .ok rs) :
    need defs (fuel + 1) p = rs.length :: (d.calls rs).flatMap (need defs fuel) := by
  simp only [need, hp, hr]

theorem Timeline.extend_of_lt (timeline : List (List Nat)) (time : Nat)
    (h : time < timeline.length) : extend timeline time = timeline := by
  have : time + 1 - timeline.length = 0 := by omega
  simp [extend, this]

theorem Timeline.extend_length (timeline : List (List Nat)) (time : Nat) :
    time < (extend timeline time).length := by
  simp only [extend, List.length_append, List.length_replicate]
  omega

theorem Timeline.extend_getElem?_lt (timeline : List (List Nat)) (time f : Nat)
    (h : f < timeline.length) : (extend timeline time)[f]? = timeline[f]? := by
  simp only [extend]
  rw [List.getElem?_append_left h]

theorem Timeline.extend_getElem?_ge (timeline : List (List Nat)) (time f : Nat)
    (h : timeline.length ≤ f) (hf : f ≤ time) : (extend timeline time)[f]? = some [] := by
  simp only [extend]
  rw [List.getElem?_append_right h]
  rw [List.getElem?_replicate]
  have : f - timeline.length < time + 1 - timeline.length := by omega
  simp [this]

theorem Timeline.frame_of_eq {tl : Timeline α} {time : Nat} {frame : List Nat}
    (h : tl.timeline[time]? = some frame) : frame_of tl time = frame := by
  have hlt := Heap.lt_of_getElem? h
  simp [frame_of, extend_getElem?_lt _ _ _ hlt, h]

theorem Timeline.extend_frame_of (tl : Timeline α) (time : Nat) :
    (extend tl.timeline time)[time]? = some (frame_of tl time) := by
  have hlt := extend_length tl.timeline time
  simp [frame_of, List.getElem?_eq_getElem hlt]

end shape_lemmas

section calls_lemmas

theorem Definition.calls_append (d : Definition) (a b : List Record) :
    d.calls (a ++ b) = d.calls a ++ d.calls b := by
  simp [Definition.calls, List.flatMap_append]

theorem Definition.calls_take_succ (d : Definition) (rs : List Record) (i : Nat) (r : Record)
    (hr : rs[i]? = some r) : d.calls (rs.take (i + 1)) = d.calls (rs.take i) ++ d.calls [r] := by
  have hlt := Heap.lt_of_getElem? hr
  have hget : rs[i] = r := by
    rw [List.getElem?_eq_getElem hlt] at hr
    simpa using hr
  rw [List.take_succ, hr, Definition.calls_append]
  rfl

theorem Definition.calls_split (d : Definition) (rs : List Record) (i : Nat) (r : Record)
    (hr : rs[i]? = some r) :
    d.calls rs = d.calls (rs.take i) ++ d.calls [r] ++ d.calls (rs.drop (i + 1)) := by
  rw [← Definition.calls_take_succ d rs i r hr, ← Definition.calls_append, List.take_append_drop]

theorem Definition.calls_plain (d : Definition) (r : Record)
    (h : OperatorType.ofInt r.type ≠ some .FUNCTION) : d.calls [r] = [] := by
  simp only [Definition.calls, List.flatMap_cons, List.flatMap_nil, List.append_nil]
  split
  · rename_i h1 _
    exact absurd h1 h
  · rfl

theorem Definition.calls_function (d : Definition) (r : Record) (p : Nat)
    (h : OperatorType.ofInt r.type = some .FUNCTION) (hp : d.get_import r.variant = .ok p) :
    d.calls [r] = [p] := by
  simp [Definition.calls, h, hp]

theorem Record.start_next (rs : List Record) (i : Nat) (r : Record) (hr : rs[i]? = some r) :
    Record.start rs (i + 1) = Record.start rs i + r.size := by
  simp [Record.start, List.take_succ, hr]

theorem Record.size_pos (r : Record) : ((r.size : Nat) : Int) > 0 := by
  simp [Record.size]
  omega

/-- At the end of the tape `get_record` returns -1. -/
theorem Reads.get_record_end (d : Definition) {rs : List Record}
    (h : Reads d.definition 0 rs) :
    d.get_record ⟨Record.start rs rs.length, 0, 0, 0, [], []⟩
      = .ok (-1, ⟨Record.start rs rs.length, 0, 0, 0, [], []⟩) := by
  have := Reads.start_length h
  simp [Definition.get_record]
  omega

/-- At the start of the record `i` of the tape `get_record` returns it. -/
theorem Reads.get_record_at (d : Definition) {rs : List Record}
    (h : Reads d.definition 0 rs) (i : Nat) (r : Record) (hr : rs[i]? = some r) :
    d.get_record ⟨Record.start rs i, 0, 0, 0, [], []⟩ = .ok ((r.size : Int), r) ∧
      r.offset = Record.start rs (i + 1) := by
  have hlt := Heap.lt_of_getElem? hr
  have hget : rs[i] = r := by
    rw [List.getElem?_eq_getElem hlt] at hr
    simpa using hr
  obtain ⟨h1, h2⟩ := Reads.get_record d h i hlt
  rw [hget] at h1 h2
  simp only [Nat.zero_add] at h1 h2
  exact ⟨h1, by rw [Record.start_next rs i r hr]; exact h2⟩

end calls_lemmas
section looping_lemmas

variable {α : Type}

open Timeline

variable {defs : List Definition} {fuel : Nat} {d : Definition} {rs : List Record}
  {time rt : Nat} {frame0 : List Nat} {h0 : Heap α} {frames0 : List (List Nat)}

theorem Timeline.Looping.of_grows {i : Nat} {tl tl1 : Timeline α}
    (hl : Looping defs fuel d rs time rt frame0 h0 frames0 i tl)
    (ht : tl1.timeline = tl.timeline) (hg : Grows tl.heap tl1.heap) :
    Looping defs fuel d rs time rt frame0 h0 frames0 i tl1 := by
  obtain ⟨kids, hk1, hk2, hk3⟩ := hl.frame
  exact ⟨hg _ _ hl.runtime, ⟨kids, by rw [ht]; exact hk1, hk2, hk3.grows hg⟩,
    fun f hf => by rw [ht]; exact hl.others f hf, hl.grows.step hg⟩

theorem Timeline.Looping.advance {i : Nat} {tl tl1 : Timeline α} {r : Record}
    (hl : Looping defs fuel d rs time rt frame0 h0 frames0 i tl)
    (hr : rs[i]? = some r) (hc : d.calls [r] = [])
    (ht : tl1.timeline = tl.timeline) (hg : Grows tl.heap tl1.heap)
    (hrt : IsRuntime tl1.heap rt (i + 1)) :
    Looping defs fuel d rs time rt frame0 h0 frames0 (i + 1) tl1 := by
  obtain ⟨kids, hk1, hk2, hk3⟩ := hl.frame
  have hcalls : d.calls (rs.take (i + 1)) = d.calls (rs.take i) := by
    rw [Definition.calls_take_succ d rs i r hr, hc, List.append_nil]
  exact ⟨hrt, ⟨kids, by rw [ht]; exact hk1, by rw [hcalls]; exact hk2,
      by rw [hcalls]; exact hk3.grows hg⟩,
    fun f hf => by rw [ht]; exact hl.others f hf, hl.grows.step hg⟩

/-- The frames that the time offsets of a record point to hold, at the
position of the Runtime, a Runtime with at least `i` expressions. -/
theorem Timeline.Looping.past {i : Nat} {tl : Timeline α} {ns : List Nat}
    (hl : Looping defs fuel d rs time rt frame0 h0 frames0 i tl)
    (hpast : ∀ f, f < time → ∃ frame, frames0[f]? = some frame ∧
      Shaped h0 frame frame0.length (rs.length :: ns))
    (hi : i ≤ rs.length) (times : List Int) (htimes : ∀ t ∈ times, t ≤ 0) :
    ∀ t ∈ times, t ≠ 0 → 0 ≤ (time : Int) + t →
      ∃ frame prt, tl.timeline[((time : Int) + t).toNat]? = some frame ∧
        frame[frame0.length]? = some prt ∧ IsRuntime tl.heap prt i := by
  intro t ht ht0 htime
  have hle := htimes t ht
  have hf : ((time : Int) + t).toNat < time := by omega
  obtain ⟨frame, hframe, hs⟩ := hpast _ hf
  obtain ⟨prt, hprt, hr⟩ := hs.head
  exact ⟨frame, prt, by rw [hl.others _ (by omega)]; exact hframe, hprt,
    (hl.grows _ _ hr).fewer hi⟩

/-- After a FUNCTION record whose call left the Runtimes `new` in the frame,
the loop is in the state for the next record. -/
theorem Timeline.Looping.advance_call {i : Nat} {tl tl1 : Timeline α} {r : Record} {p : Nat}
    {kids new : List Nat}
    (hl : Looping defs fuel d rs time rt frame0 h0 frames0 i tl)
    (hr : rs[i]? = some r) (hc : d.calls [r] = [p])
    (hkids : tl.timeline[time]? = some (frame0 ++ rt :: kids))
    (hframe : tl1.timeline[time]? = some ((frame0 ++ rt :: kids) ++ new))
    (hnew : new.length = (need defs fuel p).length)
    (hshape : Shaped tl1.heap ((frame0 ++ rt :: kids) ++ new) (frame0 ++ rt :: kids).length
      (need defs fuel p))
    (hothers : ∀ f, f ≠ time → tl1.timeline[f]? = tl.timeline[f]?)
    (hg : Grows tl.heap tl1.heap) (hrt : IsRuntime tl1.heap rt (i + 1)) :
    Looping defs fuel d rs time rt frame0 h0 frames0 (i + 1) tl1 := by
  obtain ⟨kids', hk1, hk2, hk3⟩ := hl.frame
  rw [hkids] at hk1
  have hkk : kids' = kids := by
    have := Option.some.inj hk1
    have h2 := List.append_cancel_left this
    exact (List.cons.inj h2).2.symm
  subst hkk
  have hcalls : (d.calls (rs.take (i + 1))).flatMap (need defs fuel)
      = (d.calls (rs.take i)).flatMap (need defs fuel) ++ need defs fuel p := by
    rw [Definition.calls_take_succ d rs i r hr, hc, List.flatMap_append]
    simp
  refine ⟨hrt, ⟨kids' ++ new, ?_, ?_, ?_⟩, ?_, hl.grows.step hg⟩
  · rw [hframe]; simp
  · rw [hcalls]; simp [hk2, hnew]
  · rw [hcalls]
    have e : frame0 ++ rt :: (kids' ++ new) = (frame0 ++ rt :: kids') ++ new := by simp
    rw [e]
    refine Shaped.join ((hk3.grows hg).frame_append new) ?_
    have e2 : frame0.length + 1 + ((d.calls (rs.take i)).flatMap (need defs fuel)).length
        = (frame0 ++ rt :: kids').length := by
      simp [hk2]; omega
    rw [e2]
    exact hshape
  · intro f hf
    rw [hothers f hf]
    exact hl.others f hf

end looping_lemmas
section loop_inversion

variable {α : Type}

open Timeline

theorem Timeline.length_of_elem {β : Type} {v : List β} {k : Nat} {x : β}
    (h : elem v (k : Int) = .ok x) : k + 1 ≤ v.length := by
  have := Heap.lt_of_getElem? ((elem_nat v k x).1 h)
  omega

theorem Reads.input_length {tape : List Int} {rs : List Record} :
    ∀ {off : Nat}, Reads tape off rs → ∀ r ∈ rs, r.input.length = r.times.length := by
  induction rs with
  | nil => intro off _ r hr; simp at hr
  | cons x xs ih =>
    intro off h r hr
    obtain ⟨h1, _, _, h4⟩ := h
    rcases List.mem_cons.1 hr with hx | hx
    · subst hx; exact h1
    · exact ih h4 r hx

/-- What a successful pass of the record loop of `add_runtime` over a record
tells: the inputs were resolved, the type is one of the enum, the operator
had the inputs it reads, the function called was instantiated, and the loop
went on behind the record. -/
theorem Timeline.add_runtime_loop_inv
    (add_rt : Nat → Nat → List Nat → Timeline α → Except String (Nat × Timeline α))
    (time : Nat) (d : Definition) (constants : List Nat) (rt rt_index steps : Nat)
    (s : LoopState α) (res : Timeline α) (n : Int) (r : Record)
    (hrec : d.get_record ⟨s.offset, 0, 0, 0, [], []⟩ = .ok (n, r)) (hn : n > 0)
    (h : add_runtime_loop add_rt time d constants rt rt_index (steps + 1) s = .ok res) :
    ∃ (fin : List Nat) (tl1 : Timeline α) (ty : OperatorType) (s1 : LoopState α),
      resolve_input time rt rt_index r.input r.times s.tl = .ok (fin, tl1) ∧
      OperatorType.ofInt r.type = some ty ∧
      add_runtime_loop add_rt time d constants rt rt_index steps s1 = .ok res ∧
      s1.offset = r.offset ∧
      s1.constants_index =
        (if ty = .CONSTANT ∧ constants.length > s.constants_index then s.constants_index + 1
          else s.constants_index) ∧
      ((ty = .ADDITION ∨ ty = .SUBTRACTION ∨ ty = .PRODUCT ∨ ty = .ELEMENT) →
        2 ≤ fin.length) ∧
      ((ty = .TRANSPOSE ∨ ty = .EXPONENT) → 1 ≤ fin.length) ∧
      (ty = .FUNCTION → ∃ child r1, d.get_import r.variant = .ok child ∧
        add_rt time child fin tl1 = .ok r1) := by
  simp only [add_runtime_loop] at h
  rw [Except.bind_ok_iff] at h
  obtain ⟨⟨n', r'⟩, hg, h⟩ := h
  rw [hrec] at hg
  simp only [Except.ok.injEq, Prod.mk.injEq] at hg
  obtain ⟨hn', hr'⟩ := hg
  subst hn' hr'
  simp only [hn, if_true] at h
  rw [Except.bind_ok_iff] at h
  obtain ⟨⟨fin, tl1⟩, hres, h⟩ := h
  cases hty : OperatorType.ofInt r.type with
  | none => simp [hty] at h
  | some ty =>
    rw [hty] at h
    cases ty with
    | FUNCTION =>
      dsimp only at h
      rw [Except.bind_ok_iff] at h
      obtain ⟨child, hchild, h⟩ := h
      rw [Except.bind_ok_iff] at h
      obtain ⟨⟨cid, tl2⟩, hcall, h⟩ := h
      rw [Except.bind_ok_iff] at h
      obtain ⟨crt, _, h⟩ := h
      rw [Except.bind_ok_iff] at h
      obtain ⟨hp, _, h⟩ := h
      exact ⟨fin, tl1, _, _, hres, rfl, h, rfl, by simp, by simp, by simp,
        fun _ => ⟨child, _, hchild, hcall⟩⟩
    | VARIABLE =>
      dsimp only at h
      split at h
      · rw [Except.bind_ok_iff] at h
        obtain ⟨_, _, h⟩ := h
        rw [Except.bind_ok_iff] at h
        obtain ⟨_, _, h⟩ := h
        rw [Except.bind_ok_iff] at h
        obtain ⟨_, _, h⟩ := h
        rw [Except.bind_ok_iff] at h
        obtain ⟨_, _, h⟩ := h
        rw [Except.bind_ok_iff] at h
        obtain ⟨_, _, h⟩ := h
        exact ⟨fin, tl1, _, _, hres, rfl, h, rfl, by simp, by simp, by simp, by simp⟩
      · simp only [alloc] at h
        rw [Except.bind_ok_iff] at h
        obtain ⟨_, _, h⟩ := h
        exact ⟨fin, tl1, _, _, hres, rfl, h, rfl, by simp, by simp, by simp, by simp⟩
    | CONSTANT =>
      dsimp only at h
      split at h
      · rename_i hlt
        rw [Except.bind_ok_iff] at h
        obtain ⟨_, _, h⟩ := h
        rw [Except.bind_ok_iff] at h
        obtain ⟨_, _, h⟩ := h
        exact ⟨fin, tl1, _, _, hres, rfl, h, rfl, by simp [hlt], by simp, by simp, by simp⟩
      · rename_i hlt
        simp only [alloc] at h
        rw [Except.bind_ok_iff] at h
        obtain ⟨_, _, h⟩ := h
        exact ⟨fin, tl1, _, _, hres, rfl, h, rfl, by simp [hlt], by simp, by simp, by simp⟩
    | ADDITION =>
      dsimp only at h
      rw [Except.bind_ok_iff] at h
      obtain ⟨_, _, h⟩ := h
      rw [Except.bind_ok_iff] at h
      obtain ⟨_, he1, h⟩ := h
      rw [Except.bind_ok_iff] at h
      obtain ⟨_, _, h⟩ := h
      exact ⟨fin, tl1, _, _, hres, rfl, h, rfl, by simp,
        fun _ => length_of_elem (k := 1) he1, by simp, by simp⟩
    | SUBTRACTION =>
      dsimp only at h
      rw [Except.bind_ok_iff] at h
      obtain ⟨_, _, h⟩ := h
      rw [Except.bind_ok_iff] at h
      obtain ⟨_, he1, h⟩ := h
      rw [Except.bind_ok_iff] at h
      obtain ⟨_, _, h⟩ := h
      exact ⟨fin, tl1, _, _, hres, rfl, h, rfl, by simp,
        fun _ => length_of_elem (k := 1) he1, by simp, by simp⟩
    | PRODUCT =>
      dsimp only at h
      rw [Except.bind_ok_iff] at h
      obtain ⟨_, _, h⟩ := h
      rw [Except.bind_ok_iff] at h
      obtain ⟨_, he1, h⟩ := h
      rw [Except.bind_ok_iff] at h
      obtain ⟨_, _, h⟩ := h
      exact ⟨fin, tl1, _, _, hres, rfl, h, rfl, by simp,
        fun _ => length_of_elem (k := 1) he1, by simp, by simp⟩
    | ELEMENT =>
      dsimp only at h
      rw [Except.bind_ok_iff] at h
      obtain ⟨_, _, h⟩ := h
      rw [Except.bind_ok_iff] at h
      obtain ⟨_, he1, h⟩ := h
      rw [Except.bind_ok_iff] at h
      obtain ⟨_, _, h⟩ := h
      rw [Except.bind_ok_iff] at h
      obtain ⟨_, _, h⟩ := h
      rw [Except.bind_ok_iff] at h
      obtain ⟨_, _, h⟩ := h
      exact ⟨fin, tl1, _, _, hres, rfl, h, rfl, by simp,
        fun _ => length_of_elem (k := 1) he1, by simp, by simp⟩
    | TRANSPOSE =>
      dsimp only at h
      rw [Except.bind_ok_iff] at h
      obtain ⟨_, he0, h⟩ := h
      rw [Except.bind_ok_iff] at h
      obtain ⟨_, _, h⟩ := h
      exact ⟨fin, tl1, _, _, hres, rfl, h, rfl, by simp, by simp,
        fun _ => length_of_elem (k := 0) he0, by simp⟩
    | EXPONENT =>
      dsimp only at h
      rw [Except.bind_ok_iff] at h
      obtain ⟨_, he0, h⟩ := h
      rw [Except.bind_ok_iff] at h
      obtain ⟨_, _, h⟩ := h
      exact ⟨fin, tl1, _, _, hres, rfl, h, rfl, by simp, by simp,
        fun _ => length_of_elem (k := 0) he0, by simp⟩

end loop_inversion
section loop_steps

variable {α : Type}

open Timeline

variable {defs : List Definition} {fuel : Nat} {d : Definition} {rs : List Record}
  {time rt : Nat} {frame0 : List Nat} {h0 : Heap α} {frames0 : List (List Nat)}

/-- In the state of the loop before the record `i`, the inputs of the record
resolve. -/
theorem Timeline.Looping.resolve {i : Nat} {tl : Timeline α} {r : Record}
    (hl : Looping defs fuel d rs time rt frame0 h0 frames0 i tl)
    (hpast : ∀ f, f < time → ∃ frame, frames0[f]? = some frame ∧
      Shaped h0 frame frame0.length (rs.length :: (d.calls rs).flatMap (need defs fuel)))
    (hi : i ≤ rs.length) (hlen : r.input.length = r.times.length)
    (hargs : ∀ a ∈ r.input, 0 ≤ a ∧ a < (i : Int)) (htimes : ∀ t ∈ r.times, t ≤ 0) :
    ∃ fin tl1, resolve_input time rt frame0.length r.input r.times tl = .ok (fin, tl1) ∧
      fin.length = r.input.length ∧
      Looping defs fuel d rs time rt frame0 h0 frames0 i tl1 := by
  obtain ⟨fin, tl1, hres⟩ := resolve_input_ok time rt frame0.length i r.input r.times tl hlen
    hargs hl.runtime (hl.past hpast hi r.times htimes)
  obtain ⟨hfl, htl, ext, hext, _⟩ := resolve_input_effect time rt frame0.length r.input r.times
    tl fin tl1 hres
  exact ⟨fin, tl1, hres, hfl, hl.of_grows htl (by rw [hext]; exact Grows.by_append _ _)⟩

/-- A record of an operator: the loop adds its node, or its two nodes for
ELEMENT, and goes on behind the record. -/
theorem Timeline.add_runtime_loop_operator_step
    (add_rt : Nat → Nat → List Nat → Timeline α → Except String (Nat × Timeline α))
    (constants : List Nat) (steps i : Nat) (s : LoopState α) (n : Int) (r : Record)
    (ty : OperatorType)
    (hl : Looping defs fuel d rs time rt frame0 h0 frames0 i s.tl)
    (hpast : ∀ f, f < time → ∃ frame, frames0[f]? = some frame ∧
      Shaped h0 frame frame0.length (rs.length :: (d.calls rs).flatMap (need defs fuel)))
    (hi : i ≤ rs.length) (hr : rs[i]? = some r) (hlen : r.input.length = r.times.length)
    (hargs : ∀ a ∈ r.input, 0 ≤ a ∧ a < (i : Int)) (htimes : ∀ t ∈ r.times, t ≤ 0)
    (hrec : d.get_record ⟨s.offset, 0, 0, 0, [], []⟩ = .ok (n, r)) (hn : n > 0)
    (hty : OperatorType.ofInt r.type = some ty)
    (hop : ((ty = .ADDITION ∨ ty = .SUBTRACTION ∨ ty = .PRODUCT ∨ ty = .ELEMENT) ∧
        2 ≤ r.input.length) ∨
      ((ty = .TRANSPOSE ∨ ty = .EXPONENT) ∧ 1 ≤ r.input.length)) :
    ∃ s1 : LoopState α,
      add_runtime_loop add_rt time d constants rt frame0.length (steps + 1) s
        = add_runtime_loop add_rt time d constants rt frame0.length steps s1 ∧
      s1.offset = r.offset ∧ s1.constants_index = s.constants_index ∧
      Looping defs fuel d rs time rt frame0 h0 frames0 (i + 1) s1.tl := by
  obtain ⟨fin, tl1, hres, hfl, hl1⟩ := hl.resolve hpast hi hlen hargs htimes
  have hplain : d.calls [r] = [] := by
    apply Definition.calls_plain
    rw [hty]
    rcases hop with ⟨h | h | h | h, _⟩ | ⟨h | h, _⟩ <;> simp [h]
  rcases hop with ⟨hb, h2⟩ | ⟨hu, h1⟩
  · obtain ⟨l, he0, _⟩ := elem_of_lt fin 0 (by omega) (by omega)
    obtain ⟨r1, he1, _⟩ := elem_of_lt fin 1 (by omega) (by omega)
    rcases hb with h | h | h | h
    · subst h
      obtain ⟨tl2, hop, hrt, hg, ht⟩ := add_operator_ok hl1.runtime (.addition l r1)
      exact ⟨⟨r.offset, s.constants_index, tl2⟩,
        by simp [add_runtime_loop, hrec, hn, hres, hty, he0, he1, hop, bind, Except.bind],
        rfl, rfl, hl1.advance hr hplain ht hg hrt⟩
    · subst h
      obtain ⟨tl2, hop, hrt, hg, ht⟩ := add_operator_ok hl1.runtime (.subtraction l r1)
      exact ⟨⟨r.offset, s.constants_index, tl2⟩,
        by simp [add_runtime_loop, hrec, hn, hres, hty, he0, he1, hop, bind, Except.bind],
        rfl, rfl, hl1.advance hr hplain ht hg hrt⟩
    · subst h
      obtain ⟨tl2, hop, hrt, hg, ht⟩ := add_operator_ok hl1.runtime (.product l r1)
      exact ⟨⟨r.offset, s.constants_index, tl2⟩,
        by simp [add_runtime_loop, hrec, hn, hres, hty, he0, he1, hop, bind, Except.bind],
        rfl, rfl, hl1.advance hr hplain ht hg hrt⟩
    · subst h
      obtain ⟨tl2, hop, hrt, hg, ht⟩ := add_operator_ok hl1.runtime (.element l r1)
      obtain ⟨tl3, hop3, hrt3, hg3, ht3⟩ := add_operator_ok hrt (.transpose l)
      exact ⟨⟨r.offset, s.constants_index, tl3⟩,
        by simp [add_runtime_loop, hrec, hn, hres, hty, he0, he1, hop, hop3, bind, Except.bind],
        rfl, rfl, hl1.advance hr hplain (ht3.trans ht) (hg.step hg3) (hrt3.fewer (by omega))⟩
  · obtain ⟨l, he0, _⟩ := elem_of_lt fin 0 (by omega) (by omega)
    rcases hu with h | h
    · subst h
      obtain ⟨tl2, hop, hrt, hg, ht⟩ := add_operator_ok hl1.runtime (.transpose l)
      exact ⟨⟨r.offset, s.constants_index, tl2⟩,
        by simp [add_runtime_loop, hrec, hn, hres, hty, he0, hop, bind, Except.bind],
        rfl, rfl, hl1.advance hr hplain ht hg hrt⟩
    · subst h
      obtain ⟨tl2, hop, hrt, hg, ht⟩ := add_operator_ok hl1.runtime (.exponent l)
      exact ⟨⟨r.offset, s.constants_index, tl2⟩,
        by simp [add_runtime_loop, hrec, hn, hres, hty, he0, hop, bind, Except.bind],
        rfl, rfl, hl1.advance hr hplain ht hg hrt⟩

end loop_steps
section loop_steps_leaves

variable {α : Type}

open Timeline

variable {defs : List Definition} {fuel : Nat} {d : Definition} {rs : List Record}
  {time rt : Nat} {frame0 : List Nat} {h0 : Heap α} {frames0 : List (List Nat)}

/-- A VARIABLE record: at time 0 the loop adds a new Variable, later the node
that the Runtime of the frame 0 lists for the id of the record. -/
theorem Timeline.add_runtime_loop_variable_step
    (add_rt : Nat → Nat → List Nat → Timeline α → Except String (Nat × Timeline α))
    (constants : List Nat) (steps i : Nat) (s : LoopState α) (n : Int) (r : Record)
    (hl : Looping defs fuel d rs time rt frame0 h0 frames0 i s.tl)
    (hpast : ∀ f, f < time → ∃ frame, frames0[f]? = some frame ∧
      Shaped h0 frame frame0.length (rs.length :: (d.calls rs).flatMap (need defs fuel)))
    (hi : i < rs.length) (hr : rs[i]? = some r) (hlen : r.input.length = r.times.length)
    (hid : 0 ≤ r.id ∧ r.id ≤ (i : Int))
    (hargs : ∀ a ∈ r.input, 0 ≤ a ∧ a < (i : Int)) (htimes : ∀ t ∈ r.times, t ≤ 0)
    (hrec : d.get_record ⟨s.offset, 0, 0, 0, [], []⟩ = .ok (n, r)) (hn : n > 0)
    (hty : OperatorType.ofInt r.type = some .VARIABLE) :
    ∃ s1 : LoopState α,
      add_runtime_loop add_rt time d constants rt frame0.length (steps + 1) s
        = add_runtime_loop add_rt time d constants rt frame0.length steps s1 ∧
      s1.offset = r.offset ∧ s1.constants_index = s.constants_index ∧
      Looping defs fuel d rs time rt frame0 h0 frames0 (i + 1) s1.tl := by
  obtain ⟨fin, tl1, hres, hfl, hl1⟩ := hl.resolve hpast (Nat.le_of_lt hi) hlen hargs htimes
  have hplain : d.calls [r] = [] := by
    apply Definition.calls_plain
    rw [hty]
    simp
  by_cases ht : time > 0
  · obtain ⟨frame, hframe, hs⟩ := hpast 0 ht
    obtain ⟨prt, hprt, hprtr⟩ := hs.head
    have hprt1 := hl1.grows _ _ hprtr
    obtain ⟨es, hes, hk⟩ := hprt1.expressions
    obtain ⟨f, hf, _⟩ := elem_of_lt es r.id hid.1 (by omega)
    obtain ⟨h1, hadd, hrt, hg⟩ := Runtime.add_variable_grows hl1.runtime f
    have e1 : elem tl1.timeline 0 = .ok frame := by
      rw [elem_ok_iff]
      refine ⟨by omega, ?_⟩
      rw [show (0 : Int).toNat = 0 from rfl, hl1.others 0 (by omega)]
      exact hframe
    have e2 : elem frame (frame0.length : Int) = .ok prt := (elem_nat _ _ _).2 hprt
    refine ⟨⟨r.offset, s.constants_index, { tl1 with heap := h1 }⟩, ?_, rfl, rfl,
      hl1.advance hr hplain rfl hg hrt⟩
    simp [add_runtime_loop, hrec, hn, hres, hty, ht, e1, e2, hes, hf, hadd, bind, Except.bind]
  · have hr1 : IsRuntime (tl1.heap ++ [Function.newVariable none]) rt i := hl1.runtime.append_heap _
    obtain ⟨h1, hadd, hrt, hg⟩ := Runtime.add_variable_grows hr1 tl1.heap.length
    refine ⟨⟨r.offset, s.constants_index,
      { (alloc tl1 (Function.newVariable none)).2 with heap := h1 }⟩, ?_, rfl, rfl,
      hl1.advance hr hplain rfl ((Grows.by_append _ _).step hg) hrt⟩
    simp [add_runtime_loop, hrec, hn, hres, hty, ht, alloc, hadd, bind, Except.bind]

/-- A CONSTANT record: the loop adds the next input it was given, or a new
Constant. -/
theorem Timeline.add_runtime_loop_constant_step
    (add_rt : Nat → Nat → List Nat → Timeline α → Except String (Nat × Timeline α))
    (constants : List Nat) (steps i : Nat) (s : LoopState α) (n : Int) (r : Record)
    (hl : Looping defs fuel d rs time rt frame0 h0 frames0 i s.tl)
    (hpast : ∀ f, f < time → ∃ frame, frames0[f]? = some frame ∧
      Shaped h0 frame frame0.length (rs.length :: (d.calls rs).flatMap (need defs fuel)))
    (hi : i < rs.length) (hr : rs[i]? = some r) (hlen : r.input.length = r.times.length)
    (hargs : ∀ a ∈ r.input, 0 ≤ a ∧ a < (i : Int)) (htimes : ∀ t ∈ r.times, t ≤ 0)
    (hrec : d.get_record ⟨s.offset, 0, 0, 0, [], []⟩ = .ok (n, r)) (hn : n > 0)
    (hty : OperatorType.ofInt r.type = some .CONSTANT) :
    ∃ s1 : LoopState α,
      add_runtime_loop add_rt time d constants rt frame0.length (steps + 1) s
        = add_runtime_loop add_rt time d constants rt frame0.length steps s1 ∧
      s1.offset = r.offset ∧
      s1.constants_index =
        (if constants.length > s.constants_index then s.constants_index + 1
          else s.constants_index) ∧
      Looping defs fuel d rs time rt frame0 h0 frames0 (i + 1) s1.tl := by
  obtain ⟨fin, tl1, hres, hfl, hl1⟩ := hl.resolve hpast (Nat.le_of_lt hi) hlen hargs htimes
  have hplain : d.calls [r] = [] := by
    apply Definition.calls_plain
    rw [hty]
    simp
  by_cases hc : constants.length > s.constants_index
  · obtain ⟨f, hf, _⟩ := elem_of_lt constants (s.constants_index : Int) (by omega) (by omega)
    obtain ⟨h1, hadd, hrt, hg⟩ := Runtime.add_constant_grows hl1.runtime f
    refine ⟨⟨r.offset, s.constants_index + 1, { tl1 with heap := h1 }⟩, ?_, rfl,
      by simp [hc], hl1.advance hr hplain rfl hg hrt⟩
    simp [add_runtime_loop, hrec, hn, hres, hty, hc, hf, hadd, bind, Except.bind]
  · have hr1 : IsRuntime (tl1.heap ++ [Function.newConstant none]) rt i := hl1.runtime.append_heap _
    obtain ⟨h1, hadd, hrt, hg⟩ := Runtime.add_constant_grows hr1 tl1.heap.length
    refine ⟨⟨r.offset, s.constants_index,
      { (alloc tl1 (Function.newConstant none)).2 with heap := h1 }⟩, ?_, rfl, by simp [hc],
      hl1.advance hr hplain rfl ((Grows.by_append _ _).step hg) hrt⟩
    simp [add_runtime_loop, hrec, hn, hres, hty, hc, alloc, hadd, bind, Except.bind]

end loop_steps_leaves
section loop_steps_function

variable {α : Type}

open Timeline

variable {defs : List Definition} {fuel : Nat} {d : Definition} {rs : List Record}
  {time rt : Nat} {frame0 : List Nat} {h0 : Heap α} {frames0 : List (List Nat)}

/-- A FUNCTION record: the loop instantiates the function called, whose
Runtimes enter the frame behind those that are there, and adds its Runtime as
an expression. -/
theorem Timeline.add_runtime_loop_function_step
    (constants : List Nat) (steps i : Nat) (s : LoopState α) (n : Int) (r : Record)
    (child : Nat)
    (hl : Looping defs fuel d rs time rt frame0 h0 frames0 i s.tl)
    (hpast : ∀ f, f < time → ∃ frame, frames0[f]? = some frame ∧
      Shaped h0 frame frame0.length (rs.length :: (d.calls rs).flatMap (need defs fuel)))
    (hi : i < rs.length) (hr : rs[i]? = some r) (hlen : r.input.length = r.times.length)
    (hargs : ∀ a ∈ r.input, 0 ≤ a ∧ a < (i : Int)) (htimes : ∀ t ∈ r.times, t ≤ 0)
    (hrec : d.get_record ⟨s.offset, 0, 0, 0, [], []⟩ = .ok (n, r)) (hn : n > 0)
    (hty : OperatorType.ofInt r.type = some .FUNCTION)
    (hchild : d.get_import r.variant = .ok child)
    (hneed : need defs fuel child ≠ [])
    (hcall : ∀ (tl2 : Timeline α) (c2 : List Nat), c2.length = r.input.length →
      Prepared defs fuel child time tl2 →
      ∃ tl3, add_runtime defs fuel time child c2 tl2 = .ok ((frame_of tl2 time).length, tl3) ∧
        Instantiated defs fuel child time tl2 tl3) :
    ∃ s1 : LoopState α,
      add_runtime_loop (add_runtime defs fuel) time d constants rt frame0.length (steps + 1) s
        = add_runtime_loop (add_runtime defs fuel) time d constants rt frame0.length steps s1 ∧
      s1.offset = r.offset ∧ s1.constants_index = s.constants_index ∧
      Looping defs fuel d rs time rt frame0 h0 frames0 (i + 1) s1.tl := by
  obtain ⟨fin, tl1, hres, hfl, hl1⟩ := hl.resolve hpast (Nat.le_of_lt hi) hlen hargs htimes
  obtain ⟨kids, hk1, hk2, hk3⟩ := hl1.frame
  have hfo : frame_of tl1 time = frame0 ++ rt :: kids := frame_of_eq hk1
  have hcalls : d.calls [r] = [child] := Definition.calls_function d r child hty hchild
  have hprep : Prepared defs fuel child time tl1 := by
    intro f hf
    obtain ⟨frame, hframe, hs⟩ := hpast f hf
    refine ⟨frame, by rw [hl1.others f (by omega)]; exact hframe, ?_⟩
    rw [hfo]
    rw [Definition.calls_split d rs i r hr, hcalls, List.flatMap_append, List.flatMap_append]
      at hs
    have hs1 : Shaped h0 frame frame0.length
        ((rs.length :: (d.calls (rs.take i)).flatMap (need defs fuel)) ++ need defs fuel child
          ++ (d.calls (rs.drop (i + 1))).flatMap (need defs fuel)) := by
      simpa using hs
    have hs2 := (Shaped.segment _ _ _ hs1).grows hl1.grows
    have e : frame0.length + (rs.length :: (d.calls (rs.take i)).flatMap (need defs fuel)).length
        = (frame0 ++ rt :: kids).length := by
      simp [hk2]
    rw [e] at hs2
    exact hs2
  obtain ⟨tl3, hadd, hinst⟩ := hcall tl1 fin hfl hprep
  obtain ⟨new, hn1, hn2, hn3⟩ := hinst.frame
  rw [hfo] at hn1 hn3 hadd
  have hnew : 0 < new.length := by
    rw [hn2]
    exact List.length_pos.2 hneed
  have hcrt : ((frame0 ++ rt :: kids) ++ new)[(frame0 ++ rt :: kids).length]? = some new[0] := by
    rw [List.getElem?_append_right (Nat.le_refl _)]
    simp [List.getElem?_eq_getElem hnew]
  have hget : get_runtime tl3 time (frame0 ++ rt :: kids).length = .ok new[0] := by
    have e1 : elem tl3.timeline (time : Int) = .ok ((frame0 ++ rt :: kids) ++ new) :=
      (elem_nat _ _ _).2 hn1
    have e2 : elem ((frame0 ++ rt :: kids) ++ new) (((frame0 ++ rt :: kids).length : Nat) : Int)
        = .ok new[0] := (elem_nat _ _ _).2 hcrt
    simp only [get_runtime, e1, bind, Except.bind]
    exact e2
  obtain ⟨h1, hexp, hrt, hg⟩ := Runtime.add_expression_grows (hinst.grows _ _ hl1.runtime) new[0]
  have hlt : time < tl1.timeline.length := Heap.lt_of_getElem? hk1
  refine ⟨⟨r.offset, s.constants_index, { tl3 with heap := h1 }⟩, ?_, rfl, rfl, ?_⟩
  · have hget1 : get_runtime tl3 time (frame0.length + (kids.length + 1)) = .ok new[0] := by
      simpa using hget
    simp [add_runtime_loop, hrec, hn, hres, hty, hchild, hadd, hget1, hexp, bind, Except.bind]
  · refine hl1.advance_call hr hcalls hk1 hn1 hn2 (hn3.grows hg) ?_ (hinst.grows.step hg) hrt
    intro f hf
    have := hinst.others f hf
    rw [extend_of_lt _ _ hlt] at this
    exact this

end loop_steps_function
section simulation

variable {α : Type}

open Timeline

/-- A Definition that `add_runtime` instantiates gets at least its own
Runtime. -/
theorem Timeline.need_ne_nil (defs : List Definition)
    (hdefs : ∀ (q : Nat) (e : Definition), defs[q]? = some e → e.Tape) (fuel time p : Nat) (c : List Nat)
    (tl : Timeline α) (r : Nat × Timeline α)
    (h : add_runtime defs fuel time p c tl = .ok r) : need defs fuel p ≠ [] := by
  cases fuel with
  | zero => simp [add_runtime] at h
  | succ fuel =>
    simp only [add_runtime] at h
    rw [Except.bind_ok_iff] at h
    obtain ⟨d, hd, _⟩ := h
    have hp : defs[p]? = some d := (elem_nat _ _ _).1 hd
    obtain ⟨rs, hreads, _⟩ := hdefs p d hp
    rw [need_of_records fuel hp (Definition.records_of_Reads d hreads)]
    simp

/-- The record loop of `add_runtime` returns for the frame `T2`, from a state
in which the frames before hold the Runtimes of the Definition, whenever it
returned once for the same Definition (at any time, in any Timeline): what it
reads of the Timeline is in range, and what else it needs does not depend on
the Timeline. -/
theorem Timeline.add_runtime_loop_sim (defs : List Definition)
    (hdefs : ∀ (q : Nat) (e : Definition), defs[q]? = some e → e.Tape) (fuel : Nat)
    (ih : ∀ (T1 T2 p : Nat) (c1 c2 : List Nat) (tl1 tl2 : Timeline α) (r1 : Nat × Timeline α),
      add_runtime defs fuel T1 p c1 tl1 = .ok r1 → c1.length = c2.length →
      Prepared defs fuel p T2 tl2 →
      ∃ tl3, add_runtime defs fuel T2 p c2 tl2 = .ok ((frame_of tl2 T2).length, tl3) ∧
        Instantiated defs fuel p T2 tl2 tl3)
    (d : Definition) (rs : List Record) (hreads : Reads d.definition 0 rs)
    (htape : ∀ (i : Nat) (r : Record), rs[i]? = some r →
      (0 ≤ r.id ∧ r.id ≤ (i : Int)) ∧ (∀ a ∈ r.input, 0 ≤ a ∧ a < (i : Int)) ∧
        ∀ t ∈ r.times, t ≤ 0)
    (T1 T2 rt1 rt2 idx1 : Nat) (c1 c2 : List Nat) (hc : c1.length = c2.length)
    (frame0 : List Nat) (h0 : Heap α) (frames0 : List (List Nat))
    (hpast : ∀ f, f < T2 → ∃ frame, frames0[f]? = some frame ∧
      Shaped h0 frame frame0.length (rs.length :: (d.calls rs).flatMap (need defs fuel))) :
    ∀ (steps i : Nat) (s1 s2 : LoopState α) (res1 : Timeline α), i ≤ rs.length →
      s1.offset = Record.start rs i → s2.offset = Record.start rs i →
      s1.constants_index = s2.constants_index →
      add_runtime_loop (add_runtime defs fuel) T1 d c1 rt1 idx1 steps s1 = .ok res1 →
      Looping defs fuel d rs T2 rt2 frame0 h0 frames0 i s2.tl →
      ∃ res2,
        add_runtime_loop (add_runtime defs fuel) T2 d c2 rt2 frame0.length steps s2 = .ok res2 ∧
        Looping defs fuel d rs T2 rt2 frame0 h0 frames0 rs.length res2 := by
  intro steps
  induction steps with
  | zero => intro i s1 s2 res1 _ _ _ _ h1 _; simp [add_runtime_loop] at h1
  | succ steps ihs =>
    intro i s1 s2 res1 hi ho1 ho2 hci h1 hl
    rcases Nat.lt_or_ge i rs.length with hlt | hge
    · have hr : rs[i]? = some rs[i] := List.getElem?_eq_getElem hlt
      generalize rs[i] = r at hr
      obtain ⟨hget, hoff⟩ := Reads.get_record_at d hreads i r hr
      obtain ⟨hid, hargs, htimes⟩ := htape i r hr
      have hlen : r.input.length = r.times.length :=
        Reads.input_length hreads r (List.getElem?_mem hr)
      have hrec1 : d.get_record ⟨s1.offset, 0, 0, 0, [], []⟩ = .ok ((r.size : Int), r) := by
        rw [ho1]; exact hget
      have hrec2 : d.get_record ⟨s2.offset, 0, 0, 0, [], []⟩ = .ok ((r.size : Int), r) := by
        rw [ho2]; exact hget
      have hn := Record.size_pos r
      obtain ⟨fin1, tl1a, ty, s1', hres1, hty, hloop1, hoff1, hci1, hbin, hun, hfun⟩ :=
        add_runtime_loop_inv (add_runtime defs fuel) T1 d c1 rt1 idx1 steps s1 res1 _ r hrec1 hn
          h1
      obtain ⟨hfl1, _, _⟩ := resolve_input_effect T1 rt1 idx1 r.input r.times s1.tl fin1 tl1a
        hres1
      have hstep : ∃ s2' : LoopState α,
          add_runtime_loop (add_runtime defs fuel) T2 d c2 rt2 frame0.length (steps + 1) s2
            = add_runtime_loop (add_runtime defs fuel) T2 d c2 rt2 frame0.length steps s2' ∧
          s2'.offset = r.offset ∧ s2'.constants_index = s1'.constants_index ∧
          Looping defs fuel d rs T2 rt2 frame0 h0 frames0 (i + 1) s2'.tl := by
        cases ty with
        | FUNCTION =>
          obtain ⟨child, r1, hchild, hcall1⟩ := hfun rfl
          obtain ⟨s2', e, o, ci, l⟩ := add_runtime_loop_function_step c2 steps i s2 _ r child hl
            hpast hlt hr hlen hargs htimes hrec2 hn hty hchild
            (need_ne_nil defs hdefs fuel T1 child fin1 tl1a r1 hcall1)
            (fun tl2 c2' hc2 hprep => ih T1 T2 child fin1 c2' tl1a tl2 r1 hcall1
              (by rw [hfl1, hc2]) hprep)
          exact ⟨s2', e, o, by rw [ci, hci1]; simp [hci], l⟩
        | VARIABLE =>
          obtain ⟨s2', e, o, ci, l⟩ := add_runtime_loop_variable_step (add_runtime defs fuel) c2
            steps i s2 _ r hl hpast hlt hr hlen hid hargs htimes hrec2 hn hty
          exact ⟨s2', e, o, by rw [ci, hci1]; simp [hci], l⟩
        | CONSTANT =>
          obtain ⟨s2', e, o, ci, l⟩ := add_runtime_loop_constant_step (add_runtime defs fuel) c2
            steps i s2 _ r hl hpast hlt hr hlen hargs htimes hrec2 hn hty
          exact ⟨s2', e, o, by rw [ci, hci1]; simp [hci, hc], l⟩
        | ADDITION =>
          obtain ⟨s2', e, o, ci, l⟩ := add_runtime_loop_operator_step (add_runtime defs fuel) c2
            steps i s2 _ r _ hl hpast (Nat.le_of_lt hlt) hr hlen hargs htimes hrec2 hn hty
            (Or.inl ⟨by simp, by have := hbin (by simp); omega⟩)
          exact ⟨s2', e, o, by rw [ci, hci1]; simp [hci], l⟩
        | SUBTRACTION =>
          obtain ⟨s2', e, o, ci, l⟩ := add_runtime_loop_operator_step (add_runtime defs fuel) c2
            steps i s2 _ r _ hl hpast (Nat.le_of_lt hlt) hr hlen hargs htimes hrec2 hn hty
            (Or.inl ⟨by simp, by have := hbin (by simp); omega⟩)
          exact ⟨s2', e, o, by rw [ci, hci1]; simp [hci], l⟩
        | PRODUCT =>
          obtain ⟨s2', e, o, ci, l⟩ := add_runtime_loop_operator_step (add_runtime defs fuel) c2
            steps i s2 _ r _ hl hpast (Nat.le_of_lt hlt) hr hlen hargs htimes hrec2 hn hty
            (Or.inl ⟨by simp, by have := hbin (by simp); omega⟩)
          exact ⟨s2', e, o, by rw [ci, hci1]; simp [hci], l⟩
        | ELEMENT =>
          obtain ⟨s2', e, o, ci, l⟩ := add_runtime_loop_operator_step (add_runtime defs fuel) c2
            steps i s2 _ r _ hl hpast (Nat.le_of_lt hlt) hr hlen hargs htimes hrec2 hn hty
            (Or.inl ⟨by simp, by have := hbin (by simp); omega⟩)
          exact ⟨s2', e, o, by rw [ci, hci1]; simp [hci], l⟩
        | TRANSPOSE =>
          obtain ⟨s2', e, o, ci, l⟩ := add_runtime_loop_operator_step (add_runtime defs fuel) c2
            steps i s2 _ r _ hl hpast (Nat.le_of_lt hlt) hr hlen hargs htimes hrec2 hn hty
            (Or.inr ⟨by simp, by have := hun (by simp); omega⟩)
          exact ⟨s2', e, o, by rw [ci, hci1]; simp [hci], l⟩
        | EXPONENT =>
          obtain ⟨s2', e, o, ci, l⟩ := add_runtime_loop_operator_step (add_runtime defs fuel) c2
            steps i s2 _ r _ hl hpast (Nat.le_of_lt hlt) hr hlen hargs htimes hrec2 hn hty
            (Or.inr ⟨by simp, by have := hun (by simp); omega⟩)
          exact ⟨s2', e, o, by rw [ci, hci1]; simp [hci], l⟩
      obtain ⟨s2', e, o, ci, l⟩ := hstep
      rw [e]
      exact ihs (i + 1) s1' s2' res1 hlt (by rw [hoff1, hoff]) (by rw [o, hoff]) ci.symm hloop1 l
    · have hie : i = rs.length := by omega
      subst hie
      have hend := Reads.get_record_end d hreads
      refine ⟨s2.tl, ?_, hl⟩
      simp [add_runtime_loop, ho2, hend, bind, Except.bind]

end simulation
section simulation_main

variable {α : Type}

open Timeline

/-- `add_runtime(T2, …)` returns, and leaves the Timeline `Instantiated`,
whenever the frames before `T2` hold the Runtimes of the Definition and
`add_runtime` returned once for the same Definition and as many inputs, at
any time, in any Timeline. -/
theorem Timeline.add_runtime_sim (defs : List Definition)
    (hdefs : ∀ (q : Nat) (e : Definition), defs[q]? = some e → e.Tape) :
    ∀ (fuel T1 T2 p : Nat) (c1 c2 : List Nat) (tl1 tl2 : Timeline α) (r1 : Nat × Timeline α),
      add_runtime defs fuel T1 p c1 tl1 = .ok r1 → c1.length = c2.length →
      Prepared defs fuel p T2 tl2 →
      ∃ tl3, add_runtime defs fuel T2 p c2 tl2 = .ok ((frame_of tl2 T2).length, tl3) ∧
        Instantiated defs fuel p T2 tl2 tl3 := by
  intro fuel
  induction fuel with
  | zero => intro T1 T2 p c1 c2 tl1 tl2 r1 h1; simp [add_runtime] at h1
  | succ fuel ih =>
    intro T1 T2 p c1 c2 tl1 tl2 r1 h1 hc hprep
    simp only [add_runtime] at h1
    rw [Except.bind_ok_iff] at h1
    obtain ⟨d, hd, h1⟩ := h1
    rw [Except.bind_ok_iff] at h1
    obtain ⟨frame1, _, h1⟩ := h1
    simp only [alloc] at h1
    rw [Except.bind_ok_iff] at h1
    obtain ⟨res1, hloop1, _⟩ := h1
    have hp : defs[p]? = some d := (elem_nat _ _ _).1 hd
    obtain ⟨rs, hreads, _, _, htape⟩ := hdefs p d hp
    have hneed := need_of_records fuel hp (Definition.records_of_Reads d hreads)
    have hframe : elem (extend tl2.timeline T2) (T2 : Int) = .ok (frame_of tl2 T2) :=
      (elem_nat _ _ _).2 (extend_frame_of tl2 T2)
    have hltT : T2 < (extend tl2.timeline T2).length := extend_length _ _
    have hpast : ∀ f, f < T2 → ∃ frame, (extend tl2.timeline T2)[f]? = some frame ∧
        Shaped tl2.heap frame (frame_of tl2 T2).length
          (rs.length :: (d.calls rs).flatMap (need defs fuel)) := by
      intro f hf
      obtain ⟨frame, hfr, hs⟩ := hprep f hf
      rw [hneed] at hs
      exact ⟨frame, by rw [extend_getElem?_lt _ _ _ (Heap.lt_of_getElem? hfr)]; exact hfr, hs⟩
    obtain ⟨tl2e, htl2e⟩ : ∃ t : Timeline α, t =
        { heap := tl2.heap ++ [Function.newNode (.runtime [] [] [] none)],
          timeline := (extend tl2.timeline T2).set T2 (frame_of tl2 T2 ++ [tl2.heap.length]),
          expressions := tl2.expressions ++ [tl2.heap.length] } := ⟨_, rfl⟩
    have hl0 : Looping defs fuel d rs T2 tl2.heap.length (frame_of tl2 T2) tl2.heap
        (extend tl2.timeline T2) 0 tl2e := by
      subst htl2e
      refine ⟨⟨false, none, [], [], [], none, ?_, Nat.le_refl _⟩, ⟨[], ?_, ?_, ?_⟩, ?_, ?_⟩
      · simp [Function.newNode]
      · simp [hltT]
      · simp [Definition.calls]
      · simp only [List.take_zero, Definition.calls, List.flatMap_nil]
        exact Shaped.empty _ _ _
      · intro f hf
        simp only []
        rw [List.getElem?_set_ne (Ne.symm hf)]
      · exact Grows.by_append _ _
    have hsim := add_runtime_loop_sim defs hdefs fuel ih d rs hreads htape
      T1 T2 tl1.heap.length tl2.heap.length frame1.length c1 c2 hc (frame_of tl2 T2) tl2.heap
      (extend tl2.timeline T2) hpast (d.definition.length + 1) 0
      (LoopState.mk 0 0 ⟨tl1.heap ++ [Function.newNode (.runtime [] [] [] none)],
        (extend tl1.timeline T1).set T1 (frame1 ++ [tl1.heap.length]),
        tl1.expressions ++ [tl1.heap.length]⟩)
      (LoopState.mk 0 0 tl2e) res1 (Nat.zero_le _)
    obtain ⟨res2, hloop2, hl⟩ := hsim (by simp [Record.start_zero]) (by simp [Record.start_zero])
      rfl hloop1 hl0
    refine ⟨res2, ?_, hl.grows, hl.others, ?_⟩
    · subst htl2e
      simp only [add_runtime, hd, hframe, alloc, bind, Except.bind, pure, Except.pure]
      rw [hloop2]
    · obtain ⟨kids, hk1, hk2, hk3⟩ := hl.frame
      rw [List.take_length] at hk2 hk3
      refine ⟨tl2.heap.length :: kids, hk1, by rw [hneed]; simp [hk2], ?_⟩
      rw [hneed]
      have hhead : Shaped res2.heap (frame_of tl2 T2 ++ tl2.heap.length :: kids)
          (frame_of tl2 T2).length [rs.length] := by
        intro j n hj
        have hj0 : j = 0 := by
          by_contra hne
          rw [List.getElem?_eq_none (by simp; omega)] at hj
          cases hj
        subst hj0
        simp only [List.getElem?_cons_zero, Option.some.injEq] at hj
        subst hj
        refine ⟨tl2.heap.length, ?_, hl.runtime⟩
        rw [Nat.add_zero, List.getElem?_append_right (Nat.le_refl _)]
        simp
      exact Shaped.join hhead hk3

end simulation_main
section frames

variable {α : Type}

open Timeline

/-- The Timeline after the frames `0 … T-1` were instantiated one after the
other has `T` frames, each with the Runtimes of the Definition from the
position 0 on. -/
theorem Timeline.instantiate_prepared (defs : List Definition)
    (hdefs : ∀ (q : Nat) (e : Definition), defs[q]? = some e → e.Tape) (fuel p : Nat) :
    ∀ (T : Nat) (tl : Timeline α), instantiate defs fuel p T = .ok tl →
      tl.timeline.length = T ∧
        ∀ f, f < T → ∃ frame, tl.timeline[f]? = some frame ∧
          Shaped tl.heap frame 0 (need defs fuel p) := by
  intro T
  induction T with
  | zero =>
    intro tl h
    simp only [instantiate, Except.ok.injEq] at h
    subst h
    exact ⟨rfl, fun f hf => absurd hf (Nat.not_lt_zero f)⟩
  | succ T ih =>
    intro tl1 h
    simp only [instantiate] at h
    rw [Except.bind_ok_iff] at h
    obtain ⟨tl, htl, h⟩ := h
    rw [Except.bind_ok_iff] at h
    obtain ⟨⟨idx, tl2⟩, hadd, h⟩ := h
    simp only [pure, Except.pure, Except.ok.injEq] at h
    subst h
    obtain ⟨hlen, hshape⟩ := ih tl htl
    have hfo : frame_of tl T = [] := by
      simp [frame_of, extend_getElem?_ge tl.timeline T T (by omega) (Nat.le_refl _)]
    have hprep : Prepared defs fuel p T tl := by
      intro f hf
      rw [hfo]
      exact hshape f hf
    obtain ⟨tl3, hadd3, hinst⟩ := add_runtime_sim defs hdefs fuel T T p [] [] tl tl _ hadd rfl
      hprep
    rw [hadd] at hadd3
    simp only [Except.ok.injEq, Prod.mk.injEq] at hadd3
    obtain ⟨_, h23⟩ := hadd3
    subst h23
    obtain ⟨new, hn1, hn2, hn3⟩ := hinst.frame
    rw [hfo] at hn1 hn3
    have hext : (extend tl.timeline T).length = T + 1 := by
      simp [extend, hlen]
    refine ⟨?_, ?_⟩
    · have h1 : T < tl2.timeline.length := Heap.lt_of_getElem? hn1
      have h2 : tl2.timeline[T + 1]? = none := by
        rw [hinst.others (T + 1) (by omega)]
        exact List.getElem?_eq_none (by omega)
      have h3 : tl2.timeline.length ≤ T + 1 := by
        by_contra hgt
        rw [List.getElem?_eq_getElem (by omega)] at h2
        cases h2
      omega
    · intro f hf
      rcases Nat.lt_or_ge f T with hlt | hge
      · obtain ⟨frame, hframe, hs⟩ := hshape f hlt
        refine ⟨frame, ?_, hs.grows hinst.grows⟩
        rw [hinst.others f (by omega), extend_getElem?_lt _ _ _ (by omega)]
        exact hframe
      · have hfT : f = T := by omega
        subst hfT
        exact ⟨[] ++ new, hn1, hn3⟩

/-- Once the frames `0 … T-1`, `T ≥ 1`, were instantiated from a Definition,
`add_runtime(T, …)` for the same Definition returns. -/
theorem Timeline.add_runtime_next_frame (defs : List Definition)
    (hdefs : ∀ (q : Nat) (e : Definition), defs[q]? = some e → e.Tape) (fuel p T : Nat)
    (tl : Timeline α) (hT : 1 ≤ T) (h : instantiate defs fuel p T = .ok tl) :
    ∃ res, add_runtime defs fuel T p [] tl = .ok res := by
  obtain ⟨hlen, hshape⟩ := instantiate_prepared defs hdefs fuel p T tl h
  obtain ⟨T0, rfl⟩ : ∃ T0, T = T0 + 1 := ⟨T - 1, by omega⟩
  simp only [instantiate] at h
  rw [Except.bind_ok_iff] at h
  obtain ⟨tl0, _, h⟩ := h
  rw [Except.bind_ok_iff] at h
  obtain ⟨r1, hadd, _⟩ := h
  have hfo : frame_of tl (T0 + 1) = [] := by
    simp [frame_of, extend_getElem?_ge tl.timeline (T0 + 1) (T0 + 1) (by omega) (Nat.le_refl _)]
  have hprep : Prepared defs fuel p (T0 + 1) tl := by
    intro f hf
    rw [hfo]
    exact hshape f hf
  obtain ⟨tl3, hadd3, _⟩ := add_runtime_sim defs hdefs fuel T0 (T0 + 1) p [] [] tl0 tl r1 hadd rfl
    hprep
  exact ⟨_, hadd3⟩

end frames
/-! ## The resolution of arguments -/

open Timeline in
/-- C35. (1) Every input that the resolution loop of `add_runtime` returns is
the node the claim names: `R.expressions[arg]` for the time offset 0,
`timeline[time + t][rt_index].expressions[arg]` for an offset `t ≠ 0` with
`time + t ≥ 0`, and a new ZeroFeed node over `R.expressions[arg]` for
`time + t < 0`.  (2) For the Definition that `Compiler::compile` returns (into
a Dictionary whose Definitions have well formed tapes, as the empty one), the
arguments of the record `i` resolve whenever the Runtime lists at least `i`
expressions, as it does when the loop reaches the record, and every frame
before `time` holds at `rt_index` a Runtime that lists as many; and (3) once
the frames `0 … T-1`, `T ≥ 1`, were instantiated from the Definition,
`add_runtime(T, …)` returns: every lookup it makes is in range. -/
theorem Timeline.resolve_input_defined :
    (∀ (α : Type) (time rt rt_index : Nat) (input times : List Int) (tl : Timeline α)
      (fs : List Nat) (tl1 : Timeline α),
      resolve_input time rt rt_index input times tl = .ok (fs, tl1) →
      ∀ (i : Nat) (arg t : Int) (f : Nat), input[i]? = some arg → times[i]? = some t →
        fs[i]? = some f → Resolved time rt rt_index tl tl1 arg t f) ∧
    (∀ (α : Type) (hash : String → Int) (resolver : Resolver) (n : Nat) (c : Compiler)
      (json : Except String Json) (st0 : CompileState) (p : Nat) (st : CompileState),
      (∀ e ∈ st0.dict.defs, e.Tape) →
      Compiler.compile hash resolver n c json st0 = .ok (p, st) →
      ∃ d rs, st.dict.deref p = some d ∧ d.records = .ok rs ∧
        (∀ (i : Nat) (r : Record), rs[i]? = some r →
          ∀ (time rt rt_index : Nat) (tl : Timeline α), IsRuntime tl.heap rt i →
            (∀ f, f < time → ∃ frame prt, tl.timeline[f]? = some frame ∧
              frame[rt_index]? = some prt ∧ IsRuntime tl.heap prt i) →
            ∃ res, resolve_input time rt rt_index r.input r.times tl = .ok res) ∧
        (∀ (fuel T : Nat) (tl : Timeline α), 1 ≤ T →
          instantiate st.dict.defs fuel p T = .ok tl →
          ∃ res, add_runtime st.dict.defs fuel T p [] tl = .ok res)) := by
  refine ⟨fun α time rt rt_index => resolve_input_resolved time rt rt_index, ?_⟩
  intro α hash resolver n c json st0 p st hst0 hcomp
  have hall := Compiler.compile_tapes hash resolver n c json st0 p st hcomp hst0
  have hdefs : ∀ (q : Nat) (e : Definition), st.dict.defs[q]? = some e → e.Tape :=
    fun q e hq => hall e (List.getElem?_mem hq)
  obtain ⟨d, hd, _, _⟩ := Compiler.compile_built hash resolver n c json st0 p st hcomp
  obtain ⟨rs, hreads, _, _, htape⟩ := hdefs p d hd
  refine ⟨d, rs, hd, Definition.records_of_Reads d hreads, ?_, ?_⟩
  · intro i r hr time rt rt_index tl hrt hpast
    obtain ⟨_, hargs, htimes⟩ := htape i r hr
    obtain ⟨fs, tl1, h⟩ := resolve_input_ok time rt rt_index i r.input r.times tl
      (Reads.input_length hreads r (List.getElem?_mem hr)) hargs hrt (by
        intro t ht ht0 htime
        have := htimes t ht
        exact hpast _ (by omega))
    exact ⟨_, h⟩
  · intro fuel T tl hT h
    exact add_runtime_next_frame st.dict.defs hdefs fuel p T tl hT h

/-- C35 on the example network: it compiles into the empty Dictionary, the
frame 0 is instantiated, and `add_runtime(1, …)` returns. -/
theorem Timeline.resolve_input_defined_witness :
    Compiler.compile test_hash test_resolver 3 ⟨"", "", ""⟩ (.ok network_1) {}
      = .ok (1, network_1_state) ∧
    Timeline.instantiate network_1_state.dict.defs 3 1 1 = .ok network_1_frame_0 ∧
    ∃ res, Timeline.add_runtime network_1_state.dict.defs 3 1 1 [] network_1_frame_0 = .ok res :=
  ⟨by decide!, by decide!,
    (((Timeline.resolve_input_defined.2 ℤ test_hash test_resolver 3 ⟨"", "", ""⟩
      (.ok network_1) {} 1 network_1_state (by simp) (by decide!)).choose_spec.choose_spec
      ).2.2.2) 3 1 network_1_frame_0 (by decide) (by decide!)⟩

/-! ## Ids and names -/

section ids

/-- The entries of the symbol table are the names given so far. -/
theorem Map.find_assign_ne_none {κ ν : Type} [DecidableEq κ] (m : List (κ × ν)) (k k1 : κ)
    (v : ν) : Map.find (Map.assign m k v) k1 ≠ none ↔ (k1 = k ∨ Map.find m k1 ≠ none) := by
  rw [Map.find_assign]
  by_cases h : k = k1
  · simp [h]
  · simp [h, Ne.symm h]

/-- The type of the record that `add_expression` writes is neither VARIABLE
nor CONSTANT. -/
theorem Definition.operator_of_type (d : Definition) (fn : String) (ty : OperatorType)
    (variant : Int) (h : d.operator_of fn = some (ty, variant)) :
    ty ≠ .VARIABLE ∧ ty ≠ .CONSTANT := by
  unfold Definition.operator_of at h
  split at h
  · simp only [Option.some.injEq, Prod.mk.injEq] at h
    rw [← h.1]
    exact ⟨by decide, by decide⟩
  · unfold builtin_operator at h
    split at h
    · simp at h; rw [← h.1]; exact ⟨by decide, by decide⟩
    split at h
    · simp at h; rw [← h.1]; exact ⟨by decide, by decide⟩
    split at h
    · simp at h; rw [← h.1]; exact ⟨by decide, by decide⟩
    split at h
    · simp at h; rw [← h.1]; exact ⟨by decide, by decide⟩
    split at h
    · simp at h; rw [← h.1]; exact ⟨by decide, by decide⟩
    split at h
    · simp at h; rw [← h.1]; exact ⟨by decide, by decide⟩
    · simp at h

theorem OperatorType.toInt_injective (a b : OperatorType) (h : a.toInt = b.toInt) : a = b := by
  cases a <;> cases b <;> first | rfl | (simp [OperatorType.toInt] at h)

/-- The names, the symbol table and the lists of variables and constants
after `add_expression`. -/
theorem Definition.add_expression_fields (defs : List Definition) (d d1 : Definition)
    (name fn : String) (input : List String) (times : List Int)
    (h : d.add_expression defs name fn input times = .ok d1) :
    d1.names = d.names ++ [name] ∧ d1.index = Map.assign d.index name (d.index.length : Int) ∧
      d1.vars = d.vars ∧ d1.consts = d.consts := by
  have key : ∀ (ty : OperatorType) (variant : Int) (d0 : Definition),
      d.add_record ty variant name input times = .ok d0 →
      d0.names = d.names ++ [name] ∧ d0.index = Map.assign d.index name (d.index.length : Int) ∧
        d0.vars = d.vars ∧ d0.consts = d.consts := by
    intro ty variant d0 h0
    obtain ⟨r, _, _, _, _, _, _, _, _, _, _, _, _, hvars, hconsts, hnames, hindex⟩ :=
      Definition.add_record_spec d d0 ty variant name input times h0
    exact ⟨hnames, hindex, hvars, hconsts⟩
  unfold Definition.add_expression at h
  split at h
  · rw [Except.bind_ok_iff] at h
    obtain ⟨d0, h0, h⟩ := h
    have hk := key _ _ d0 h0
    split at h
    · simp only [pure, Except.pure, Except.ok.injEq] at h
      subst h
      split
      · exact hk
      · exact hk
    · simp at h
  · split at h
    · exact key _ _ d1 h
    split at h
    · exact key _ _ d1 h
    split at h
    · exact key _ _ d1 h
    split at h
    · exact key _ _ d1 h
    split at h
    · exact key _ _ d1 h
    split at h
    · exact key _ _ d1 h
    · simp at h

/-- What the interface keeps of the ids: one name per record, `variables()`
and `constants()` list the ids of the VARIABLE and of the CONSTANT records in
tape order, the symbol table holds the names given, and as long as no name was
given twice the symbol table has one entry per record and the id of a record
is its position. -/
theorem Written.ids {defs : List Definition} {d : Definition} {rs : List Record}
    (w : Written defs d rs) :
    d.names.length = rs.length ∧
    d.vars = (rs.filter (fun r => decide (r.type = OperatorType.VARIABLE.toInt))).map (·.id) ∧
    d.consts = (rs.filter (fun r => decide (r.type = OperatorType.CONSTANT.toInt))).map (·.id) ∧
    (∀ k, Map.find d.index k ≠ none ↔ k ∈ d.names) ∧
    (d.names.Nodup → d.index.length = rs.length ∧
      ∀ (i : Nat) (r : Record), rs[i]? = some r → r.id = (i : Int)) := by
  induction w with
  | empty => simp [Map.find]
  | set_name d rs name _ ih => exact ih
  | add_import d d1 rs name p _ hp h ih =>
    unfold Definition.add_import at h
    split at h
    · simp at h
    · simp only [Except.ok.injEq] at h
      subst h
      exact ih
  | add_variable d d1 rs name _ h ih =>
    obtain ⟨h1, h2, h3, h4, h5⟩ := ih
    obtain ⟨r, _, _, _, _, _, _, _, _, _, _, _, _, hvars, hconsts, hnames, hindex⟩ :=
      Definition.add_record_spec _ d1 .VARIABLE (-1) name [] [] h
    refine ⟨by simp [hnames, h1], ?_, ?_, ?_, ?_⟩
    · rw [hvars]
      simp [List.filter_append, h2]
    · rw [hconsts]
      simp [List.filter_append, h3, OperatorType.toInt]
    · intro k
      rw [hindex, Map.find_assign_ne_none, hnames]
      simp only [List.mem_append, List.mem_singleton]
      rw [show (Map.find d.index k ≠ none ↔ k ∈ d.names) from h4 k]
      tauto
    · intro hnd
      rw [hnames] at hnd
      have hnd0 : d.names.Nodup := (List.nodup_append.1 hnd).1
      have hnew : name ∉ d.names := by
        intro hm
        exact (List.nodup_append.1 hnd).2.2 hm (List.mem_singleton_self _) 
      obtain ⟨hl, hids⟩ := h5 hnd0
      have hnone : Map.find d.index name = none := by
        by_contra hne
        exact hnew ((h4 name).1 hne)
      refine ⟨?_, ?_⟩
      · rw [hindex]
        simp only [List.length_append, List.length_singleton]
        have := Map.length_assign_of_find_none d.index name (d.index.length : Int) hnone
        omega
      · intro i x hx
        rcases Nat.lt_or_ge i rs.length with hi | hi
        · rw [List.getElem?_append_left hi] at hx
          exact hids i x hx
        · rw [List.getElem?_append_right hi] at hx
          have hi0 : i - rs.length = 0 := by
            by_contra hne
            rw [List.getElem?_eq_none (by simp; omega)] at hx
            cases hx
          rw [hi0] at hx
          simp only [List.getElem?_cons_zero, Option.some.injEq] at hx
          subst hx
          simp only []
          omega
  | add_constant d d1 rs name _ h ih =>
    obtain ⟨h1, h2, h3, h4, h5⟩ := ih
    obtain ⟨r, _, _, _, _, _, _, _, _, _, _, _, _, hvars, hconsts, hnames, hindex⟩ :=
      Definition.add_record_spec _ d1 .CONSTANT (-1) name [] [] h
    refine ⟨by simp [hnames, h1], ?_, ?_, ?_, ?_⟩
    · rw [hvars]
      simp [List.filter_append, h2, OperatorType.toInt]
    · rw [hconsts]
      simp [List.filter_append, h3]
    · intro k
      rw [hindex, Map.find_assign_ne_none, hnames]
      simp only [List.mem_append, List.mem_singleton]
      rw [show (Map.find d.index k ≠ none ↔ k ∈ d.names) from h4 k]
      tauto
    · intro hnd
      rw [hnames] at hnd
      have hnd0 : d.names.Nodup := (List.nodup_append.1 hnd).1
      have hnew : name ∉ d.names := by
        intro hm
        exact (List.nodup_append.1 hnd).2.2 hm (List.mem_singleton_self _)
      obtain ⟨hl, hids⟩ := h5 hnd0
      have hnone : Map.find d.index name = none := by
        by_contra hne
        exact hnew ((h4 name).1 hne)
      refine ⟨?_, ?_⟩
      · rw [hindex]
        simp only [List.length_append, List.length_singleton]
        have := Map.length_assign_of_find_none d.index name (d.index.length : Int) hnone
        omega
      · intro i x hx
        rcases Nat.lt_or_ge i rs.length with hi | hi
        · rw [List.getElem?_append_left hi] at hx
          exact hids i x hx
        · rw [List.getElem?_append_right hi] at hx
          have hi0 : i - rs.length = 0 := by
            by_contra hne
            rw [List.getElem?_eq_none (by simp; omega)] at hx
            cases hx
          rw [hi0] at hx
          simp only [List.getElem?_cons_zero, Option.some.injEq] at hx
          subst hx
          simp only []
          omega
  | add_expression d d1 rs name function input times ty variant args _ h hop hargs ih =>
    obtain ⟨h1, h2, h3, h4, h5⟩ := ih
    obtain ⟨hnames, hindex, hvars, hconsts⟩ :=
      Definition.add_expression_fields defs d d1 name function input times h
    obtain ⟨hty1, hty2⟩ := Definition.operator_of_type d function ty variant hop
    have hv : ¬ ty.toInt = OperatorType.VARIABLE.toInt :=
      fun he => hty1 (OperatorType.toInt_injective _ _ he)
    have hc : ¬ ty.toInt = OperatorType.CONSTANT.toInt :=
      fun he => hty2 (OperatorType.toInt_injective _ _ he)
    refine ⟨by simp [hnames, h1], ?_, ?_, ?_, ?_⟩
    · rw [hvars]
      simp [List.filter_append, h2, hv]
    · rw [hconsts]
      simp [List.filter_append, h3, hc]
    · intro k
      rw [hindex, Map.find_assign_ne_none, hnames]
      simp only [List.mem_append, List.mem_singleton]
      rw [show (Map.find d.index k ≠ none ↔ k ∈ d.names) from h4 k]
      tauto
    · intro hnd
      rw [hnames] at hnd
      have hnd0 : d.names.Nodup := (List.nodup_append.1 hnd).1
      have hnew : name ∉ d.names := by
        intro hm
        exact (List.nodup_append.1 hnd).2.2 hm (List.mem_singleton_self _)
      obtain ⟨hl, hids⟩ := h5 hnd0
      have hnone : Map.find d.index name = none := by
        by_contra hne
        exact hnew ((h4 name).1 hne)
      refine ⟨?_, ?_⟩
      · rw [hindex]
        simp only [List.length_append, List.length_singleton]
        have := Map.length_assign_of_find_none d.index name (d.index.length : Int) hnone
        omega
      · intro i x hx
        rcases Nat.lt_or_ge i rs.length with hi | hi
        · rw [List.getElem?_append_left hi] at hx
          exact hids i x hx
        · rw [List.getElem?_append_right hi] at hx
          have hi0 : i - rs.length = 0 := by
            by_contra hne
            rw [List.getElem?_eq_none (by simp; omega)] at hx
            cases hx
          rw [hi0] at hx
          simp only [List.getElem?_cons_zero, Option.some.injEq] at hx
          subst hx
          simp only []
          omega

end ids

/-- The tape of the Definition that `Compiler::compile` returns is well
formed. -/
theorem Compiler.compile_tape (hash : String → Int) (resolver : Resolver) (fuel : Nat)
    (c : Compiler) (json : Except String Json) (st : CompileState) (p : Nat)
    (st2 : CompileState) (h : compile hash resolver fuel c json st = .ok (p, st2)) :
    ∃ d, st2.dict.deref p = some d ∧ d.Tape := by
  cases fuel with
  | zero => simp [compile] at h
  | succ fuel =>
    rw [compile_ok_iff] at h
    obtain ⟨members, d, st1, _, h1, hp, hst⟩ := h
    obtain ⟨_, hd⟩ := compile_definition_preserves Definition.preserved_tape
      (fun _ _ _ b => b) (compile_good hash resolver fuel) c
      (.object members) {} st [] (d, st1)
      ⟨[], rfl, by simp, by intro k v hk; simp [Map.find] at hk, by intro i r hr; simp at hr⟩ h1
    subst hst hp
    exact ⟨d, by simp [Dictionary.deref, Dictionary.put], hd⟩

/-- In the Definition that `Compiler::compile` returns there is one name per
record, `variables()` and `constants()` list the ids of the VARIABLE and of
the CONSTANT records in tape order, and when the names are pairwise distinct
the record at the position `i` has the id `i` and its arguments have ids
below `i`. -/
theorem Compiler.compile_ids (hash : String → Int) (resolver : Resolver) (fuel : Nat)
    (c : Compiler) (json : Except String Json) (st : CompileState) (p : Nat)
    (st2 : CompileState) (h : compile hash resolver fuel c json st = .ok (p, st2)) :
    ∃ d rs, st2.dict.deref p = some d ∧ d.records = .ok rs ∧ d.names.length = rs.length ∧
      d.vars = (rs.filter (fun r => decide (r.type = OperatorType.VARIABLE.toInt))).map (·.id) ∧
      d.consts = (rs.filter (fun r => decide (r.type = OperatorType.CONSTANT.toInt))).map (·.id) ∧
      (d.names.Nodup → ∀ (i : Nat) (r : Record), rs[i]? = some r →
        r.id = (i : Int) ∧ ∀ a ∈ r.input, 0 ≤ a ∧ a < r.id) := by
  obtain ⟨d, hd, hb, _⟩ := compile_built hash resolver fuel c json st p st2 h
  obtain ⟨d', hd', rs', hreads', _, _, htape⟩ := compile_tape hash resolver fuel c json st p st2 h
  rw [hd] at hd'
  simp only [Option.some.injEq] at hd'
  subst hd'
  obtain ⟨rs, w⟩ := hb.written
  have hrec := Definition.records_of_Reads d w.reads.1
  have hrec' := Definition.records_of_Reads d hreads'
  rw [hrec] at hrec'
  simp only [Except.ok.injEq] at hrec'
  subst hrec'
  obtain ⟨h1, h2, h3, _, h5⟩ := w.ids
  refine ⟨d, rs, hd, hrec, h1, h2, h3, ?_⟩
  intro hnd i r hr
  have hid := (h5 hnd).2 i r hr
  refine ⟨hid, ?_⟩
  rw [hid]
  exact (htape i r hr).2.1

/-! ## Sides that do not fit an `int`

`Matrix::rows()` and `Matrix::cols()` return `int`, while the constructor of
`Matrix`, the `Context` and the backend take and return `std::size_t` sides.
For a matrix of 0 rows and 4294967296 columns `cols()` is 0, and a buffer that
is built from `rows()` and `cols()` has the shape 0×0. -/

/-- C7 fails on the code. For the seed `d` of 0 rows and 4294967296 columns
`d.rows()` and `d.cols()` are 0, so `Variable::backward(d)` on a fresh Variable
builds a 0×0 gradient buffer and `*_derivative + d` raises "dimension mismatch
in matrix addition": no derivative is left, where the claim says
`derivative() == d`.  `backward(d); backward(d)` stops at its first call in
the same way, while `d + d` is defined. -/
theorem Variable_backward_wide_seed_raises :
    (wide_matrix.rows = 0 ∧ wide_matrix.cols = 4294967296 ∧ wide_matrix.data = []) ∧
    (Matrix.rows wide_matrix = 0 ∧ Matrix.cols wide_matrix = 0) ∧
    Matrix.add wide_matrix wide_matrix = .ok wide_matrix ∧
    backward id 1 [Function.newVariable (some wide_matrix)] 0 wide_matrix
      = .error "dimension mismatch in matrix addition" ∧
    (backward id 1 [Function.newVariable (some wide_matrix)] 0 wide_matrix >>= fun h1 =>
      backward id 1 h1 0 wide_matrix) = .error "dimension mismatch in matrix addition" := by
  decide!

/-- A Constant that receives the seed of 0 rows and 4294967296 columns is left
with a 0×0 gradient buffer. -/
theorem Constant_backward_wide_seed_shape :
    (backward id 1 ([Function.newConstant (some wide_matrix)] : Heap ℤ) 0 wide_matrix
      >>= fun h1 => Function.derivative h1 0) = .ok (CPUContext.create 0 0) := by
  decide!

/-- C9 fails on the code. For `f = (a + b) + (c + d)` with all four leaves and
the seed `s` of 0 rows and 4294967296 columns, `f.forward()` returns the sum (a
matrix of that shape), and `f.backward(s)` raises "dimension mismatch in matrix
addition" in `Variable::backward` of `a`, where the claim says it leaves `s` as
the derivative of `a`, `b` and `d`. -/
theorem Addition_backward_wide_seed_raises :
    (forward id 3 (additionHeap wide_matrix wide_matrix wide_matrix wide_matrix) 6 >>= fun r =>
      pure r.1) = .ok wide_matrix ∧
    (forward id 3 (additionHeap wide_matrix wide_matrix wide_matrix wide_matrix) 6 >>= fun r =>
      backward id 3 r.2 6 wide_matrix) = .error "dimension mismatch in matrix addition" := by
  decide!

/-- C10 fails on the code. For `f = l - r` with `l`, `r` and the seed `d` of 0
rows and 4294967296 columns, `f.forward()` returns the difference, and
`f.backward(d)` raises "dimension mismatch in matrix addition" in
`Variable::backward` of `l`, where the claim says it leaves `d` and `-d` as the
derivatives. -/
theorem Subtraction_backward_wide_seed_raises :
    (forward id 2 (subtractHeap wide_matrix wide_matrix) 2 >>= fun r => pure r.1)
      = .ok wide_matrix ∧
    (forward id 2 (subtractHeap wide_matrix wide_matrix) 2 >>= fun r =>
      backward id 2 r.2 2 wide_matrix) = .error "dimension mismatch in matrix addition" := by
  decide!

/-- C11 fails on the code. For `f = l & r` with `l`, `r` and the seed `d` of 0
rows and 4294967296 columns (one shape, not 1×1), `f.forward()` returns the
element-wise product and `r & d` is defined, and `f.backward(d)` raises
"dimension mismatch in matrix addition" in `Variable::backward` of `l`, where
the claim says it leaves `r ⊙ d` and `d ⊙ l` as the derivatives. -/
theorem Element_backward_wide_seed_raises :
    ¬ (wide_matrix.rows = 1 ∧ wide_matrix.cols = 1) ∧
    (forward id 2 (elementHeap wide_matrix wide_matrix) 2 >>= fun r => pure r.1)
      = .ok wide_matrix ∧
    Matrix.and wide_matrix wide_matrix = .ok wide_matrix ∧
    (forward id 2 (elementHeap wide_matrix wide_matrix) 2 >>= fun r =>
      backward id 2 r.2 2 wide_matrix) = .error "dimension mismatch in matrix addition" := by
  decide!

/-- C12 fails on the code. For `f = a.T()` with `a` of 0 rows and 4294967296
columns and the seed `d` of the transposed shape, 4294967296 rows and 0
columns, `f.forward()` returns the transpose of `a` and `d.T()` is defined (it
has the shape of `a`), and `f.backward(d)` raises "dimension mismatch in matrix
addition" in `Variable::backward` of `a`, where the claim says it leaves the
transpose of `d` as the derivative. -/
theorem Transpose_backward_tall_seed_raises :
    (tall_matrix.rows = wide_matrix.cols ∧ tall_matrix.cols = wide_matrix.rows) ∧
    (forward id 2 (transposeHeap wide_matrix) 1 >>= fun r => pure r.1) = .ok tall_matrix ∧
    Matrix.T tall_matrix = wide_matrix ∧
    (forward id 2 (transposeHeap wide_matrix) 1 >>= fun r =>
      backward id 2 r.2 1 tall_matrix) = .error "dimension mismatch in matrix addition" := by
  decide!

/-- C14 fails on the code. For the Summation node over a fresh Variable `a` of
0 rows and 4294967296 columns, `f.forward()` is the 1×1 matrix `[0]`, and
`f.backward([1])` builds its seed with `value.rows()` and `value.cols()`, both
0: the derivative left with `a` is the 0×0 matrix, with 0 columns, where the
claim says the matrix of the shape of `a`, with 4294967296 columns. -/
theorem Summation_backward_wide_value_shape :
    (forward id 2 (summationHeap wide_matrix) 1 >>= fun r => pure r.1)
      = .ok (Matrix.full 1 1 0) ∧
    (forward id 2 (summationHeap wide_matrix) 1 >>= fun r =>
      backward id 2 r.2 1 (Matrix.full 1 1 1) >>= fun h2 => Function.derivative h2 0)
      = .ok (CPUContext.create 0 0) ∧
    (CPUContext.create 0 0 : CPUMatrix ℤ).cols = 0 ∧ wide_matrix.cols = 4294967296 ∧
    (CPUContext.create 0 0 : CPUMatrix ℤ) ≠ Matrix.full wide_matrix.rows wide_matrix.cols 1 := by
  decide!

/-- C37 fails on the code. For a ZeroFeed over a Variable whose value has 0
rows and 4294967296 columns, `forward()` of the Variable returns that value,
and `forward()` of the ZeroFeed returns the 0×0 matrix, with 0 columns, where
the claim says a matrix with the rows and columns of the value of `ref`. -/
theorem ZeroFeed_forward_wide_value_shape :
    forward id 1 [Function.newVariable (some wide_matrix), Function.newNode (.zeroFeed 0)] 0
      = .ok (wide_matrix,
          [Function.newVariable (some wide_matrix), Function.newNode (.zeroFeed 0)]) ∧
    (forward id 2 [Function.newVariable (some wide_matrix), Function.newNode (.zeroFeed 0)] 1
      >>= fun r => pure r.1) = .ok (CPUContext.create 0 0) ∧
    (CPUContext.create 0 0 : CPUMatrix ℤ).cols = 0 ∧ wide_matrix.cols = 4294967296 ∧
    (CPUContext.create 0 0 : CPUMatrix ℤ) ≠ Matrix.full wide_matrix.rows wide_matrix.cols 0 := by
  decide!


end Albert
